import Mathlib

/-!
# MMUX directory tree: replica chains, slot ranges and re-partitioning

A shallow embedding of `ds_file_node` from
`libmmux/src/mmux/directory/fs/directory_tree.h`: the per-file data status
(an ordered list of replica chains, each with an inclusive slot range, a chain
status and a storage mode), the `adding` list, and the setup / finalize steps of
the split and merge protocols. Further parts embed `sync`, `dump`, `load` and
lease expiry, the namespace tree (`ds_node`, `ds_dir_node`), the walk of
`sync_worker.cpp`, the namespace operations of `directory_tree.cpp` (modelled
from the specification, the file not being part of the sources) and the RPC type
conversions of `libelasticmem` (`directory_type_conversions.h`).

Conventions of the embedding.

* Block identifiers are `String`s, as in the source (`"nil"` ends a chain).
* Slot bounds are `int32_t` in the source. They are embedded as `Int`; the
  source divides with C++ `/`, which truncates toward zero, so the midpoint is
  `Int.tdiv`. Slot bounds are bounded by `SLOT_MAX`, so no sum of two of them
  leaves the 32-bit range.
* `storage::block::SLOT_MAX` is declared in a header that is not part of the
  sources; every definition that reads it takes it as the parameter `SLOT_MAX`.
* The storage manager and the block allocator are external collaborators. A call
  to one of them is recorded, in program order, in the list of `call`s an
  operation returns. Storage calls are acknowledged (they do not throw); the
  value of `storage_size` and the result of `allocate` are parameters.
* A C++ exception is an `Except.error`. An operation returns an `outcome`: the
  file node as the operation left it (also when it threw), the calls it issued
  and the returned value or the exception.
* The reader/writer lock `mtx_` is held over each whole operation, so an
  operation is one atomic state transformer.
-/

namespace mmux.directory

/-! ## Value types (declared in `directory_ops.h`) -/

/-- Modelled from the spec: the chain status of `directory_ops.h`, which is not
part of the sources; one of stable, exporting, importing. -/
inductive chain_status where
  | stable
  | exporting
  | importing
deriving DecidableEq

/-- Modelled from the spec: the storage mode of `directory_ops.h`, which is not
part of the sources; one of in_memory, in_memory_grace, flushing, on_disk. -/
inductive storage_mode where
  | in_memory
  | in_memory_grace
  | flushing
  | on_disk
deriving DecidableEq

/-- Modelled from the spec: the chain role of `storage/chain_module.h`, which is
not part of the sources; a chain of length 1 uses singleton, otherwise head,
zero or more mids, tail. -/
inductive chain_role where
  | singleton
  | head
  | mid
  | tail
deriving DecidableEq

/-- Modelled from the spec: `replica_chain` of `directory_ops.h`, which is not
part of the sources; an ordered sequence of block identifiers, an inclusive slot
range, a chain status and a storage mode. The field names are the ones
`directory_tree.h` reads. -/
structure replica_chain where
  block_names : List String
  slot_range : Int × Int
  status : chain_status
  mode : storage_mode
deriving DecidableEq

/-- Modelled from the spec: `replica_chain::slot_begin()`, the first component
of the inclusive slot range. -/
def replica_chain.slot_begin (c : replica_chain) : Int := c.slot_range.1

/-- Modelled from the spec: `replica_chain::slot_end()`, the second component of
the inclusive slot range. -/
def replica_chain.slot_end (c : replica_chain) : Int := c.slot_range.2

/-- Modelled from the spec: `replica_chain::tail()`, the last block of the chain
(the last element is the tail). On an empty chain the source has no defined
value; the embedding returns the empty string. -/
def replica_chain.tail (c : replica_chain) : String := c.block_names.getLastD ""

/-- Modelled from the spec: `replica_chain::operator==`, which `std::find` uses
in `find_replica_chain` and on the `adding` list. A chain is identified by its
block identifiers (they are unique while allocated). The merge protocol needs
this: `setup_slot_range_merge` copies the partner into the context before it
changes the partner's status, and `finalize_slot_range_merge` finds it again. -/
def replica_chain.same_chain (a b : replica_chain) : Bool :=
  decide (a.block_names = b.block_names)

/-- Modelled from the spec: `data_status` of `directory_ops.h`, which is not part
of the sources; backing path, chain length, the ordered list of replica chains,
the flags and the tags. -/
structure data_status where
  backing_path : String
  chain_length : Nat
  data_blocks : List replica_chain
  flags : Int
  tags : List (String × String)
deriving DecidableEq

/-- Replaces the chain at index `i` by its image under `g`; nothing changes when
`i` is not an index of the list. -/
def modify_chain (g : replica_chain → replica_chain) (i : Nat)
    (l : List replica_chain) : List replica_chain :=
  match l[i]? with
  | some c => l.set i (g c)
  | none => l

/-- Modelled from the spec: `data_status::get_data_block_status(i)`, the status
of the chain at index `i` (`none` when there is no such chain). -/
def data_status.get_data_block_status (d : data_status) (i : Nat) : Option chain_status :=
  (d.data_blocks[i]?).map (fun c => c.status)

/-- Modelled from the spec: `data_status::set_data_block_status(i, status)`. -/
def data_status.set_data_block_status (d : data_status) (i : Nat) (s : chain_status) :
    data_status :=
  { d with data_blocks := modify_chain (fun c => { c with status := s }) i d.data_blocks }

/-- Modelled from the spec: `data_status::update_data_block_slots(i, begin, end)`. -/
def data_status.update_data_block_slots (d : data_status) (i : Nat) (slot_begin slot_end : Int) :
    data_status :=
  { d with data_blocks :=
      modify_chain (fun c => { c with slot_range := (slot_begin, slot_end) }) i d.data_blocks }

/-- Modelled from the spec: `data_status::num_slots(i)`, the number of slots of
the inclusive range of the chain at index `i` (`none` when there is no such
chain). -/
def data_status.num_slots (d : data_status) (i : Nat) : Option Int :=
  (d.data_blocks[i]?).map (fun c => c.slot_end - c.slot_begin + 1)

/-- Modelled from the spec: `data_status::add_data_block(chain, position)`,
inserting the chain before index `i`. -/
def data_status.add_data_block (d : data_status) (c : replica_chain) (i : Nat) : data_status :=
  { d with data_blocks := d.data_blocks.take i ++ c :: d.data_blocks.drop i }

/-- Modelled from the spec: `data_status::remove_data_block(i)`. -/
def data_status.remove_data_block (d : data_status) (i : Nat) : data_status :=
  { d with data_blocks := d.data_blocks.eraseIdx i }

/-! ## Exceptions, external calls, outcomes -/

/-- The exceptions of the file-node operations. Each constructor stands for one
`throw` of `directory_tree.h` (or of a helper it calls); `what` gives the
message. -/
inductive ds_error where
  /-- Thrown as `directory_ops_exception("Cannot expand capacity beyond N blocks")`. -/
  | at_capacity (slot_max : Nat)
  /-- Thrown as `directory_ops_exception("No block with slot range b-e")`. -/
  | no_block_with_slot_range (slot_begin slot_end : Int)
  /-- Thrown as `directory_ops_exception("Block already involved in re-partitioning")`. -/
  | busy
  /-- Thrown as `directory_ops_exception("Cannot find a merge partner")`. -/
  | no_partner
  /-- The `std::logic_error` of `find_replica_chain`: the chain is not in the data status. -/
  | chain_not_found (block_names : List String)
  /-- Thrown as `std::logic_error("Cannot find to_block in adding list")`. -/
  | to_block_not_adding
  /-- The `std::out_of_range` of `std::vector::at`. -/
  | out_of_range
  /-- An exception raised by the block allocator. -/
  | allocator (msg : String)
  /-- Thrown as `directory_ops_exception("Child node not found: " + child_name)`. -/
  | child_not_found (child_name : String)
  /-- The process stops: a failed `assert`, or an integer division by zero. -/
  | aborted (reason : String)
  /-- The increment of a `std::map` iterator whose element was erased: no defined
  behaviour. -/
  | invalid_iterator
  /-- Thrown as `directory_ops_exception("Child node already exists: " + name)`. -/
  | child_exists (name : String)
  /-- The error *not_found* of the namespace operations: the path is absent. -/
  | not_found
  /-- The error *exists* of the namespace operations: the path is already present. -/
  | path_exists
  /-- The error *not_directory* of the namespace operations: an ancestor is a file. -/
  | not_directory
  /-- The error *directory_not_empty* of the namespace operations. -/
  | directory_not_empty
  /-- The error *invalid_argument* of the namespace operations. -/
  | invalid_argument
deriving DecidableEq

/-- The message of an exception. -/
def ds_error.what : ds_error → String
  | .at_capacity n => "Cannot expand capacity beyond " ++ toString n ++ " blocks"
  | .no_block_with_slot_range b e =>
      "No block with slot range " ++ toString b ++ "-" ++ toString e
  | .busy => "Block already involved in re-partitioning"
  | .no_partner => "Cannot find a merge partner"
  | .chain_not_found names => "Could not find replica chain " ++ toString names
  | .to_block_not_adding => "Cannot find to_block in adding list"
  | .out_of_range => "vector::at"
  | .allocator msg => msg
  | .child_not_found child_name => "Child node not found: " ++ child_name
  | .aborted reason => reason
  | .invalid_iterator => "invalid iterator"
  | .child_exists name => "Child node already exists: " ++ name
  | .not_found => "not_found"
  | .path_exists => "exists"
  | .not_directory => "not_directory"
  | .directory_not_empty => "directory_not_empty"
  | .invalid_argument => "invalid_argument"

/-- A call to an external collaborator: the storage management operations the
file node invokes (`storage->...`) and the two allocator operations
(`allocator->allocate`, `allocator->free`). -/
inductive call where
  | setup_block (block path : String) (slot_begin slot_end : Int) (chain : List String)
      (auto_scale : Bool) (role : chain_role) (next_block : String)
  | setup_and_set_importing (block path : String) (slot_begin slot_end : Int)
      (chain : List String) (role : chain_role) (next_block : String)
  | set_exporting (block : String) (target : List String) (slot_begin slot_end : Int)
  | set_importing (block : String) (slot_begin slot_end : Int)
  | set_regular (block : String) (slot_begin slot_end : Int)
  | load (block backing_path : String)
  | dump (block backing_path : String)
  | sync (block backing_path : String)
  | reset (block : String)
  | storage_size (block : String)
  | allocate (count : Nat)
  | free (blocks : List String)
deriving DecidableEq

/-- Whether a call goes to the allocator (and not to the storage manager). -/
def call.is_allocator : call → Bool
  | .allocate _ => true
  | .free _ => true
  | _ => false

/-- The file node: the data status and the chains being added (`dstatus_` and
`adding_` of `ds_file_node`). -/
structure ds_file_node where
  dstatus : data_status
  adding : List replica_chain
deriving DecidableEq

/-- The donor and the recipient of a re-partitioning (`ds_file_node::export_ctx`). -/
structure export_ctx where
  from_block : replica_chain
  to_block : replica_chain
deriving DecidableEq

/-- What an operation leaves behind: the node, the external calls it issued in
order, and its return value or exception. -/
structure outcome (α : Type) where
  node : ds_file_node
  calls : List call
  ret : Except ds_error α

/-- Modelled from the spec: `data_status::find_replica_chain(chain)`, the index
of the first chain equal to `chain`; it throws when there is none. -/
def data_status.find_replica_chain (d : data_status) (c : replica_chain) : Except ds_error Nat :=
  let i := d.data_blocks.findIdx (fun x => x.same_chain c)
  if i = d.data_blocks.length then .error (.chain_not_found c.block_names) else .ok i

/-- The number of chains of the file, those being added included
(`ds_file_node::num_blocks`). -/
def ds_file_node.num_blocks (f : ds_file_node) : Nat :=
  f.dstatus.data_blocks.length + f.adding.length

/-! ## Split: setup -/

/-- The split point of `[slot_begin, slot_end]`: `(slot_end + slot_begin) / 2`
with the truncating division of C++. -/
def slot_mid (slot_begin slot_end : Int) : Int := (slot_end + slot_begin).tdiv 2

/-- The role of the block at position `j` of a chain of `n > 1` blocks:
`(j == 0) ? head : (j == n - 1) ? tail : mid`. -/
def role_at (j n : Nat) : chain_role :=
  if j = 0 then .head else if j = n - 1 then .tail else .mid

/-- The storage calls of a split setup ("Set old chain to exporting and new
chain to importing", lines 592-619 and, word for word, 677-704): with
`chain_length == 1` one `setup_and_set_importing` and one `set_exporting`;
otherwise a loop of `setup_and_set_importing` over the recipient, then a loop of
`set_exporting` over the donor. `v[j]` past the end of a vector has no defined
value in the source; the embedding reads the empty string. -/
def split_calls (path : String) (from_chain to_chain : replica_chain) (mid slot_end : Int)
    (chain_length : Nat) : List call :=
  if chain_length = 1 then
    [ .setup_and_set_importing (to_chain.block_names.getD 0 "") path (mid + 1) slot_end
        to_chain.block_names .singleton "nil",
      .set_exporting (from_chain.block_names.getD 0 "") to_chain.block_names (mid + 1) slot_end ]
  else
    (List.range chain_length).map (fun j =>
        call.setup_and_set_importing (to_chain.block_names.getD j "") path (mid + 1) slot_end
          to_chain.block_names (role_at j chain_length)
          (if j = chain_length - 1 then "nil" else to_chain.block_names.getD (j + 1) ""))
      ++ (List.range chain_length).map (fun j =>
        call.set_exporting (from_chain.block_names.getD j "") to_chain.block_names (mid + 1)
          slot_end)

/-- The index of the first chain whose slot range is exactly
`[slot_begin, slot_end]`, or the number of chains when there is none (the search
loop of `setup_slot_range_split` and `setup_slot_range_merge`). -/
def find_slot_range (blocks : List replica_chain) (slot_begin slot_end : Int) : Nat :=
  blocks.findIdx (fun block =>
    decide (block.slot_begin = slot_begin) && decide (block.slot_end = slot_end))

/-- The method `ds_file_node::setup_slot_range_split` (lines 635-708). -/
def ds_file_node.setup_slot_range_split (SLOT_MAX : Nat)
    (allocate : Nat → Except ds_error (List String)) (path : String)
    (slot_begin slot_end : Int) (f : ds_file_node) : outcome export_ctx :=
  if f.dstatus.data_blocks.length = SLOT_MAX then
    ⟨f, [], .error (.at_capacity SLOT_MAX)⟩
  else
    let block_idx := find_slot_range f.dstatus.data_blocks slot_begin slot_end
    if block_idx = f.dstatus.data_blocks.length then
      ⟨f, [], .error (.no_block_with_slot_range slot_begin slot_end)⟩
    else
      let cstatus := f.dstatus.get_data_block_status block_idx
      if cstatus = some .exporting ∨ cstatus = some .importing then
        ⟨f, [], .error .busy⟩
      else
        let f1 : ds_file_node :=
          { f with dstatus := f.dstatus.set_data_block_status block_idx .exporting }
        match f1.dstatus.data_blocks[block_idx]? with
        | none => ⟨f1, [], .error .out_of_range⟩
        | some from_chain =>
          let mid := slot_mid slot_begin slot_end
          match allocate f1.dstatus.chain_length with
          | .error err => ⟨f1, [.allocate f1.dstatus.chain_length], .error err⟩
          | .ok names =>
            let to_chain : replica_chain := ⟨names, (mid + 1, slot_end), .stable, .in_memory⟩
            ⟨{ f1 with adding := f1.adding ++ [to_chain] },
              .allocate f1.dstatus.chain_length
                :: split_calls path from_chain to_chain mid slot_end f1.dstatus.chain_length,
              .ok ⟨from_chain, to_chain⟩⟩

/-- One round of the loop of `setup_add_block` that looks for "the block with
largest size" (lines 565-574). The state is `(i, max_size, max_pos)`. -/
def largest_step (d : data_status) (st : Nat × Nat × Nat) (sz : Nat) : Nat × Nat × Nat :=
  let i := st.1
  let max_size := st.2.1
  let max_pos := st.2.2
  let cstatus := d.get_data_block_status i
  if sz > max_size ∧ cstatus ≠ some .exporting ∧ cstatus ≠ some .importing
      ∧ d.num_slots i ≠ some 1 then
    (i + 1, sz, i)
  else
    (i + 1, max_size, max_pos)

/-- The donor index `max_pos` that `setup_add_block` computes from the tail
sizes, starting from `i = 0`, `max_size = 0`, `max_pos = 0`. -/
def largest_pos (d : data_status) (sizes : List Nat) : Nat :=
  (sizes.foldl (largest_step d) (0, 0, 0)).2.2

/-- The method `ds_file_node::setup_add_block` (lines 549-623). `storage_size` gives the
value the storage manager returns for a block; the queries are issued, one per
chain, on the last block of the chain. -/
def ds_file_node.setup_add_block (SLOT_MAX : Nat) (storage_size : String → Nat)
    (allocate : Nat → Except ds_error (List String)) (path : String)
    (f : ds_file_node) : outcome export_ctx :=
  if f.dstatus.data_blocks.length = SLOT_MAX then
    ⟨f, [], .error (.at_capacity SLOT_MAX)⟩
  else
    let queries := f.dstatus.data_blocks.map (fun block => call.storage_size block.tail)
    let futures := f.dstatus.data_blocks.map (fun block => storage_size block.tail)
    let max_pos := largest_pos f.dstatus futures
    let f1 : ds_file_node :=
      { f with dstatus := f.dstatus.set_data_block_status max_pos .exporting }
    match f1.dstatus.data_blocks[max_pos]? with
    | none => ⟨f1, queries, .error .out_of_range⟩
    | some from_chain =>
      let slot_begin := from_chain.slot_range.1
      let slot_end := from_chain.slot_range.2
      let mid := slot_mid slot_begin slot_end
      match allocate f1.dstatus.chain_length with
      | .error err => ⟨f1, queries ++ [.allocate f1.dstatus.chain_length], .error err⟩
      | .ok names =>
        let to_chain : replica_chain := ⟨names, (mid + 1, slot_end), .stable, .in_memory⟩
        ⟨{ f1 with adding := f1.adding ++ [to_chain] },
          queries ++ .allocate f1.dstatus.chain_length
            :: split_calls path from_chain to_chain mid slot_end f1.dstatus.chain_length,
          .ok ⟨from_chain, to_chain⟩⟩

/-! ## Split: finalize -/

/-- The method `ds_file_node::finalize_slot_range_split` (lines 716-737). -/
def ds_file_node.finalize_slot_range_split (ctx : export_ctx) (f : ds_file_node) :
    outcome Unit :=
  let slot_begin := ctx.from_block.slot_begin
  let slot_end := ctx.from_block.slot_end
  let mid := slot_mid slot_begin slot_end
  match f.dstatus.find_replica_chain ctx.from_block with
  | .error err => ⟨f, [], .error err⟩
  | .ok from_idx =>
    let d1 := f.dstatus.update_data_block_slots from_idx slot_begin mid
    let d2 := d1.set_data_block_status from_idx .stable
    let d3 := d2.add_data_block ctx.to_block (from_idx + 1)
    let it := f.adding.findIdx (fun x => x.same_chain ctx.to_block)
    if it = f.adding.length then
      ⟨{ f with dstatus := d3 }, [], .error .to_block_not_adding⟩
    else
      ⟨{ dstatus := d3, adding := f.adding.eraseIdx it },
        (List.range d3.chain_length).flatMap (fun j =>
          [ call.set_regular (ctx.from_block.block_names.getD j "") slot_begin mid,
            call.set_regular (ctx.to_block.block_names.getD j "") (mid + 1) slot_end ]),
        .ok ()⟩

/-! ## Merge -/

/-- The storage calls of a merge setup (lines 782-792): `set_importing` on the
partner, then `set_exporting` on the donor; one of each when
`chain_length == 1`, a loop of each otherwise. -/
def merge_calls (from_chain to_chain : replica_chain) (slot_begin slot_end : Int)
    (chain_length : Nat) : List call :=
  if chain_length = 1 then
    [ .set_importing (to_chain.block_names.getD 0 "") slot_begin slot_end,
      .set_exporting (from_chain.block_names.getD 0 "") to_chain.block_names slot_begin
        slot_end ]
  else
    (List.range chain_length).map (fun j =>
        call.set_importing (to_chain.block_names.getD j "") slot_begin slot_end)
      ++ (List.range chain_length).map (fun j =>
        call.set_exporting (from_chain.block_names.getD j "") to_chain.block_names slot_begin
          slot_end)

/-- The method `ds_file_node::setup_slot_range_merge` (lines 747-794). -/
def ds_file_node.setup_slot_range_merge (SLOT_MAX : Nat) (slot_begin slot_end : Int)
    (f : ds_file_node) : outcome export_ctx :=
  if f.dstatus.data_blocks.length = 1 ∨ slot_end = (SLOT_MAX : Int) then
    ⟨f, [], .error .no_partner⟩
  else
    let block_idx := find_slot_range f.dstatus.data_blocks slot_begin slot_end
    if block_idx = f.dstatus.data_blocks.length then
      ⟨f, [], .error (.no_block_with_slot_range slot_begin slot_end)⟩
    else
      let cstatus := f.dstatus.get_data_block_status block_idx
      if cstatus = some .exporting ∨ cstatus = some .importing then
        ⟨f, [], .error .busy⟩
      else
        match f.dstatus.data_blocks[block_idx]? with
        | none => ⟨f, [], .error .out_of_range⟩
        | some from_chain =>
          match f.dstatus.data_blocks[block_idx + 1]? with
          | none => ⟨f, [], .error .out_of_range⟩
          | some to_chain =>
            if to_chain.status = .exporting then
              ⟨f, [], .error .no_partner⟩
            else
              let d1 := f.dstatus.set_data_block_status block_idx .exporting
              let d2 := d1.set_data_block_status (block_idx + 1) .importing
              ⟨{ f with dstatus := d2 },
                merge_calls from_chain to_chain slot_begin slot_end d2.chain_length,
                .ok ⟨from_chain, to_chain⟩⟩

/-- The method `ds_file_node::finalize_slot_range_merge` (lines 803-821). -/
def ds_file_node.finalize_slot_range_merge (ctx : export_ctx) (f : ds_file_node) :
    outcome Unit :=
  let slot_begin := ctx.from_block.slot_begin
  let slot_end := ctx.to_block.slot_end
  match f.dstatus.find_replica_chain ctx.to_block with
  | .error err => ⟨f, [], .error err⟩
  | .ok to_idx =>
    let d1 := f.dstatus.update_data_block_slots to_idx slot_begin slot_end
    let d2 := d1.set_data_block_status to_idx .stable
    match d2.find_replica_chain ctx.from_block with
    | .error err => ⟨{ f with dstatus := d2 }, [], .error err⟩
    | .ok from_idx =>
      let d3 := d2.remove_data_block from_idx
      ⟨{ f with dstatus := d3 },
        (List.range d3.chain_length).flatMap (fun j =>
          [ call.reset (ctx.from_block.block_names.getD j ""),
            call.set_regular (ctx.to_block.block_names.getD j "") slot_begin slot_end ])
          ++ [.free ctx.from_block.block_names],
        .ok ()⟩

/-! ## Sample inputs -/

/-- A stable, in-memory chain with the given blocks and slot range. -/
def stable_chain (names : List String) (slot_begin slot_end : Int) : replica_chain :=
  ⟨names, (slot_begin, slot_end), .stable, .in_memory⟩

/-- A file node with the given chain length and chains: backing path `/tmp`,
no flags, no tags, nothing being added. -/
def file_of (chain_length : Nat) (chains : List replica_chain) : ds_file_node :=
  ⟨⟨"/tmp", chain_length, chains, 0, []⟩, []⟩

/-- Modelled from the spec: `block_allocator::allocate(count, hints)` on a pool
whose free blocks are `pool`: it returns `count` of them, and fails when fewer
than `count` are free. -/
def allocate_from (pool : List String) (count : Nat) : Except ds_error (List String) :=
  if count ≤ pool.length then .ok (pool.take count) else .error (.allocator "out of capacity")

/-! ## Partitions of the slot space -/

/-- The ranges, in list order, tile the slots from `s` up to, not including, `t`:
the first range begins at `s`, every range has `begin ≤ end`, each range begins
one past the end of the previous one, and the last one ends at `t - 1`. -/
def tiles (s t : Int) : List (Int × Int) → Prop
  | [] => s = t
  | r :: rs => r.1 = s ∧ r.1 ≤ r.2 ∧ tiles (r.2 + 1) t rs

/-- Deciding `tiles` by walking the list. -/
instance tiles_decidable : (s t : Int) → (rs : List (Int × Int)) → Decidable (tiles s t rs)
  | s, t, [] => inferInstanceAs (Decidable (s = t))
  | s, t, r :: rs =>
    have := tiles_decidable (r.2 + 1) t rs
    inferInstanceAs (Decidable (r.1 = s ∧ r.1 ≤ r.2 ∧ tiles (r.2 + 1) t rs))

/-- The chains' slot ranges form an exact partition of `[0, SLOT_MAX]`: in the
order of the data status they are contiguous non-empty ranges, the first begins
at 0 and the last ends at `SLOT_MAX`. -/
def exact_partition (SLOT_MAX : Nat) (chains : List replica_chain) : Prop :=
  tiles 0 ((SLOT_MAX : Int) + 1) (chains.map (fun c => c.slot_range))

instance exact_partition_decidable (SLOT_MAX : Nat) (chains : List replica_chain) :
    Decidable (exact_partition SLOT_MAX chains) :=
  inferInstanceAs (Decidable (tiles _ _ _))

/-- Every chain of the list is stable. -/
def all_stable (chains : List replica_chain) : Prop :=
  ∀ c ∈ chains, c.status = .stable

instance all_stable_decidable (chains : List replica_chain) : Decidable (all_stable chains) :=
  inferInstanceAs (Decidable (∀ c ∈ chains, c.status = .stable))

/-- The number of chains of the list whose inclusive slot range contains `slot`. -/
def owners (slot : Int) (chains : List replica_chain) : Nat :=
  chains.countP (fun c => decide (c.slot_begin ≤ slot) && decide (slot ≤ c.slot_end))

/-! ## Completed operations -/

/-- Runs a finalize step on the node a setup step left, with the context the
setup returned; the calls of both steps are concatenated. A setup that threw is
the whole outcome. -/
def and_then (o : outcome export_ctx) (finalize : export_ctx → ds_file_node → outcome Unit) :
    outcome Unit :=
  match o.ret with
  | .error err => ⟨o.node, o.calls, .error err⟩
  | .ok ctx => ⟨(finalize ctx o.node).node, o.calls ++ (finalize ctx o.node).calls,
      (finalize ctx o.node).ret⟩

/-- Modelled from the spec: `directory_tree::split_slot_range` (its body is in
`directory_tree.cpp`, which is not part of the sources) as a completed split:
`setup_slot_range_split`, then `finalize_slot_range_split` with the returned
context. -/
def split_slot_range (SLOT_MAX : Nat) (allocate : Nat → Except ds_error (List String))
    (path : String) (slot_begin slot_end : Int) (f : ds_file_node) : outcome Unit :=
  and_then (f.setup_slot_range_split SLOT_MAX allocate path slot_begin slot_end)
    ds_file_node.finalize_slot_range_split

/-- Modelled from the spec: `directory_tree::add_block_to_file` (its body is in
`directory_tree.cpp`, which is not part of the sources) as a completed split:
`setup_add_block`, then `finalize_slot_range_split` with the returned context. -/
def add_block_to_file (SLOT_MAX : Nat) (storage_size : String → Nat)
    (allocate : Nat → Except ds_error (List String)) (path : String) (f : ds_file_node) :
    outcome Unit :=
  and_then (f.setup_add_block SLOT_MAX storage_size allocate path)
    ds_file_node.finalize_slot_range_split

/-- Modelled from the spec: `directory_tree::merge_slot_range` (its body is in
`directory_tree.cpp`, which is not part of the sources) as a completed merge:
`setup_slot_range_merge`, then `finalize_slot_range_merge` with the returned
context. -/
def merge_slot_range (SLOT_MAX : Nat) (slot_begin slot_end : Int) (f : ds_file_node) :
    outcome Unit :=
  and_then (f.setup_slot_range_merge SLOT_MAX slot_begin slot_end)
    ds_file_node.finalize_slot_range_merge

/-- The number of blocks a sequence of calls takes from the allocator minus the
number it gives back: `allocate(count)` takes `count` blocks, `free(blocks)`
gives back `blocks.size()` of them. -/
def allocation_balance : List call → Int
  | [] => 0
  | .allocate count :: cs => (count : Int) + allocation_balance cs
  | .free blocks :: cs => allocation_balance cs - (blocks.length : Int)
  | _ :: cs => allocation_balance cs

/-! ## Reachable states of the re-partitioning protocols -/

/-- The allocator contract, as far as the file is concerned: the block list an
allocation returns is not the block list of any chain the file holds (in its
data status or in its adding list). -/
def fresh_allocation (allocate : Nat → Except ds_error (List String)) (f : ds_file_node) :
    Prop :=
  ∀ names, allocate f.dstatus.chain_length = .ok names →
    ∀ c ∈ f.dstatus.data_blocks ++ f.adding, c.block_names ≠ names

/-- The states of a file node reachable from a stable, exactly partitioned file
(pairwise different block lists, nothing being added) by setup and finalize
steps that returned normally, in any interleaving. The two lists are the
contexts of the splits and of the merges that were set up and are not finalized
yet; a finalize step takes its context from them. Allocations are fresh. A
`setup_slot_range_split` step is one on a donor with more than one slot; a
`setup_add_block` step is one where the chain at the index the size loop
computed is stable and has more than one slot. -/
inductive reachable (SLOT_MAX : Nat) :
    ds_file_node → List export_ctx → List export_ctx → Prop
  | init (f : ds_file_node) :
      all_stable f.dstatus.data_blocks →
      exact_partition SLOT_MAX f.dstatus.data_blocks →
      (f.dstatus.data_blocks.map (fun c => c.block_names)).Nodup →
      f.adding = [] →
      reachable SLOT_MAX f [] []
  | split_setup (f : ds_file_node) (splits merges : List export_ctx)
      (allocate : Nat → Except ds_error (List String)) (path : String) (b e : Int)
      (ctx : export_ctx) :
      reachable SLOT_MAX f splits merges →
      b < e →
      fresh_allocation allocate f →
      (f.setup_slot_range_split SLOT_MAX allocate path b e).ret = .ok ctx →
      reachable SLOT_MAX (f.setup_slot_range_split SLOT_MAX allocate path b e).node
        (splits ++ [ctx]) merges
  | add_block_setup (f : ds_file_node) (splits merges : List export_ctx)
      (storage_size : String → Nat) (allocate : Nat → Except ds_error (List String))
      (path : String) (ctx : export_ctx) :
      reachable SLOT_MAX f splits merges →
      f.dstatus.get_data_block_status (largest_pos f.dstatus
        (f.dstatus.data_blocks.map (fun block => storage_size block.tail))) = some .stable →
      ctx.from_block.slot_begin < ctx.from_block.slot_end →
      fresh_allocation allocate f →
      (f.setup_add_block SLOT_MAX storage_size allocate path).ret = .ok ctx →
      reachable SLOT_MAX (f.setup_add_block SLOT_MAX storage_size allocate path).node
        (splits ++ [ctx]) merges
  | split_finalize (f : ds_file_node) (s1 : List export_ctx) (ctx : export_ctx)
      (s2 merges : List export_ctx) :
      reachable SLOT_MAX f (s1 ++ ctx :: s2) merges →
      (f.finalize_slot_range_split ctx).ret = .ok () →
      reachable SLOT_MAX (f.finalize_slot_range_split ctx).node (s1 ++ s2) merges
  | merge_setup (f : ds_file_node) (splits merges : List export_ctx) (b e : Int)
      (ctx : export_ctx) :
      reachable SLOT_MAX f splits merges →
      (f.setup_slot_range_merge SLOT_MAX b e).ret = .ok ctx →
      reachable SLOT_MAX (f.setup_slot_range_merge SLOT_MAX b e).node splits
        (merges ++ [ctx])
  | merge_finalize (f : ds_file_node) (splits m1 : List export_ctx) (ctx : export_ctx)
      (m2 : List export_ctx) :
      reachable SLOT_MAX f splits (m1 ++ ctx :: m2) →
      (f.finalize_slot_range_merge ctx).ret = .ok () →
      reachable SLOT_MAX (f.finalize_slot_range_merge ctx).node splits (m1 ++ m2)

/-- The chain as the data status holds it while it is the donor of a pending
merge: the copy in the context was taken before the status changed. -/
def replica_chain.as_exporting (c : replica_chain) : replica_chain :=
  { c with status := .exporting }

/-- The chain as the data status holds it while it is the partner of a pending
merge. -/
def replica_chain.as_importing (c : replica_chain) : replica_chain :=
  { c with status := .importing }

/-- What holds of a file node and its pending contexts in every reachable state:
the chains of the data status form an exact partition and all chains have
different block lists; the adding list holds exactly the recipients of the
pending splits; the donor of a pending split is in the data status, exporting,
with more than one slot, and its recipient has the upper half of its range; the
donor and the partner of a pending merge are neighbours in the data status,
exporting and importing; no chain is the donor of two pending contexts or the
partner of two; every importing chain is the partner of a pending merge and
every exporting chain is the donor of a pending split or merge. -/
structure protocol_inv (SLOT_MAX : Nat) (f : ds_file_node)
    (splits merges : List export_ctx) : Prop where
  part : exact_partition SLOT_MAX f.dstatus.data_blocks
  nodup : ((f.dstatus.data_blocks ++ f.adding).map (fun c => c.block_names)).Nodup
  adding_eq : f.adding = splits.map (fun ctx => ctx.to_block)
  split_ctx : ∀ ctx ∈ splits, ctx.from_block ∈ f.dstatus.data_blocks
    ∧ ctx.from_block.status = .exporting
    ∧ ctx.from_block.slot_begin < ctx.from_block.slot_end
    ∧ ctx.to_block.slot_range
      = (slot_mid ctx.from_block.slot_begin ctx.from_block.slot_end + 1,
          ctx.from_block.slot_end)
    ∧ ctx.to_block.status = .stable
  merge_ctx : ∀ ctx ∈ merges, ∃ pre post, f.dstatus.data_blocks
    = pre ++ ctx.from_block.as_exporting :: ctx.to_block.as_importing :: post
  donors : (splits.map (fun ctx => ctx.from_block.block_names)
    ++ merges.map (fun ctx => ctx.from_block.block_names)).Nodup
  partners : (merges.map (fun ctx => ctx.to_block.block_names)).Nodup
  importing : ∀ c ∈ f.dstatus.data_blocks, c.status = .importing →
    ∃ ctx ∈ merges, c = ctx.to_block.as_importing
  exporting : ∀ c ∈ f.dstatus.data_blocks, c.status = .exporting →
    (∃ ctx ∈ splits, c = ctx.from_block) ∨ ∃ ctx ∈ merges, c = ctx.from_block.as_exporting

/-- The chains of a list whose status is stable or exporting. -/
def stable_or_exporting (chains : List replica_chain) : List replica_chain :=
  chains.filter (fun c => decide (c.status ≠ .importing))

/-- The slot range of `c` is a subset of the slot range of `d`. -/
def replica_chain.within (c d : replica_chain) : Prop :=
  d.slot_begin ≤ c.slot_begin ∧ c.slot_end ≤ d.slot_end

instance within_decidable (c d : replica_chain) : Decidable (c.within d) :=
  inferInstanceAs (Decidable (_ ∧ _))

/-- The chain at index `i` passes the status and slot tests of the size loop of
`setup_add_block`: it is neither exporting nor importing and `num_slots(i) != 1`. -/
def data_status.eligible (d : data_status) (i : Nat) : Prop :=
  d.get_data_block_status i ≠ some .exporting ∧ d.get_data_block_status i ≠ some .importing
    ∧ d.num_slots i ≠ some 1

instance eligible_decidable (d : data_status) (i : Nat) : Decidable (d.eligible i) :=
  inferInstanceAs (Decidable (_ ∧ _ ∧ _))

/-! ## Flags, backing paths and mode transitions (declared in `directory_ops.h`) -/

/-- Modelled from the spec: the tests of the flags bitset of `data_status`
(`is_pinned`, `is_mapped`, `is_static_provisioned` of `directory_ops.h`, which is
not part of the sources). The positions of the three bits are not given; every
definition that reads a flag takes the tests, as functions of the flags word, as
the parameter `flag_tests`. -/
structure flag_tests where
  is_pinned : Int → Bool
  is_mapped : Int → Bool
  is_static_provisioned : Int → Bool

/-- Modelled from the spec: `data_status::is_pinned()`. -/
def data_status.is_pinned (t : flag_tests) (d : data_status) : Bool := t.is_pinned d.flags

/-- Modelled from the spec: `data_status::is_mapped()`. -/
def data_status.is_mapped (t : flag_tests) (d : data_status) : Bool := t.is_mapped d.flags

/-- Modelled from the spec: `data_status::is_static_provisioned()`. -/
def data_status.is_static_provisioned (t : flag_tests) (d : data_status) : Bool :=
  t.is_static_provisioned d.flags

/-- Modelled from the spec: `replica_chain::slot_range_string()`, the
backing-path segment `"{b}_{e}"` of a chain with the range `[b, e]` (decimal, no
padding). -/
def replica_chain.slot_range_string (c : replica_chain) : String :=
  toString c.slot_begin ++ "_" ++ toString c.slot_end

/-- Modelled from the spec: `utils::directory_utils::push_path_element(path,
element)` (`directory_utils.h` is not part of the sources); the backing path
concatenation uses `/`. The result is the value the source leaves in `path`. -/
def push_path_element (path element : String) : String := path ++ "/" ++ element

/-- Modelled from the spec: `data_status::mark_dumped(i)`, the transition of the
chain at index `i` to the mode on_disk. -/
def data_status.mark_dumped (d : data_status) (i : Nat) : data_status :=
  { d with data_blocks := modify_chain (fun c => { c with mode := .on_disk }) i d.data_blocks }

/-- Modelled from the spec: `data_status::mark_loaded(i, block_names)`, the
transition of the chain at index `i` to the mode in_memory and the status stable,
recording the new block names. -/
def data_status.mark_loaded (d : data_status) (i : Nat) (block_names : List String) :
    data_status :=
  { d with data_blocks :=
      modify_chain (fun c => ⟨block_names, c.slot_range, .stable, .in_memory⟩) i d.data_blocks }

/-- Modelled from the spec: the setter `data_status::mode(i, mode)` of the storage
mode of the chain at index `i`. -/
def data_status.mode (d : data_status) (i : Nat) (m : storage_mode) : data_status :=
  { d with data_blocks := modify_chain (fun c => { c with mode := m }) i d.data_blocks }

/-! ## Sync, dump, load -/

/-- The method `ds_file_node::sync` (lines 396-404): one `storage->sync` on the
tail of every chain whose mode is in_memory or in_memory_grace, in the order of
the data status. -/
def ds_file_node.sync (backing_path : String) (f : ds_file_node) : outcome Unit :=
  ⟨f,
    f.dstatus.data_blocks.flatMap (fun block =>
      if block.mode = .in_memory ∨ block.mode = .in_memory_grace then
        [call.sync block.tail (push_path_element backing_path block.slot_range_string)]
      else []),
    .ok ()⟩

/-- The state the loops of `dump` and of `handle_lease_expiry` work on: the data
status, the storage calls issued so far and the vector `cleared_blocks`. -/
structure clear_state where
  dstatus : data_status
  calls : List call
  cleared_blocks : List String
deriving DecidableEq

/-- One pass of the inner loop of `dump` (lines 416-426) and of the mapped branch
of `handle_lease_expiry` (lines 515-525), for the chain at index `block_idx` and
the position `i`. `block` is a reference into the data status, so it is read
from the current state. `mark` is the transition the source applies after the
`storage->dump`: it receives the position `i`. -/
def dump_block (mark : data_status → Nat → data_status) (backing_path : String)
    (block_idx i : Nat) (s : clear_state) : clear_state :=
  match s.dstatus.data_blocks[block_idx]? with
  | none => s
  | some block =>
    if i = s.dstatus.chain_length - 1 then
      { dstatus := mark s.dstatus i,
        calls := s.calls
          ++ [.dump block.tail (push_path_element backing_path block.slot_range_string)],
        cleared_blocks := s.cleared_blocks ++ [block.block_names.getD i ""] }
    else
      { s with
        calls := s.calls ++ [.reset (block.block_names.getD i "")],
        cleared_blocks := s.cleared_blocks ++ [block.block_names.getD i ""] }

/-- The inner loop `for (size_t i = 0; i < dstatus_.chain_length(); i++)` for the
chain at index `block_idx`. -/
def dump_chain (mark : data_status → Nat → data_status) (backing_path : String)
    (s : clear_state) (block_idx : Nat) : clear_state :=
  (List.range s.dstatus.chain_length).foldl
    (fun s i => dump_block mark backing_path block_idx i s) s

/-- The outer loop `for (const auto &block: dstatus_.data_blocks())`. -/
def dump_chains (mark : data_status → Nat → data_status) (backing_path : String)
    (s : clear_state) : clear_state :=
  (List.range s.dstatus.data_blocks.length).foldl (dump_chain mark backing_path) s

/-- What an operation with the in-out parameter `cleared_blocks` leaves: the node,
the storage calls it issued, the vector `cleared_blocks` and the value
returned. -/
structure clear_outcome (α β : Type) where
  node : α
  calls : List call
  cleared_blocks : List String
  ret : β

/-- The method `ds_file_node::dump` (lines 413-430). -/
def ds_file_node.dump (cleared_blocks : List String) (backing_path : String)
    (f : ds_file_node) : clear_outcome ds_file_node Unit :=
  let s := dump_chains data_status.mark_dumped backing_path ⟨f.dstatus, [], cleared_blocks⟩
  ⟨{ f with dstatus := s.dstatus }, s.calls, s.cleared_blocks, ()⟩

/-- The conversion `static_cast<int32_t>` of a `std::size_t` value. -/
def to_int32 (x : Nat) : Int :=
  if x % 2 ^ 32 < 2 ^ 31 then ((x % 2 ^ 32 : Nat) : Int) else ((x % 2 ^ 32 : Nat) : Int) - 2 ^ 32

/-- The slot range `load` computes for the chain at index `i` (lines 451-453);
the products are `std::size_t` arithmetic. -/
def load_slot_range (SLOT_MAX num_blocks slots_per_block i : Nat) : Int × Int :=
  (to_int32 ((i * slots_per_block) % 2 ^ 64),
    if i = num_blocks - 1 then (SLOT_MAX : Int)
    else to_int32 (((i + 1) * slots_per_block + (2 ^ 64 - 1)) % 2 ^ 64))

/-- The slot ranges `load` computes for a file with `num_blocks` chains, in
index order. -/
def load_slot_ranges (SLOT_MAX num_blocks : Nat) : List (Int × Int) :=
  (List.range num_blocks).map (load_slot_range SLOT_MAX num_blocks (SLOT_MAX / num_blocks))

/-- The storage calls of `load` for one chain (lines 460-489): `setup_block` and
`load` on the one block when `chain_length == 1`, on every block in chain order
otherwise. -/
def load_calls (path backing_path : String) (chain : replica_chain) (auto_scale : Bool)
    (chain_length : Nat) : List call :=
  if chain_length = 1 then
    [ .setup_block (chain.block_names.getD 0 "") path chain.slot_begin chain.slot_end
        chain.block_names auto_scale .singleton "nil",
      .load (chain.block_names.getD 0 "")
        (push_path_element backing_path chain.slot_range_string) ]
  else
    (List.range chain_length).flatMap (fun j =>
      [ call.setup_block (chain.block_names.getD j "") path chain.slot_begin chain.slot_end
          chain.block_names auto_scale (role_at j chain_length)
          (if j = chain_length - 1 then "nil" else chain.block_names.getD (j + 1) ""),
        call.load (chain.block_names.getD j "")
          (push_path_element backing_path chain.slot_range_string) ])

/-- One pass of the loop of `load` (lines 450-490), for the chain at index `i`.
`allocate i count` is the result of the allocation this pass makes, the one
with number `i` of the `load`. -/
def load_chain (SLOT_MAX : Nat) (allocate : Nat → Nat → Except ds_error (List String))
    (path backing_path : String) (auto_scale : Bool) (num_blocks chain_length : Nat)
    (i : Nat) (f : ds_file_node) : outcome Unit :=
  match allocate i chain_length with
  | .error err => ⟨f, [.allocate chain_length], .error err⟩
  | .ok names =>
    let chain : replica_chain :=
      ⟨names, load_slot_range SLOT_MAX num_blocks (SLOT_MAX / num_blocks) i, .stable,
        .in_memory⟩
    if chain.block_names.length ≠ chain_length then
      ⟨f, [.allocate chain_length],
        .error (.aborted "chain.block_names.size() == chain_length")⟩
    else
      ⟨{ f with dstatus := f.dstatus.mark_loaded i chain.block_names },
        .allocate chain_length :: load_calls path backing_path chain auto_scale chain_length,
        .ok ()⟩

/-- Runs the passes of a loop in order, from the node the pass before left; a
pass that threw ends the loop. -/
def run_passes (pass : Nat → ds_file_node → outcome Unit) :
    List Nat → ds_file_node → outcome Unit
  | [], f => ⟨f, [], .ok ()⟩
  | i :: rest, f =>
    match (pass i f).ret with
    | .error err => ⟨(pass i f).node, (pass i f).calls, .error err⟩
    | .ok _ =>
      ⟨(run_passes pass rest (pass i f).node).node,
        (pass i f).calls ++ (run_passes pass rest (pass i f).node).calls,
        (run_passes pass rest (pass i f).node).ret⟩

/-- The method `ds_file_node::load` (lines 440-494). With no chain the division
`SLOT_MAX / num_blocks` is a division by zero. -/
def ds_file_node.load (SLOT_MAX : Nat) (t : flag_tests)
    (allocate : Nat → Nat → Except ds_error (List String)) (path backing_path : String)
    (f : ds_file_node) : outcome Unit :=
  let auto_scale := !f.dstatus.is_static_provisioned t
  let num_blocks := f.dstatus.data_blocks.length
  let chain_length := f.dstatus.chain_length
  if num_blocks = 0 then ⟨f, [], .error (.aborted "division by zero")⟩
  else
    run_passes
      (load_chain SLOT_MAX allocate path backing_path auto_scale num_blocks chain_length)
      (List.range num_blocks) f

/-! ## Lease expiry of a file -/

/-- The method `ds_file_node::handle_lease_expiry` (lines 507-539). -/
def ds_file_node.handle_lease_expiry (t : flag_tests) (cleared_blocks : List String)
    (f : ds_file_node) : clear_outcome ds_file_node Bool :=
  if !f.dstatus.is_pinned t then
    if f.dstatus.is_mapped t then
      let s := dump_chains (fun d i => d.mode i .on_disk) f.dstatus.backing_path
        ⟨f.dstatus, [], cleared_blocks⟩
      ⟨{ f with dstatus := s.dstatus }, s.calls, s.cleared_blocks, false⟩
    else
      ⟨f,
        f.dstatus.data_blocks.flatMap (fun block =>
          block.block_names.map (fun block_name => call.reset block_name)),
        cleared_blocks ++ f.dstatus.data_blocks.flatMap (fun block => block.block_names),
        true⟩
  else ⟨f, [], cleared_blocks, false⟩

/-! ## The namespace tree -/

/-- A node of the namespace tree: `ds_node` with its two subclasses, the file
node and the directory node. The name, the permissions and the last write time
are the fields of `ds_node`; the file type of its status is regular for a
`ds_file_node` and directory for a `ds_dir_node` (the constructors set it and
nothing changes it), so the constructor stands for the type. The children of a
directory are the entries of the `std::map` `children_` in the order the map
iterates them, the order of the keys. -/
inductive ds_node where
  | file (name : String) (permissions last_write_time : Nat) (node : ds_file_node)
  | dir (name : String) (permissions last_write_time : Nat)
      (children : List (String × ds_node))

mutual
/-- The files of the subtree of a node, directories walked depth first, the
children of a directory in the order of `children_`. -/
def ds_node.files : ds_node → List ds_file_node
  | .file _ _ _ f => [f]
  | .dir _ _ _ children => children_files children
/-- The files of the subtrees of the entries of a directory. -/
def children_files : List (String × ds_node) → List ds_file_node
  | [] => []
  | (_, child) :: rest => child.files ++ children_files rest
end

mutual
/-- The virtual method `ds_node::dump`: `ds_file_node::dump` on a file node,
`ds_dir_node::dump` (lines 952-959) on a directory node. -/
def ds_node.dump (cleared_blocks : List String) (backing_path : String) :
    ds_node → clear_outcome ds_node Unit
  | .file name permissions last_write_time f =>
    ⟨.file name permissions last_write_time (f.dump cleared_blocks backing_path).node,
      (f.dump cleared_blocks backing_path).calls,
      (f.dump cleared_blocks backing_path).cleared_blocks, ()⟩
  | .dir name permissions last_write_time children =>
    ⟨.dir name permissions last_write_time
        (dump_children cleared_blocks backing_path children).node,
      (dump_children cleared_blocks backing_path children).calls,
      (dump_children cleared_blocks backing_path children).cleared_blocks, ()⟩
/-- The loop `for (const auto &entry: children_)` of `ds_dir_node::dump`. -/
def dump_children (cleared_blocks : List String) (backing_path : String) :
    List (String × ds_node) → clear_outcome (List (String × ds_node)) Unit
  | [] => ⟨[], [], cleared_blocks, ()⟩
  | (key, child) :: rest =>
    ⟨(key, (child.dump cleared_blocks backing_path).node)
        :: (dump_children (child.dump cleared_blocks backing_path).cleared_blocks backing_path
          rest).node,
      (child.dump cleared_blocks backing_path).calls
        ++ (dump_children (child.dump cleared_blocks backing_path).cleared_blocks backing_path
          rest).calls,
      (dump_children (child.dump cleared_blocks backing_path).cleared_blocks backing_path
        rest).cleared_blocks, ()⟩
end

mutual
/-- What `ds_dir_node::handle_lease_expiry` does with the child `find` returned
(lines 910-926): on a file node `ds_file_node::handle_lease_expiry`; on a
directory node the loop over its entries. The value returned is the one the
method returns, which is also whether the method erases the entry of the
child. -/
def ds_node.handle_lease_expiry (t : flag_tests) (cleared_blocks : List String) :
    ds_node → clear_outcome ds_node (Except ds_error Bool)
  | .file name permissions last_write_time f =>
    ⟨.file name permissions last_write_time (f.handle_lease_expiry t cleared_blocks).node,
      (f.handle_lease_expiry t cleared_blocks).calls,
      (f.handle_lease_expiry t cleared_blocks).cleared_blocks,
      .ok (f.handle_lease_expiry t cleared_blocks).ret⟩
  | .dir name permissions last_write_time children =>
    ⟨.dir name permissions last_write_time
        (handle_lease_expiry_entries t cleared_blocks children).node,
      (handle_lease_expiry_entries t cleared_blocks children).calls,
      (handle_lease_expiry_entries t cleared_blocks children).cleared_blocks,
      (handle_lease_expiry_entries t cleared_blocks children).ret⟩
/-- The loop `for (auto &entry: *dir)` of lines 918-922 with the flag `cleared`:
`dir->handle_lease_expiry(cleared_blocks, entry.first, storage)` on every entry
of the child directory, in the order of its map; the keys of a map are unique,
so the entry the call finds is the entry the loop stands on. A call that returns
true has erased that entry from the map of `dir` (`children_.erase(ret)`), which
invalidates the iterator of the loop; the increment of the loop then has no
defined behaviour, and the embedding ends there with `invalid_iterator`. A call
that returns false sets the flag to false and the loop goes on. -/
def handle_lease_expiry_entries (t : flag_tests) (cleared_blocks : List String) :
    List (String × ds_node) → clear_outcome (List (String × ds_node)) (Except ds_error Bool)
  | [] => ⟨[], [], cleared_blocks, .ok true⟩
  | (key, child) :: rest =>
    match (child.handle_lease_expiry t cleared_blocks).ret with
    | .error err =>
      ⟨(key, (child.handle_lease_expiry t cleared_blocks).node) :: rest,
        (child.handle_lease_expiry t cleared_blocks).calls,
        (child.handle_lease_expiry t cleared_blocks).cleared_blocks, .error err⟩
    | .ok true =>
      ⟨rest, (child.handle_lease_expiry t cleared_blocks).calls,
        (child.handle_lease_expiry t cleared_blocks).cleared_blocks, .error .invalid_iterator⟩
    | .ok false =>
      ⟨(key, (child.handle_lease_expiry t cleared_blocks).node)
          :: (handle_lease_expiry_entries t
            (child.handle_lease_expiry t cleared_blocks).cleared_blocks rest).node,
        (child.handle_lease_expiry t cleared_blocks).calls
          ++ (handle_lease_expiry_entries t
            (child.handle_lease_expiry t cleared_blocks).cleared_blocks rest).calls,
        (handle_lease_expiry_entries t
          (child.handle_lease_expiry t cleared_blocks).cleared_blocks rest).cleared_blocks,
        match (handle_lease_expiry_entries t
          (child.handle_lease_expiry t cleared_blocks).cleared_blocks rest).ret with
        | .error err => .error err
        | .ok _ => .ok false⟩
end

/-- The method `ds_dir_node::handle_lease_expiry` (lines 901-930) on the
directory whose map is `children_`: the node is the map as the method leaves
it. -/
def ds_dir_node.handle_lease_expiry (t : flag_tests) (cleared_blocks : List String)
    (child_name : String) (children_ : List (String × ds_node)) :
    clear_outcome (List (String × ds_node)) (Except ds_error Bool) :=
  match children_[children_.findIdx (fun entry => entry.1 == child_name)]? with
  | none => ⟨children_, [], cleared_blocks, .error (.child_not_found child_name)⟩
  | some (key, child) =>
    ⟨match (child.handle_lease_expiry t cleared_blocks).ret with
      | .ok true =>
        children_.eraseIdx (children_.findIdx (fun entry => entry.1 == child_name))
      | _ =>
        children_.set (children_.findIdx (fun entry => entry.1 == child_name))
          (key, (child.handle_lease_expiry t cleared_blocks).node),
      (child.handle_lease_expiry t cleared_blocks).calls,
      (child.handle_lease_expiry t cleared_blocks).cleared_blocks,
      (child.handle_lease_expiry t cleared_blocks).ret⟩

/-! ## Sample inputs for sync, dump, load and lease expiry -/

/-- A sample layout of the flags word: bit 0 pinned, bit 1 static_provisioned,
bit 2 mapped. -/
def sample_flags : flag_tests :=
  ⟨fun flags => flags % 2 = 1, fun flags => flags / 4 % 2 = 1, fun flags => flags / 2 % 2 = 1⟩

/-- A chain with the given blocks, slot range and mode, stable. -/
def chain_in_mode (names : List String) (slot_begin slot_end : Int) (m : storage_mode) :
    replica_chain :=
  ⟨names, (slot_begin, slot_end), .stable, m⟩

/-- A file node like `file_of` with the given flags word. -/
def file_with_flags (flags : Int) (chain_length : Nat) (chains : List replica_chain) :
    ds_file_node :=
  ⟨⟨"/tmp", chain_length, chains, flags, []⟩, []⟩

/-- Modelled from the spec: an allocator that serves the allocation with number
`i` from the pool `pools[i]`. -/
def allocate_seq (pools : List (List String)) (i count : Nat) :
    Except ds_error (List String) :=
  allocate_from (pools.getD i []) count

/-! ## The calls of the dump loops, chain by chain -/

/-- The storage calls the inner loop of `dump` issues for the chain `block`, one
for each position `i < chain_length`: `dump` on the tail at the last position,
`reset` on `block.block_names[i]` at every other one. -/
def dump_calls_of (backing_path : String) (chain_length : Nat) (block : replica_chain) :
    List call :=
  (List.range chain_length).map (fun i =>
    if i = chain_length - 1 then
      call.dump block.tail (push_path_element backing_path block.slot_range_string)
    else call.reset (block.block_names.getD i ""))

/-- The blocks the inner loop of `dump` appends to `cleared_blocks` for the chain
`block`: `block.block_names[i]` for each position `i < chain_length`. -/
def cleared_of (chain_length : Nat) (block : replica_chain) : List String :=
  (List.range chain_length).map (fun i => block.block_names.getD i "")

/-- The file node after `dump` followed by `load` with the same backing path (the
blocks `dump` cleared are not handed to `load`). -/
def dump_then_load (SLOT_MAX : Nat) (t : flag_tests)
    (allocate : Nat → Nat → Except ds_error (List String)) (path backing_path : String)
    (f : ds_file_node) : ds_file_node :=
  ((f.dump [] backing_path).node.load SLOT_MAX t allocate path backing_path).node

mutual
/-- Whether lease expiry keeps the node, with no entry of its subtree removed: a
file that is pinned or mapped; a directory that is not empty and all of whose
entries are kept. -/
def ds_node.kept (t : flag_tests) : ds_node → Bool
  | .file _ _ _ f => f.dstatus.is_pinned t || f.dstatus.is_mapped t
  | .dir _ _ _ children => !children.isEmpty && entries_kept t children
/-- Whether lease expiry keeps every entry of the list. -/
def entries_kept (t : flag_tests) : List (String × ds_node) → Bool
  | [] => true
  | (_, child) :: rest => child.kept t && entries_kept t rest
end

/-! ## Node attributes and the map of the children -/

/-- Modelled from the spec: `file_type` of `directory_ops.h`, which is not part of
the sources; a node is a regular file or a directory. -/
inductive file_type where
  | regular
  | directory
deriving DecidableEq

/-- Modelled from the spec: `file_status` of `directory_ops.h`: type, permissions
(a `uint16_t` bit set) and last write time (milliseconds since the epoch). -/
structure file_status where
  type : file_type
  permissions : Nat
  last_write_time : Nat
deriving DecidableEq

/-- Modelled from the spec: `directory_entry` of `directory_ops.h`: a name and a
file status. -/
structure directory_entry where
  name : String
  status : file_status
deriving DecidableEq

/-- The getter `ds_node::name()`. -/
def ds_node.name : ds_node → String
  | .file name _ _ _ => name
  | .dir name _ _ _ => name

/-- The getter `ds_node::permissions()`. -/
def ds_node.permissions : ds_node → Nat
  | .file _ permissions _ _ => permissions
  | .dir _ permissions _ _ => permissions

/-- The getter `ds_node::last_write_time()`. -/
def ds_node.last_write_time : ds_node → Nat
  | .file _ _ last_write_time _ => last_write_time
  | .dir _ _ last_write_time _ => last_write_time

/-- The method `ds_node::is_directory()`. -/
def ds_node.is_directory : ds_node → Bool
  | .file _ _ _ _ => false
  | .dir _ _ _ _ => true

/-- The method `ds_node::is_regular_file()`. -/
def ds_node.is_regular_file : ds_node → Bool
  | .file _ _ _ _ => true
  | .dir _ _ _ _ => false

/-- The getter `ds_node::status()`: the type is the one the constructor of the
subclass has set. -/
def ds_node.status (n : ds_node) : file_status :=
  ⟨if n.is_directory then .directory else .regular, n.permissions, n.last_write_time⟩

/-- The method `ds_node::entry()`: `directory_entry(name_, status_)`. -/
def ds_node.entry (n : ds_node) : directory_entry := ⟨n.name, n.status⟩

/-- The setter `ds_node::name(name)`. -/
def ds_node.set_name (name : String) : ds_node → ds_node
  | .file _ permissions last_write_time f => .file name permissions last_write_time f
  | .dir _ permissions last_write_time children =>
    .dir name permissions last_write_time children

/-- The setter `ds_node::permissions(prms)`. -/
def ds_node.set_permissions (prms : Nat) : ds_node → ds_node
  | .file name _ last_write_time f => .file name prms last_write_time f
  | .dir name _ last_write_time children => .dir name prms last_write_time children

/-- The setter `ds_node::last_write_time(time)` (lines 94-99). -/
def ds_node.set_last_write_time (time : Nat) : ds_node → ds_node
  | .file name permissions _ f => .file name permissions time f
  | .dir name permissions _ children => .dir name permissions time children

/-- The order of two `std::string` keys as lists of characters: the
lexicographic order, a proper prefix first. The source compares bytes; on names
that are UTF-8 text that is the order of the code points. -/
def chars_lt : List Char → List Char → Bool
  | _, [] => false
  | [], _ :: _ => true
  | a :: as, b :: bs =>
    decide (a.toNat < b.toNat) || (decide (a.toNat = b.toNat) && chars_lt as bs)

/-- The order `std::less<std::string>` of the keys of `children_`. -/
def key_lt (a b : String) : Bool := chars_lt a.data b.data

/-- The method `children_.find(name)` of the map, as the index of the entry with
the key `name`, or the number of entries when there is none. -/
def find_child (name : String) (children_ : List (String × ds_node)) : Nat :=
  children_.findIdx (fun entry => entry.1 == name)

/-- The method `ds_dir_node::get_child` (lines 846-854); `none` is `nullptr`. -/
def ds_dir_node.get_child (name : String) (children_ : List (String × ds_node)) :
    Option ds_node :=
  (children_[find_child name children_]?).map (fun entry => entry.2)

/-- The method `children_.insert(std::make_pair(key, node))` of the map: the entry
goes before the first entry with a greater key; when the key is in the map
nothing is inserted. -/
def map_insert (key : String) (node : ds_node) :
    List (String × ds_node) → List (String × ds_node)
  | [] => [(key, node)]
  | (k, n) :: rest =>
    if key_lt key k then (key, node) :: (k, n) :: rest
    else if key = k then (k, n) :: rest
    else (k, n) :: map_insert key node rest

/-- The method `ds_dir_node::add_child` (lines 860-867). -/
def ds_dir_node.add_child (node : ds_node) (children_ : List (String × ds_node)) :
    Except ds_error (List (String × ds_node)) :=
  if find_child node.name children_ = children_.length then
    .ok (map_insert node.name node children_)
  else .error (.child_exists node.name)

/-- The method `ds_dir_node::remove_child` (lines 873-881). -/
def ds_dir_node.remove_child (name : String) (children_ : List (String × ds_node)) :
    Except ds_error (List (String × ds_node)) :=
  if find_child name children_ ≠ children_.length then
    .ok (children_.eraseIdx (find_child name children_))
  else .error (.child_not_found name)

/-- The method `ds_dir_node::children()` (lines 1008-1014): the keys. -/
def ds_dir_node.children (children_ : List (String × ds_node)) : List String :=
  children_.map (fun entry => entry.1)

/-- The method `ds_dir_node::size()`. -/
def ds_dir_node.size (children_ : List (String × ds_node)) : Nat := children_.length

/-- The method `ds_dir_node::empty()`. -/
def ds_dir_node.empty (children_ : List (String × ds_node)) : Bool := children_.isEmpty

/-- The method `ds_dir_node::populate_entries` (lines 1058-1062): the entry of
every child is appended to `entries`, in the order of the map. -/
def ds_dir_node.populate_entries (entries : List directory_entry)
    (children_ : List (String × ds_node)) : List directory_entry :=
  children_.foldl (fun entries entry => entries ++ [entry.2.entry]) entries

/-- The method `ds_dir_node::entries()` (lines 984-990). -/
def ds_dir_node.entries (children_ : List (String × ds_node)) : List directory_entry :=
  ds_dir_node.populate_entries [] children_

mutual
/-- The body of the loop of `populate_recursive_entries` for one child: its entry
is appended, and if the child is a directory its own
`populate_recursive_entries` runs on the same vector. -/
def ds_node.populate_recursive (entries : List directory_entry) :
    ds_node → List directory_entry
  | .file name permissions last_write_time f =>
    entries ++ [(ds_node.file name permissions last_write_time f).entry]
  | .dir name permissions last_write_time children =>
    populate_recursive_entries
      (entries ++ [(ds_node.dir name permissions last_write_time children).entry]) children
/-- The method `ds_dir_node::populate_recursive_entries` (lines 1068-1075). -/
def populate_recursive_entries (entries : List directory_entry) :
    List (String × ds_node) → List directory_entry
  | [] => entries
  | (_, child) :: rest =>
    populate_recursive_entries (child.populate_recursive entries) rest
end

/-- The method `ds_dir_node::recursive_entries()` (lines 997-1002). -/
def ds_dir_node.recursive_entries (children_ : List (String × ds_node)) :
    List directory_entry :=
  populate_recursive_entries [] children_

mutual
/-- The number of nodes of the subtree of a node, the node included. -/
def ds_node.count : ds_node → Nat
  | .file _ _ _ _ => 1
  | .dir _ _ _ children => 1 + children_count children
/-- The number of nodes of the subtrees of the entries of a directory: the
number of proper descendants of the directory. -/
def children_count : List (String × ds_node) → Nat
  | [] => 0
  | (_, child) :: rest => child.count + children_count rest
end

/-- The map is one `add_child` can have built: the keys are strictly increasing
in the order of `std::string` (a `std::map` holds its entries so), and every
child is held under its name. -/
def child_map_ok (children_ : List (String × ds_node)) : Prop :=
  children_.Pairwise (fun a b => key_lt a.1 b.1 = true)
    ∧ ∀ entry ∈ children_, entry.1 = entry.2.name

/-- Adds the nodes of a list to a map, one `add_child` after the other; the
first `add_child` that throws ends it. -/
def add_children : List ds_node → List (String × ds_node) →
    Except ds_error (List (String × ds_node))
  | [], children_ => .ok children_
  | node :: nodes, children_ =>
    match ds_dir_node.add_child node children_ with
    | .error err => .error err
    | .ok added => add_children nodes added

/-! ## The sync worker -/

mutual
/-- The recursive method `sync_worker::sync_nodes(parent, parent_path, child_name,
epoch)` (`sync_worker.cpp`, lines 80-103) for the child `get_child(child_name)`
returned. The value is the list of the calls `tree_->sync(path, backing_path)` it
makes, in order. The bodies of `directory_tree::dstatus` and
`directory_tree::sync` are not part of the sources: `child_path` is the path of
`child` from the root, so `tree_->dstatus(child_path)` is the data status of
`child`. -/
def sync_nodes_child (t : flag_tests) (parent_path child_name : String) :
    ds_node → List (String × String)
  | .file _ _ _ f =>
    if f.dstatus.is_mapped t then
      [(push_path_element parent_path child_name, f.dstatus.backing_path)]
    else []
  | .dir _ _ _ children =>
    sync_nodes_children t (push_path_element parent_path child_name) children
/-- The loop `for (const auto &cname: node->children())` with the call
`sync_nodes(node, path, cname, epoch)` for every key of the map, in the order of
the map; the keys of a map are unique, so `get_child(cname)` is the node of the
entry with that key. -/
def sync_nodes_children (t : flag_tests) (parent_path : String) :
    List (String × ds_node) → List (String × String)
  | [] => []
  | (cname, child) :: rest =>
    sync_nodes_child t parent_path cname child ++ sync_nodes_children t parent_path rest
end

/-- The method `sync_worker::sync_nodes()` (lines 62-70) on the tree whose root
has the children `root_children`; `parent_path` starts empty. -/
def sync_worker.sync_nodes (t : flag_tests) (root_children : List (String × ds_node)) :
    List (String × String) :=
  sync_nodes_children t "" root_children

mutual
/-- The regular files of the subtree of a node whose path is `path`, each with
its absolute path: the path of a child is the path of its directory, `/`, and
the key of the child. Directories are walked depth first, the children in the
order of the map. -/
def ds_node.file_paths (path : String) : ds_node → List (String × ds_file_node)
  | .file _ _ _ f => [(path, f)]
  | .dir _ _ _ children => children_file_paths path children
/-- The regular files below the entries of a directory whose path is
`parent_path`. -/
def children_file_paths (parent_path : String) :
    List (String × ds_node) → List (String × ds_file_node)
  | [] => []
  | (key, child) :: rest =>
    child.file_paths (push_path_element parent_path key)
      ++ children_file_paths parent_path rest
end

/-! ## The namespace operations of `directory_tree.cpp` -/

/-- Modelled from the spec: `perms::owner_all` of `directory_ops.h`, in the
conventional owner/group/other layout of a 9-bit mode. -/
def perms.owner_all : Nat := 0o700

/-- Modelled from the spec: `perms::group_all`. -/
def perms.group_all : Nat := 0o070

/-- Modelled from the spec: `perms::others_all`. -/
def perms.others_all : Nat := 0o007

/-- Modelled from the spec: `perms::all`, the default permissions. -/
def perms.all : Nat := 0o777

/-- Modelled from the spec: `perm_options` of `directory_ops.h`, the three modes
of setting permissions. -/
inductive perm_options where
  | replace
  | add
  | remove
deriving DecidableEq

/-- The bits of `q` that are not bits of `p`: `q` AND NOT `p`. -/
def and_not (q p : Nat) : Nat := q ^^^ (q &&& p)

/-- Modelled from the spec: the permissions `directory_tree::permissions(path,
prms, opts)` (its body is in `directory_tree.cpp`, which is not part of the
sources) gives a node whose permissions are `current`: *replace* gives `prms`,
*add* the bitwise OR, *remove* the bitwise AND-NOT. -/
def apply_perm_options (current prms : Nat) : perm_options → Nat
  | .replace => prms
  | .add => current ||| prms
  | .remove => and_not current prms

/-- Replaces the node of the entry with the key `name` in a map; the key stays. -/
def map_set (name : String) (node : ds_node) (children_ : List (String × ds_node)) :
    List (String × ds_node) :=
  match children_[find_child name children_]? with
  | none => children_
  | some entry => children_.set (find_child name children_) (entry.1, node)

/-- Modelled from the spec: `directory_tree::get_node(path)` from a node (its
body is in `directory_tree.cpp`): path resolution starts at the root and walks
down, one `get_child` for each element of the path. A path is the list of its
elements (`directory_utils::path_elements`); the root is the empty list. A
missing child is *not_found*, a file with elements left is *not_directory*. -/
def get_node_in : List String → ds_node → Except ds_error ds_node
  | [], n => .ok n
  | _ :: _, .file _ _ _ _ => .error .not_directory
  | name :: rest, .dir _ _ _ children =>
    match ds_dir_node.get_child name children with
    | none => .error .not_found
    | some child => get_node_in rest child

/-- Modelled from the spec: `directory_tree::create_directories(path)` from a
node: like `mkdir -p`, it walks down the path, creates every missing directory
with the permissions `all` and the time `now`, and fails *not_directory* at a
file. -/
def create_directories_in (now : Nat) : List String → ds_node → Except ds_error ds_node
  | [], n => .ok n
  | _ :: _, .file _ _ _ _ => .error .not_directory
  | name :: rest, .dir dir_name permissions last_write_time children =>
    match ds_dir_node.get_child name children with
    | none =>
      match create_directories_in now rest (.dir name perms.all now []) with
      | .error err => .error err
      | .ok created =>
        match ds_dir_node.add_child created children with
        | .error err => .error err
        | .ok added => .ok (.dir dir_name permissions last_write_time added)
    | some child =>
      if child.is_directory then
        match create_directories_in now rest child with
        | .error err => .error err
        | .ok created =>
          .ok (.dir dir_name permissions last_write_time (map_set name created children))
      else .error .not_directory

/-- Modelled from the spec: `directory_tree::create_directory(path)` from a node:
*not_found* if the parent is missing, *not_directory* if an ancestor is a file,
*exists* if the path is present; otherwise the parent gets a new directory with
the permissions `all` and the time `now`. -/
def create_directory_in (now : Nat) : List String → ds_node → Except ds_error ds_node
  | [], _ => .error .path_exists
  | _ :: _, .file _ _ _ _ => .error .not_directory
  | [name], .dir dir_name permissions last_write_time children =>
    match ds_dir_node.get_child name children with
    | some _ => .error .path_exists
    | none =>
      match ds_dir_node.add_child (.dir name perms.all now []) children with
      | .error err => .error err
      | .ok added => .ok (.dir dir_name permissions last_write_time added)
  | name :: next :: rest, .dir dir_name permissions last_write_time children =>
    match ds_dir_node.get_child name children with
    | none => .error .not_found
    | some child =>
      match create_directory_in now (next :: rest) child with
      | .error err => .error err
      | .ok created =>
        .ok (.dir dir_name permissions last_write_time (map_set name created children))

/-- Modelled from the spec: a namespace operation that changes the node at a
path, from a node: the path is resolved as in `get_node` and the node found is
replaced by its image under `g`. -/
def update_node_in (g : ds_node → ds_node) : List String → ds_node → Except ds_error ds_node
  | [], n => .ok (g n)
  | _ :: _, .file _ _ _ _ => .error .not_directory
  | name :: rest, .dir dir_name permissions last_write_time children =>
    match ds_dir_node.get_child name children with
    | none => .error .not_found
    | some child =>
      match update_node_in g rest child with
      | .error err => .error err
      | .ok updated =>
        .ok (.dir dir_name permissions last_write_time (map_set name updated children))

/-- The blocks of a file: the blocks of its chains, chain after chain. -/
def ds_file_node.blocks (f : ds_file_node) : List String :=
  f.dstatus.data_blocks.flatMap (fun block => block.block_names)

/-- Modelled from the spec: `directory_tree::remove(path)` from a node: it
refuses a directory that is not empty (*directory_not_empty*), the root
included; otherwise it takes the entry out of its parent with `remove_child`,
and for a file it resets all blocks and frees them. The root has no parent and
exists always, so it stays in place; what `remove` returns for a root with no
entry is not said, and is the parameter `root_ret`. -/
def remove_in (root_ret : Except ds_error Unit) :
    List String → ds_node → clear_outcome ds_node (Except ds_error Unit)
  | [], .dir dir_name permissions last_write_time children =>
    if ds_dir_node.empty children then
      ⟨.dir dir_name permissions last_write_time children, [], [], root_ret⟩
    else
      ⟨.dir dir_name permissions last_write_time children, [], [],
        .error .directory_not_empty⟩
  | [], .file name permissions last_write_time f =>
    ⟨.file name permissions last_write_time f, [], [], root_ret⟩
  | _ :: _, .file name permissions last_write_time f =>
    ⟨.file name permissions last_write_time f, [], [], .error .not_directory⟩
  | [name], .dir dir_name permissions last_write_time children =>
    match ds_dir_node.get_child name children with
    | none => ⟨.dir dir_name permissions last_write_time children, [], [], .error .not_found⟩
    | some (.dir _ _ _ sub) =>
      if ds_dir_node.empty sub then
        match ds_dir_node.remove_child name children with
        | .error err =>
          ⟨.dir dir_name permissions last_write_time children, [], [], .error err⟩
        | .ok removed => ⟨.dir dir_name permissions last_write_time removed, [], [], .ok ()⟩
      else
        ⟨.dir dir_name permissions last_write_time children, [], [],
          .error .directory_not_empty⟩
    | some (.file _ _ _ f) =>
      match ds_dir_node.remove_child name children with
      | .error err =>
        ⟨.dir dir_name permissions last_write_time children, [], [], .error err⟩
      | .ok removed =>
        ⟨.dir dir_name permissions last_write_time removed,
          f.blocks.map call.reset ++ [.free f.blocks], f.blocks, .ok ()⟩
  | name :: next :: rest, .dir dir_name permissions last_write_time children =>
    match ds_dir_node.get_child name children with
    | none => ⟨.dir dir_name permissions last_write_time children, [], [], .error .not_found⟩
    | some child =>
      ⟨match (remove_in root_ret (next :: rest) child).ret with
        | .error _ => .dir dir_name permissions last_write_time children
        | .ok _ =>
          .dir dir_name permissions last_write_time
            (map_set name (remove_in root_ret (next :: rest) child).node children),
        (remove_in root_ret (next :: rest) child).calls,
        (remove_in root_ret (next :: rest) child).cleared_blocks,
        (remove_in root_ret (next :: rest) child).ret⟩

/-- Modelled from the spec: the namespace tree `directory_tree`, as its root
directory node `root_` (name `/`); the allocator and the storage manager are
external. -/
structure directory_tree where
  root_ : ds_node

/-- Modelled from the spec: `directory_tree::exists(path)`. -/
def directory_tree.exists (t : directory_tree) (path : List String) : Bool :=
  match get_node_in path t.root_ with
  | .ok _ => true
  | .error _ => false

/-- Modelled from the spec: `directory_tree::is_directory(path)`; *not_found*
when the path is absent. -/
def directory_tree.is_directory (t : directory_tree) (path : List String) :
    Except ds_error Bool :=
  match get_node_in path t.root_ with
  | .ok n => .ok n.is_directory
  | .error err => .error err

/-- Modelled from the spec: `directory_tree::create_directories(path)`. -/
def directory_tree.create_directories (now : Nat) (path : List String) (t : directory_tree) :
    Except ds_error directory_tree :=
  match create_directories_in now path t.root_ with
  | .ok root => .ok ⟨root⟩
  | .error err => .error err

/-- Modelled from the spec: `directory_tree::create_directory(path)`. -/
def directory_tree.create_directory (now : Nat) (path : List String) (t : directory_tree) :
    Except ds_error directory_tree :=
  match create_directory_in now path t.root_ with
  | .ok root => .ok ⟨root⟩
  | .error err => .error err

/-- Modelled from the spec: `directory_tree::permissions(path, prms, opts)`: the
node at the path gets, through the setter `ds_node::permissions(prms)`, the
permissions the mode gives. -/
def directory_tree.permissions (path : List String) (prms : Nat) (opts : perm_options)
    (t : directory_tree) : Except ds_error directory_tree :=
  match update_node_in
      (fun n => n.set_permissions (apply_perm_options n.permissions prms opts)) path
      t.root_ with
  | .ok root => .ok ⟨root⟩
  | .error err => .error err

/-- Modelled from the spec: `directory_tree::remove(path)`; the node of the
outcome is the tree as the operation leaves it, and `root_ret` is what the
operation returns for a root with no entry. -/
def directory_tree.remove (root_ret : Except ds_error Unit) (path : List String)
    (t : directory_tree) : clear_outcome directory_tree (Except ds_error Unit) :=
  ⟨⟨(remove_in root_ret path t.root_).node⟩, (remove_in root_ret path t.root_).calls,
    (remove_in root_ret path t.root_).cleared_blocks, (remove_in root_ret path t.root_).ret⟩

/-- The tree with an empty root directory. -/
def directory_tree.empty (now : Nat) : directory_tree := ⟨.dir "/" perms.all now []⟩

mutual
/-- Every map of the subtree of a node is in order (`child_map_ok`). -/
def ds_node.maps_ok : ds_node → Prop
  | .file _ _ _ _ => True
  | .dir _ _ _ children => child_map_ok children ∧ children_maps_ok children
/-- Every map below the entries of a directory is in order. -/
def children_maps_ok : List (String × ds_node) → Prop
  | [] => True
  | (_, child) :: rest => child.maps_ok ∧ children_maps_ok rest
end

/-! ## The calls of the setups and of load, block by block -/

/-- The role of the block at position `j` of a chain of `n` blocks, in the words
of the specification: singleton in a chain of length 1; otherwise head for the
first block, tail for the last and mid for every block in between. -/
def spec_role (j n : Nat) : chain_role :=
  if n = 1 then .singleton
  else if j = 0 then .head
  else if j + 1 = n then .tail
  else .mid

/-- The storage calls of a split setup in the words of the specification: one
`setup_and_set_importing` for each block of the recipient, head to tail, with the
range `[slot_begin, slot_end]`, the block list of the recipient, the role of the
position and the block that follows (`"nil"` after the last); then one
`set_exporting` for each block of the donor, in order, with the recipient as
target and the same range. -/
def spec_split_calls (path : String) (donor recipient : List String)
    (slot_begin slot_end : Int) : List call :=
  recipient.enum.map (fun p =>
      call.setup_and_set_importing p.2 path slot_begin slot_end recipient
        (spec_role p.1 recipient.length) (recipient.getD (p.1 + 1) "nil"))
    ++ donor.map (fun block => call.set_exporting block recipient slot_begin slot_end)

/-- The storage calls of a merge setup in the words of the specification: one
`set_importing` for each block of the partner, in chain order, then one
`set_exporting` for each block of the donor, in chain order, with the partner as
target. -/
def spec_merge_calls (donor partner : List String) (slot_begin slot_end : Int) : List call :=
  partner.map (fun block => call.set_importing block slot_begin slot_end)
    ++ donor.map (fun block => call.set_exporting block partner slot_begin slot_end)

/-- The storage calls of `load` for one chain in the words of the specification:
for each block, head to tail, a `setup_block` with the file path, the slot range,
the block list of the chain, `auto_scale`, the role of the position and the
block that follows (`"nil"` after the last), and right after it the `load` of
that block from `backing_path / "{slot_begin}_{slot_end}"`. -/
def spec_load_calls (path backing_path : String) (blocks : List String)
    (slot_range : Int × Int) (auto_scale : Bool) : List call :=
  blocks.enum.flatMap (fun p =>
    [ call.setup_block p.2 path slot_range.1 slot_range.2 blocks auto_scale
        (spec_role p.1 blocks.length) (blocks.getD (p.1 + 1) "nil"),
      call.load p.2
        (push_path_element backing_path
          (toString slot_range.1 ++ "_" ++ toString slot_range.2)) ])

/-- The value is one an `int32_t` holds. -/
def in_int32 (x : Int) : Prop := -(2 ^ 31) ≤ x ∧ x < 2 ^ 31

instance in_int32_decidable (x : Int) : Decidable (in_int32 x) :=
  inferInstanceAs (Decidable (_ ∧ _))

/-- The number of slots of the inclusive range `[slot_begin, slot_end]`. -/
def slot_count (slot_begin slot_end : Int) : Int := slot_end - slot_begin + 1

/-! ## Maps of children built by `add_child` and `remove_child` -/

/-- The maps of children a directory can hold: the empty map of a new directory
(`children_{}`), and every map a successful `add_child` or `remove_child` leaves
from one of them. -/
inductive children_reachable : List (String × ds_node) → Prop
  | empty : children_reachable []
  | add (node : ds_node) (children_ added : List (String × ds_node)) :
      children_reachable children_ →
      ds_dir_node.add_child node children_ = .ok added →
      children_reachable added
  | remove (name : String) (children_ removed : List (String × ds_node)) :
      children_reachable children_ →
      ds_dir_node.remove_child name children_ = .ok removed →
      children_reachable removed

/-! ## The backing paths of dump and of load -/

/-- The backing paths the `storage->dump` calls of a sequence of calls write to,
in order. -/
def dump_paths : List call → List String
  | [] => []
  | .dump _ backing_path :: cs => backing_path :: dump_paths cs
  | _ :: cs => dump_paths cs

/-- The backing paths the `storage->load` calls of a sequence of calls read from,
in order. -/
def load_paths : List call → List String
  | [] => []
  | .load _ backing_path :: cs => backing_path :: load_paths cs
  | _ :: cs => load_paths cs

/-- The slot ranges the `storage->setup_block` calls of a sequence of calls pass,
in order. -/
def setup_block_ranges : List call → List (Int × Int)
  | [] => []
  | .setup_block _ _ slot_begin slot_end _ _ _ _ :: cs =>
    (slot_begin, slot_end) :: setup_block_ranges cs
  | _ :: cs => setup_block_ranges cs

/-! ## The RPC type conversions (`libelasticmem`, `directory_type_conversions.h`) -/

/-- The conversion of an unsigned value to `int64_t` (the assignment of a
`uint64_t` to an `i64` field). -/
def to_int64 (x : Nat) : Int :=
  if x % 2 ^ 64 < 2 ^ 63 then ((x % 2 ^ 64 : Nat) : Int) else ((x % 2 ^ 64 : Nat) : Int) - 2 ^ 64

/-- The conversion `static_cast<uint16_t>` of a signed value. -/
def to_uint16 (v : Int) : Nat := (v % 2 ^ 16).toNat

/-- The conversion `static_cast<uint64_t>` of a signed value (`std::size_t` has
64 bits as well). -/
def to_uint64 (v : Int) : Nat := (v % 2 ^ 64).toNat

/-- The enumerators of `file_type`. -/
def file_type.all : List file_type := [.regular, .directory]

/-- The enumerators of `storage_mode`. -/
def storage_mode.all : List storage_mode := [.in_memory, .in_memory_grace, .flushing, .on_disk]

/-- The conversion `static_cast<file_type>(v)`: the enumerator whose value is `v`.
The values of the enumerators are declared in `directory_ops.h`, which is not
part of the sources; they are the parameter `value`. A `v` that is the value of
no enumerator has no counterpart in `file_type`. -/
def file_type.of_value (value : file_type → Int) (v : Int) : Option file_type :=
  file_type.all.find? (fun t => decide (value t = v))

/-- The conversion `static_cast<storage_mode>(v)`: the enumerator whose value is
`v`; the values of the enumerators are the parameter `value`. -/
def storage_mode.of_value (value : storage_mode → Int) (v : Int) : Option storage_mode :=
  storage_mode.all.find? (fun t => decide (value t = v))

/-- The type `block_chain` of `libelasticmem`, as `directory_type_conversions.h`
builds it (`block_chain{blk.block_names}`): the block names of a chain. -/
structure block_chain where
  block_names : List String
deriving DecidableEq

/-- The type `data_status` of `libelasticmem`, as `directory_type_conversions.h`
builds and reads it: the storage mode, the persistent store prefix, the chain
length (a `std::size_t`) and the chains. -/
structure elasticmem.data_status where
  mode : storage_mode
  persistent_store_prefix : String
  chain_length : Nat
  data_blocks : List block_chain
deriving DecidableEq

/-- The Thrift type `rpc_block_chain`. -/
structure rpc_block_chain where
  block_names : List String
deriving DecidableEq

/-- The Thrift type `rpc_data_status`; the storage mode is the value of the
enumerator, the chain length an `i32`. -/
structure rpc_data_status where
  storage_mode : Int
  persistent_store_prefix : String
  chain_length : Int
  data_blocks : List rpc_block_chain
deriving DecidableEq

/-- The Thrift type `rpc_file_status`; the type is the value of the enumerator,
the permissions an `i32` and the last write time an `i64` (Thrift has no unsigned
types). -/
structure rpc_file_status where
  type : Int
  permissions : Int
  last_write_time : Int
deriving DecidableEq

/-- The Thrift type `rpc_dir_entry`. -/
structure rpc_dir_entry where
  name : String
  status : rpc_file_status
deriving DecidableEq

/-- The function `to_rpc(const data_status &)` (lines 12-23). -/
def directory_type_conversions.to_rpc_data_status (mode_value : storage_mode → Int)
    (status : elasticmem.data_status) : rpc_data_status :=
  ⟨mode_value status.mode, status.persistent_store_prefix, to_int32 status.chain_length,
    status.data_blocks.map (fun blk => ⟨blk.block_names⟩)⟩

/-- The function `to_rpc(const file_status &)` (lines 25-31). -/
def directory_type_conversions.to_rpc_file_status (type_value : file_type → Int)
    (status : file_status) : rpc_file_status :=
  ⟨type_value status.type, to_int32 status.permissions, to_int64 status.last_write_time⟩

/-- The function `to_rpc(const directory_entry &)` (lines 33-40). -/
def directory_type_conversions.to_rpc_dir_entry (type_value : file_type → Int)
    (entry : directory_entry) : rpc_dir_entry :=
  ⟨entry.name,
    ⟨type_value entry.status.type, to_int32 entry.status.permissions,
      to_int64 entry.status.last_write_time⟩⟩

/-- The function `from_rpc(const rpc_data_status &)` (lines 42-51). -/
def directory_type_conversions.from_rpc_data_status (mode_value : storage_mode → Int)
    (rpc : rpc_data_status) : Option elasticmem.data_status :=
  (storage_mode.of_value mode_value rpc.storage_mode).map (fun mode =>
    ⟨mode, rpc.persistent_store_prefix, to_uint64 rpc.chain_length,
      rpc.data_blocks.map (fun blk => ⟨blk.block_names⟩)⟩)

/-- The function `from_rpc(const rpc_file_status &)` (lines 53-57). -/
def directory_type_conversions.from_rpc_file_status (type_value : file_type → Int)
    (rpc : rpc_file_status) : Option file_status :=
  (file_type.of_value type_value rpc.type).map (fun type =>
    ⟨type, to_uint16 rpc.permissions, to_uint64 rpc.last_write_time⟩)

/-- The function `from_rpc(const rpc_dir_entry &)` (lines 59-61). -/
def directory_type_conversions.from_rpc_dir_entry (type_value : file_type → Int)
    (rpc : rpc_dir_entry) : Option directory_entry :=
  (directory_type_conversions.from_rpc_file_status type_value rpc.status).map (fun status =>
    ⟨rpc.name, status⟩)

/-- Sample values of the enumerators of `file_type`. -/
def sample_type_value : file_type → Int
  | .regular => 1
  | .directory => 2

/-- Sample values of the enumerators of `storage_mode`. -/
def sample_mode_value : storage_mode → Int
  | .in_memory => 0
  | .in_memory_grace => 1
  | .flushing => 2
  | .on_disk => 3

/-! ## Partitions of the slot space, chain by chain -/

/-- The ranges, in list order, cover the slots from `s` up to, not including,
`t`, with no gap and no overlap: the first range begins at `s`, each range
begins one past the end of the one before, and the last one ends at `t - 1`. A
range `[b, b - 1]` holds no slot. -/
def covers (s t : Int) : List (Int × Int) → Prop
  | [] => s = t
  | r :: rs => r.1 = s ∧ r.1 ≤ r.2 + 1 ∧ covers (r.2 + 1) t rs

/-- Deciding `covers` by walking the list. -/
instance covers_decidable : (s t : Int) → (rs : List (Int × Int)) → Decidable (covers s t rs)
  | s, t, [] => inferInstanceAs (Decidable (s = t))
  | s, t, r :: rs =>
    have := covers_decidable (r.2 + 1) t rs
    inferInstanceAs (Decidable (r.1 = s ∧ r.1 ≤ r.2 + 1 ∧ covers (r.2 + 1) t rs))

/-- The slot ranges of the chains partition `[0, SLOT_MAX]` among the chains:
in the order of the data status the ranges cover `[0, SLOT_MAX]` with no gap and
no overlap, and the end of every range is a slot. Every slot then lies in
exactly one chain; a chain may hold no slot. -/
def slot_partition (SLOT_MAX : Nat) (chains : List replica_chain) : Prop :=
  covers 0 ((SLOT_MAX : Int) + 1) (chains.map (fun c => c.slot_range))
    ∧ ∀ c ∈ chains, 0 ≤ c.slot_range.2

instance slot_partition_decidable (SLOT_MAX : Nat) (chains : List replica_chain) :
    Decidable (slot_partition SLOT_MAX chains) :=
  inferInstanceAs (Decidable (_ ∧ _))

/-! ## Lists: searching and updating in place -/

theorem findIdx_append_cons {α : Type} (p : α → Bool) (pre : List α) (d : α) (post : List α)
    (hpre : ∀ c ∈ pre, p c = false) (hd : p d = true) :
    (pre ++ d :: post).findIdx p = pre.length := by
  induction pre with
  | nil => simp [List.findIdx_cons, hd]
  | cons a pre ih =>
    have ha : p a = false := hpre a (List.mem_cons_self _ _)
    have ih2 := ih (fun c hc => hpre c (List.mem_cons_of_mem _ hc))
    simp [List.findIdx_cons, ha, ih2]

theorem findIdx_decompose {α : Type} (p : α → Bool) (l : List α)
    (h : l.findIdx p ≠ l.length) :
    ∃ pre d post, l = pre ++ d :: post ∧ pre.length = l.findIdx p
      ∧ (∀ c ∈ pre, p c = false) ∧ p d = true := by
  induction l with
  | nil => simp at h
  | cons a l ih =>
    by_cases ha : p a = true
    · exact ⟨[], a, l, by simp, by simp [List.findIdx_cons, ha], by simp, ha⟩
    · have ha2 : p a = false := by simpa using ha
      have h2 : l.findIdx p ≠ l.length := by
        intro hc
        apply h
        simp [List.findIdx_cons, ha2, hc]
      obtain ⟨pre, d, post, hl, hlen, hpre, hd⟩ := ih h2
      refine ⟨a :: pre, d, post, by simp [hl], by simp [List.findIdx_cons, ha2, hlen], ?_, hd⟩
      intro c hc
      rcases List.mem_cons.mp hc with rfl | hc
      · exact ha2
      · exact hpre c hc

theorem getElem?_append_cons_length {α : Type} (pre : List α) (d : α) (post : List α) :
    (pre ++ d :: post)[pre.length]? = some d := by
  rw [List.getElem?_append_right (le_refl _)]
  simp

theorem modify_chain_append (g : replica_chain → replica_chain) (pre : List replica_chain)
    (d : replica_chain) (post : List replica_chain) :
    modify_chain g pre.length (pre ++ d :: post) = pre ++ g d :: post := by
  unfold modify_chain
  rw [getElem?_append_cons_length]
  simp

theorem find_slot_range_append (pre : List replica_chain) (d : replica_chain)
    (post : List replica_chain) (b e : Int)
    (hpre : ∀ c ∈ pre, c.slot_range ≠ (b, e)) (hd : d.slot_range = (b, e)) :
    find_slot_range (pre ++ d :: post) b e = pre.length := by
  apply findIdx_append_cons
  · intro c hc
    have := hpre c hc
    simp only [replica_chain.slot_begin, replica_chain.slot_end, Bool.and_eq_false_iff, decide_eq_false_iff_not]
    by_contra hcon
    push_neg at hcon
    exact this (Prod.ext hcon.1 hcon.2)
  · simp [replica_chain.slot_begin, replica_chain.slot_end, hd]

theorem find_slot_range_decompose (l : List replica_chain) (b e : Int)
    (h : find_slot_range l b e ≠ l.length) :
    ∃ pre d post, l = pre ++ d :: post ∧ pre.length = find_slot_range l b e
      ∧ (∀ c ∈ pre, c.slot_range ≠ (b, e)) ∧ d.slot_range = (b, e) := by
  obtain ⟨pre, d, post, hl, hlen, hpre, hd⟩ := findIdx_decompose _ l h
  refine ⟨pre, d, post, hl, hlen, ?_, ?_⟩
  · intro c hc hr
    have := hpre c hc
    simp [replica_chain.slot_begin, replica_chain.slot_end, hr] at this
  · simp only [replica_chain.slot_begin, replica_chain.slot_end, Bool.and_eq_true, decide_eq_true_eq] at hd
    exact Prod.ext hd.1 hd.2

/-! ## What each step does, on a data status split around the chain it works on -/

theorem status_cases (s : chain_status) (h1 : s ≠ .exporting) (h2 : s ≠ .importing) :
    s = .stable := by
  cases s <;> simp_all

theorem same_chain_iff (a b : replica_chain) :
    a.same_chain b = true ↔ a.block_names = b.block_names := by
  simp [replica_chain.same_chain]

theorem setup_slot_range_split_spec (SLOT_MAX : Nat)
    (allocate : Nat → Except ds_error (List String)) (path : String) (b e : Int)
    (f : ds_file_node) (pre : List replica_chain) (d : replica_chain)
    (post : List replica_chain) (names : List String)
    (hl : f.dstatus.data_blocks = pre ++ d :: post)
    (hpre : ∀ c ∈ pre, c.slot_range ≠ (b, e)) (hd : d.slot_range = (b, e))
    (hcap : f.dstatus.data_blocks.length ≠ SLOT_MAX) (hst : d.status = .stable)
    (ha : allocate f.dstatus.chain_length = .ok names) :
    f.setup_slot_range_split SLOT_MAX allocate path b e =
      ⟨⟨{ f.dstatus with data_blocks := pre ++ { d with status := .exporting } :: post },
          f.adding ++ [⟨names, (slot_mid b e + 1, e), .stable, .in_memory⟩]⟩,
        .allocate f.dstatus.chain_length
          :: split_calls path { d with status := .exporting }
              ⟨names, (slot_mid b e + 1, e), .stable, .in_memory⟩ (slot_mid b e) e
              f.dstatus.chain_length,
        .ok ⟨{ d with status := .exporting },
          ⟨names, (slot_mid b e + 1, e), .stable, .in_memory⟩⟩⟩ := by
  have hidx : find_slot_range f.dstatus.data_blocks b e = pre.length := by
    rw [hl]; exact find_slot_range_append pre d post b e hpre hd
  have hne : pre.length ≠ f.dstatus.data_blocks.length := by
    rw [hl]; simp
  unfold ds_file_node.setup_slot_range_split
  rw [if_neg hcap]
  simp only [hidx, if_neg hne]
  have hget : f.dstatus.get_data_block_status pre.length = some .stable := by
    unfold data_status.get_data_block_status
    rw [hl, getElem?_append_cons_length]
    simp [hst]
  rw [hget]
  simp only [data_status.set_data_block_status, hl, modify_chain_append,
    getElem?_append_cons_length, ha]
  simp

theorem setup_slot_range_split_not_found (SLOT_MAX : Nat)
    (allocate : Nat → Except ds_error (List String)) (path : String) (b e : Int)
    (f : ds_file_node) (hcap : f.dstatus.data_blocks.length ≠ SLOT_MAX)
    (hno : ∀ c ∈ f.dstatus.data_blocks, c.slot_range ≠ (b, e)) :
    f.setup_slot_range_split SLOT_MAX allocate path b e =
      ⟨f, [], .error (.no_block_with_slot_range b e)⟩ := by
  have hidx : find_slot_range f.dstatus.data_blocks b e = f.dstatus.data_blocks.length := by
    by_contra hne
    obtain ⟨pre, d, post, hl, -, -, hd⟩ := find_slot_range_decompose _ b e hne
    exact hno d (by rw [hl]; simp) hd
  unfold ds_file_node.setup_slot_range_split
  rw [if_neg hcap]
  simp only [hidx, if_true]

theorem setup_slot_range_split_busy (SLOT_MAX : Nat)
    (allocate : Nat → Except ds_error (List String)) (path : String) (b e : Int)
    (f : ds_file_node) (pre : List replica_chain) (d : replica_chain)
    (post : List replica_chain)
    (hl : f.dstatus.data_blocks = pre ++ d :: post)
    (hpre : ∀ c ∈ pre, c.slot_range ≠ (b, e)) (hd : d.slot_range = (b, e))
    (hcap : f.dstatus.data_blocks.length ≠ SLOT_MAX) (hst : d.status ≠ .stable) :
    f.setup_slot_range_split SLOT_MAX allocate path b e = ⟨f, [], .error .busy⟩ := by
  have hidx : find_slot_range f.dstatus.data_blocks b e = pre.length := by
    rw [hl]; exact find_slot_range_append pre d post b e hpre hd
  have hne : pre.length ≠ f.dstatus.data_blocks.length := by
    rw [hl]; simp
  unfold ds_file_node.setup_slot_range_split
  rw [if_neg hcap]
  simp only [hidx, if_neg hne]
  have hget : f.dstatus.get_data_block_status pre.length = some d.status := by
    unfold data_status.get_data_block_status
    rw [hl, getElem?_append_cons_length]
    simp
  rw [hget]
  have hbusy : some d.status = some chain_status.exporting
      ∨ some d.status = some chain_status.importing := by
    cases hs : d.status <;> simp_all
  rw [if_pos hbusy]

theorem setup_slot_range_split_alloc_error (SLOT_MAX : Nat)
    (allocate : Nat → Except ds_error (List String)) (path : String) (b e : Int)
    (f : ds_file_node) (pre : List replica_chain) (d : replica_chain)
    (post : List replica_chain) (err : ds_error)
    (hl : f.dstatus.data_blocks = pre ++ d :: post)
    (hpre : ∀ c ∈ pre, c.slot_range ≠ (b, e)) (hd : d.slot_range = (b, e))
    (hcap : f.dstatus.data_blocks.length ≠ SLOT_MAX) (hst : d.status = .stable)
    (ha : allocate f.dstatus.chain_length = .error err) :
    f.setup_slot_range_split SLOT_MAX allocate path b e =
      ⟨⟨{ f.dstatus with data_blocks := pre ++ { d with status := .exporting } :: post },
          f.adding⟩,
        [.allocate f.dstatus.chain_length], .error err⟩ := by
  have hidx : find_slot_range f.dstatus.data_blocks b e = pre.length := by
    rw [hl]; exact find_slot_range_append pre d post b e hpre hd
  have hne : pre.length ≠ f.dstatus.data_blocks.length := by
    rw [hl]; simp
  unfold ds_file_node.setup_slot_range_split
  rw [if_neg hcap]
  simp only [hidx, if_neg hne]
  have hget : f.dstatus.get_data_block_status pre.length = some .stable := by
    unfold data_status.get_data_block_status
    rw [hl, getElem?_append_cons_length]
    simp [hst]
  rw [hget]
  simp only [data_status.set_data_block_status, hl, modify_chain_append,
    getElem?_append_cons_length, ha]
  simp

/-- A split setup that returns a context found a stable donor with exactly the
requested range, below capacity, and the allocation succeeded. -/
theorem setup_slot_range_split_ok (SLOT_MAX : Nat)
    (allocate : Nat → Except ds_error (List String)) (path : String) (b e : Int)
    (f : ds_file_node) (ctx : export_ctx)
    (h : (f.setup_slot_range_split SLOT_MAX allocate path b e).ret = .ok ctx) :
    ∃ pre d post names, f.dstatus.data_blocks = pre ++ d :: post
      ∧ (∀ c ∈ pre, c.slot_range ≠ (b, e)) ∧ d.slot_range = (b, e)
      ∧ f.dstatus.data_blocks.length ≠ SLOT_MAX ∧ d.status = .stable
      ∧ allocate f.dstatus.chain_length = .ok names := by
  by_cases hcap : f.dstatus.data_blocks.length = SLOT_MAX
  · simp [ds_file_node.setup_slot_range_split, hcap] at h
  by_cases hidx : find_slot_range f.dstatus.data_blocks b e = f.dstatus.data_blocks.length
  · simp [ds_file_node.setup_slot_range_split, hcap, hidx] at h
  obtain ⟨pre, d, post, hl, -, hpre, hd⟩ := find_slot_range_decompose _ b e hidx
  by_cases hst : d.status = .stable
  · cases ha : allocate f.dstatus.chain_length with
    | error err =>
      rw [setup_slot_range_split_alloc_error SLOT_MAX allocate path b e f pre d post err hl hpre
        hd hcap hst ha] at h
      simp at h
    | ok names => exact ⟨pre, d, post, names, hl, hpre, hd, hcap, hst, rfl⟩
  · rw [setup_slot_range_split_busy SLOT_MAX allocate path b e f pre d post hl hpre hd hcap
      hst] at h
    simp at h

theorem decompose_at {α : Type} (l : List α) (i : Nat) (d : α) (h : l[i]? = some d) :
    ∃ pre post, l = pre ++ d :: post ∧ pre.length = i := by
  induction l generalizing i with
  | nil => simp at h
  | cons a l ih =>
    cases i with
    | zero =>
      simp at h
      exact ⟨[], l, by simp [h], rfl⟩
    | succ i =>
      simp at h
      obtain ⟨pre, post, hl, hlen⟩ := ih i h
      exact ⟨a :: pre, post, by simp [hl], by simp [hlen]⟩

theorem modify_chain_getElem? (g : replica_chain → replica_chain) (i : Nat)
    (l : List replica_chain) : (modify_chain g i l)[i]? = (l[i]?).map g := by
  unfold modify_chain
  cases h : l[i]? with
  | none => simp [h]
  | some c =>
    have hlt : i < l.length := by
      by_contra hge
      rw [List.getElem?_eq_none (by omega)] at h
      simp at h
    simp [List.getElem?_set, hlt]

theorem setup_add_block_spec (SLOT_MAX : Nat) (storage_size : String → Nat)
    (allocate : Nat → Except ds_error (List String)) (path : String)
    (f : ds_file_node) (pre : List replica_chain) (d : replica_chain)
    (post : List replica_chain) (names : List String)
    (hl : f.dstatus.data_blocks = pre ++ d :: post)
    (hpos : largest_pos f.dstatus
      (f.dstatus.data_blocks.map (fun block => storage_size block.tail)) = pre.length)
    (hcap : f.dstatus.data_blocks.length ≠ SLOT_MAX)
    (ha : allocate f.dstatus.chain_length = .ok names) :
    f.setup_add_block SLOT_MAX storage_size allocate path =
      ⟨⟨{ f.dstatus with data_blocks := pre ++ { d with status := .exporting } :: post },
          f.adding ++ [⟨names, (slot_mid d.slot_range.1 d.slot_range.2 + 1, d.slot_range.2),
            .stable, .in_memory⟩]⟩,
        f.dstatus.data_blocks.map (fun block => call.storage_size block.tail)
          ++ .allocate f.dstatus.chain_length
          :: split_calls path { d with status := .exporting }
              ⟨names, (slot_mid d.slot_range.1 d.slot_range.2 + 1, d.slot_range.2),
                .stable, .in_memory⟩
              (slot_mid d.slot_range.1 d.slot_range.2) d.slot_range.2 f.dstatus.chain_length,
        .ok ⟨{ d with status := .exporting },
          ⟨names, (slot_mid d.slot_range.1 d.slot_range.2 + 1, d.slot_range.2),
            .stable, .in_memory⟩⟩⟩ := by
  unfold ds_file_node.setup_add_block
  rw [if_neg hcap]
  simp only [hpos]
  simp only [data_status.set_data_block_status, hl, modify_chain_append,
    getElem?_append_cons_length, ha]

/-- An add-block setup that returns a context worked, below capacity, on the
chain at the index the size loop computed, and the allocation succeeded. -/
theorem setup_add_block_ok (SLOT_MAX : Nat) (storage_size : String → Nat)
    (allocate : Nat → Except ds_error (List String)) (path : String)
    (f : ds_file_node) (ctx : export_ctx)
    (h : (f.setup_add_block SLOT_MAX storage_size allocate path).ret = .ok ctx) :
    ∃ pre d post names, f.dstatus.data_blocks = pre ++ d :: post
      ∧ largest_pos f.dstatus
          (f.dstatus.data_blocks.map (fun block => storage_size block.tail)) = pre.length
      ∧ f.dstatus.data_blocks.length ≠ SLOT_MAX
      ∧ allocate f.dstatus.chain_length = .ok names := by
  by_cases hcap : f.dstatus.data_blocks.length = SLOT_MAX
  · simp [ds_file_node.setup_add_block, hcap] at h
  cases hget : f.dstatus.data_blocks[largest_pos f.dstatus
      (f.dstatus.data_blocks.map (fun block => storage_size block.tail))]? with
  | none =>
    simp [ds_file_node.setup_add_block, hcap, data_status.set_data_block_status,
      modify_chain_getElem?, hget] at h
  | some d =>
    obtain ⟨pre, post, hl, hlen⟩ := decompose_at _ _ d hget
    cases ha : allocate f.dstatus.chain_length with
    | error err =>
      simp [ds_file_node.setup_add_block, hcap, data_status.set_data_block_status,
        modify_chain_getElem?, hget, ha] at h
    | ok names => exact ⟨pre, d, post, names, hl, hlen.symm, hcap, rfl⟩

theorem find_replica_chain_append (d0 : data_status) (pre : List replica_chain)
    (d : replica_chain) (post : List replica_chain) (c : replica_chain)
    (hl : d0.data_blocks = pre ++ d :: post)
    (hpre : ∀ x ∈ pre, x.block_names ≠ c.block_names)
    (hd : d.block_names = c.block_names) :
    d0.find_replica_chain c = .ok pre.length := by
  have hidx : d0.data_blocks.findIdx (fun x => x.same_chain c) = pre.length := by
    rw [hl]
    apply findIdx_append_cons
    · intro x hx
      simpa [replica_chain.same_chain] using hpre x hx
    · simpa [replica_chain.same_chain] using hd
  unfold data_status.find_replica_chain
  simp only [hidx]
  rw [if_neg (by rw [hl]; simp)]

theorem find_replica_chain_ok (d0 : data_status) (c : replica_chain) (i : Nat)
    (h : d0.find_replica_chain c = .ok i) :
    ∃ pre d post, d0.data_blocks = pre ++ d :: post ∧ pre.length = i
      ∧ (∀ x ∈ pre, x.block_names ≠ c.block_names) ∧ d.block_names = c.block_names := by
  unfold data_status.find_replica_chain at h
  by_cases hidx : d0.data_blocks.findIdx (fun x => x.same_chain c) = d0.data_blocks.length
  · simp [hidx] at h
  · simp only [if_neg hidx] at h
    obtain ⟨pre, d, post, hl, hlen, hpre, hd⟩ := findIdx_decompose _ _ hidx
    refine ⟨pre, d, post, hl, ?_, ?_, ?_⟩
    · rw [hlen]; exact Except.ok.inj h
    · intro x hx
      simpa [replica_chain.same_chain] using hpre x hx
    · simpa [replica_chain.same_chain] using hd

theorem eraseIdx_append_cons {α : Type} (a1 : List α) (r : α) (a2 : List α) :
    (a1 ++ r :: a2).eraseIdx a1.length = a1 ++ a2 := by
  induction a1 with
  | nil => simp
  | cons a a1 ih => simp [ih]

theorem finalize_slot_range_split_spec (ctx : export_ctx) (f : ds_file_node)
    (pre : List replica_chain) (d : replica_chain) (post : List replica_chain)
    (a1 : List replica_chain) (r : replica_chain) (a2 : List replica_chain)
    (hl : f.dstatus.data_blocks = pre ++ d :: post)
    (hpre : ∀ c ∈ pre, c.block_names ≠ ctx.from_block.block_names)
    (hd : d.block_names = ctx.from_block.block_names)
    (ha : f.adding = a1 ++ r :: a2)
    (ha1 : ∀ c ∈ a1, c.block_names ≠ ctx.to_block.block_names)
    (hr : r.block_names = ctx.to_block.block_names) :
    f.finalize_slot_range_split ctx =
      ⟨⟨{ f.dstatus with data_blocks :=
            pre ++ { d with
                slot_range := (ctx.from_block.slot_begin,
                  slot_mid ctx.from_block.slot_begin ctx.from_block.slot_end),
                status := .stable }
              :: ctx.to_block :: post },
          a1 ++ a2⟩,
        (List.range f.dstatus.chain_length).flatMap (fun j =>
          [ call.set_regular (ctx.from_block.block_names.getD j "")
              ctx.from_block.slot_begin
              (slot_mid ctx.from_block.slot_begin ctx.from_block.slot_end),
            call.set_regular (ctx.to_block.block_names.getD j "")
              (slot_mid ctx.from_block.slot_begin ctx.from_block.slot_end + 1)
              ctx.from_block.slot_end ]),
        .ok ()⟩ := by
  have hfind := find_replica_chain_append f.dstatus pre d post ctx.from_block hl hpre hd
  have hit : f.adding.findIdx (fun x => x.same_chain ctx.to_block) = a1.length := by
    rw [ha]
    apply findIdx_append_cons
    · intro x hx
      simpa [replica_chain.same_chain] using ha1 x hx
    · simpa [replica_chain.same_chain] using hr
  unfold ds_file_node.finalize_slot_range_split
  simp only [hfind, hit]
  rw [if_neg (by rw [ha]; simp)]
  simp only [data_status.update_data_block_slots, data_status.set_data_block_status,
    data_status.add_data_block, hl, modify_chain_append, ha, eraseIdx_append_cons]
  have htake : List.take (pre.length + 1) (pre ++ { d with
      slot_range := (ctx.from_block.slot_begin,
        slot_mid ctx.from_block.slot_begin ctx.from_block.slot_end),
      status := chain_status.stable } :: post) = pre ++ [{ d with
      slot_range := (ctx.from_block.slot_begin,
        slot_mid ctx.from_block.slot_begin ctx.from_block.slot_end),
      status := chain_status.stable }] := by
    rw [List.take_append_eq_append_take]
    simp
  have hdrop : List.drop (pre.length + 1) (pre ++ { d with
      slot_range := (ctx.from_block.slot_begin,
        slot_mid ctx.from_block.slot_begin ctx.from_block.slot_end),
      status := chain_status.stable } :: post) = post := by
    rw [List.drop_append_eq_append_drop]
    simp
  rw [htake, hdrop]
  simp

theorem getElem?_append_cons_succ {α : Type} (pre : List α) (d p : α) (post : List α) :
    (pre ++ d :: p :: post)[pre.length + 1]? = some p := by
  rw [List.getElem?_append_right (by omega)]
  simp

theorem modify_chain_append_succ (g : replica_chain → replica_chain)
    (pre : List replica_chain) (d p : replica_chain) (post : List replica_chain) :
    modify_chain g (pre.length + 1) (pre ++ d :: p :: post) = pre ++ d :: g p :: post := by
  have h := modify_chain_append g (pre ++ [d]) p post
  simpa using h

theorem setup_slot_range_merge_spec (SLOT_MAX : Nat) (b e : Int) (f : ds_file_node)
    (pre : List replica_chain) (d p : replica_chain) (post : List replica_chain)
    (hl : f.dstatus.data_blocks = pre ++ d :: p :: post)
    (hpre : ∀ c ∈ pre, c.slot_range ≠ (b, e)) (hd : d.slot_range = (b, e))
    (hend : e ≠ (SLOT_MAX : Int)) (hst : d.status = .stable)
    (hp : p.status ≠ .exporting) :
    f.setup_slot_range_merge SLOT_MAX b e =
      ⟨⟨{ f.dstatus with data_blocks :=
            pre ++ { d with status := .exporting } :: { p with status := .importing } :: post },
          f.adding⟩,
        merge_calls d p b e f.dstatus.chain_length,
        .ok ⟨d, p⟩⟩ := by
  have hidx : find_slot_range f.dstatus.data_blocks b e = pre.length := by
    rw [hl]; exact find_slot_range_append pre d (p :: post) b e hpre hd
  have hne : pre.length ≠ f.dstatus.data_blocks.length := by
    rw [hl]; simp
  have hlen : ¬ (f.dstatus.data_blocks.length = 1 ∨ e = (SLOT_MAX : Int)) := by
    rw [hl]
    simp only [List.length_append, List.length_cons]
    intro hc
    rcases hc with hc | hc
    · omega
    · exact hend hc
  unfold ds_file_node.setup_slot_range_merge
  rw [if_neg hlen]
  simp only [hidx, if_neg hne]
  have hget : f.dstatus.get_data_block_status pre.length = some .stable := by
    unfold data_status.get_data_block_status
    rw [hl, getElem?_append_cons_length]
    simp [hst]
  rw [hget]
  simp only [hl, getElem?_append_cons_length, getElem?_append_cons_succ, if_neg hp,
    data_status.set_data_block_status, modify_chain_append, modify_chain_append_succ]
  simp

/-- A merge setup that returns a context found a stable donor with exactly the
requested range, not ending at `SLOT_MAX`, whose right neighbour is not
exporting. -/
theorem setup_slot_range_merge_ok (SLOT_MAX : Nat) (b e : Int) (f : ds_file_node)
    (ctx : export_ctx) (h : (f.setup_slot_range_merge SLOT_MAX b e).ret = .ok ctx) :
    ∃ pre d p post, f.dstatus.data_blocks = pre ++ d :: p :: post
      ∧ (∀ c ∈ pre, c.slot_range ≠ (b, e)) ∧ d.slot_range = (b, e)
      ∧ e ≠ (SLOT_MAX : Int) ∧ d.status = .stable ∧ p.status ≠ .exporting := by
  by_cases hlen : f.dstatus.data_blocks.length = 1 ∨ e = (SLOT_MAX : Int)
  · simp [ds_file_node.setup_slot_range_merge, hlen] at h
  by_cases hidx : find_slot_range f.dstatus.data_blocks b e = f.dstatus.data_blocks.length
  · simp [ds_file_node.setup_slot_range_merge, hlen, hidx] at h
  obtain ⟨pre, d, post, hl, hpl, hpre, hd⟩ := find_slot_range_decompose _ b e hidx
  have hget : f.dstatus.get_data_block_status pre.length = some d.status := by
    unfold data_status.get_data_block_status
    rw [hl, getElem?_append_cons_length]
    simp
  have hgd : f.dstatus.data_blocks[pre.length]? = some d := by
    rw [hl, getElem?_append_cons_length]
  have hne : ¬ pre.length = f.dstatus.data_blocks.length := by
    rw [hpl]; exact hidx
  by_cases hst : d.status = .stable
  · cases post with
    | nil =>
      have hnone : f.dstatus.data_blocks[pre.length + 1]? = none := by
        rw [hl]; simp
      simp [ds_file_node.setup_slot_range_merge, hlen, hne, ← hpl, hget, hst, hgd,
        hnone] at h
    | cons p post =>
      have hgp : f.dstatus.data_blocks[pre.length + 1]? = some p := by
        rw [hl, getElem?_append_cons_succ]
      by_cases hp : p.status = .exporting
      · simp [ds_file_node.setup_slot_range_merge, hlen, hne, ← hpl, hget, hst, hgd,
          hgp, hp] at h
      · exact ⟨pre, d, p, post, hl, hpre, hd, fun hc => hlen (Or.inr hc), hst, hp⟩
  · have hbusy : d.status = chain_status.exporting ∨ d.status = chain_status.importing := by
      cases hs : d.status <;> simp_all
    simp [ds_file_node.setup_slot_range_merge, hlen, hne, ← hpl, hget, hbusy] at h

theorem finalize_slot_range_merge_spec (ctx : export_ctx) (f : ds_file_node)
    (pre : List replica_chain) (d p : replica_chain) (post : List replica_chain)
    (hl : f.dstatus.data_blocks = pre ++ d :: p :: post)
    (hpre : ∀ c ∈ pre, c.block_names ≠ ctx.from_block.block_names
      ∧ c.block_names ≠ ctx.to_block.block_names)
    (hd : d.block_names = ctx.from_block.block_names)
    (hdp : d.block_names ≠ p.block_names)
    (hp : p.block_names = ctx.to_block.block_names) :
    f.finalize_slot_range_merge ctx =
      ⟨⟨{ f.dstatus with data_blocks :=
            pre ++ { p with
                slot_range := (ctx.from_block.slot_begin, ctx.to_block.slot_end),
                status := .stable } :: post },
          f.adding⟩,
        (List.range f.dstatus.chain_length).flatMap (fun j =>
          [ call.reset (ctx.from_block.block_names.getD j ""),
            call.set_regular (ctx.to_block.block_names.getD j "")
              ctx.from_block.slot_begin ctx.to_block.slot_end ])
          ++ [.free ctx.from_block.block_names],
        .ok ()⟩ := by
  have hfind_to : f.dstatus.find_replica_chain ctx.to_block = .ok (pre.length + 1) := by
    have := find_replica_chain_append f.dstatus (pre ++ [d]) p post ctx.to_block
      (by simp [hl])
      (by
        intro x hx
        rcases List.mem_append.mp hx with hx | hx
        · exact (hpre x hx).2
        · simp at hx
          rw [hx, ← hp]; exact hdp)
      hp
    simpa using this
  unfold ds_file_node.finalize_slot_range_merge
  simp only [hfind_to]
  have hfind_from : ({ f.dstatus with data_blocks :=
      pre ++ d :: { p with
        slot_range := (ctx.from_block.slot_begin, ctx.to_block.slot_end),
        status := chain_status.stable } :: post } : data_status).find_replica_chain
        ctx.from_block = .ok pre.length :=
    find_replica_chain_append _ pre d _ ctx.from_block rfl (fun x hx => (hpre x hx).1) hd
  simp only [data_status.update_data_block_slots, data_status.set_data_block_status, hl,
    modify_chain_append_succ]
  simp only [hfind_from, data_status.remove_data_block, eraseIdx_append_cons]

/-! ## Failure before any effect: capacity, unknown range, busy donor -/

/-- C9: when the data status already holds exactly `SLOT_MAX` replica chains,
`setup_add_block` and `setup_slot_range_split` both throw the at-capacity
exception before any effect: the node (data status and adding list) is the one
they were given and no call to the storage manager or the allocator is issued. -/
theorem setup_at_capacity (SLOT_MAX : Nat) (storage_size : String → Nat)
    (allocate : Nat → Except ds_error (List String)) (path : String) (b e : Int)
    (f : ds_file_node) (h : f.dstatus.data_blocks.length = SLOT_MAX) :
    f.setup_add_block SLOT_MAX storage_size allocate path
        = ⟨f, [], .error (.at_capacity SLOT_MAX)⟩
      ∧ f.setup_slot_range_split SLOT_MAX allocate path b e
        = ⟨f, [], .error (.at_capacity SLOT_MAX)⟩ := by
  constructor
  · unfold ds_file_node.setup_add_block
    rw [if_pos h]
  · unfold ds_file_node.setup_slot_range_split
    rw [if_pos h]

theorem setup_at_capacity_witness :
    (file_of 1 [stable_chain ["b0"] 0 0, stable_chain ["b1"] 1 2]).dstatus.data_blocks.length = 2
      ∧ (file_of 1 [stable_chain ["b0"] 0 0, stable_chain ["b1"] 1 2]).setup_add_block 2
          (fun _ => 9) (allocate_from ["b2"]) "/f"
        = ⟨file_of 1 [stable_chain ["b0"] 0 0, stable_chain ["b1"] 1 2], [],
            .error (.at_capacity 2)⟩
      ∧ (file_of 1 [stable_chain ["b0"] 0 0, stable_chain ["b1"] 1 2]).setup_slot_range_split 2
          (allocate_from ["b2"]) "/f" 1 2
        = ⟨file_of 1 [stable_chain ["b0"] 0 0, stable_chain ["b1"] 1 2], [],
            .error (.at_capacity 2)⟩ :=
  ⟨rfl, setup_at_capacity 2 (fun _ => 9) (allocate_from ["b2"]) "/f" 1 2
    (file_of 1 [stable_chain ["b0"] 0 0, stable_chain ["b1"] 1 2]) rfl⟩

/-- C10: below capacity, `setup_slot_range_split(b, e)` throws "No block with
slot range" when no chain has exactly the range `[b, e]`, and throws "Block
already involved in re-partitioning" when the first chain with exactly that
range is exporting or importing; in both cases the node is unchanged and no call
is issued. When that first chain is stable it is the donor: it is marked
exporting in place, and the call returns the context of that donor and the
recipient built from the allocated blocks (or the allocator's exception). -/
theorem setup_slot_range_split_donor (SLOT_MAX : Nat)
    (allocate : Nat → Except ds_error (List String)) (path : String) (b e : Int)
    (f : ds_file_node) (hcap : f.dstatus.data_blocks.length ≠ SLOT_MAX) :
    ((∀ c ∈ f.dstatus.data_blocks, c.slot_range ≠ (b, e)) →
        f.setup_slot_range_split SLOT_MAX allocate path b e
          = ⟨f, [], .error (.no_block_with_slot_range b e)⟩)
      ∧ ∀ pre d post, f.dstatus.data_blocks = pre ++ d :: post →
          (∀ c ∈ pre, c.slot_range ≠ (b, e)) → d.slot_range = (b, e) →
          ((d.status = .exporting ∨ d.status = .importing) →
              f.setup_slot_range_split SLOT_MAX allocate path b e = ⟨f, [], .error .busy⟩)
            ∧ (d.status = .stable →
              (f.setup_slot_range_split SLOT_MAX allocate path b e).node.dstatus.data_blocks
                  = pre ++ { d with status := .exporting } :: post
                ∧ (f.setup_slot_range_split SLOT_MAX allocate path b e).ret
                  = (allocate f.dstatus.chain_length).map (fun names =>
                      ⟨{ d with status := .exporting },
                        ⟨names, (slot_mid b e + 1, e), .stable, .in_memory⟩⟩)) := by
  refine ⟨setup_slot_range_split_not_found SLOT_MAX allocate path b e f hcap, ?_⟩
  intro pre d post hl hpre hd
  constructor
  · intro hst
    apply setup_slot_range_split_busy SLOT_MAX allocate path b e f pre d post hl hpre hd hcap
    rcases hst with hst | hst <;> simp [hst]
  · intro hst
    cases ha : allocate f.dstatus.chain_length with
    | error err =>
      rw [setup_slot_range_split_alloc_error SLOT_MAX allocate path b e f pre d post err hl
        hpre hd hcap hst ha]
      exact ⟨rfl, rfl⟩
    | ok names =>
      rw [setup_slot_range_split_spec SLOT_MAX allocate path b e f pre d post names hl hpre hd
        hcap hst ha]
      exact ⟨rfl, rfl⟩

theorem setup_slot_range_split_donor_witness :
    (file_of 1 [stable_chain ["b0"] 0 3,
        ⟨["b1"], (4, 7), .exporting, .in_memory⟩]).dstatus.data_blocks.length ≠ 7
      ∧ (file_of 1 [stable_chain ["b0"] 0 3,
          ⟨["b1"], (4, 7), .exporting, .in_memory⟩]).setup_slot_range_split 7
            (allocate_from ["b2"]) "/f" 0 7
          = ⟨file_of 1 [stable_chain ["b0"] 0 3, ⟨["b1"], (4, 7), .exporting, .in_memory⟩],
              [], .error (.no_block_with_slot_range 0 7)⟩
      ∧ (file_of 1 [stable_chain ["b0"] 0 3,
          ⟨["b1"], (4, 7), .exporting, .in_memory⟩]).setup_slot_range_split 7
            (allocate_from ["b2"]) "/f" 4 7
          = ⟨file_of 1 [stable_chain ["b0"] 0 3, ⟨["b1"], (4, 7), .exporting, .in_memory⟩],
              [], .error .busy⟩
      ∧ ((file_of 1 [stable_chain ["b0"] 0 3,
          ⟨["b1"], (4, 7), .exporting, .in_memory⟩]).setup_slot_range_split 7
            (allocate_from ["b2"]) "/f" 0 3).ret
          = .ok ⟨⟨["b0"], (0, 3), .exporting, .in_memory⟩,
              ⟨["b2"], (2, 3), .stable, .in_memory⟩⟩ :=
  have h := setup_slot_range_split_donor 7 (allocate_from ["b2"]) "/f"
  ⟨by decide,
    (h 0 7 _ (by decide)).1 (by decide),
    ((h 4 7 _ (by decide)).2 [stable_chain ["b0"] 0 3] ⟨["b1"], (4, 7), .exporting, .in_memory⟩
      [] rfl (by decide) rfl).1 (Or.inl rfl),
    (((h 0 3 _ (by decide)).2 [] (stable_chain ["b0"] 0 3)
      [⟨["b1"], (4, 7), .exporting, .in_memory⟩] rfl (by decide) rfl).2 rfl).2⟩

/-! ## The calls of the finalize loops, block by block -/

theorem range_flatMap_getD {β : Type} (g : String → String → List β) (xs ys : List String)
    (n : Nat) (hx : xs.length = n) (hy : ys.length = n) :
    (List.range n).flatMap (fun j => g (xs.getD j "") (ys.getD j ""))
      = (xs.zip ys).flatMap (fun p => g p.1 p.2) := by
  induction xs generalizing ys n with
  | nil =>
    subst hx
    simp
  | cons x xs ih =>
    cases ys with
    | nil =>
      subst hy
      simp at hx
    | cons y ys =>
      subst hx
      have hy2 : ys.length = xs.length := by simpa using hy
      rw [List.length_cons, List.range_succ_eq_map, List.flatMap_cons, List.flatMap_map]
      simp only [List.zip_cons_cons, List.flatMap_cons]
      have := ih ys xs.length rfl hy2
      simpa using this

/-- The context a split setup returns: the donor copy is exporting, the recipient
is stable, in memory, and has the upper half of the donor's range. -/
theorem split_ctx_shape (SLOT_MAX : Nat) (storage_size : String → Nat)
    (allocate : Nat → Except ds_error (List String)) (path : String) (b e : Int)
    (f : ds_file_node) (ctx : export_ctx)
    (h : (f.setup_slot_range_split SLOT_MAX allocate path b e).ret = .ok ctx
      ∨ (f.setup_add_block SLOT_MAX storage_size allocate path).ret = .ok ctx) :
    ctx.from_block.status = .exporting ∧ ctx.to_block.status = .stable
      ∧ ctx.to_block.mode = .in_memory
      ∧ ctx.to_block.slot_range
        = (slot_mid ctx.from_block.slot_begin ctx.from_block.slot_end + 1,
            ctx.from_block.slot_end) := by
  rcases h with h | h
  · obtain ⟨pre, d, post, names, hl, hpre, hd, hcap, hst, ha⟩ :=
      setup_slot_range_split_ok SLOT_MAX allocate path b e f ctx h
    rw [setup_slot_range_split_spec SLOT_MAX allocate path b e f pre d post names hl hpre hd
      hcap hst ha] at h
    have hctx := Except.ok.inj h
    subst hctx
    simp [replica_chain.slot_begin, replica_chain.slot_end, hd]
  · obtain ⟨pre, d, post, names, hl, hpos, hcap, ha⟩ :=
      setup_add_block_ok SLOT_MAX storage_size allocate path f ctx h
    rw [setup_add_block_spec SLOT_MAX storage_size allocate path f pre d post names hl hpos
      hcap ha] at h
    have hctx := Except.ok.inj h
    subst hctx
    simp [replica_chain.slot_begin, replica_chain.slot_end]

/-- The context a merge setup returns holds the donor with exactly the requested
range. -/
theorem merge_ctx_shape (SLOT_MAX : Nat) (b e : Int) (f : ds_file_node) (ctx : export_ctx)
    (h : (f.setup_slot_range_merge SLOT_MAX b e).ret = .ok ctx) :
    ctx.from_block.slot_range = (b, e) ∧ ctx.from_block.status = .stable
      ∧ ctx.to_block.status ≠ .exporting := by
  obtain ⟨pre, d, p, post, hl, hpre, hd, hend, hst, hp⟩ :=
    setup_slot_range_merge_ok SLOT_MAX b e f ctx h
  rw [setup_slot_range_merge_spec SLOT_MAX b e f pre d p post hl hpre hd hend hst hp] at h
  have hctx := Except.ok.inj h
  subst hctx
  exact ⟨hd, hst, hp⟩

/-! ## Finalize -/

/-- C4: let `ctx` be an export context produced by a split setup
(`setup_slot_range_split` or `setup_add_block`), with donor range `[b, e]`, and
let the file hold the donor at index `donor_idx = pre.length` (the first chain
with the donor's blocks) and the recipient in its adding list. Then
`finalize_slot_range_split` returns normally and leaves the data status with the
donor at `donor_idx` holding `[b, mid]` and status stable, the recipient
inserted at `donor_idx + 1` with range `[mid + 1, e]` and status stable, the
chains before and after unchanged and in the same order, and the recipient
removed from the adding list, where `mid = (b + e) / 2`; the calls it issues are
`set_regular(b, mid)` on each donor block and `set_regular(mid + 1, e)` on each
recipient block. -/
theorem finalize_slot_range_split_effect (SLOT_MAX : Nat) (storage_size : String → Nat)
    (allocate : Nat → Except ds_error (List String)) (path : String) (b0 e0 : Int)
    (f0 : ds_file_node) (ctx : export_ctx) (b e : Int) (f : ds_file_node)
    (pre post a1 a2 : List replica_chain)
    (hsetup : (f0.setup_slot_range_split SLOT_MAX allocate path b0 e0).ret = .ok ctx
      ∨ (f0.setup_add_block SLOT_MAX storage_size allocate path).ret = .ok ctx)
    (hrange : ctx.from_block.slot_range = (b, e))
    (hl : f.dstatus.data_blocks = pre ++ ctx.from_block :: post)
    (hpre : ∀ c ∈ pre, c.block_names ≠ ctx.from_block.block_names)
    (ha : f.adding = a1 ++ ctx.to_block :: a2)
    (ha1 : ∀ c ∈ a1, c.block_names ≠ ctx.to_block.block_names)
    (hfrom : ctx.from_block.block_names.length = f.dstatus.chain_length)
    (hto : ctx.to_block.block_names.length = f.dstatus.chain_length) :
    f.finalize_slot_range_split ctx =
      ⟨⟨{ f.dstatus with data_blocks :=
            pre ++ ⟨ctx.from_block.block_names, (b, slot_mid b e), .stable, ctx.from_block.mode⟩
              :: ⟨ctx.to_block.block_names, (slot_mid b e + 1, e), .stable, .in_memory⟩
              :: post },
          a1 ++ a2⟩,
        (ctx.from_block.block_names.zip ctx.to_block.block_names).flatMap (fun p =>
          [ call.set_regular p.1 b (slot_mid b e),
            call.set_regular p.2 (slot_mid b e + 1) e ]),
        .ok ()⟩ := by
  obtain ⟨-, hts, htm, htr⟩ :=
    split_ctx_shape SLOT_MAX storage_size allocate path b0 e0 f0 ctx hsetup
  have hb : ctx.from_block.slot_begin = b := by simp [replica_chain.slot_begin, hrange]
  have he : ctx.from_block.slot_end = e := by simp [replica_chain.slot_end, hrange]
  rw [hb, he] at htr
  have hto_eq : ctx.to_block
      = ⟨ctx.to_block.block_names, (slot_mid b e + 1, e), .stable, .in_memory⟩ := by
    cases hc : ctx.to_block with
    | mk n r s m =>
      rw [hc] at hts htm htr
      simp only at hts htm htr
      subst hts htm htr
      rfl
  rw [finalize_slot_range_split_spec ctx f pre ctx.from_block post a1 ctx.to_block a2 hl hpre
    rfl ha ha1 rfl]
  have hcalls := range_flatMap_getD
    (fun x y => [call.set_regular x b (slot_mid b e), call.set_regular y (slot_mid b e + 1) e])
    _ _ _ hfrom hto
  simp only at hcalls
  rw [hb, he, hcalls, ← hto_eq]

theorem finalize_slot_range_split_effect_witness :
    ((file_of 2 [stable_chain ["a0", "a1"] 0 7]).setup_slot_range_split 7
        (allocate_from ["b0", "b1", "b2"]) "/f" 0 7).ret
        = .ok ⟨⟨["a0", "a1"], (0, 7), .exporting, .in_memory⟩,
            ⟨["b0", "b1"], (4, 7), .stable, .in_memory⟩⟩
      ∧ ((file_of 2 [stable_chain ["a0", "a1"] 0 7]).setup_slot_range_split 7
          (allocate_from ["b0", "b1", "b2"]) "/f" 0 7).node.finalize_slot_range_split
          ⟨⟨["a0", "a1"], (0, 7), .exporting, .in_memory⟩,
            ⟨["b0", "b1"], (4, 7), .stable, .in_memory⟩⟩
        = ⟨file_of 2 [stable_chain ["a0", "a1"] 0 3, stable_chain ["b0", "b1"] 4 7],
            [.set_regular "a0" 0 3, .set_regular "b0" 4 7, .set_regular "a1" 0 3,
              .set_regular "b1" 4 7],
            .ok ()⟩ :=
  ⟨rfl,
    finalize_slot_range_split_effect 7 (fun _ => 0) (allocate_from ["b0", "b1", "b2"]) "/f" 0 7
      (file_of 2 [stable_chain ["a0", "a1"] 0 7])
      ⟨⟨["a0", "a1"], (0, 7), .exporting, .in_memory⟩, ⟨["b0", "b1"], (4, 7), .stable, .in_memory⟩⟩
      0 7
      ((file_of 2 [stable_chain ["a0", "a1"] 0 7]).setup_slot_range_split 7
        (allocate_from ["b0", "b1", "b2"]) "/f" 0 7).node
      [] [] [] [] (Or.inl rfl) rfl rfl (by simp) rfl (by simp) rfl rfl⟩

/-- C5: let `ctx` be the export context produced by `setup_slot_range_merge(b, e)`
(the donor with range `[b, e]` and the partner, its right neighbour), and let
the file hold the donor, exporting, immediately followed by the partner,
importing, as the first chains with their blocks. Then
`finalize_slot_range_merge` returns normally and leaves the data status with
exactly one chain fewer: the donor is removed, the partner has range
`[b, partner.end]` and status stable, every other chain is unchanged; the calls
are one `reset` per donor block and one `set_regular(b, partner.end)` per
partner block, followed by the `free` of exactly the donor's blocks. -/
theorem finalize_slot_range_merge_effect (SLOT_MAX : Nat) (b e : Int) (f0 : ds_file_node)
    (ctx : export_ctx) (f : ds_file_node) (pre post : List replica_chain)
    (hsetup : (f0.setup_slot_range_merge SLOT_MAX b e).ret = .ok ctx)
    (hl : f.dstatus.data_blocks
      = pre ++ { ctx.from_block with status := .exporting }
          :: { ctx.to_block with status := .importing } :: post)
    (hpre : ∀ c ∈ pre, c.block_names ≠ ctx.from_block.block_names
      ∧ c.block_names ≠ ctx.to_block.block_names)
    (hdp : ctx.from_block.block_names ≠ ctx.to_block.block_names)
    (hfrom : ctx.from_block.block_names.length = f.dstatus.chain_length)
    (hto : ctx.to_block.block_names.length = f.dstatus.chain_length) :
    f.finalize_slot_range_merge ctx =
        ⟨⟨{ f.dstatus with data_blocks :=
              pre ++ ⟨ctx.to_block.block_names, (b, ctx.to_block.slot_end), .stable,
                ctx.to_block.mode⟩ :: post },
            f.adding⟩,
          (ctx.from_block.block_names.zip ctx.to_block.block_names).flatMap (fun p =>
            [ call.reset p.1, call.set_regular p.2 b ctx.to_block.slot_end ])
            ++ [.free ctx.from_block.block_names],
          .ok ()⟩
      ∧ (f.finalize_slot_range_merge ctx).node.dstatus.data_blocks.length + 1
        = f.dstatus.data_blocks.length := by
  obtain ⟨hr, -, -⟩ := merge_ctx_shape SLOT_MAX b e f0 ctx hsetup
  have hb : ctx.from_block.slot_begin = b := by simp [replica_chain.slot_begin, hr]
  have hspec := finalize_slot_range_merge_spec ctx f pre
    { ctx.from_block with status := .exporting } { ctx.to_block with status := .importing }
    post hl hpre rfl hdp rfl
  have hcalls := range_flatMap_getD
    (fun x y => [call.reset x, call.set_regular y b ctx.to_block.slot_end]) _ _ _ hfrom hto
  simp only at hcalls
  rw [hb] at hspec
  simp only [replica_chain.slot_end] at hspec hcalls ⊢
  rw [hcalls] at hspec
  refine ⟨hspec, ?_⟩
  rw [hspec, hl]
  simp only [List.length_append, List.length_cons]
  omega
theorem finalize_slot_range_merge_effect_witness :
    ((file_of 1 [stable_chain ["a"] 0 3, stable_chain ["b"] 4 7]).setup_slot_range_merge 7
        0 3).ret
        = .ok ⟨stable_chain ["a"] 0 3, stable_chain ["b"] 4 7⟩
      ∧ ((file_of 1 [stable_chain ["a"] 0 3, stable_chain ["b"] 4 7]).setup_slot_range_merge 7
          0 3).node.finalize_slot_range_merge ⟨stable_chain ["a"] 0 3, stable_chain ["b"] 4 7⟩
        = ⟨file_of 1 [stable_chain ["b"] 0 7],
            [.reset "a", .set_regular "b" 0 7, .free ["a"]], .ok ()⟩ :=
  ⟨rfl,
    (finalize_slot_range_merge_effect 7 0 3
      (file_of 1 [stable_chain ["a"] 0 3, stable_chain ["b"] 4 7])
      ⟨stable_chain ["a"] 0 3, stable_chain ["b"] 4 7⟩
      ((file_of 1 [stable_chain ["a"] 0 3, stable_chain ["b"] 4 7]).setup_slot_range_merge 7
        0 3).node
      [] [] rfl rfl (by simp) (by decide) rfl rfl).1⟩

/-! ## Donors with a single slot, donors already re-partitioning -/

/-- A split of a stable single-slot chain `[b, b]` is accepted: below capacity,
`setup_slot_range_split(b, b)` returns a context whose recipient has the range
`[b + 1, b]`, with `slot_begin > slot_end`, and appends it to the adding list. -/
theorem setup_slot_range_split_single_slot (SLOT_MAX : Nat)
    (allocate : Nat → Except ds_error (List String)) (path : String) (b : Int)
    (f : ds_file_node) (pre : List replica_chain) (d : replica_chain)
    (post : List replica_chain) (names : List String)
    (hl : f.dstatus.data_blocks = pre ++ d :: post)
    (hpre : ∀ c ∈ pre, c.slot_range ≠ (b, b)) (hd : d.slot_range = (b, b))
    (hcap : f.dstatus.data_blocks.length ≠ SLOT_MAX) (hst : d.status = .stable)
    (ha : allocate f.dstatus.chain_length = .ok names) :
    (f.setup_slot_range_split SLOT_MAX allocate path b b).ret
        = .ok ⟨{ d with status := .exporting }, ⟨names, (b + 1, b), .stable, .in_memory⟩⟩
      ∧ (f.setup_slot_range_split SLOT_MAX allocate path b b).node.adding
        = f.adding ++ [⟨names, (b + 1, b), .stable, .in_memory⟩] := by
  have hmid : slot_mid b b = b := by
    unfold slot_mid
    have : b + b = b * 2 := by ring
    rw [this]
    exact Int.mul_tdiv_cancel _ (by decide)
  rw [setup_slot_range_split_spec SLOT_MAX allocate path b b f pre d post names hl hpre hd hcap
    hst ha, hmid]
  exact ⟨rfl, rfl⟩

/-- The completed split of a chain with a single slot: the file with the stable
chains `[0,0] [1,1] [2,3] [4,7]` is an exact partition of `[0, 7]` into ranges
that each hold a slot (`exact_partition`); the completed split of its chain
`[0, 0]` returns normally and leaves the chains `[0,0] [1,0] [1,1] [2,3] [4,7]`,
all stable, where the recipient's range `[1, 0]` has `slot_begin > slot_end` and
holds no slot, so that `exact_partition` does not hold of them. A completed
add-block does the same when every tail is empty (size 0). Every slot still lies
in exactly one chain (`slot_partition`). -/
theorem split_single_slot_not_partition :
    all_stable [stable_chain ["a"] 0 0, stable_chain ["b"] 1 1, stable_chain ["c"] 2 3,
        stable_chain ["d"] 4 7]
      ∧ exact_partition 7 [stable_chain ["a"] 0 0, stable_chain ["b"] 1 1,
        stable_chain ["c"] 2 3, stable_chain ["d"] 4 7]
      ∧ (split_slot_range 7 (allocate_from ["r"]) "/f" 0 0
          (file_of 1 [stable_chain ["a"] 0 0, stable_chain ["b"] 1 1, stable_chain ["c"] 2 3,
            stable_chain ["d"] 4 7])).ret = .ok ()
      ∧ (split_slot_range 7 (allocate_from ["r"]) "/f" 0 0
          (file_of 1 [stable_chain ["a"] 0 0, stable_chain ["b"] 1 1, stable_chain ["c"] 2 3,
            stable_chain ["d"] 4 7])).node
        = file_of 1 [stable_chain ["a"] 0 0, stable_chain ["r"] 1 0, stable_chain ["b"] 1 1,
            stable_chain ["c"] 2 3, stable_chain ["d"] 4 7]
      ∧ (add_block_to_file 7 (fun _ => 0) (allocate_from ["r"]) "/f"
          (file_of 1 [stable_chain ["a"] 0 0, stable_chain ["b"] 1 1, stable_chain ["c"] 2 3,
            stable_chain ["d"] 4 7])).node
        = file_of 1 [stable_chain ["a"] 0 0, stable_chain ["r"] 1 0, stable_chain ["b"] 1 1,
            stable_chain ["c"] 2 3, stable_chain ["d"] 4 7]
      ∧ ¬ exact_partition 7 [stable_chain ["a"] 0 0, stable_chain ["r"] 1 0,
        stable_chain ["b"] 1 1, stable_chain ["c"] 2 3, stable_chain ["d"] 4 7] := by
  refine ⟨by decide, by decide, rfl, rfl, rfl, by decide⟩

/-- C3 (failing input): from the fresh single-chain file `[0, 7]` (chain length 1),
the completed splits of `[0,7]`, `[0,3]`, `[0,1]` and then of the single-slot
chain `[0,0]` all return normally, each on a chain range of the file, and leave
the replica chains `[0,0] [1,0] [1,1] [2,3] [4,7]`: the chain with block `r4`
has `slot_begin = 1 > slot_end = 0`. -/
theorem split_reaches_inverted_range :
    (split_slot_range 7 (allocate_from ["r4"]) "/f" 0 0
        (split_slot_range 7 (allocate_from ["r3"]) "/f" 0 1
          (split_slot_range 7 (allocate_from ["r2"]) "/f" 0 3
            (split_slot_range 7 (allocate_from ["r1"]) "/f" 0 7
              (file_of 1 [stable_chain ["r0"] 0 7])).node).node).node).ret = .ok ()
      ∧ (split_slot_range 7 (allocate_from ["r4"]) "/f" 0 0
        (split_slot_range 7 (allocate_from ["r3"]) "/f" 0 1
          (split_slot_range 7 (allocate_from ["r2"]) "/f" 0 3
            (split_slot_range 7 (allocate_from ["r1"]) "/f" 0 7
              (file_of 1 [stable_chain ["r0"] 0 7])).node).node).node).node
        = file_of 1 [stable_chain ["r0"] 0 0, stable_chain ["r4"] 1 0, stable_chain ["r3"] 1 1,
            stable_chain ["r2"] 2 3, stable_chain ["r1"] 4 7]
      ∧ (stable_chain ["r4"] 1 0).slot_end < (stable_chain ["r4"] 1 0).slot_begin
      ∧ ¬ ∀ c ∈ (split_slot_range 7 (allocate_from ["r4"]) "/f" 0 0
        (split_slot_range 7 (allocate_from ["r3"]) "/f" 0 1
          (split_slot_range 7 (allocate_from ["r2"]) "/f" 0 3
            (split_slot_range 7 (allocate_from ["r1"]) "/f" 0 7
              (file_of 1 [stable_chain ["r0"] 0 7])).node).node).node).node.dstatus.data_blocks,
          c.slot_begin ≤ c.slot_end := by
  refine ⟨rfl, rfl, by decide, by decide⟩

/-- C7 (failing input): in the file with the stable chains `[0,0]` (block `a`)
and `[1,7]` (block `b`), where both tails are empty (`storage_size` is 0), the
only chain that is neither exporting nor importing and has more than one slot is
the one at index 1; the size loop of `setup_add_block` nevertheless ends with
`max_pos = 0`, and the call returns the single-slot chain `a` as donor, with a
recipient of range `[1, 0]`. -/
theorem setup_add_block_picks_single_slot :
    (file_of 1 [stable_chain ["a"] 0 0, stable_chain ["b"] 1 7]).dstatus.num_slots 0 = some 1
      ∧ (file_of 1 [stable_chain ["a"] 0 0, stable_chain ["b"] 1 7]).dstatus.num_slots 1
        = some 7
      ∧ (file_of 1 [stable_chain ["a"] 0 0, stable_chain ["b"] 1 7]).dstatus.get_data_block_status
          1 = some .stable
      ∧ largest_pos (file_of 1 [stable_chain ["a"] 0 0, stable_chain ["b"] 1 7]).dstatus [0, 0]
        = 0
      ∧ ((file_of 1 [stable_chain ["a"] 0 0, stable_chain ["b"] 1 7]).setup_add_block 7
          (fun _ => 0) (allocate_from ["r"]) "/f").ret
        = .ok ⟨⟨["a"], (0, 0), .exporting, .in_memory⟩, ⟨["r"], (1, 0), .stable, .in_memory⟩⟩ := by
  refine ⟨rfl, rfl, rfl, rfl, rfl⟩

/-- C8 (failing input): on the single-chain file `[0, 7]` a first
`setup_add_block` marks the chain exporting. A second `setup_add_block` before
the finalize selects the same chain, whose status is exporting, and does not
throw: it returns a second context for the same donor, and the adding list then
holds two recipients with the same range `[4, 7]`. Finalizing both contexts
leaves the chains `[0,3] [4,7] [4,7]`: the slots 4 to 7 have two owners. -/
theorem setup_add_block_twice_no_busy :
    ((file_of 1 [stable_chain ["a"] 0 7]).setup_add_block 7 (fun _ => 5)
        (allocate_from ["r1"]) "/f").node.dstatus.get_data_block_status 0 = some .exporting
      ∧ (((file_of 1 [stable_chain ["a"] 0 7]).setup_add_block 7 (fun _ => 5)
          (allocate_from ["r1"]) "/f").node.setup_add_block 7 (fun _ => 5)
          (allocate_from ["r2"]) "/f").ret
        = .ok ⟨⟨["a"], (0, 7), .exporting, .in_memory⟩, ⟨["r2"], (4, 7), .stable, .in_memory⟩⟩
      ∧ (((file_of 1 [stable_chain ["a"] 0 7]).setup_add_block 7 (fun _ => 5)
          (allocate_from ["r1"]) "/f").node.setup_add_block 7 (fun _ => 5)
          (allocate_from ["r2"]) "/f").node.adding
        = [stable_chain ["r1"] 4 7, stable_chain ["r2"] 4 7]
      ∧ (((((file_of 1 [stable_chain ["a"] 0 7]).setup_add_block 7 (fun _ => 5)
          (allocate_from ["r1"]) "/f").node.setup_add_block 7 (fun _ => 5)
          (allocate_from ["r2"]) "/f").node.finalize_slot_range_split
            ⟨⟨["a"], (0, 7), .exporting, .in_memory⟩,
              ⟨["r1"], (4, 7), .stable, .in_memory⟩⟩).node.finalize_slot_range_split
            ⟨⟨["a"], (0, 7), .exporting, .in_memory⟩,
              ⟨["r2"], (4, 7), .stable, .in_memory⟩⟩).node
        = file_of 1 [stable_chain ["a"] 0 3, stable_chain ["r2"] 4 7, stable_chain ["r1"] 4 7] := by
  refine ⟨rfl, rfl, rfl, rfl⟩

/-! ## Tilings -/

theorem tiles_append (s t : Int) (l1 l2 : List (Int × Int)) :
    tiles s t (l1 ++ l2) ↔ ∃ m, tiles s m l1 ∧ tiles m t l2 := by
  induction l1 generalizing s with
  | nil => simp [tiles]
  | cons r l1 ih =>
    have e1 : tiles s t (r :: l1 ++ l2)
        ↔ r.1 = s ∧ r.1 ≤ r.2 ∧ tiles (r.2 + 1) t (l1 ++ l2) := Iff.rfl
    have e2 : ∀ m, tiles s m (r :: l1) ↔ r.1 = s ∧ r.1 ≤ r.2 ∧ tiles (r.2 + 1) m l1 :=
      fun _ => Iff.rfl
    rw [e1, ih]
    constructor
    · rintro ⟨h1, h2, m, h3, h4⟩
      exact ⟨m, (e2 m).mpr ⟨h1, h2, h3⟩, h4⟩
    · rintro ⟨m, h0, h4⟩
      obtain ⟨h1, h2, h3⟩ := (e2 m).mp h0
      exact ⟨h1, h2, m, h3, h4⟩

theorem tiles_bounds (s t : Int) (l : List (Int × Int)) (h : tiles s t l) :
    s ≤ t ∧ ∀ r ∈ l, s ≤ r.1 ∧ r.1 ≤ r.2 ∧ r.2 < t := by
  induction l generalizing s with
  | nil =>
    simp only [tiles] at h
    subst h
    simp
  | cons r l ih =>
    obtain ⟨h1, h2, h3⟩ := h
    obtain ⟨h4, h5⟩ := ih _ h3
    refine ⟨by omega, ?_⟩
    intro x hx
    rcases List.mem_cons.mp hx with rfl | hx
    · omega
    · have := h5 x hx
      omega

theorem slot_mid_bounds (b e : Int) (hb : 0 ≤ b) (hlt : b < e) :
    b ≤ slot_mid b e ∧ slot_mid b e < e := by
  unfold slot_mid
  rw [Int.tdiv_eq_ediv (by omega) (by decide)]
  omega

/-- In an exact partition, a chain and the chains before it: the chain begins at
or after 0, ends at or before `SLOT_MAX`, and every earlier chain ends before it
begins. -/
theorem exact_partition_at (SLOT_MAX : Nat) (pre : List replica_chain) (d : replica_chain)
    (post : List replica_chain) (h : exact_partition SLOT_MAX (pre ++ d :: post)) :
    0 ≤ d.slot_range.1 ∧ d.slot_range.1 ≤ d.slot_range.2
      ∧ d.slot_range.2 ≤ (SLOT_MAX : Int)
      ∧ (∀ c ∈ pre, c.slot_range.1 < d.slot_range.1)
      ∧ tiles 0 d.slot_range.1 (pre.map (fun c => c.slot_range))
      ∧ tiles (d.slot_range.2 + 1) ((SLOT_MAX : Int) + 1) (post.map (fun c => c.slot_range)) := by
  unfold exact_partition at h
  rw [List.map_append, tiles_append] at h
  obtain ⟨m, h1, h2⟩ := h
  simp only [List.map_cons, tiles] at h2
  obtain ⟨h3, h4, h5⟩ := h2
  obtain ⟨h6, h7⟩ := tiles_bounds _ _ _ h1
  obtain ⟨h8, -⟩ := tiles_bounds _ _ _ h5
  subst h3
  refine ⟨h6, h4, by omega, ?_, h1, h5⟩
  intro c hc
  have := h7 c.slot_range (List.mem_map_of_mem _ hc)
  omega

theorem exact_partition_replace (SLOT_MAX : Nat) (pre : List replica_chain)
    (d : replica_chain) (post : List replica_chain) (mid : List replica_chain)
    (h : exact_partition SLOT_MAX (pre ++ d :: post))
    (hmid : tiles d.slot_range.1 (d.slot_range.2 + 1) (mid.map (fun c => c.slot_range))) :
    exact_partition SLOT_MAX (pre ++ mid ++ post) := by
  obtain ⟨-, -, -, -, h1, h2⟩ := exact_partition_at SLOT_MAX pre d post h
  unfold exact_partition
  rw [List.map_append, List.map_append, tiles_append]
  refine ⟨d.slot_range.2 + 1, ?_, h2⟩
  rw [tiles_append]
  exact ⟨_, h1, hmid⟩

theorem tiles_owners (s t : Int) (l : List replica_chain)
    (h : tiles s t (l.map (fun c => c.slot_range))) (x : Int) :
    (x < s → owners x l = 0) ∧ (s ≤ x → x < t → owners x l = 1) := by
  induction l generalizing s with
  | nil =>
    simp only [List.map_nil, tiles] at h
    subst h
    constructor
    · intro _; rfl
    · intro h1 h2; omega
  | cons c l ih =>
    have h' : c.slot_range.1 = s ∧ c.slot_range.1 ≤ c.slot_range.2
        ∧ tiles (c.slot_range.2 + 1) t (l.map (fun c => c.slot_range)) := h
    obtain ⟨h1, h2, h3⟩ := h'
    obtain ⟨ih1, ih2⟩ := ih _ h3
    obtain ⟨hle, -⟩ := tiles_bounds _ _ _ h3
    simp only [owners, List.countP_cons, replica_chain.slot_begin, replica_chain.slot_end]
      at ih1 ih2 ⊢
    constructor
    · intro hx
      have hc : ¬ (c.slot_range.1 ≤ x) := by omega
      rw [ih1 (by omega)]
      simp [hc]
    · intro hx1 hx2
      by_cases hin : x ≤ c.slot_range.2
      · have hc : c.slot_range.1 ≤ x := by omega
        rw [ih1 (by omega)]
        simp [hc, hin]
      · rw [ih2 (by omega) hx2]
        simp [hin]

/-- In an exact partition of `[0, SLOT_MAX]` every slot lies in exactly one
chain. -/
theorem exact_partition_owners (SLOT_MAX : Nat) (l : List replica_chain)
    (h : exact_partition SLOT_MAX l) (x : Int) (h0 : 0 ≤ x) (h1 : x ≤ (SLOT_MAX : Int)) :
    owners x l = 1 :=
  (tiles_owners 0 _ l h x).2 h0 (by omega)

/-! ## A split followed by the merge of the kept half -/

theorem and_then_ok (o : outcome export_ctx)
    (finalize : export_ctx → ds_file_node → outcome Unit) (ctx : export_ctx)
    (h : o.ret = .ok ctx) :
    and_then o finalize
      = ⟨(finalize ctx o.node).node, o.calls ++ (finalize ctx o.node).calls,
          (finalize ctx o.node).ret⟩ := by
  unfold and_then
  rw [h]

theorem allocation_balance_append (l1 l2 : List call) :
    allocation_balance (l1 ++ l2) = allocation_balance l1 + allocation_balance l2 := by
  induction l1 with
  | nil => simp [allocation_balance]
  | cons c l1 ih =>
    cases c <;> simp [allocation_balance, ih] <;> omega

theorem allocation_balance_storage (l : List call) (h : ∀ c ∈ l, c.is_allocator = false) :
    allocation_balance l = 0 := by
  induction l with
  | nil => rfl
  | cons c l ih =>
    have hc := h c (List.mem_cons_self _ _)
    have hl := ih (fun x hx => h x (List.mem_cons_of_mem _ hx))
    cases c <;> simp_all [allocation_balance, call.is_allocator]

theorem allocation_balance_allocate (n : Nat) (l : List call) :
    allocation_balance (.allocate n :: l) = (n : Int) + allocation_balance l := rfl

theorem allocation_balance_free (x : List String) :
    allocation_balance [.free x] = - (x.length : Int) := by
  simp [allocation_balance]

theorem allocation_balance_flatMap (l : List Nat) (g : Nat → List call)
    (hg : ∀ j, ∀ c ∈ g j, c.is_allocator = false) :
    allocation_balance (l.flatMap g) = 0 := by
  apply allocation_balance_storage
  intro c hc
  obtain ⟨j, -, hj⟩ := List.mem_flatMap.mp hc
  exact hg j c hj

theorem split_calls_storage (path : String) (x y : replica_chain) (m e : Int) (n : Nat) :
    ∀ c ∈ split_calls path x y m e n, c.is_allocator = false := by
  intro c hc
  unfold split_calls at hc
  split at hc
  · simp at hc
    rcases hc with rfl | rfl <;> rfl
  · simp only [List.mem_append, List.mem_map] at hc
    rcases hc with ⟨j, -, rfl⟩ | ⟨j, -, rfl⟩ <;> rfl

theorem merge_calls_storage (x y : replica_chain) (b e : Int) (n : Nat) :
    ∀ c ∈ merge_calls x y b e n, c.is_allocator = false := by
  intro c hc
  unfold merge_calls at hc
  split at hc
  · simp at hc
    rcases hc with rfl | rfl <;> rfl
  · simp only [List.mem_append, List.mem_map] at hc
    rcases hc with ⟨j, -, rfl⟩ | ⟨j, -, rfl⟩ <;> rfl

theorem nodup_names_cons (pre : List replica_chain) (d : replica_chain)
    (post : List replica_chain)
    (h : ((pre ++ d :: post).map (fun c => c.block_names)).Nodup) :
    (∀ c ∈ pre, c.block_names ≠ d.block_names)
      ∧ (∀ c ∈ post, c.block_names ≠ d.block_names) := by
  rw [List.map_append, List.map_cons, List.nodup_append] at h
  obtain ⟨-, h2, h3⟩ := h
  rw [List.nodup_cons] at h2
  constructor
  · intro c hc heq
    exact h3 (List.mem_map_of_mem _ hc) (by rw [heq]; exact List.mem_cons_self _ _)
  · intro c hc heq
    exact h2.1 (by rw [← heq]; exact List.mem_map_of_mem _ hc)

/-- The completed explicit split of a stable chain `[b, e]`, `b < e`, of an
exactly partitioned file whose chains have pairwise different block lists, with
a fresh allocation: it returns normally, the donor keeps `[b, mid]`, the
recipient holds `[mid + 1, e]` right after it, both stable. -/
theorem split_slot_range_spec (SLOT_MAX : Nat)
    (allocate : Nat → Except ds_error (List String)) (path : String) (b e : Int)
    (f : ds_file_node) (pre : List replica_chain) (d : replica_chain)
    (post : List replica_chain) (names : List String)
    (hpart : exact_partition SLOT_MAX f.dstatus.data_blocks)
    (hnodup : (f.dstatus.data_blocks.map (fun c => c.block_names)).Nodup)
    (hl : f.dstatus.data_blocks = pre ++ d :: post) (hd : d.slot_range = (b, e))
    (hst : d.status = .stable)
    (hcap : f.dstatus.data_blocks.length ≠ SLOT_MAX)
    (ha : allocate f.dstatus.chain_length = .ok names)
    (hfresh : ∀ c ∈ f.adding, c.block_names ≠ names) :
    split_slot_range SLOT_MAX allocate path b e f =
      ⟨⟨{ f.dstatus with data_blocks :=
            pre ++ { d with slot_range := (b, slot_mid b e), status := .stable }
              :: ⟨names, (slot_mid b e + 1, e), .stable, .in_memory⟩ :: post },
          f.adding⟩,
        (.allocate f.dstatus.chain_length
          :: split_calls path { d with status := .exporting }
              ⟨names, (slot_mid b e + 1, e), .stable, .in_memory⟩ (slot_mid b e) e
              f.dstatus.chain_length)
          ++ (List.range f.dstatus.chain_length).flatMap (fun j =>
            [ call.set_regular (d.block_names.getD j "") b (slot_mid b e),
              call.set_regular (names.getD j "") (slot_mid b e + 1) e ]),
        .ok ()⟩ := by
  rw [hl] at hpart hnodup
  obtain ⟨h0, hle, hmax, hbefore, -, -⟩ := exact_partition_at SLOT_MAX pre d post hpart
  have hpre : ∀ c ∈ pre, c.slot_range ≠ (b, e) := by
    intro c hc heq
    have := hbefore c hc
    rw [heq, hd] at this
    simp at this
  have hsetup := setup_slot_range_split_spec SLOT_MAX allocate path b e f pre d post names hl
    hpre hd hcap hst ha
  unfold split_slot_range
  rw [and_then_ok _ _ _ (by rw [hsetup]), hsetup]
  simp only
  rw [finalize_slot_range_split_spec _ _ pre { d with status := .exporting } post f.adding
    ⟨names, (slot_mid b e + 1, e), .stable, .in_memory⟩ [] rfl
    (nodup_names_cons pre d post hnodup).1 rfl rfl hfresh rfl]
  simp [replica_chain.slot_begin, replica_chain.slot_end, hd]

/-- C6 (as amended): for a file whose chains are all stable, form an exact
partition of `[0, SLOT_MAX]` and have pairwise different block lists, below
capacity, and a chain of it with range `[b, e]`, `b < e`, holding `chain_length`
blocks: the completed split of `[b, e]` with a fresh allocation of `chain_length`
blocks, followed by the completed merge of the kept half `[b, (b+e)/2]`, both
return normally and leave the data status as it was except that the chain at the
donor's position now holds the freshly allocated blocks and the mode in_memory:
the same number of chains with the same slot ranges and statuses in the same
order, the same modes at every other position (at every position when the donor
was in_memory), the adding list unchanged, and as many blocks freed as
allocated. -/
theorem split_then_merge (SLOT_MAX : Nat)
    (allocate : Nat → Except ds_error (List String)) (path : String) (b e : Int)
    (f : ds_file_node) (pre : List replica_chain) (d : replica_chain)
    (post : List replica_chain) (names : List String)
    (hstable : all_stable f.dstatus.data_blocks)
    (hpart : exact_partition SLOT_MAX f.dstatus.data_blocks)
    (hnodup : (f.dstatus.data_blocks.map (fun c => c.block_names)).Nodup)
    (hl : f.dstatus.data_blocks = pre ++ d :: post) (hd : d.slot_range = (b, e))
    (hlt : b < e)
    (hcap : f.dstatus.data_blocks.length ≠ SLOT_MAX)
    (ha : allocate f.dstatus.chain_length = .ok names)
    (hfresh : ∀ c ∈ f.dstatus.data_blocks ++ f.adding, c.block_names ≠ names)
    (hdlen : d.block_names.length = f.dstatus.chain_length) :
    (split_slot_range SLOT_MAX allocate path b e f).ret = .ok ()
      ∧ (merge_slot_range SLOT_MAX b (slot_mid b e)
          (split_slot_range SLOT_MAX allocate path b e f).node).ret = .ok ()
      ∧ (merge_slot_range SLOT_MAX b (slot_mid b e)
          (split_slot_range SLOT_MAX allocate path b e f).node).node
        = ⟨{ f.dstatus with data_blocks :=
              pre ++ ⟨names, (b, e), .stable, .in_memory⟩ :: post }, f.adding⟩
      ∧ (pre ++ (⟨names, (b, e), .stable, .in_memory⟩ : replica_chain) :: post).map
          (fun c => (c.slot_range, c.status))
        = f.dstatus.data_blocks.map (fun c => (c.slot_range, c.status))
      ∧ (d.mode = .in_memory →
          (pre ++ (⟨names, (b, e), .stable, .in_memory⟩ : replica_chain) :: post).map
              (fun c => c.mode)
            = f.dstatus.data_blocks.map (fun c => c.mode))
      ∧ allocation_balance ((split_slot_range SLOT_MAX allocate path b e f).calls
          ++ (merge_slot_range SLOT_MAX b (slot_mid b e)
            (split_slot_range SLOT_MAX allocate path b e f).node).calls) = 0 := by
  have hst : d.status = .stable := hstable d (by rw [hl]; simp)
  have hsplit := split_slot_range_spec SLOT_MAX allocate path b e f pre d post names hpart
    hnodup hl hd hst hcap ha (fun c hc => hfresh c (List.mem_append_right _ hc))
  have hpart' := hpart
  rw [hl] at hpart' hnodup
  obtain ⟨h0, hle, hmax, hbefore, -, -⟩ := exact_partition_at SLOT_MAX pre d post hpart'
  rw [hd] at h0 hle hmax hbefore
  simp only at h0 hle hmax hbefore
  obtain ⟨hm1, hm2⟩ := slot_mid_bounds b e h0 hlt
  obtain ⟨hn1, -⟩ := nodup_names_cons pre d post hnodup
  have hpre : ∀ c ∈ pre, c.slot_range ≠ (b, slot_mid b e) := by
    intro c hc heq
    have := hbefore c hc
    rw [heq] at this
    simp at this
  have hdn : d.block_names ≠ names := hfresh d (by rw [hl]; simp)
  have hmerge := setup_slot_range_merge_spec SLOT_MAX b (slot_mid b e)
    ⟨{ f.dstatus with data_blocks :=
        pre ++ { d with slot_range := (b, slot_mid b e), status := .stable }
          :: ⟨names, (slot_mid b e + 1, e), .stable, .in_memory⟩ :: post }, f.adding⟩
    pre { d with slot_range := (b, slot_mid b e), status := .stable }
    ⟨names, (slot_mid b e + 1, e), .stable, .in_memory⟩ post rfl hpre rfl (by omega) rfl
    (by simp)
  have hfin := finalize_slot_range_merge_spec
    ⟨{ d with slot_range := (b, slot_mid b e), status := .stable },
      ⟨names, (slot_mid b e + 1, e), .stable, .in_memory⟩⟩
    ⟨{ f.dstatus with data_blocks :=
        pre ++ { d with slot_range := (b, slot_mid b e), status := .exporting }
          :: ⟨names, (slot_mid b e + 1, e), .importing, .in_memory⟩ :: post }, f.adding⟩
    pre { d with slot_range := (b, slot_mid b e), status := .exporting }
    ⟨names, (slot_mid b e + 1, e), .importing, .in_memory⟩ post rfl
    (fun c hc => ⟨hn1 c hc, hfresh c (by rw [hl]; simp [hc])⟩) rfl hdn rfl
  have hm : merge_slot_range SLOT_MAX b (slot_mid b e)
      ⟨{ f.dstatus with data_blocks :=
        pre ++ { d with slot_range := (b, slot_mid b e), status := .stable }
          :: ⟨names, (slot_mid b e + 1, e), .stable, .in_memory⟩ :: post }, f.adding⟩
      = ⟨⟨{ f.dstatus with data_blocks :=
              pre ++ ⟨names, (b, e), .stable, .in_memory⟩ :: post }, f.adding⟩,
          merge_calls { d with slot_range := (b, slot_mid b e), status := .stable }
              ⟨names, (slot_mid b e + 1, e), .stable, .in_memory⟩ b (slot_mid b e)
              f.dstatus.chain_length
            ++ ((List.range f.dstatus.chain_length).flatMap (fun j =>
              [ call.reset (d.block_names.getD j ""),
                call.set_regular (names.getD j "") b e ])
              ++ [.free d.block_names]),
          .ok ()⟩ := by
    unfold merge_slot_range
    rw [and_then_ok _ _ _ (by rw [hmerge]), hmerge]
    simp only
    rw [hfin]
    simp [replica_chain.slot_begin, replica_chain.slot_end]
  have hnode : (split_slot_range SLOT_MAX allocate path b e f).node
      = ⟨{ f.dstatus with data_blocks :=
            pre ++ { d with slot_range := (b, slot_mid b e), status := .stable }
              :: ⟨names, (slot_mid b e + 1, e), .stable, .in_memory⟩ :: post },
          f.adding⟩ := by
    rw [hsplit]
  refine ⟨by rw [hsplit], by rw [hnode, hm], by rw [hnode, hm], ?_, ?_, ?_⟩
  · rw [hl]
    simp [hd, hst]
  · intro hmode
    rw [hl]
    simp [hmode]
  · rw [hnode, hm, hsplit]
    simp only [allocation_balance_append, List.cons_append, allocation_balance_allocate,
      allocation_balance_free]
    rw [allocation_balance_storage _ (split_calls_storage _ _ _ _ _ _),
      allocation_balance_storage _ (merge_calls_storage _ _ _ _ _),
      allocation_balance_flatMap, allocation_balance_flatMap, hdlen]
    · omega
    · intro j c hc
      simp only [List.mem_cons] at hc
      rcases hc with rfl | rfl | hc
      · rfl
      · rfl
      · simp at hc
    · intro j c hc
      simp only [List.mem_cons] at hc
      rcases hc with rfl | rfl | hc
      · rfl
      · rfl
      · simp at hc

theorem split_then_merge_witness :
    all_stable [stable_chain ["a0", "a1"] 0 3, stable_chain ["b0", "b1"] 4 7]
      ∧ exact_partition 7 [stable_chain ["a0", "a1"] 0 3, stable_chain ["b0", "b1"] 4 7]
      ∧ (merge_slot_range 7 0 (slot_mid 0 3)
          (split_slot_range 7 (allocate_from ["r0", "r1", "r2"]) "/f" 0 3
            (file_of 2 [stable_chain ["a0", "a1"] 0 3,
              stable_chain ["b0", "b1"] 4 7])).node).node
        = file_of 2 [stable_chain ["r0", "r1"] 0 3, stable_chain ["b0", "b1"] 4 7]
      ∧ allocation_balance
          ((split_slot_range 7 (allocate_from ["r0", "r1", "r2"]) "/f" 0 3
            (file_of 2 [stable_chain ["a0", "a1"] 0 3, stable_chain ["b0", "b1"] 4 7])).calls
          ++ (merge_slot_range 7 0 (slot_mid 0 3)
            (split_slot_range 7 (allocate_from ["r0", "r1", "r2"]) "/f" 0 3
              (file_of 2 [stable_chain ["a0", "a1"] 0 3,
                stable_chain ["b0", "b1"] 4 7])).node).calls) = 0 :=
  have h := split_then_merge 7 (allocate_from ["r0", "r1", "r2"]) "/f" 0 3
    (file_of 2 [stable_chain ["a0", "a1"] 0 3, stable_chain ["b0", "b1"] 4 7])
    [] (stable_chain ["a0", "a1"] 0 3) [stable_chain ["b0", "b1"] 4 7] ["r0", "r1"]
    (by decide) (by decide) (by decide) rfl rfl (by decide) (by decide) rfl (by decide) rfl
  ⟨by decide, by decide, h.2.2.1, h.2.2.2.2.2⟩

/-- C6 (counterexample): the single-chain file `[0, 7]` whose chain is stable with
mode in_memory_grace. The completed split of `[0, 7]` followed by the completed
merge of the kept half `[0, 3]` both return normally and leave one stable chain
`[0, 7]`, but its mode is in_memory, not in_memory_grace: the storage modes are
not the ones of the original data status. -/
theorem split_then_merge_changes_mode :
    all_stable [(⟨["a"], (0, 7), .stable, .in_memory_grace⟩ : replica_chain)]
      ∧ (split_slot_range 7 (allocate_from ["r"]) "/f" 0 7
          (file_of 1 [⟨["a"], (0, 7), .stable, .in_memory_grace⟩])).ret = .ok ()
      ∧ (merge_slot_range 7 0 3
          (split_slot_range 7 (allocate_from ["r"]) "/f" 0 7
            (file_of 1 [⟨["a"], (0, 7), .stable, .in_memory_grace⟩])).node).ret = .ok ()
      ∧ (merge_slot_range 7 0 3
          (split_slot_range 7 (allocate_from ["r"]) "/f" 0 7
            (file_of 1 [⟨["a"], (0, 7), .stable, .in_memory_grace⟩])).node).node
        = file_of 1 [⟨["r"], (0, 7), .stable, .in_memory⟩]
      ∧ ¬ ((merge_slot_range 7 0 3
          (split_slot_range 7 (allocate_from ["r"]) "/f" 0 7
            (file_of 1 [⟨["a"], (0, 7), .stable,
              .in_memory_grace⟩])).node).node.dstatus.data_blocks.map (fun c => c.mode)
        = (file_of 1 [⟨["a"], (0, 7), .stable, .in_memory_grace⟩]).dstatus.data_blocks.map
            (fun c => c.mode)) := by
  refine ⟨by decide, rfl, rfl, rfl, by decide⟩

/-! ## Replacing one chain of a list -/

theorem mem_replace {α : Type} (pre : List α) (d : α) (post mid : List α) (c : α)
    (hc : c ∈ pre ++ d :: post) (hne : c ≠ d) : c ∈ pre ++ mid ++ post := by
  simp only [List.mem_append, List.mem_cons] at hc ⊢
  rcases hc with hc | hc | hc
  · exact Or.inl (Or.inl hc)
  · exact absurd hc hne
  · exact Or.inr hc

theorem mem_of_replace {α : Type} (pre : List α) (d : α) (post mid : List α) (c : α)
    (hc : c ∈ pre ++ mid ++ post) : c ∈ mid ∨ (c ∈ pre ++ d :: post ∧ (c ∈ pre ∨ c ∈ post)) := by
  simp only [List.mem_append, List.mem_cons] at hc ⊢
  rcases hc with (hc | hc) | hc
  · exact Or.inr ⟨Or.inl hc, Or.inl hc⟩
  · exact Or.inl hc
  · exact Or.inr ⟨Or.inr (Or.inr hc), Or.inr hc⟩

/-- Two neighbours of a list stay neighbours when another element of the list
is replaced by a list. -/
theorem adjacent_replace {α : Type} (pre : List α) (d : α) (post mid : List α)
    (pre' : List α) (x y : α) (post' : List α)
    (h : pre ++ d :: post = pre' ++ x :: y :: post') (hx : x ≠ d) (hy : y ≠ d) :
    ∃ pre'' post'', pre ++ mid ++ post = pre'' ++ x :: y :: post'' := by
  rw [List.append_eq_append_iff] at h
  rcases h with ⟨a, h1, h2⟩ | ⟨c, h1, h2⟩
  · -- pre' = pre ++ a, d :: post = a ++ x :: y :: post'
    cases a with
    | nil =>
      simp at h2
      exact absurd h2.1.symm hx
    | cons a0 a =>
      simp at h2
      obtain ⟨-, h3⟩ := h2
      exact ⟨pre ++ mid ++ a, post', by rw [h3]; simp⟩
  · -- pre = pre' ++ c, x :: y :: post' = c ++ d :: post
    cases c with
    | nil =>
      simp at h2
      exact absurd h2.1 hx
    | cons c0 c =>
      cases c with
      | nil =>
        simp at h2
        exact absurd h2.2.1 hy
      | cons c1 c =>
        simp at h2
        obtain ⟨h3, h4, h5⟩ := h2
        subst h3 h4
        exact ⟨pre', c ++ mid ++ post, by rw [h1]; simp⟩

theorem nodup_map_inj {α β : Type} (g : α → β) (l : List α) (h : (l.map g).Nodup)
    (x y : α) (hx : x ∈ l) (hy : y ∈ l) (hxy : g x = g y) : x = y :=
  List.inj_on_of_nodup_map h hx hy hxy

/-- In a list without repetition, the left neighbour of an element is unique. -/
theorem left_neighbour_unique {α : Type} (l pre post pre' post' : List α) (x x' y : α)
    (hn : l.Nodup) (h1 : l = pre ++ x :: y :: post) (h2 : l = pre' ++ x' :: y :: post') :
    x = x' := by
  have h : (pre ++ [x]) ++ y :: post = (pre' ++ [x']) ++ y :: post' := by
    simp only [List.append_assoc, List.singleton_append]
    rw [← h1, ← h2]
  have hy1 : y ∉ post := by
    rw [h1] at hn
    have := (List.nodup_append.mp hn).2.1
    rw [List.nodup_cons, List.nodup_cons] at this
    exact this.2.1
  have hy2 : y ∉ post' := by
    rw [h2] at hn
    have := (List.nodup_append.mp hn).2.1
    rw [List.nodup_cons, List.nodup_cons] at this
    exact this.2.1
  rw [List.append_eq_append_iff] at h
  rcases h with ⟨a, h3, h4⟩ | ⟨c, h3, h4⟩
  · cases a with
    | nil =>
      simp at h3
      have := List.append_inj_right' h3 rfl
      simpa using this.symm
    | cons a0 a =>
      simp at h4
      exact absurd (by rw [h4.2]; simp) hy1
  · cases c with
    | nil =>
      simp at h3
      have := List.append_inj_right' h3 rfl
      simpa using this
    | cons c0 c =>
      simp at h4
      exact absurd (by rw [h4.2]; simp) hy2

/-! ## The invariant of the protocols, step by step -/

theorem protocol_inv.data_nodup {SLOT_MAX : Nat} {f : ds_file_node}
    {splits merges : List export_ctx} (h : protocol_inv SLOT_MAX f splits merges) :
    (f.dstatus.data_blocks.map (fun c => c.block_names)).Nodup := by
  have := h.nodup
  rw [List.map_append] at this
  exact (List.nodup_append.mp this).1

theorem protocol_inv.same_chain {SLOT_MAX : Nat} {f : ds_file_node}
    {splits merges : List export_ctx} (h : protocol_inv SLOT_MAX f splits merges)
    (x y : replica_chain) (hx : x ∈ f.dstatus.data_blocks) (hy : y ∈ f.dstatus.data_blocks)
    (hxy : x.block_names = y.block_names) : x = y :=
  nodup_map_inj (fun c => c.block_names) _ h.data_nodup x y hx hy hxy

theorem protocol_inv.merge_donor_mem {SLOT_MAX : Nat} {f : ds_file_node}
    {splits merges : List export_ctx} (h : protocol_inv SLOT_MAX f splits merges)
    (ctx : export_ctx) (hctx : ctx ∈ merges) :
    ctx.from_block.as_exporting ∈ f.dstatus.data_blocks
      ∧ ctx.to_block.as_importing ∈ f.dstatus.data_blocks := by
  obtain ⟨pre, post, hl⟩ := h.merge_ctx ctx hctx
  rw [hl]
  simp

/-- A stable chain of the data status is not the donor of a pending context. -/
theorem protocol_inv.stable_not_donor {SLOT_MAX : Nat} {f : ds_file_node}
    {splits merges : List export_ctx} (h : protocol_inv SLOT_MAX f splits merges)
    (d : replica_chain) (hd : d ∈ f.dstatus.data_blocks) (hst : d.status = .stable) :
    d.block_names ∉ splits.map (fun ctx => ctx.from_block.block_names)
        ++ merges.map (fun ctx => ctx.from_block.block_names)
      ∧ d.block_names ∉ merges.map (fun ctx => ctx.to_block.block_names) := by
  refine ⟨?_, ?_⟩
  · intro hmem
    rcases List.mem_append.mp hmem with hm | hm
    · obtain ⟨ctx, hctx, hn⟩ := List.mem_map.mp hm
      obtain ⟨h1, h2, -⟩ := h.split_ctx ctx hctx
      have := h.same_chain _ _ h1 hd hn
      rw [this, hst] at h2
      simp at h2
    · obtain ⟨ctx, hctx, hn⟩ := List.mem_map.mp hm
      have h1 := (h.merge_donor_mem ctx hctx).1
      have := h.same_chain _ _ h1 hd hn
      rw [← this] at hst
      simp [replica_chain.as_exporting] at hst
  · intro hm
    obtain ⟨ctx, hctx, hn⟩ := List.mem_map.mp hm
    have h1 := (h.merge_donor_mem ctx hctx).2
    have := h.same_chain _ _ h1 hd hn
    rw [← this] at hst
    simp [replica_chain.as_importing] at hst

theorem protocol_inv_split_start (SLOT_MAX : Nat) (f : ds_file_node)
    (splits merges : List export_ctx) (pre : List replica_chain) (d : replica_chain)
    (post : List replica_chain) (names : List String)
    (h : protocol_inv SLOT_MAX f splits merges)
    (hl : f.dstatus.data_blocks = pre ++ d :: post) (hst : d.status = .stable)
    (hlt : d.slot_range.1 < d.slot_range.2)
    (hfresh : ∀ c ∈ f.dstatus.data_blocks ++ f.adding, c.block_names ≠ names) :
    protocol_inv SLOT_MAX
      ⟨{ f.dstatus with data_blocks := pre ++ { d with status := .exporting } :: post },
        f.adding ++ [⟨names, (slot_mid d.slot_range.1 d.slot_range.2 + 1, d.slot_range.2),
          .stable, .in_memory⟩]⟩
      (splits ++ [⟨{ d with status := .exporting },
        ⟨names, (slot_mid d.slot_range.1 d.slot_range.2 + 1, d.slot_range.2),
          .stable, .in_memory⟩⟩])
      merges := by
  have hd : d ∈ f.dstatus.data_blocks := by rw [hl]; simp
  obtain ⟨hnd1, hnd2⟩ := h.stable_not_donor d hd hst
  have hnew : pre ++ { d with status := chain_status.exporting } :: post
      = pre ++ [{ d with status := chain_status.exporting }] ++ post := by simp
  constructor
  · have := h.part
    rw [hl] at this
    simpa [exact_partition] using this
  · have := h.nodup
    rw [hl] at this hfresh
    simp only [List.map_append, List.map_cons, List.map_nil] at this ⊢
    rw [← List.append_assoc, List.nodup_append]
    refine ⟨this, by simp, ?_⟩
    intro x hx hx2
    simp only [List.mem_singleton] at hx2
    subst hx2
    rw [← List.map_cons, ← List.map_append, ← List.map_append] at hx
    obtain ⟨c, hc, hcn⟩ := List.mem_map.mp hx
    exact hfresh c hc hcn
  · simp [h.adding_eq]
  · intro ctx hctx
    rcases List.mem_append.mp hctx with hctx | hctx
    · obtain ⟨h1, h2, h3, h4, h5⟩ := h.split_ctx ctx hctx
      refine ⟨?_, h2, h3, h4, h5⟩
      show ctx.from_block ∈ pre ++ { d with status := chain_status.exporting } :: post
      rw [hnew]
      rw [hl] at h1
      apply mem_replace pre d post _ _ h1
      intro heq
      rw [heq, hst] at h2
      simp at h2
    · simp only [List.mem_singleton] at hctx
      subst hctx
      refine ⟨by simp, rfl, hlt, rfl, rfl⟩
  · intro ctx hctx
    obtain ⟨pre', post', hdec⟩ := h.merge_ctx ctx hctx
    rw [hl] at hdec
    show ∃ pre'' post'', pre ++ { d with status := chain_status.exporting } :: post
      = pre'' ++ _ :: _ :: post''
    rw [hnew]
    apply adjacent_replace pre d post _ pre' _ _ post' hdec
    · intro heq
      rw [← heq] at hst
      simp [replica_chain.as_exporting] at hst
    · intro heq
      rw [← heq] at hst
      simp [replica_chain.as_importing] at hst
  · have := h.donors
    simp only [List.map_append, List.map_cons, List.map_nil, List.append_assoc,
      List.singleton_append]
    rw [List.nodup_middle, List.nodup_cons]
    exact ⟨hnd1, this⟩
  · exact h.partners
  · intro c hc himp
    have hc' : c ∈ pre ++ [{ d with status := chain_status.exporting }] ++ post := by
      rw [← hnew]; exact hc
    rcases mem_of_replace pre d post _ c hc' with hmid | ⟨hold, -⟩
    · simp only [List.mem_singleton] at hmid
      rw [hmid] at himp
      simp at himp
    · rw [← hl] at hold
      exact h.importing c hold himp
  · intro c hc hexp
    have hc' : c ∈ pre ++ [{ d with status := chain_status.exporting }] ++ post := by
      rw [← hnew]; exact hc
    rcases mem_of_replace pre d post _ c hc' with hmid | ⟨hold, -⟩
    · simp only [List.mem_singleton] at hmid
      exact Or.inl ⟨⟨{ d with status := .exporting },
        ⟨names, (slot_mid d.slot_range.1 d.slot_range.2 + 1, d.slot_range.2),
          .stable, .in_memory⟩⟩, by simp, hmid⟩
    · rw [← hl] at hold
      rcases h.exporting c hold hexp with ⟨c2, hc2, hcc⟩ | ⟨c2, hc2, hcc⟩
      · exact Or.inl ⟨c2, List.mem_append_left _ hc2, hcc⟩
      · exact Or.inr ⟨c2, hc2, hcc⟩

theorem nodup_remove_middle {α : Type} (l1 : List α) (a : α) (l2 : List α)
    (h : (l1 ++ a :: l2).Nodup) : (l1 ++ l2).Nodup ∧ a ∉ l1 ++ l2 := by
  rw [List.nodup_middle, List.nodup_cons] at h
  exact ⟨h.2, h.1⟩

theorem protocol_inv_finalize_split (SLOT_MAX : Nat) (f : ds_file_node)
    (s1 : List export_ctx) (ctx : export_ctx) (s2 merges : List export_ctx)
    (h : protocol_inv SLOT_MAX f (s1 ++ ctx :: s2) merges) :
    protocol_inv SLOT_MAX (f.finalize_slot_range_split ctx).node (s1 ++ s2) merges := by
  obtain ⟨hmem, hexp, hlt, hto, htst⟩ := h.split_ctx ctx (by simp)
  obtain ⟨pre, post, hl⟩ := List.append_of_mem hmem
  have hdn := h.data_nodup
  rw [hl] at hdn
  obtain ⟨hn1, hn2⟩ := nodup_names_cons pre ctx.from_block post hdn
  have hadd : f.adding = s1.map (fun c => c.to_block) ++ ctx.to_block
      :: s2.map (fun c => c.to_block) := by
    rw [h.adding_eq]; simp
  have hnodup := h.nodup
  rw [hl, hadd] at hnodup
  have hadd_nodup : ((s1.map (fun c => c.to_block) ++ ctx.to_block
      :: s2.map (fun c => c.to_block)).map (fun c => c.block_names)).Nodup := by
    rw [List.map_append] at hnodup
    exact (List.nodup_append.mp hnodup).2.1
  obtain ⟨ha1, -⟩ := nodup_names_cons _ _ _ hadd_nodup
  rw [finalize_slot_range_split_spec ctx f pre ctx.from_block post _ ctx.to_block _ hl hn1 rfl
    hadd ha1 rfl]
  simp only
  have hpart := h.part
  rw [hl] at hpart
  obtain ⟨h0, -, -, -, -, -⟩ := exact_partition_at SLOT_MAX pre ctx.from_block post hpart
  have hlt' : ctx.from_block.slot_range.1 < ctx.from_block.slot_range.2 := hlt
  obtain ⟨hm1, hm2⟩ := slot_mid_bounds _ _ h0 hlt'
  have hnew : pre ++ ({ ctx.from_block with
        slot_range := (ctx.from_block.slot_begin,
          slot_mid ctx.from_block.slot_begin ctx.from_block.slot_end),
        status := chain_status.stable } : replica_chain) :: ctx.to_block :: post
      = pre ++ [({ ctx.from_block with
        slot_range := (ctx.from_block.slot_begin,
          slot_mid ctx.from_block.slot_begin ctx.from_block.slot_end),
        status := chain_status.stable } : replica_chain), ctx.to_block] ++ post := by simp
  have hdonors := h.donors
  simp only [List.map_append, List.map_cons, List.append_assoc, List.cons_append]
    at hdonors
  obtain ⟨hdon', hdon_not⟩ := nodup_remove_middle _ _ _ hdonors
  constructor
  · show exact_partition SLOT_MAX (pre ++ _ :: ctx.to_block :: post)
    rw [hnew]
    apply exact_partition_replace SLOT_MAX pre ctx.from_block post _ hpart
    simp only [List.map_cons, List.map_nil, tiles, hto, replica_chain.slot_begin,
      replica_chain.slot_end]
    refine ⟨trivial, hm1, trivial, by omega, trivial⟩
  · show ((pre ++ _ :: ctx.to_block :: post ++ (_ ++ _)).map _).Nodup
    refine (List.Perm.nodup_iff ?_).mp hnodup
    simp only [List.map_append, List.map_cons]
    have p1 := @List.perm_middle _ ctx.to_block.block_names
      (List.map (fun c => c.block_names) pre
        ++ ctx.from_block.block_names :: List.map (fun c => c.block_names) post
        ++ List.map (fun c => c.block_names) (List.map (fun c => c.to_block) s1))
      (List.map (fun c => c.block_names) (List.map (fun c => c.to_block) s2))
    have p2 := @List.perm_middle _ ctx.to_block.block_names
      (List.map (fun c => c.block_names) pre ++ [ctx.from_block.block_names])
      (List.map (fun c => c.block_names) post
        ++ (List.map (fun c => c.block_names) (List.map (fun c => c.to_block) s1)
          ++ List.map (fun c => c.block_names) (List.map (fun c => c.to_block) s2)))
    simp only [List.append_assoc, List.cons_append, List.singleton_append, List.nil_append]
      at p1 p2 ⊢
    exact p1.trans p2.symm
  · simp
  · intro c hc
    have hc' : c ∈ s1 ++ ctx :: s2 := by
      rcases List.mem_append.mp hc with hc | hc
      · exact List.mem_append_left _ hc
      · exact List.mem_append_right _ (List.mem_cons_of_mem _ hc)
    obtain ⟨h1, h2, h3, h4, h5⟩ := h.split_ctx c hc'
    refine ⟨?_, h2, h3, h4, h5⟩
    show c.from_block ∈ pre ++ _ :: ctx.to_block :: post
    rw [hnew]
    rw [hl] at h1
    apply mem_replace pre ctx.from_block post _ _ h1
    intro heq
    apply hdon_not
    rw [← heq]
    rcases List.mem_append.mp hc with hc | hc
    · exact List.mem_append_left _ (List.mem_map_of_mem (fun c => c.from_block.block_names) hc)
    · exact List.mem_append_right _ (List.mem_append_left _
        (List.mem_map_of_mem (fun c => c.from_block.block_names) hc))
  · intro c hc
    obtain ⟨pre', post', hdec⟩ := h.merge_ctx c hc
    rw [hl] at hdec
    show ∃ pre'' post'', pre ++ _ :: ctx.to_block :: post = pre'' ++ _ :: _ :: post''
    rw [hnew]
    apply adjacent_replace pre ctx.from_block post _ pre' _ _ post' hdec
    · intro heq
      apply hdon_not
      have : c.from_block.block_names = ctx.from_block.block_names := by
        rw [← heq]; rfl
      rw [← this]
      exact List.mem_append_right _ (List.mem_append_right _
        (List.mem_map_of_mem (fun c => c.from_block.block_names) hc))
    · intro heq
      rw [← heq] at hexp
      simp [replica_chain.as_importing] at hexp
  · simp only [List.map_append, List.append_assoc]
    exact hdon'
  · exact h.partners
  · intro c hc himp
    have hc' : c ∈ pre ++ [({ ctx.from_block with
        slot_range := (ctx.from_block.slot_begin,
          slot_mid ctx.from_block.slot_begin ctx.from_block.slot_end),
        status := chain_status.stable } : replica_chain), ctx.to_block] ++ post := by
      rw [← hnew]; exact hc
    rcases mem_of_replace pre ctx.from_block post _ c hc' with hmid | ⟨hold, -⟩
    · simp only [List.mem_cons, List.mem_singleton, List.not_mem_nil, or_false] at hmid
      rcases hmid with hmid | hmid
      · rw [hmid] at himp
        simp at himp
      · rw [hmid, htst] at himp
        simp at himp
    · rw [← hl] at hold
      exact h.importing c hold himp
  · intro c hc hexpc
    have hc' : c ∈ pre ++ [({ ctx.from_block with
        slot_range := (ctx.from_block.slot_begin,
          slot_mid ctx.from_block.slot_begin ctx.from_block.slot_end),
        status := chain_status.stable } : replica_chain), ctx.to_block] ++ post := by
      rw [← hnew]; exact hc
    rcases mem_of_replace pre ctx.from_block post _ c hc' with hmid | ⟨hold, hpp⟩
    · simp only [List.mem_cons, List.mem_singleton, List.not_mem_nil, or_false] at hmid
      rcases hmid with hmid | hmid
      · rw [hmid] at hexpc
        simp at hexpc
      · rw [hmid, htst] at hexpc
        simp at hexpc
    · rw [← hl] at hold
      have hfrom_not : ctx.from_block ∉ pre ++ post := by
        have := List.Nodup.of_map _ hdn
        exact (nodup_remove_middle _ _ _ this).2
      rcases h.exporting c hold hexpc with ⟨c2, hc2, hcc⟩ | ⟨c2, hc2, hcc⟩
      · left
        refine ⟨c2, ?_, hcc⟩
        rcases List.mem_append.mp hc2 with hc2 | hc2
        · exact List.mem_append_left _ hc2
        · rcases List.mem_cons.mp hc2 with hc2 | hc2
          · subst hc2
            rw [hcc] at hpp
            exact absurd (List.mem_append.mpr hpp) hfrom_not
          · exact List.mem_append_right _ hc2
      · exact Or.inr ⟨c2, hc2, hcc⟩

theorem protocol_inv_setup_merge (SLOT_MAX : Nat) (f : ds_file_node)
    (splits merges : List export_ctx) (b e : Int) (ctx : export_ctx)
    (h : protocol_inv SLOT_MAX f splits merges)
    (hok : (f.setup_slot_range_merge SLOT_MAX b e).ret = .ok ctx) :
    protocol_inv SLOT_MAX (f.setup_slot_range_merge SLOT_MAX b e).node splits
      (merges ++ [ctx]) := by
  obtain ⟨pre, d, p, post, hl, hpre, hd, hend, hst, hp⟩ :=
    setup_slot_range_merge_ok SLOT_MAX b e f ctx hok
  have hspec := setup_slot_range_merge_spec SLOT_MAX b e f pre d p post hl hpre hd hend hst hp
  rw [hspec] at hok
  have hctx : ctx = ⟨d, p⟩ := (Except.ok.inj hok).symm
  subst hctx
  rw [hspec]
  simp only
  have hdmem : d ∈ f.dstatus.data_blocks := by rw [hl]; simp
  have hpmem : p ∈ f.dstatus.data_blocks := by rw [hl]; simp
  have helems : f.dstatus.data_blocks.Nodup := List.Nodup.of_map _ h.data_nodup
  -- the partner is not importing: its left neighbour would be exporting
  have hpst : p.status = .stable := by
    apply status_cases _ hp
    intro himp
    obtain ⟨c, hc, hpc⟩ := h.importing p hpmem himp
    obtain ⟨pre', post', hdec⟩ := h.merge_ctx c hc
    rw [← hpc] at hdec
    have := left_neighbour_unique _ pre post pre' post' d _ p helems hl hdec
    rw [this] at hst
    simp [replica_chain.as_exporting] at hst
  obtain ⟨hnd1, -⟩ := h.stable_not_donor d hdmem hst
  obtain ⟨-, hnp2⟩ := h.stable_not_donor p hpmem hpst
  have hstep1 : pre ++ d :: p :: post = pre ++ d :: (p :: post) := rfl
  have hstep2 : pre ++ [({ d with status := chain_status.exporting } : replica_chain)]
      ++ p :: post
      = (pre ++ [({ d with status := chain_status.exporting } : replica_chain)])
        ++ p :: post := rfl
  have hnew : pre ++ ({ d with status := chain_status.exporting } : replica_chain)
      :: ({ p with status := chain_status.importing } : replica_chain) :: post
      = (pre ++ [({ d with status := chain_status.exporting } : replica_chain)])
        ++ [({ p with status := chain_status.importing } : replica_chain)] ++ post := by
    simp
  -- a chain other than the donor and the partner stays in the data status
  have hkeep : ∀ c ∈ f.dstatus.data_blocks, c ≠ d → c ≠ p →
      c ∈ pre ++ ({ d with status := chain_status.exporting } : replica_chain)
        :: ({ p with status := chain_status.importing } : replica_chain) :: post := by
    intro c hc hcd hcp
    rw [hl] at hc
    rw [hnew]
    have h1 := mem_replace pre d (p :: post)
      [({ d with status := chain_status.exporting } : replica_chain)] c hc hcd
    exact mem_replace _ p post _ c h1 hcp
  constructor
  · have := h.part
    rw [hl] at this
    simpa [exact_partition] using this
  · have := h.nodup
    rw [hl] at this
    simpa using this
  · exact h.adding_eq
  · intro c hc
    obtain ⟨h1, h2, h3, h4, h5⟩ := h.split_ctx c hc
    refine ⟨hkeep _ h1 ?_ ?_, h2, h3, h4, h5⟩
    · intro heq
      rw [heq, hst] at h2
      simp at h2
    · intro heq
      rw [heq, hpst] at h2
      simp at h2
  · intro c hc
    rcases List.mem_append.mp hc with hc | hc
    · obtain ⟨pre', post', hdec⟩ := h.merge_ctx c hc
      rw [hl] at hdec
      show ∃ pre'' post'', pre ++ _ :: _ :: post = pre'' ++ _ :: _ :: post''
      rw [hnew]
      have hx1 : c.from_block.as_exporting ≠ d := by
        intro heq
        rw [← heq] at hst
        simp [replica_chain.as_exporting] at hst
      have hx2 : c.from_block.as_exporting ≠ p := by
        intro heq
        rw [← heq] at hpst
        simp [replica_chain.as_exporting] at hpst
      have hy1 : c.to_block.as_importing ≠ d := by
        intro heq
        rw [← heq] at hst
        simp [replica_chain.as_importing] at hst
      have hy2 : c.to_block.as_importing ≠ p := by
        intro heq
        rw [← heq] at hpst
        simp [replica_chain.as_importing] at hpst
      obtain ⟨pre1, post1, hdec1⟩ := adjacent_replace pre d (p :: post)
        [({ d with status := chain_status.exporting } : replica_chain)] pre' _ _ post' hdec
        hx1 hy1
      exact adjacent_replace _ p post _ pre1 _ _ post1 hdec1 hx2 hy2
    · simp only [List.mem_singleton] at hc
      subst hc
      exact ⟨pre, post, rfl⟩
  · have := h.donors
    simp only [List.map_append, List.map_cons, List.map_nil]
    rw [← List.append_assoc, List.nodup_append]
    refine ⟨this, by simp, ?_⟩
    intro x hx hx2
    simp only [List.mem_singleton] at hx2
    subst hx2
    exact hnd1 hx
  · have := h.partners
    simp only [List.map_append, List.map_cons, List.map_nil]
    rw [List.nodup_append]
    refine ⟨this, by simp, ?_⟩
    intro x hx hx2
    simp only [List.mem_singleton] at hx2
    subst hx2
    exact hnp2 hx
  · intro c hc himp
    have hc' : c ∈ (pre ++ [({ d with status := chain_status.exporting } : replica_chain)])
        ++ [({ p with status := chain_status.importing } : replica_chain)] ++ post := by
      rw [← hnew]; exact hc
    rcases mem_of_replace _ p post _ c hc' with hmid | ⟨hold, -⟩
    · simp only [List.mem_singleton] at hmid
      exact ⟨⟨d, p⟩, by simp, hmid⟩
    · rcases mem_of_replace pre d (p :: post) _ c hold with hmid | ⟨hold2, -⟩
      · simp only [List.mem_singleton] at hmid
        rw [hmid] at himp
        simp at himp
      · rw [← hl] at hold2
        obtain ⟨c2, hc2, hcc⟩ := h.importing c hold2 himp
        exact ⟨c2, List.mem_append_left _ hc2, hcc⟩
  · intro c hc hexpc
    have hc' : c ∈ (pre ++ [({ d with status := chain_status.exporting } : replica_chain)])
        ++ [({ p with status := chain_status.importing } : replica_chain)] ++ post := by
      rw [← hnew]; exact hc
    rcases mem_of_replace _ p post _ c hc' with hmid | ⟨hold, -⟩
    · simp only [List.mem_singleton] at hmid
      rw [hmid] at hexpc
      simp at hexpc
    · rcases mem_of_replace pre d (p :: post) _ c hold with hmid | ⟨hold2, -⟩
      · simp only [List.mem_singleton] at hmid
        exact Or.inr ⟨⟨d, p⟩, by simp, hmid⟩
      · rw [← hl] at hold2
        rcases h.exporting c hold2 hexpc with ⟨c2, hc2, hcc⟩ | ⟨c2, hc2, hcc⟩
        · exact Or.inl ⟨c2, hc2, hcc⟩
        · exact Or.inr ⟨c2, List.mem_append_left _ hc2, hcc⟩

theorem exact_partition_merge (SLOT_MAX : Nat) (pre : List replica_chain)
    (x y : replica_chain) (post : List replica_chain) (z : replica_chain)
    (h : exact_partition SLOT_MAX (pre ++ x :: y :: post))
    (hz : z.slot_range = (x.slot_range.1, y.slot_range.2)) :
    exact_partition SLOT_MAX (pre ++ z :: post) := by
  unfold exact_partition at h ⊢
  rw [List.map_append, tiles_append] at h ⊢
  obtain ⟨m, h1, h2⟩ := h
  refine ⟨m, h1, ?_⟩
  have h2' : x.slot_range.1 = m ∧ x.slot_range.1 ≤ x.slot_range.2
      ∧ y.slot_range.1 = x.slot_range.2 + 1 ∧ y.slot_range.1 ≤ y.slot_range.2
      ∧ tiles (y.slot_range.2 + 1) ((SLOT_MAX : Int) + 1)
        (post.map (fun c => c.slot_range)) := h2
  obtain ⟨h3, h4, h5, h6, h7⟩ := h2'
  show z.slot_range.1 = m ∧ z.slot_range.1 ≤ z.slot_range.2
    ∧ tiles (z.slot_range.2 + 1) ((SLOT_MAX : Int) + 1) (post.map (fun c => c.slot_range))
  rw [hz]
  exact ⟨h3, by simp only; omega, h7⟩

theorem protocol_inv_finalize_merge (SLOT_MAX : Nat) (f : ds_file_node)
    (splits m1 : List export_ctx) (ctx : export_ctx) (m2 : List export_ctx)
    (h : protocol_inv SLOT_MAX f splits (m1 ++ ctx :: m2)) :
    protocol_inv SLOT_MAX (f.finalize_slot_range_merge ctx).node splits (m1 ++ m2) := by
  obtain ⟨pre, post, hl⟩ := h.merge_ctx ctx (by simp)
  have hdn := h.data_nodup
  have helems : f.dstatus.data_blocks.Nodup := List.Nodup.of_map _ hdn
  rw [hl] at hdn helems
  obtain ⟨hn1, hn2⟩ := nodup_names_cons pre _ _ hdn
  have hdn2 : ((pre ++ [ctx.from_block.as_exporting] ++ ctx.to_block.as_importing
      :: post).map (fun c => c.block_names)).Nodup := by
    simpa using hdn
  obtain ⟨hn3, -⟩ := nodup_names_cons _ _ _ hdn2
  have hdp : ctx.from_block.as_exporting.block_names ≠ ctx.to_block.as_importing.block_names :=
    hn3 _ (by simp)
  rw [finalize_slot_range_merge_spec ctx f pre ctx.from_block.as_exporting
    ctx.to_block.as_importing post hl
    (fun c hc => ⟨hn1 c hc, hn3 c (by simp [hc])⟩) rfl hdp rfl]
  simp only
  have hnew : pre ++ ({ ctx.to_block.as_importing with
        slot_range := (ctx.from_block.slot_begin, ctx.to_block.slot_end),
        status := chain_status.stable } : replica_chain) :: post
      = (pre ++ [] ++ [({ ctx.to_block.as_importing with
        slot_range := (ctx.from_block.slot_begin, ctx.to_block.slot_end),
        status := chain_status.stable } : replica_chain)]) ++ post := by simp
  have hold1 : pre ++ [] ++ ctx.to_block.as_importing :: post
      = (pre ++ []) ++ ctx.to_block.as_importing :: post := rfl
  have hdonors := h.donors
  simp only [List.map_append, List.map_cons] at hdonors
  rw [← List.append_assoc] at hdonors
  obtain ⟨hdon', hdon_not⟩ := nodup_remove_middle _ _ _ hdonors
  have hpartners := h.partners
  simp only [List.map_append, List.map_cons] at hpartners
  obtain ⟨hpar', hpar_not⟩ := nodup_remove_middle _ _ _ hpartners
  -- the partner occurs once in the data status
  have hy_pre : ctx.to_block.as_importing ∉ pre := by
    intro hmem
    exact hn3 _ (by simp [hmem]) rfl
  have hy_post : ctx.to_block.as_importing ∉ post := by
    have := (List.nodup_append.mp helems).2.1
    rw [List.nodup_cons, List.nodup_cons] at this
    exact this.2.1
  have hkeep : ∀ c ∈ f.dstatus.data_blocks, c ≠ ctx.from_block.as_exporting →
      c ≠ ctx.to_block.as_importing →
      c ∈ pre ++ ({ ctx.to_block.as_importing with
        slot_range := (ctx.from_block.slot_begin, ctx.to_block.slot_end),
        status := chain_status.stable } : replica_chain) :: post := by
    intro c hc hcd hcp
    rw [hl] at hc
    rw [hnew]
    have h1 := mem_replace pre _ (ctx.to_block.as_importing :: post) [] c hc hcd
    exact mem_replace _ _ post _ c h1 hcp
  constructor
  · have := h.part
    rw [hl] at this
    exact exact_partition_merge SLOT_MAX pre _ _ post _ this rfl
  · have := h.nodup
    rw [hl] at this
    simp only [List.map_append, List.map_cons, List.append_assoc, List.cons_append] at this ⊢
    exact (nodup_remove_middle _ _ _ this).1
  · exact h.adding_eq
  · intro c hc
    obtain ⟨h1, h2, h3, h4, h5⟩ := h.split_ctx c hc
    refine ⟨hkeep _ h1 ?_ ?_, h2, h3, h4, h5⟩
    · intro heq
      apply hdon_not
      have : c.from_block.block_names = ctx.from_block.block_names := by rw [heq]; rfl
      rw [← this]
      exact List.mem_append_left _ (List.mem_append_left _
        (List.mem_map_of_mem (fun c => c.from_block.block_names) hc))
    · intro heq
      rw [heq] at h2
      simp [replica_chain.as_importing] at h2
  · intro c hc
    have hc' : c ∈ m1 ++ ctx :: m2 := by
      rcases List.mem_append.mp hc with hc | hc
      · exact List.mem_append_left _ hc
      · exact List.mem_append_right _ (List.mem_cons_of_mem _ hc)
    obtain ⟨pre', post', hdec⟩ := h.merge_ctx c hc'
    rw [hl] at hdec
    show ∃ pre'' post'', pre ++ _ :: post = pre'' ++ _ :: _ :: post''
    rw [hnew]
    have hx1 : c.from_block.as_exporting ≠ ctx.from_block.as_exporting := by
      intro heq
      apply hdon_not
      have : c.from_block.block_names = ctx.from_block.block_names := by
        have := congrArg replica_chain.block_names heq
        exact this
      rw [← this]
      rcases List.mem_append.mp hc with hc | hc
      · exact List.mem_append_left _ (List.mem_append_right _
          (List.mem_map_of_mem (fun c => c.from_block.block_names) hc))
      · exact List.mem_append_right _
          (List.mem_map_of_mem (fun c => c.from_block.block_names) hc)
    have hx2 : c.from_block.as_exporting ≠ ctx.to_block.as_importing := by
      intro heq
      have := congrArg replica_chain.status heq
      simp [replica_chain.as_exporting, replica_chain.as_importing] at this
    have hy1 : c.to_block.as_importing ≠ ctx.from_block.as_exporting := by
      intro heq
      have := congrArg replica_chain.status heq
      simp [replica_chain.as_exporting, replica_chain.as_importing] at this
    have hy2 : c.to_block.as_importing ≠ ctx.to_block.as_importing := by
      intro heq
      apply hpar_not
      have : c.to_block.block_names = ctx.to_block.block_names := by
        have := congrArg replica_chain.block_names heq
        exact this
      rw [← this]
      rcases List.mem_append.mp hc with hc | hc
      · exact List.mem_append_left _ (List.mem_map_of_mem (fun c => c.to_block.block_names) hc)
      · exact List.mem_append_right _
          (List.mem_map_of_mem (fun c => c.to_block.block_names) hc)
    obtain ⟨pre1, post1, hdec1⟩ := adjacent_replace pre _ (ctx.to_block.as_importing :: post)
      [] pre' _ _ post' hdec hx1 hy1
    exact adjacent_replace _ _ post _ pre1 _ _ post1 hdec1 hx2 hy2
  · simp only [List.map_append, List.append_assoc] at hdon' ⊢
    exact hdon'
  · simp only [List.map_append]
    exact hpar'
  · intro c hc himp
    have hc' : c ∈ (pre ++ [] ++ [({ ctx.to_block.as_importing with
        slot_range := (ctx.from_block.slot_begin, ctx.to_block.slot_end),
        status := chain_status.stable } : replica_chain)]) ++ post := by
      rw [← hnew]; exact hc
    have hc_pp : c ∈ pre ∨ c ∈ post := by
      simp only [List.append_nil, List.mem_append, List.mem_singleton] at hc'
      rcases hc' with (hc' | hc') | hc'
      · exact Or.inl hc'
      · rw [hc'] at himp
        simp at himp
      · exact Or.inr hc'
    have hold : c ∈ f.dstatus.data_blocks := by
      rw [hl]
      rcases hc_pp with hc_pp | hc_pp
      · simp [hc_pp]
      · simp [hc_pp]
    obtain ⟨c2, hc2, hcc⟩ := h.importing c hold himp
    refine ⟨c2, ?_, hcc⟩
    rcases List.mem_append.mp hc2 with hc2 | hc2
    · exact List.mem_append_left _ hc2
    · rcases List.mem_cons.mp hc2 with hc2 | hc2
      · subst hc2
        rw [hcc] at hc_pp
        rcases hc_pp with hc_pp | hc_pp
        · exact absurd hc_pp hy_pre
        · exact absurd hc_pp hy_post
      · exact List.mem_append_right _ hc2
  · intro c hc hexpc
    have hc' : c ∈ (pre ++ [] ++ [({ ctx.to_block.as_importing with
        slot_range := (ctx.from_block.slot_begin, ctx.to_block.slot_end),
        status := chain_status.stable } : replica_chain)]) ++ post := by
      rw [← hnew]; exact hc
    have hc_pp : c ∈ pre ∨ c ∈ post := by
      simp only [List.append_nil, List.mem_append, List.mem_singleton] at hc'
      rcases hc' with (hc' | hc') | hc'
      · exact Or.inl hc'
      · rw [hc'] at hexpc
        simp at hexpc
      · exact Or.inr hc'
    have hold : c ∈ f.dstatus.data_blocks := by
      rw [hl]
      rcases hc_pp with hc_pp | hc_pp
      · simp [hc_pp]
      · simp [hc_pp]
    have hx_not : ctx.from_block.as_exporting ∉ pre
        ++ ctx.to_block.as_importing :: post := (nodup_remove_middle _ _ _ helems).2
    rcases h.exporting c hold hexpc with ⟨c2, hc2, hcc⟩ | ⟨c2, hc2, hcc⟩
    · exact Or.inl ⟨c2, hc2, hcc⟩
    · right
      refine ⟨c2, ?_, hcc⟩
      rcases List.mem_append.mp hc2 with hc2 | hc2
      · exact List.mem_append_left _ hc2
      · rcases List.mem_cons.mp hc2 with hc2 | hc2
        · subst hc2
          rw [hcc] at hc_pp
          exfalso
          apply hx_not
          rcases hc_pp with hc_pp | hc_pp
          · exact List.mem_append_left _ hc_pp
          · exact List.mem_append_right _ (List.mem_cons_of_mem _ hc_pp)
        · exact List.mem_append_right _ hc2

/-! ## Every reachable state satisfies the invariant -/

theorem reachable_inv (SLOT_MAX : Nat) (f : ds_file_node) (splits merges : List export_ctx)
    (h : reachable SLOT_MAX f splits merges) : protocol_inv SLOT_MAX f splits merges := by
  induction h with
  | init f hst hpart hnodup hadd =>
    constructor
    · exact hpart
    · rw [hadd]; simpa using hnodup
    · rw [hadd]; rfl
    · intro ctx hctx; simp at hctx
    · intro ctx hctx; simp at hctx
    · simp
    · simp
    · intro c hc himp
      rw [hst c hc] at himp
      simp at himp
    · intro c hc hexp
      rw [hst c hc] at hexp
      simp at hexp
  | split_setup f splits merges allocate path b e ctx _ hlt hfresh hok ih =>
    obtain ⟨pre, d, post, names, hl, hpre, hd, hcap, hst, ha⟩ :=
      setup_slot_range_split_ok SLOT_MAX allocate path b e f ctx hok
    have hspec := setup_slot_range_split_spec SLOT_MAX allocate path b e f pre d post names hl
      hpre hd hcap hst ha
    rw [hspec] at hok
    have hctx := (Except.ok.inj hok).symm
    subst hctx
    rw [hspec]
    have := protocol_inv_split_start SLOT_MAX f splits merges pre d post names ih hl hst
      (by rw [hd]; exact hlt) (hfresh names ha)
    have hb : d.slot_range.1 = b := by rw [hd]
    have he : d.slot_range.2 = e := by rw [hd]
    rw [hb, he] at this
    exact this
  | add_block_setup f splits merges storage_size allocate path ctx _ hstable hlt hfresh hok ih =>
    obtain ⟨pre, d, post, names, hl, hpos, hcap, ha⟩ :=
      setup_add_block_ok SLOT_MAX storage_size allocate path f ctx hok
    have hspec := setup_add_block_spec SLOT_MAX storage_size allocate path f pre d post names
      hl hpos hcap ha
    rw [hspec] at hok
    have hctx := (Except.ok.inj hok).symm
    subst hctx
    rw [hspec]
    have hst : d.status = .stable := by
      rw [hpos] at hstable
      unfold data_status.get_data_block_status at hstable
      rw [hl, getElem?_append_cons_length] at hstable
      simpa using hstable
    exact protocol_inv_split_start SLOT_MAX f splits merges pre d post names ih hl hst hlt
      (hfresh names ha)
  | split_finalize f s1 ctx s2 merges _ _ ih =>
    exact protocol_inv_finalize_split SLOT_MAX f s1 ctx s2 merges ih
  | merge_setup f splits merges b e ctx _ hok ih =>
    exact protocol_inv_setup_merge SLOT_MAX f splits merges b e ctx ih hok
  | merge_finalize f splits m1 ctx m2 _ _ ih =>
    exact protocol_inv_finalize_merge SLOT_MAX f splits m1 ctx m2 ih

/-- C2 (as amended): in every file state reachable from a stable, exactly
partitioned file by the setup and finalize steps of add-block, split and merge
(fresh allocations; split donors with more than one slot; add-block steps whose
selected chain is stable with more than one slot), at any instant, also between
a setup and its finalize: the slot ranges of all chains of the data status,
stable, exporting and importing alike, form an exact partition of
`[0, SLOT_MAX]`, so every slot lies in exactly one of them; every chain of the
adding list (a pending recipient) has a non-empty slot range that is a subset of
the range of an exporting chain; and every importing chain of the data status is
the right neighbour of an exporting chain. -/
theorem reachable_partition (SLOT_MAX : Nat) (f : ds_file_node)
    (splits merges : List export_ctx) (h : reachable SLOT_MAX f splits merges) :
    exact_partition SLOT_MAX f.dstatus.data_blocks
      ∧ (∀ x : Int, 0 ≤ x → x ≤ (SLOT_MAX : Int) → owners x f.dstatus.data_blocks = 1)
      ∧ (∀ c ∈ f.adding, c.slot_begin ≤ c.slot_end
          ∧ ∃ d ∈ f.dstatus.data_blocks, d.status = .exporting ∧ c.within d)
      ∧ (∀ c ∈ f.dstatus.data_blocks, c.status = .importing →
          ∃ pre d post, f.dstatus.data_blocks = pre ++ d :: c :: post
            ∧ d.status = .exporting) := by
  have inv := reachable_inv SLOT_MAX f splits merges h
  refine ⟨inv.part, exact_partition_owners SLOT_MAX _ inv.part, ?_, ?_⟩
  · intro c hc
    rw [inv.adding_eq] at hc
    obtain ⟨ctx, hctx, rfl⟩ := List.mem_map.mp hc
    obtain ⟨h1, h2, h3, h4, -⟩ := inv.split_ctx ctx hctx
    obtain ⟨pre, post, hl⟩ := List.append_of_mem h1
    have hpart := inv.part
    rw [hl] at hpart
    obtain ⟨h0, -, -, -, -, -⟩ := exact_partition_at SLOT_MAX pre ctx.from_block post hpart
    obtain ⟨hm1, hm2⟩ := slot_mid_bounds _ _ h0 h3
    simp only [replica_chain.slot_begin, replica_chain.slot_end] at hm1 hm2 h4
    refine ⟨?_, ctx.from_block, h1, h2, ?_, ?_⟩
    · simp only [replica_chain.slot_begin, replica_chain.slot_end, h4]
      omega
    · simp only [replica_chain.slot_begin, h4]
      omega
    · simp only [replica_chain.slot_end, h4]
      exact le_refl _
  · intro c hc himp
    obtain ⟨ctx, hctx, rfl⟩ := inv.importing c hc himp
    obtain ⟨pre, post, hl⟩ := inv.merge_ctx ctx hctx
    exact ⟨pre, _, post, hl, rfl⟩

theorem reachable_partition_witness :
    reachable 7
        (((file_of 1 [stable_chain ["a"] 0 3, stable_chain ["b"] 4 5,
            stable_chain ["c"] 6 7]).setup_slot_range_split 7 (allocate_from ["r"]) "/f"
            0 3).node.setup_slot_range_merge 7 4 5).node
        [⟨⟨["a"], (0, 3), .exporting, .in_memory⟩, stable_chain ["r"] 2 3⟩]
        [⟨stable_chain ["b"] 4 5, stable_chain ["c"] 6 7⟩]
      ∧ (((file_of 1 [stable_chain ["a"] 0 3, stable_chain ["b"] 4 5,
            stable_chain ["c"] 6 7]).setup_slot_range_split 7 (allocate_from ["r"]) "/f"
            0 3).node.setup_slot_range_merge 7 4 5).node
        = ⟨⟨"/tmp", 1, [⟨["a"], (0, 3), .exporting, .in_memory⟩,
              ⟨["b"], (4, 5), .exporting, .in_memory⟩,
              ⟨["c"], (6, 7), .importing, .in_memory⟩], 0, []⟩,
            [stable_chain ["r"] 2 3]⟩
      ∧ exact_partition 7
          (((file_of 1 [stable_chain ["a"] 0 3, stable_chain ["b"] 4 5,
            stable_chain ["c"] 6 7]).setup_slot_range_split 7 (allocate_from ["r"]) "/f"
            0 3).node.setup_slot_range_merge 7 4 5).node.dstatus.data_blocks
      ∧ ∀ c ∈ (((file_of 1 [stable_chain ["a"] 0 3, stable_chain ["b"] 4 5,
            stable_chain ["c"] 6 7]).setup_slot_range_split 7 (allocate_from ["r"]) "/f"
            0 3).node.setup_slot_range_merge 7 4 5).node.adding,
          c.slot_begin ≤ c.slot_end
            ∧ ∃ d ∈ (((file_of 1 [stable_chain ["a"] 0 3, stable_chain ["b"] 4 5,
                stable_chain ["c"] 6 7]).setup_slot_range_split 7 (allocate_from ["r"]) "/f"
                0 3).node.setup_slot_range_merge 7 4 5).node.dstatus.data_blocks,
              d.status = .exporting ∧ c.within d :=
  have hr : reachable 7
      (((file_of 1 [stable_chain ["a"] 0 3, stable_chain ["b"] 4 5,
          stable_chain ["c"] 6 7]).setup_slot_range_split 7 (allocate_from ["r"]) "/f"
          0 3).node.setup_slot_range_merge 7 4 5).node
      [⟨⟨["a"], (0, 3), .exporting, .in_memory⟩, stable_chain ["r"] 2 3⟩]
      [⟨stable_chain ["b"] 4 5, stable_chain ["c"] 6 7⟩] :=
    reachable.merge_setup _ _ [] 4 5 _
      (reachable.split_setup _ [] [] (allocate_from ["r"]) "/f" 0 3 _
        (reachable.init _ (by decide) (by decide) (by decide) rfl) (by decide)
        (by
          intro names hn c hc
          cases hn
          revert c
          decide)
        rfl)
      rfl
  ⟨hr, rfl, (reachable_partition 7 _ _ _ hr).1, (reachable_partition 7 _ _ _ hr).2.2.1⟩

/-- C2 (counterexample): from the stable, exactly partitioned file `[0,3] [4,7]`,
`setup_slot_range_merge(0, 3)` returns normally and leaves the donor `[0,3]`
exporting and the partner `[4,7]` importing. In that state, between the setup
and its finalize, the stable and exporting chains are `[0,3]` alone: they do
not cover `[0, 7]` (slot 4 has no owner among them), and the importing chain's
range `[4,7]` is not a subset of the range of any exporting chain. -/
theorem merge_setup_stable_exporting_gap :
    reachable 7
        ((file_of 1 [stable_chain ["a"] 0 3, stable_chain ["b"] 4 7]).setup_slot_range_merge 7
          0 3).node [] [⟨stable_chain ["a"] 0 3, stable_chain ["b"] 4 7⟩]
      ∧ ((file_of 1 [stable_chain ["a"] 0 3, stable_chain ["b"] 4 7]).setup_slot_range_merge 7
          0 3).node
        = ⟨⟨"/tmp", 1, [⟨["a"], (0, 3), .exporting, .in_memory⟩,
              ⟨["b"], (4, 7), .importing, .in_memory⟩], 0, []⟩, []⟩
      ∧ ¬ exact_partition 7 (stable_or_exporting
          ((file_of 1 [stable_chain ["a"] 0 3,
            stable_chain ["b"] 4 7]).setup_slot_range_merge 7 0 3).node.dstatus.data_blocks)
      ∧ owners 4 (stable_or_exporting
          ((file_of 1 [stable_chain ["a"] 0 3,
            stable_chain ["b"] 4 7]).setup_slot_range_merge 7 0 3).node.dstatus.data_blocks) = 0
      ∧ ¬ ∀ c ∈ ((file_of 1 [stable_chain ["a"] 0 3,
            stable_chain ["b"] 4 7]).setup_slot_range_merge 7 0 3).node.dstatus.data_blocks,
          c.status = .importing →
            ∃ d ∈ ((file_of 1 [stable_chain ["a"] 0 3,
                stable_chain ["b"] 4 7]).setup_slot_range_merge 7 0 3).node.dstatus.data_blocks,
              d.status = .exporting ∧ c.within d := by
  refine ⟨?_, rfl, by decide, by decide, by decide⟩
  exact reachable.merge_setup _ [] [] 0 3 _
    (reachable.init _ (by decide) (by decide) (by decide) rfl) rfl

/-! ## The size loop of add-block -/

/-- The size loop, started at index `i` with `max_size = ms` and `max_pos = mp`:
either no eligible chain of the rest is larger than `ms` and the result is `mp`,
or the result is the first of the largest eligible chains of the rest, which is
larger than `ms`. -/
theorem largest_fold (d : data_status) (sizes : List Nat) (i ms mp : Nat) :
    ((sizes.foldl (largest_step d) (i, ms, mp)).2.2 = mp
        ∧ ∀ j < sizes.length, d.eligible (i + j) → sizes.getD j 0 ≤ ms)
      ∨ ∃ j < sizes.length, (sizes.foldl (largest_step d) (i, ms, mp)).2.2 = i + j
        ∧ d.eligible (i + j) ∧ ms < sizes.getD j 0
        ∧ (∀ k < sizes.length, d.eligible (i + k) → sizes.getD k 0 ≤ sizes.getD j 0)
        ∧ ∀ k < j, d.eligible (i + k) → sizes.getD k 0 < sizes.getD j 0 := by
  induction sizes generalizing i ms mp with
  | nil => left; simp
  | cons sz rest ih =>
    rw [List.foldl_cons]
    by_cases hacc : sz > ms ∧ d.get_data_block_status i ≠ some .exporting
        ∧ d.get_data_block_status i ≠ some .importing ∧ d.num_slots i ≠ some 1
    · have hstep : largest_step d (i, ms, mp) sz = (i + 1, sz, i) := by
        unfold largest_step
        simp only
        rw [if_pos hacc]
      rw [hstep]
      have helig : d.eligible i := hacc.2
      right
      rcases ih (i + 1) sz i with ⟨h1, h2⟩ | ⟨j, hj, h1, h2, h3, h4, h5⟩
      · refine ⟨0, by simp, by simpa using h1, by simpa using helig, by simpa using hacc.1,
          ?_, by simp⟩
        intro k hk hek
        cases k with
        | zero => simp
        | succ k =>
          have := h2 k (by simpa using hk) (by rw [Nat.add_assoc, Nat.add_comm 1 k]; exact hek)
          simpa using this
      · refine ⟨j + 1, by simpa using hj, ?_, ?_, ?_, ?_, ?_⟩
        · rw [h1]; omega
        · rw [← Nat.add_assoc, Nat.add_right_comm]; exact h2
        · simp only [List.getD_cons_succ]; omega
        · intro k hk hek
          cases k with
          | zero => simp only [List.getD_cons_zero, List.getD_cons_succ]; omega
          | succ k =>
            have := h4 k (by simpa using hk)
              (by rw [Nat.add_assoc, Nat.add_comm 1 k]; exact hek)
            simpa using this
        · intro k hk hek
          cases k with
          | zero => simp only [List.getD_cons_zero, List.getD_cons_succ]; omega
          | succ k =>
            have := h5 k (by omega) (by rw [Nat.add_assoc, Nat.add_comm 1 k]; exact hek)
            simpa using this
    · have hstep : largest_step d (i, ms, mp) sz = (i + 1, ms, mp) := by
        unfold largest_step
        simp only
        rw [if_neg hacc]
      rw [hstep]
      have hrej : d.eligible i → sz ≤ ms := by
        intro he
        by_contra hgt
        exact hacc ⟨by omega, he⟩
      rcases ih (i + 1) ms mp with ⟨h1, h2⟩ | ⟨j, hj, h1, h2, h3, h4, h5⟩
      · left
        refine ⟨h1, ?_⟩
        intro k hk hek
        cases k with
        | zero => simpa using hrej (by simpa using hek)
        | succ k =>
          have := h2 k (by simpa using hk) (by rw [Nat.add_assoc, Nat.add_comm 1 k]; exact hek)
          simpa using this
      · right
        refine ⟨j + 1, by simpa using hj, ?_, ?_, ?_, ?_, ?_⟩
        · rw [h1]; omega
        · rw [← Nat.add_assoc, Nat.add_right_comm]; exact h2
        · simpa using h3
        · intro k hk hek
          cases k with
          | zero =>
            have := hrej (by simpa using hek)
            simp only [List.getD_cons_zero, List.getD_cons_succ]; omega
          | succ k =>
            have := h4 k (by simpa using hk)
              (by rw [Nat.add_assoc, Nat.add_comm 1 k]; exact hek)
            simpa using this
        · intro k hk hek
          cases k with
          | zero =>
            have := hrej (by simpa using hek)
            simp only [List.getD_cons_zero, List.getD_cons_succ]; omega
          | succ k =>
            have := h5 k (by omega) (by rw [Nat.add_assoc, Nat.add_comm 1 k]; exact hek)
            simpa using this

/-- When some eligible chain (neither exporting nor importing, not a single
slot) has a tail of positive size, the size loop of `setup_add_block` ends on an
eligible chain of largest size among the eligible ones, and on the one of lowest
index among those. When no eligible chain has a positive size it ends on index
0, whatever the chain at index 0 is. -/
theorem largest_pos_spec (d : data_status) (sizes : List Nat) :
    ((∃ j < sizes.length, d.eligible j ∧ 0 < sizes.getD j 0) →
        largest_pos d sizes < sizes.length ∧ d.eligible (largest_pos d sizes)
          ∧ (∀ k < sizes.length, d.eligible k →
              sizes.getD k 0 ≤ sizes.getD (largest_pos d sizes) 0)
          ∧ ∀ k < largest_pos d sizes, d.eligible k →
              sizes.getD k 0 < sizes.getD (largest_pos d sizes) 0)
      ∧ ((∀ j < sizes.length, d.eligible j → sizes.getD j 0 = 0) →
        largest_pos d sizes = 0) := by
  unfold largest_pos
  rcases largest_fold d sizes 0 0 0 with ⟨h1, h2⟩ | ⟨j, hj, h1, h2, h3, h4, h5⟩
  · constructor
    · rintro ⟨j, hj, he, hpos⟩
      have := h2 j hj (by simpa using he)
      omega
    · intro _
      exact h1
  · simp only [Nat.zero_add] at h1 h2 h4 h5
    constructor
    · intro _
      rw [h1]
      exact ⟨hj, h2, h4, h5⟩
    · intro hall
      have := hall j hj h2
      omega

/-! ## States with nothing pending, completed operations -/

/-- A reachable state with no pending context: all chains are stable, they form
an exact partition, and nothing is being added. -/
theorem reachable_idle (SLOT_MAX : Nat) (f : ds_file_node)
    (h : reachable SLOT_MAX f [] []) :
    all_stable f.dstatus.data_blocks ∧ exact_partition SLOT_MAX f.dstatus.data_blocks
      ∧ f.adding = [] := by
  have inv := reachable_inv SLOT_MAX f [] [] h
  refine ⟨?_, inv.part, by rw [inv.adding_eq]; rfl⟩
  intro c hc
  cases hs : c.status with
  | stable => rfl
  | exporting =>
    rcases inv.exporting c hc hs with ⟨c2, hc2, -⟩ | ⟨c2, hc2, -⟩ <;> simp at hc2
  | importing =>
    obtain ⟨c2, hc2, -⟩ := inv.importing c hc hs
    simp at hc2

theorem and_then_ret_ok (o : outcome export_ctx)
    (finalize : export_ctx → ds_file_node → outcome Unit)
    (h : (and_then o finalize).ret = .ok ()) :
    ∃ ctx, o.ret = .ok ctx ∧ (finalize ctx o.node).ret = .ok ()
      ∧ (and_then o finalize).node = (finalize ctx o.node).node := by
  unfold and_then at h ⊢
  cases hr : o.ret with
  | error err =>
    rw [hr] at h
    simp at h
  | ok ctx =>
    rw [hr] at h
    exact ⟨ctx, rfl, h, rfl⟩

/-- From a state with nothing pending, a completed split of a chain with more
than one slot, a completed add-block whose selected chain is stable with more
than one slot, and a completed merge (fresh allocations) lead again to a state
with nothing pending: all chains stable, ranges an exact partition of
`[0, SLOT_MAX]`. -/
theorem completed_step_idle (SLOT_MAX : Nat) (f : ds_file_node)
    (h : reachable SLOT_MAX f [] []) :
    (∀ allocate path b e, b < e → fresh_allocation allocate f →
        (split_slot_range SLOT_MAX allocate path b e f).ret = .ok () →
        reachable SLOT_MAX (split_slot_range SLOT_MAX allocate path b e f).node [] [])
      ∧ (∀ storage_size allocate path, fresh_allocation allocate f →
        f.dstatus.get_data_block_status (largest_pos f.dstatus
          (f.dstatus.data_blocks.map (fun block => storage_size block.tail)))
            = some .stable →
        f.dstatus.num_slots (largest_pos f.dstatus
          (f.dstatus.data_blocks.map (fun block => storage_size block.tail))) ≠ some 1 →
        (add_block_to_file SLOT_MAX storage_size allocate path f).ret = .ok () →
        reachable SLOT_MAX (add_block_to_file SLOT_MAX storage_size allocate path f).node
          [] [])
      ∧ ∀ b e, (merge_slot_range SLOT_MAX b e f).ret = .ok () →
        reachable SLOT_MAX (merge_slot_range SLOT_MAX b e f).node [] [] := by
  refine ⟨?_, ?_, ?_⟩
  · intro allocate path b e hlt hfresh hok
    obtain ⟨ctx, h1, h2, h3⟩ := and_then_ret_ok _ _ hok
    unfold split_slot_range
    rw [h3]
    exact reachable.split_finalize _ [] ctx [] []
      (reachable.split_setup f [] [] allocate path b e ctx h hlt hfresh h1) h2
  · intro storage_size allocate path hfresh hst hslots hok
    obtain ⟨ctx, h1, h2, h3⟩ := and_then_ret_ok _ _ hok
    unfold add_block_to_file
    rw [h3]
    have hlt : ctx.from_block.slot_begin < ctx.from_block.slot_end := by
      obtain ⟨pre, d, post, names, hl, hpos, hcap, ha⟩ :=
        setup_add_block_ok SLOT_MAX storage_size allocate path f ctx h1
      have hspec := setup_add_block_spec SLOT_MAX storage_size allocate path f pre d post
        names hl hpos hcap ha
      rw [hspec] at h1
      have hctx := (Except.ok.inj h1).symm
      subst hctx
      have inv := reachable_inv SLOT_MAX f [] [] h
      have hpart := inv.part
      rw [hl] at hpart
      obtain ⟨-, hle, -, -, -, -⟩ := exact_partition_at SLOT_MAX pre d post hpart
      rw [hpos] at hslots
      unfold data_status.num_slots at hslots
      rw [hl, getElem?_append_cons_length] at hslots
      simp only [Option.map_some', ne_eq, Option.some.injEq, replica_chain.slot_begin,
        replica_chain.slot_end] at hslots ⊢
      omega
    exact reachable.split_finalize _ [] ctx [] []
      (reachable.add_block_setup f [] [] storage_size allocate path ctx h hst hlt hfresh h1) h2
  · intro b e hok
    obtain ⟨ctx, h1, h2, h3⟩ := and_then_ret_ok _ _ hok
    unfold merge_slot_range
    rw [h3]
    exact reachable.merge_finalize _ [] [] ctx []
      (reachable.merge_setup f [] [] b e ctx h h1) h2

/-! ## Merge setup: the failure cases -/

theorem find_slot_range_absent (l : List replica_chain) (b e : Int)
    (h : ∀ c ∈ l, c.slot_range ≠ (b, e)) : find_slot_range l b e = l.length := by
  unfold find_slot_range
  induction l with
  | nil => rfl
  | cons a l ih =>
    have ha : a.slot_range ≠ (b, e) := h a (List.mem_cons_self _ _)
    have hf : (decide (a.slot_begin = b) && decide (a.slot_end = e)) = false := by
      simp only [replica_chain.slot_begin, replica_chain.slot_end, Bool.and_eq_false_iff,
        decide_eq_false_iff_not]
      by_contra hcon
      push_neg at hcon
      exact ha (Prod.ext hcon.1 hcon.2)
    rw [List.findIdx_cons, hf]
    simp only [cond_false, List.length_cons]
    rw [ih (fun c hc => h c (List.mem_cons_of_mem _ hc))]

/-- C11 (amended): when no replica chain of the file has exactly the slot range
`[b, e]`, `setup_slot_range_merge(b, e)` throws, issues no call and leaves the
file node as it was. The exception is "No block with slot range" when the file
has a number of chains other than one and `e` is not `SLOT_MAX`; when the file
has exactly one chain or `e == SLOT_MAX`, the guard at the head of the method
has thrown "Cannot find a merge partner" before the search. -/
theorem setup_slot_range_merge_absent (SLOT_MAX : Nat) (b e : Int) (f : ds_file_node)
    (habs : ∀ c ∈ f.dstatus.data_blocks, c.slot_range ≠ (b, e)) :
    f.setup_slot_range_merge SLOT_MAX b e =
      ⟨f, [], .error (if f.dstatus.data_blocks.length = 1 ∨ e = (SLOT_MAX : Int)
        then .no_partner else .no_block_with_slot_range b e)⟩ := by
  unfold ds_file_node.setup_slot_range_merge
  by_cases hg : f.dstatus.data_blocks.length = 1 ∨ e = (SLOT_MAX : Int)
  · rw [if_pos hg, if_pos hg]
  · rw [if_neg hg, if_neg hg]
    simp only [find_slot_range_absent _ b e habs, if_true]

theorem setup_slot_range_merge_absent_witness :
    (∀ c ∈ (file_of 1 [stable_chain ["a"] 0 3, stable_chain ["b"] 4 7]).dstatus.data_blocks,
        c.slot_range ≠ (1, 2))
      ∧ (file_of 1 [stable_chain ["a"] 0 3, stable_chain ["b"] 4 7]).setup_slot_range_merge
          7 1 2
        = ⟨file_of 1 [stable_chain ["a"] 0 3, stable_chain ["b"] 4 7], [],
            .error (.no_block_with_slot_range 1 2)⟩ :=
  ⟨by decide,
    setup_slot_range_merge_absent 7 1 2
      (file_of 1 [stable_chain ["a"] 0 3, stable_chain ["b"] 4 7]) (by decide)⟩

/-- C11 (counterexample): with `SLOT_MAX = 7`, the file with the chains `[0, 3]`
and `[4, 7]` has no chain with the range `[5, 7]`, and the file with the single
chain `[0, 7]` has no chain with the range `[2, 3]`; `setup_slot_range_merge`
throws "Cannot find a merge partner" on both, not "No block with slot range". -/
theorem setup_slot_range_merge_absent_no_partner :
    (∀ c ∈ (file_of 1 [stable_chain ["a"] 0 3, stable_chain ["b"] 4 7]).dstatus.data_blocks,
        c.slot_range ≠ (5, 7))
      ∧ ((file_of 1 [stable_chain ["a"] 0 3, stable_chain ["b"] 4 7]).setup_slot_range_merge
          7 5 7).ret = .error .no_partner
      ∧ (∀ c ∈ (file_of 1 [stable_chain ["a"] 0 7]).dstatus.data_blocks,
        c.slot_range ≠ (2, 3))
      ∧ ((file_of 1 [stable_chain ["a"] 0 7]).setup_slot_range_merge 7 2 3).ret
        = .error .no_partner
      ∧ ds_error.no_partner ≠ ds_error.no_block_with_slot_range 5 7
      ∧ ds_error.no_partner ≠ ds_error.no_block_with_slot_range 2 3 := by
  refine ⟨by decide, rfl, by decide, rfl, by decide, by decide⟩

/-- The outcome of a merge setup on a file that is not exactly partitioned: with
`SLOT_MAX = 7` and the stable chains `[0, 3]` and `[4, 6]`, which do not reach
`SLOT_MAX`, `setup_slot_range_merge(4, 6)` passes the guard (two chains,
`6 != 7`), finds the donor at index 1, and the access `at(2)` to its right
neighbour throws `std::out_of_range`. In an exact partition the last chain ends
at `SLOT_MAX` and the guard throws. -/
theorem setup_slot_range_merge_unpartitioned :
    ¬ exact_partition 7 [stable_chain ["a"] 0 3, stable_chain ["b"] 4 6]
      ∧ (file_of 1 [stable_chain ["a"] 0 3, stable_chain ["b"] 4 6]).setup_slot_range_merge
          7 4 6
        = ⟨file_of 1 [stable_chain ["a"] 0 3, stable_chain ["b"] 4 6], [],
            .error .out_of_range⟩ := by
  refine ⟨by decide, rfl⟩

/-- C13: from the file with the single stable chain `a = [0, 7]` (`SLOT_MAX = 7`),
two `setup_add_block` calls in a row both return a context, and both contexts
name `a` as the donor: the second call falls back to index 0 when no chain passes
the status test of the size loop and does not look at the status again. After
them the data status holds the one exporting chain `a` and the adding list holds
two pending recipients, `r1` and `r2`, both with the range `[4, 7]`: the
exporting chain has two counterparts. -/
theorem setup_add_block_twice_same_donor :
    all_stable (file_of 1 [stable_chain ["a"] 0 7]).dstatus.data_blocks
      ∧ ((file_of 1 [stable_chain ["a"] 0 7]).setup_add_block 7 (fun _ => 5)
          (allocate_from ["r1"]) "/f").ret
        = .ok ⟨⟨["a"], (0, 7), .exporting, .in_memory⟩, stable_chain ["r1"] 4 7⟩
      ∧ (((file_of 1 [stable_chain ["a"] 0 7]).setup_add_block 7 (fun _ => 5)
          (allocate_from ["r1"]) "/f").node.setup_add_block 7 (fun _ => 5)
          (allocate_from ["r2"]) "/f").ret
        = .ok ⟨⟨["a"], (0, 7), .exporting, .in_memory⟩, stable_chain ["r2"] 4 7⟩
      ∧ (((file_of 1 [stable_chain ["a"] 0 7]).setup_add_block 7 (fun _ => 5)
          (allocate_from ["r1"]) "/f").node.setup_add_block 7 (fun _ => 5)
          (allocate_from ["r2"]) "/f").node
        = ⟨⟨"/tmp", 1, [⟨["a"], (0, 7), .exporting, .in_memory⟩], 0, []⟩,
            [stable_chain ["r1"] 4 7, stable_chain ["r2"] 4 7]⟩ := by
  refine ⟨by decide, rfl, rfl, rfl⟩

/-- C14: with `SLOT_MAX = 3`, the file with the two stable chains `[0, 1]` and
`[2, 3]` has fewer than `SLOT_MAX` chains. `setup_slot_range_split(0, 1)` and then
`setup_slot_range_split(2, 3)` both pass the capacity test, which compares the
number of replica chains alone with `SLOT_MAX`, and `num_blocks` is 4 after
them; after both splits are finalized the data status holds 4 chains. -/
theorem split_setups_exceed_slot_max :
    (file_of 1 [stable_chain ["a"] 0 1, stable_chain ["b"] 2 3]).num_blocks = 2
      ∧ exact_partition 3
        (file_of 1 [stable_chain ["a"] 0 1, stable_chain ["b"] 2 3]).dstatus.data_blocks
      ∧ ((file_of 1 [stable_chain ["a"] 0 1, stable_chain ["b"] 2 3]).setup_slot_range_split 3
          (allocate_from ["r1"]) "/f" 0 1).ret
        = .ok ⟨⟨["a"], (0, 1), .exporting, .in_memory⟩, stable_chain ["r1"] 1 1⟩
      ∧ (((file_of 1 [stable_chain ["a"] 0 1, stable_chain ["b"] 2 3]).setup_slot_range_split 3
          (allocate_from ["r1"]) "/f" 0 1).node.setup_slot_range_split 3
          (allocate_from ["r2"]) "/f" 2 3).ret
        = .ok ⟨⟨["b"], (2, 3), .exporting, .in_memory⟩, stable_chain ["r2"] 3 3⟩
      ∧ (((file_of 1 [stable_chain ["a"] 0 1, stable_chain ["b"] 2 3]).setup_slot_range_split 3
          (allocate_from ["r1"]) "/f" 0 1).node.setup_slot_range_split 3
          (allocate_from ["r2"]) "/f" 2 3).node.num_blocks = 4
      ∧ (((((file_of 1 [stable_chain ["a"] 0 1,
            stable_chain ["b"] 2 3]).setup_slot_range_split 3
          (allocate_from ["r1"]) "/f" 0 1).node.setup_slot_range_split 3
          (allocate_from ["r2"]) "/f" 2 3).node.finalize_slot_range_split
          ⟨⟨["a"], (0, 1), .exporting, .in_memory⟩,
            stable_chain ["r1"] 1 1⟩).node.finalize_slot_range_split
          ⟨⟨["b"], (2, 3), .exporting, .in_memory⟩, stable_chain ["r2"] 3 3⟩).node
        = file_of 1 [stable_chain ["a"] 0 0, stable_chain ["r1"] 1 1, stable_chain ["b"] 2 2,
            stable_chain ["r2"] 3 3] := by
  refine ⟨rfl, by decide, rfl, rfl, rfl, rfl⟩

/-! ## Sync -/

/-- C19: `sync` leaves the file node (data status and adding list) as it was and
returns normally; the storage calls it issues are, in the order of the chains of
the data status, one `sync` for each chain whose mode is in_memory or
in_memory_grace, on the tail of that chain with the path
`backing_path / "{slot_begin}_{slot_end}"`; a chain in another mode (flushing,
on_disk) contributes no call. -/
theorem sync_effect (backing_path : String) (f : ds_file_node) :
    (f.sync backing_path).node = f
      ∧ (f.sync backing_path).ret = .ok ()
      ∧ (f.sync backing_path).calls
        = (f.dstatus.data_blocks.filter (fun block =>
            decide (block.mode = .in_memory ∨ block.mode = .in_memory_grace))).map
          (fun block =>
            call.sync block.tail
              (push_path_element backing_path
                (toString block.slot_begin ++ "_" ++ toString block.slot_end)))
      ∧ (f.dstatus.data_blocks.filter (fun block =>
            decide (block.mode = .in_memory ∨ block.mode = .in_memory_grace)))
        = f.dstatus.data_blocks.filter (fun block =>
            decide (block.mode ≠ .flushing ∧ block.mode ≠ .on_disk)) := by
  refine ⟨rfl, rfl, ?_, ?_⟩
  · unfold ds_file_node.sync
    simp only
    induction f.dstatus.data_blocks with
    | nil => rfl
    | cons c l ih =>
      rw [List.flatMap_cons, ih]
      by_cases hc : c.mode = .in_memory ∨ c.mode = .in_memory_grace
      · rw [if_pos hc, List.filter_cons_of_pos (by simpa using hc)]
        rfl
      · rw [if_neg hc, List.filter_cons_of_neg (by simpa using hc)]
        rfl
  · apply List.filter_congr
    intro c _
    cases hm : c.mode <;> simp

/-! ## Lease expiry of a pinned file -/

theorem findIdx_key_append_cons (pre : List (String × ds_node)) (key : String) (child : ds_node)
    (post : List (String × ds_node)) (hpre : ∀ entry ∈ pre, entry.1 ≠ key) :
    (pre ++ (key, child) :: post).findIdx (fun entry => entry.1 == key) = pre.length := by
  apply findIdx_append_cons
  · intro entry hentry
    simpa using hpre entry hentry
  · simp

/-- C20: on a file whose pinned flag is set, whatever its other flags,
`ds_file_node::handle_lease_expiry` issues no storage call, leaves the file node
(data status and adding list) and the vector `cleared_blocks` as they were, and
returns false; and `ds_dir_node::handle_lease_expiry` of the parent directory,
called with the key of that file, issues no call, returns false and leaves the
map of the children as it was, with the entry of the file. -/
theorem handle_lease_expiry_pinned (t : flag_tests) (cleared_blocks : List String)
    (f : ds_file_node) (hpinned : f.dstatus.is_pinned t = true) :
    (f.handle_lease_expiry t cleared_blocks).node = f
      ∧ (f.handle_lease_expiry t cleared_blocks).calls = []
      ∧ (f.handle_lease_expiry t cleared_blocks).cleared_blocks = cleared_blocks
      ∧ (f.handle_lease_expiry t cleared_blocks).ret = false
      ∧ ∀ (pre post : List (String × ds_node)) (key name : String)
          (permissions last_write_time : Nat),
          (∀ entry ∈ pre, entry.1 ≠ key) →
          (ds_dir_node.handle_lease_expiry t cleared_blocks key
              (pre ++ (key, .file name permissions last_write_time f) :: post)).node
            = pre ++ (key, .file name permissions last_write_time f) :: post
          ∧ (ds_dir_node.handle_lease_expiry t cleared_blocks key
              (pre ++ (key, .file name permissions last_write_time f) :: post)).calls = []
          ∧ (ds_dir_node.handle_lease_expiry t cleared_blocks key
              (pre ++ (key, .file name permissions last_write_time f) :: post)).cleared_blocks
            = cleared_blocks
          ∧ (ds_dir_node.handle_lease_expiry t cleared_blocks key
              (pre ++ (key, .file name permissions last_write_time f) :: post)).ret
            = .ok false := by
  have hfile : f.handle_lease_expiry t cleared_blocks = ⟨f, [], cleared_blocks, false⟩ := by
    unfold ds_file_node.handle_lease_expiry
    simp [hpinned]
  refine ⟨by rw [hfile], by rw [hfile], by rw [hfile], by rw [hfile], ?_⟩
  intro pre post key name permissions last_write_time hpre
  have hnode : (ds_node.file name permissions last_write_time f).handle_lease_expiry t
      cleared_blocks
      = ⟨.file name permissions last_write_time f, [], cleared_blocks, .ok false⟩ := by
    rw [ds_node.handle_lease_expiry, hfile]
  unfold ds_dir_node.handle_lease_expiry
  rw [findIdx_key_append_cons pre key _ post hpre, getElem?_append_cons_length]
  simp only [hnode]
  refine ⟨?_, trivial, trivial, trivial⟩
  simp

theorem handle_lease_expiry_pinned_witness :
    (file_with_flags 5 1 [stable_chain ["a"] 0 7]).dstatus.is_pinned sample_flags = true
      ∧ (file_with_flags 5 1 [stable_chain ["a"] 0 7]).dstatus.is_mapped sample_flags = true
      ∧ ((file_with_flags 5 1 [stable_chain ["a"] 0 7]).handle_lease_expiry sample_flags
          ["z"]).calls = []
      ∧ ((file_with_flags 5 1 [stable_chain ["a"] 0 7]).handle_lease_expiry sample_flags
          ["z"]).ret = false :=
  ⟨rfl, rfl,
    (handle_lease_expiry_pinned sample_flags ["z"]
      (file_with_flags 5 1 [stable_chain ["a"] 0 7]) rfl).2.1,
    (handle_lease_expiry_pinned sample_flags ["z"]
      (file_with_flags 5 1 [stable_chain ["a"] 0 7]) rfl).2.2.2.1⟩

/-! ## The dump loops -/

theorem dump_block_not_last (mark : data_status → Nat → data_status) (backing_path : String)
    (block_idx i : Nat) (d : data_status) (calls : List call) (cleared : List String)
    (block : replica_chain) (hk : d.data_blocks[block_idx]? = some block)
    (hi : i ≠ d.chain_length - 1) :
    dump_block mark backing_path block_idx i ⟨d, calls, cleared⟩ =
      ⟨d, calls ++ [.reset (block.block_names.getD i "")],
        cleared ++ [block.block_names.getD i ""]⟩ := by
  unfold dump_block
  simp only [hk, if_neg hi]

theorem dump_block_last (mark : data_status → Nat → data_status) (backing_path : String)
    (block_idx i : Nat) (d : data_status) (calls : List call) (cleared : List String)
    (block : replica_chain) (hk : d.data_blocks[block_idx]? = some block)
    (hi : i = d.chain_length - 1) :
    dump_block mark backing_path block_idx i ⟨d, calls, cleared⟩ =
      ⟨mark d i,
        calls ++ [.dump block.tail (push_path_element backing_path block.slot_range_string)],
        cleared ++ [block.block_names.getD i ""]⟩ := by
  unfold dump_block
  simp only [hk, if_pos hi]

theorem dump_blocks_not_last (mark : data_status → Nat → data_status) (backing_path : String)
    (block_idx : Nat) (block : replica_chain) (js : List Nat) (d : data_status)
    (calls : List call) (cleared : List String)
    (hk : d.data_blocks[block_idx]? = some block)
    (hjs : ∀ j ∈ js, j ≠ d.chain_length - 1) :
    js.foldl (fun s i => dump_block mark backing_path block_idx i s) ⟨d, calls, cleared⟩ =
      ⟨d, calls ++ js.map (fun i => call.reset (block.block_names.getD i "")),
        cleared ++ js.map (fun i => block.block_names.getD i "")⟩ := by
  induction js generalizing calls cleared with
  | nil => simp
  | cons j js ih =>
    rw [List.foldl_cons, dump_block_not_last mark backing_path block_idx j d calls cleared
      block hk (hjs j (List.mem_cons_self _ _))]
    rw [ih _ _ (fun j hj => hjs j (List.mem_cons_of_mem _ hj))]
    simp

/-- The inner loop of `dump` for one chain, when the chain length is not zero:
the transition is applied once, after the calls, with the last position. -/
theorem dump_chain_spec (mark : data_status → Nat → data_status) (backing_path : String)
    (block_idx : Nat) (block : replica_chain) (d : data_status) (calls : List call)
    (cleared : List String) (hk : d.data_blocks[block_idx]? = some block)
    (hcl : 0 < d.chain_length) :
    dump_chain mark backing_path ⟨d, calls, cleared⟩ block_idx =
      ⟨mark d (d.chain_length - 1),
        calls ++ dump_calls_of backing_path d.chain_length block,
        cleared ++ cleared_of d.chain_length block⟩ := by
  obtain ⟨m, hm⟩ : ∃ m, d.chain_length = m + 1 := ⟨d.chain_length - 1, by omega⟩
  unfold dump_chain dump_calls_of cleared_of
  simp only [hm, List.range_succ, List.foldl_append]
  have hjs : ∀ j ∈ List.range m, j ≠ d.chain_length - 1 := by
    intro j hj
    have := List.mem_range.mp hj
    omega
  rw [dump_blocks_not_last mark backing_path block_idx block (List.range m) d calls cleared hk
    hjs]
  simp only [List.foldl_cons, List.foldl_nil]
  rw [dump_block_last mark backing_path block_idx m d _ _ block hk (by omega)]
  have hmap : (List.range m).map (fun i =>
        if i = m + 1 - 1 then
          call.dump block.tail (push_path_element backing_path block.slot_range_string)
        else call.reset (block.block_names.getD i ""))
      = (List.range m).map (fun i => call.reset (block.block_names.getD i "")) := by
    apply List.map_congr_left
    intro j hj
    have := List.mem_range.mp hj
    rw [if_neg (by omega)]
  simp only [List.map_append, List.map_cons, List.map_nil, hmap]
  simp

theorem dump_chain_zero (mark : data_status → Nat → data_status) (backing_path : String)
    (block_idx : Nat) (s : clear_state) (hcl : s.dstatus.chain_length = 0) :
    dump_chain mark backing_path s block_idx = s := by
  unfold dump_chain
  rw [hcl]
  rfl

theorem range_flatMap_getElem? {α β : Type} (F : α → List β) (l : List α) :
    (List.range l.length).flatMap (fun k => ((l[k]?).map F).getD []) = l.flatMap F := by
  induction l with
  | nil => rfl
  | cons a l ih =>
    rw [List.length_cons, List.range_succ_eq_map, List.flatMap_cons, List.flatMap_map]
    simp only [List.getElem?_cons_zero, Option.map_some', Option.getD_some, List.flatMap_cons]
    congr 1
    rw [← ih]
    congr 1
    funext k
    rw [Nat.succ_eq_add_one, List.getElem?_cons_succ]

theorem mark_dumped_idem (d : data_status) (i : Nat) :
    (d.mark_dumped i).mark_dumped i = d.mark_dumped i := by
  unfold data_status.mark_dumped
  simp only
  congr 1
  unfold modify_chain
  cases h : d.data_blocks[i]? with
  | none => simp [h]
  | some c =>
    have hi : i < d.data_blocks.length := by
      rcases List.getElem?_eq_some_iff.mp h with ⟨hlt, _⟩
      exact hlt
    simp [hi]

theorem mark_dumped_getElem? (d : data_status) (i k : Nat) :
    (d.mark_dumped i).data_blocks[k]?
      = (d.data_blocks[k]?).map (fun c => if k = i then { c with mode := .on_disk } else c) := by
  unfold data_status.mark_dumped
  simp only
  unfold modify_chain
  cases h : d.data_blocks[i]? with
  | none =>
    simp only
    cases hk : d.data_blocks[k]? with
    | none => rfl
    | some c =>
      have hne : k ≠ i := by
        intro hc
        rw [hc, h] at hk
        cases hk
      simp [hne]
  | some c =>
    simp only
    by_cases hki : k = i
    · subst hki
      have hi : k < d.data_blocks.length := by
        rcases List.getElem?_eq_some_iff.mp h with ⟨hlt, _⟩
        exact hlt
      simp [h, hi]
    · rw [List.getElem?_set_ne (fun hc => hki hc.symm)]
      cases hk : d.data_blocks[k]? with
      | none => rfl
      | some c2 => simp [hki]

theorem dump_calls_of_mode (backing_path : String) (chain_length : Nat) (c : replica_chain)
    (m : storage_mode) :
    dump_calls_of backing_path chain_length { c with mode := m }
      = dump_calls_of backing_path chain_length c := rfl

theorem cleared_of_mode (chain_length : Nat) (c : replica_chain) (m : storage_mode) :
    cleared_of chain_length { c with mode := m } = cleared_of chain_length c := rfl

/-- The outer loop of `dump` over the chains with the indices `ks`, from a data
status that is the one the `dump` started with or that one after the transition:
the transition receives the last position of a chain, whichever chain the loop
stands on. -/
theorem dump_chains_from (backing_path : String) (d0 : data_status)
    (hcl : 0 < d0.chain_length) (ks : List Nat) (hks : ∀ k ∈ ks, k < d0.data_blocks.length)
    (d : data_status) (hd : d = d0 ∨ d = d0.mark_dumped (d0.chain_length - 1))
    (calls : List call) (cleared : List String) :
    ks.foldl (dump_chain data_status.mark_dumped backing_path) ⟨d, calls, cleared⟩ =
      ⟨if ks = [] then d else d0.mark_dumped (d0.chain_length - 1),
        calls ++ ks.flatMap (fun k =>
          ((d0.data_blocks[k]?).map (dump_calls_of backing_path d0.chain_length)).getD []),
        cleared ++ ks.flatMap (fun k =>
          ((d0.data_blocks[k]?).map (cleared_of d0.chain_length)).getD [])⟩ := by
  induction ks generalizing d calls cleared with
  | nil => simp
  | cons k ks ih =>
    have hk : k < d0.data_blocks.length := hks k (List.mem_cons_self _ _)
    obtain ⟨block, hblock⟩ : ∃ block, d0.data_blocks[k]? = some block :=
      ⟨d0.data_blocks[k], List.getElem?_eq_getElem hk⟩
    have hdcl : d.chain_length = d0.chain_length := by
      rcases hd with hd | hd
      · rw [hd]
      · rw [hd]; rfl
    have hdm : d.mark_dumped (d0.chain_length - 1) = d0.mark_dumped (d0.chain_length - 1) := by
      rcases hd with hd | hd
      · rw [hd]
      · rw [hd, mark_dumped_idem]
    obtain ⟨block2, hblock2, hc2, hn2⟩ : ∃ block2, d.data_blocks[k]? = some block2
        ∧ dump_calls_of backing_path d0.chain_length block2
          = dump_calls_of backing_path d0.chain_length block
        ∧ cleared_of d0.chain_length block2 = cleared_of d0.chain_length block := by
      rcases hd with hd | hd
      · exact ⟨block, by rw [hd, hblock], rfl, rfl⟩
      · by_cases hki : k = d0.chain_length - 1
        · refine ⟨{ block with mode := .on_disk }, ?_, rfl, rfl⟩
          rw [hd, mark_dumped_getElem?, hblock]
          simp [hki]
        · refine ⟨block, ?_, rfl, rfl⟩
          rw [hd, mark_dumped_getElem?, hblock]
          simp [hki]
    rw [List.foldl_cons, dump_chain_spec data_status.mark_dumped backing_path k block2 d calls
      cleared hblock2 (by omega)]
    rw [hdcl, hdm, hc2, hn2]
    rw [ih (fun j hj => hks j (List.mem_cons_of_mem _ hj)) _ (Or.inr rfl)]
    simp only [List.flatMap_cons, hblock, Option.map_some', Option.getD_some,
      List.append_assoc, reduceCtorEq, if_false]
    simp

/-- The loops of `dump` as a whole: the calls and the cleared blocks are those of
every chain, in the order of the data status; the transition to on_disk reaches
the chain whose index is the last position of a chain, `chain_length - 1`, and
no other chain. -/
theorem dump_chains_mark_dumped (backing_path : String) (d : data_status)
    (calls : List call) (cleared : List String) :
    dump_chains data_status.mark_dumped backing_path ⟨d, calls, cleared⟩ =
      ⟨if d.data_blocks = [] ∨ d.chain_length = 0 then d
        else d.mark_dumped (d.chain_length - 1),
        calls ++ d.data_blocks.flatMap (dump_calls_of backing_path d.chain_length),
        cleared ++ d.data_blocks.flatMap (cleared_of d.chain_length)⟩ := by
  unfold dump_chains
  simp only
  by_cases hcl : d.chain_length = 0
  · have hfold : ∀ (ks : List Nat) (s : clear_state), s.dstatus.chain_length = 0 →
        ks.foldl (dump_chain data_status.mark_dumped backing_path) s = s := by
      intro ks
      induction ks with
      | nil => intro s _; rfl
      | cons k ks ih =>
        intro s hs
        rw [List.foldl_cons, dump_chain_zero _ _ _ _ hs]
        exact ih s hs
    rw [hfold _ _ hcl]
    have h1 : d.data_blocks.flatMap (dump_calls_of backing_path d.chain_length) = [] := by
      rw [hcl]
      simp [dump_calls_of]
    have h2 : d.data_blocks.flatMap (cleared_of d.chain_length) = [] := by
      rw [hcl]
      simp [cleared_of]
    rw [h1, h2]
    simp [hcl]
  · rw [dump_chains_from backing_path d (by omega) (List.range d.data_blocks.length)
      (fun k hk => List.mem_range.mp hk) d (Or.inl rfl) calls cleared]
    rw [range_flatMap_getElem?, range_flatMap_getElem?]
    congr 1
    by_cases hn : d.data_blocks = []
    · simp [hn]
    · have hr : List.range d.data_blocks.length ≠ [] := by
        intro hc
        have := congrArg List.length hc
        simp at this
        exact hn this
      simp [hn, hcl, hr]

/-! ## Dump -/

/-- The method `dump` on a file node, with its loops resolved. -/
theorem dump_spec (cleared_blocks : List String) (backing_path : String) (f : ds_file_node) :
    f.dump cleared_blocks backing_path =
      ⟨{ f with dstatus :=
            if f.dstatus.data_blocks = [] ∨ f.dstatus.chain_length = 0 then f.dstatus
            else f.dstatus.mark_dumped (f.dstatus.chain_length - 1) },
        f.dstatus.data_blocks.flatMap (dump_calls_of backing_path f.dstatus.chain_length),
        cleared_blocks ++ f.dstatus.data_blocks.flatMap (cleared_of f.dstatus.chain_length),
        ()⟩ := by
  unfold ds_file_node.dump
  simp only [dump_chains_mark_dumped, List.nil_append]

/-- After `dump`, a chain whose index is not `chain_length - 1` has the mode it
had before. -/
theorem dump_keeps_mode (cleared_blocks : List String) (backing_path : String)
    (f : ds_file_node) (k : Nat) (hk : k ≠ f.dstatus.chain_length - 1) :
    ((f.dump cleared_blocks backing_path).node.dstatus.data_blocks[k]?).map (fun c => c.mode)
      = (f.dstatus.data_blocks[k]?).map (fun c => c.mode) := by
  rw [dump_spec]
  simp only
  by_cases h : f.dstatus.data_blocks = [] ∨ f.dstatus.chain_length = 0
  · rw [if_pos h]
  · rw [if_neg h, mark_dumped_getElem?]
    cases f.dstatus.data_blocks[k]? with
    | none => rfl
    | some c => simp [hk]

/-- C15: the file with the two in-memory chains `[0, 3]` and `[4, 7]` and chain
length 1: `dump` issues the two `storage->dump` calls, and after it the first
chain is on_disk and the second chain is still in_memory, because
`mark_dumped(i)` receives the position `i = chain_length - 1 = 0` of the block in
its chain both times. With chain length 2 it is the first chain that stays
in_memory. -/
theorem dump_leaves_chain_in_memory :
    ((file_of 1 [stable_chain ["a"] 0 3, stable_chain ["b"] 4 7]).dump [] "/b").calls
        = [.dump "a" "/b/0_3", .dump "b" "/b/4_7"]
      ∧ ((file_of 1 [stable_chain ["a"] 0 3, stable_chain ["b"] 4 7]).dump []
          "/b").node.dstatus.data_blocks
        = [chain_in_mode ["a"] 0 3 .on_disk, chain_in_mode ["b"] 4 7 .in_memory]
      ∧ ((file_of 2 [stable_chain ["a", "b"] 0 3, stable_chain ["c", "d"] 4 7]).dump []
          "/b").node.dstatus.data_blocks
        = [chain_in_mode ["a", "b"] 0 3 .in_memory, chain_in_mode ["c", "d"] 4 7 .on_disk] := by
  refine ⟨by decide, by decide, by decide⟩

theorem range_map_getD_take (names : List String) (m : Nat) (hm : m ≤ names.length) :
    (List.range m).map (fun i => names.getD i "") = names.take m := by
  apply List.ext_getElem
  · simp [hm]
  · intro i h1 h2
    simp only [List.length_map, List.length_range] at h1
    simp only [List.getElem_map, List.getElem_range, List.getElem_take]
    rw [List.getD_eq_getElem?_getD, List.getElem?_eq_getElem (by omega)]
    rfl

/-- On a chain that holds `chain_length >= 1` blocks, the positions of the inner
loop are the blocks of the chain in chain order: `reset` on every block but the
last, then `dump` on the tail. -/
theorem dump_calls_of_chain (backing_path : String) (c : replica_chain) (chain_length : Nat)
    (hcl : 1 ≤ chain_length) (hlen : c.block_names.length = chain_length) :
    dump_calls_of backing_path chain_length c
      = c.block_names.dropLast.map call.reset
        ++ [call.dump c.tail
          (push_path_element backing_path
            (toString c.slot_begin ++ "_" ++ toString c.slot_end))] := by
  obtain ⟨m, hm⟩ : ∃ m, chain_length = m + 1 := ⟨chain_length - 1, by omega⟩
  subst hm
  unfold dump_calls_of
  rw [List.range_succ, List.map_append]
  have hmap : (List.range m).map (fun i =>
        if i = m + 1 - 1 then
          call.dump c.tail (push_path_element backing_path c.slot_range_string)
        else call.reset (c.block_names.getD i ""))
      = ((List.range m).map (fun i => c.block_names.getD i "")).map call.reset := by
    rw [List.map_map]
    apply List.map_congr_left
    intro j hj
    have := List.mem_range.mp hj
    rw [if_neg (by omega)]
    rfl
  rw [hmap, range_map_getD_take _ _ (by omega), List.dropLast_eq_take, hlen]
  simp [replica_chain.slot_range_string]

theorem cleared_of_chain (c : replica_chain) (chain_length : Nat)
    (hlen : c.block_names.length = chain_length) :
    cleared_of chain_length c = c.block_names := by
  unfold cleared_of
  rw [range_map_getD_take _ _ (by omega), ← hlen, List.take_length]

mutual
/-- The virtual `dump` on a node: the calls and the cleared blocks are those of
the files of the subtree, one file after the other. -/
theorem ds_node_dump_spec (cleared_blocks : List String) (backing_path : String) :
    ∀ n : ds_node,
      (n.dump cleared_blocks backing_path).calls
        = n.files.flatMap (fun f =>
            f.dstatus.data_blocks.flatMap (dump_calls_of backing_path f.dstatus.chain_length))
      ∧ (n.dump cleared_blocks backing_path).cleared_blocks
        = cleared_blocks ++ n.files.flatMap (fun f =>
            f.dstatus.data_blocks.flatMap (cleared_of f.dstatus.chain_length))
  | .file name permissions last_write_time f => by
    rw [ds_node.dump, dump_spec]
    simp [ds_node.files]
  | .dir name permissions last_write_time children => by
    rw [ds_node.dump]
    simp only [ds_node.files]
    exact dump_children_spec cleared_blocks backing_path children
theorem dump_children_spec (cleared_blocks : List String) (backing_path : String) :
    ∀ children : List (String × ds_node),
      (dump_children cleared_blocks backing_path children).calls
        = (children_files children).flatMap (fun f =>
            f.dstatus.data_blocks.flatMap (dump_calls_of backing_path f.dstatus.chain_length))
      ∧ (dump_children cleared_blocks backing_path children).cleared_blocks
        = cleared_blocks ++ (children_files children).flatMap (fun f =>
            f.dstatus.data_blocks.flatMap (cleared_of f.dstatus.chain_length))
  | [] => by
    simp [dump_children, children_files]
  | (key, child) :: rest => by
    have h1 := ds_node_dump_spec cleared_blocks backing_path child
    have h2 := dump_children_spec (child.dump cleared_blocks backing_path).cleared_blocks
      backing_path rest
    rw [dump_children]
    simp only [children_files, List.flatMap_append]
    rw [h2.1, h2.2, h1.1, h1.2]
    simp
end

/-- C16: let every file of the subtree of the node `n` have a chain length of at
least 1 and chains that each hold `chain_length` blocks. The storage calls of
`dump` on `n` are, file after file in the order of the children maps (the order
of the child names, directories walked depth first), chain after chain in index
order: `reset` on every block of the chain but the tail, in chain order, then
one `dump` on the tail with the path `backing_path / "{slot_begin}_{slot_end}"`
of the chain. The blocks appended to `cleared_blocks` are the blocks of all
chains in that same order, each once. For a file node, the subtree is the file:
`ds_file_node::dump` issues these calls for its chains. -/
theorem dump_visits_chains_in_order (cleared_blocks : List String) (backing_path : String)
    (n : ds_node)
    (hwf : ∀ f ∈ n.files, 1 ≤ f.dstatus.chain_length
      ∧ ∀ c ∈ f.dstatus.data_blocks, c.block_names.length = f.dstatus.chain_length) :
    (n.dump cleared_blocks backing_path).calls
        = n.files.flatMap (fun f => f.dstatus.data_blocks.flatMap (fun c =>
            c.block_names.dropLast.map call.reset
              ++ [call.dump c.tail
                (push_path_element backing_path
                  (toString c.slot_begin ++ "_" ++ toString c.slot_end))]))
      ∧ (n.dump cleared_blocks backing_path).cleared_blocks
        = cleared_blocks
          ++ n.files.flatMap (fun f => f.dstatus.data_blocks.flatMap (fun c => c.block_names))
      ∧ ∀ (name : String) (permissions last_write_time : Nat) (f : ds_file_node),
          n = .file name permissions last_write_time f →
          (f.dump cleared_blocks backing_path).calls
            = f.dstatus.data_blocks.flatMap (fun c =>
              c.block_names.dropLast.map call.reset
                ++ [call.dump c.tail
                  (push_path_element backing_path
                    (toString c.slot_begin ++ "_" ++ toString c.slot_end))])
          ∧ (f.dump cleared_blocks backing_path).cleared_blocks
            = cleared_blocks ++ f.dstatus.data_blocks.flatMap (fun c => c.block_names) := by
  have hcalls : ∀ f ∈ n.files,
      f.dstatus.data_blocks.flatMap (dump_calls_of backing_path f.dstatus.chain_length)
        = f.dstatus.data_blocks.flatMap (fun c =>
            c.block_names.dropLast.map call.reset
              ++ [call.dump c.tail
                (push_path_element backing_path
                  (toString c.slot_begin ++ "_" ++ toString c.slot_end))]) := by
    intro f hf
    apply List.flatMap_congr
    intro c hc
    exact dump_calls_of_chain backing_path c _ (hwf f hf).1 ((hwf f hf).2 c hc)
  have hcleared : ∀ f ∈ n.files,
      f.dstatus.data_blocks.flatMap (cleared_of f.dstatus.chain_length)
        = f.dstatus.data_blocks.flatMap (fun c => c.block_names) := by
    intro f hf
    apply List.flatMap_congr
    intro c hc
    exact cleared_of_chain c _ ((hwf f hf).2 c hc)
  have hspec := ds_node_dump_spec cleared_blocks backing_path n
  refine ⟨?_, ?_, ?_⟩
  · rw [hspec.1]
    exact List.flatMap_congr hcalls
  · rw [hspec.2]
    congr 1
    exact List.flatMap_congr hcleared
  · intro name permissions last_write_time f hn
    have hf : f ∈ n.files := by
      rw [hn]
      simp [ds_node.files]
    rw [dump_spec]
    exact ⟨hcalls f hf, by rw [hcleared f hf]⟩

theorem dump_visits_chains_in_order_witness :
    ((ds_node.dir "d" 0 0
        [("a", .file "a" 0 0 (file_of 2 [stable_chain ["a1", "a2"] 0 3,
            stable_chain ["a3", "a4"] 4 7])),
          ("b", .dir "b" 0 0 [("c", .file "c" 0 0 (file_of 1 [stable_chain ["c1"] 0 7]))])]).dump
        ["z"] "/b").calls
      = [.reset "a1", .dump "a2" "/b/0_3", .reset "a3", .dump "a4" "/b/4_7",
          .dump "c1" "/b/0_7"]
      ∧ ((ds_node.dir "d" 0 0
        [("a", .file "a" 0 0 (file_of 2 [stable_chain ["a1", "a2"] 0 3,
            stable_chain ["a3", "a4"] 4 7])),
          ("b", .dir "b" 0 0 [("c", .file "c" 0 0 (file_of 1 [stable_chain ["c1"] 0 7]))])]).dump
        ["z"] "/b").cleared_blocks
      = ["z", "a1", "a2", "a3", "a4", "c1"] := by
  have h := dump_visits_chains_in_order ["z"] "/b"
    (ds_node.dir "d" 0 0
      [("a", .file "a" 0 0 (file_of 2 [stable_chain ["a1", "a2"] 0 3,
          stable_chain ["a3", "a4"] 4 7])),
        ("b", .dir "b" 0 0 [("c", .file "c" 0 0 (file_of 1 [stable_chain ["c1"] 0 7]))])])
    (by decide)
  refine ⟨?_, ?_⟩
  · rw [h.1]
    decide
  · rw [h.2.1]
    decide

/-! ## Load: the slot ranges -/

theorem to_int32_small (x : Nat) (hx : x < 2 ^ 31) : to_int32 x = (x : Int) := by
  unfold to_int32
  have h1 : x % 2 ^ 32 = x := Nat.mod_eq_of_lt (by omega)
  rw [h1, if_pos hx]

/-- The range of the chain at index `i` without the machine arithmetic, when
there are at most `SLOT_MAX` chains and `SLOT_MAX` is an `int32_t` value. -/
theorem load_slot_range_plain (SLOT_MAX n i : Nat) (hn : n ≤ SLOT_MAX)
    (hmax : SLOT_MAX < 2 ^ 31) (hi : i < n) :
    load_slot_range SLOT_MAX n (SLOT_MAX / n) i
      = (((i * (SLOT_MAX / n) : Nat) : Int),
          if i = n - 1 then (SLOT_MAX : Int)
          else (((i + 1) * (SLOT_MAX / n) : Nat) : Int) - 1) := by
  have hs : 1 ≤ SLOT_MAX / n := (Nat.one_le_div_iff (by omega)).mpr hn
  have hns : n * (SLOT_MAX / n) ≤ SLOT_MAX := Nat.mul_div_le SLOT_MAX n
  have h1 : i * (SLOT_MAX / n) ≤ n * (SLOT_MAX / n) := Nat.mul_le_mul_right _ (by omega)
  have h2 : (i + 1) * (SLOT_MAX / n) ≤ n * (SLOT_MAX / n) := Nat.mul_le_mul_right _ (by omega)
  have h3 : 1 * (SLOT_MAX / n) ≤ (i + 1) * (SLOT_MAX / n) := Nat.mul_le_mul_right _ (by omega)
  unfold load_slot_range
  have hb : (i * (SLOT_MAX / n)) % 2 ^ 64 = i * (SLOT_MAX / n) := Nat.mod_eq_of_lt (by omega)
  have he : ((i + 1) * (SLOT_MAX / n) + (2 ^ 64 - 1)) % 2 ^ 64
      = (i + 1) * (SLOT_MAX / n) - 1 := by
    have : (i + 1) * (SLOT_MAX / n) + (2 ^ 64 - 1)
        = ((i + 1) * (SLOT_MAX / n) - 1) + 1 * 2 ^ 64 := by omega
    rw [this, Nat.add_mul_mod_self_right]
    exact Nat.mod_eq_of_lt (by omega)
  rw [hb, he, to_int32_small _ (by omega), to_int32_small _ (by omega)]
  refine congrArg (Prod.mk _) ?_
  by_cases hl : i = n - 1
  · rw [if_pos hl, if_pos hl]
  · rw [if_neg hl, if_neg hl]
    omega

theorem load_slot_ranges_tiles_from (SLOT_MAX n : Nat) (hn : n ≤ SLOT_MAX)
    (hmax : SLOT_MAX < 2 ^ 31) (m k : Nat) (hm : 1 ≤ m) (hk : k + m = n) :
    tiles ((k * (SLOT_MAX / n) : Nat) : Int) ((SLOT_MAX : Int) + 1)
      ((List.range' k m).map (load_slot_range SLOT_MAX n (SLOT_MAX / n))) := by
  have hs : 1 ≤ SLOT_MAX / n := (Nat.one_le_div_iff (by omega)).mpr hn
  have hns : n * (SLOT_MAX / n) ≤ SLOT_MAX := Nat.mul_div_le SLOT_MAX n
  induction m generalizing k with
  | zero => omega
  | succ m ih =>
    have hrange : List.range' k (m + 1) = k :: List.range' (k + 1) m := rfl
    rw [hrange, List.map_cons, load_slot_range_plain SLOT_MAX n k hn hmax (by omega)]
    have h1 : k * (SLOT_MAX / n) ≤ n * (SLOT_MAX / n) := Nat.mul_le_mul_right _ (by omega)
    have h4 : (k + 1) * (SLOT_MAX / n) = k * (SLOT_MAX / n) + SLOT_MAX / n := by
      rw [Nat.add_mul, Nat.one_mul]
    by_cases hl : k = n - 1
    · have hm0 : m = 0 := by omega
      subst hm0
      have h5 : n * (SLOT_MAX / n) = k * (SLOT_MAX / n) + SLOT_MAX / n := by
        have hnk : n = k + 1 := by omega
        have := congrArg (fun x => x * (SLOT_MAX / n)) hnk
        simp only at this
        rw [this, h4]
      simp only [if_pos hl, List.range'_zero, List.map_nil, tiles]
      refine ⟨trivial, ?_, trivial⟩
      omega
    · have ih2 := ih (k + 1) (by omega) (by omega)
      simp only [if_neg hl, tiles]
      refine ⟨trivial, ?_, ?_⟩
      · rw [h4]
        omega
      · have : (((k + 1) * (SLOT_MAX / n) : Nat) : Int) - 1 + 1
            = (((k + 1) * (SLOT_MAX / n) : Nat) : Int) := by omega
        rw [this]
        exact ih2

/-- C18: for `1 <= n <= SLOT_MAX` (`SLOT_MAX` an `int32_t` value) the slot ranges
`load` computes for a file with `n` chains are `n` ranges; chain `i` gets
`[i * s, (i + 1) * s - 1]` with `s = SLOT_MAX / n`, the last chain ends at
`SLOT_MAX`; in index order they tile `[0, SLOT_MAX]`: the first begins at 0,
every range has `begin <= end`, each begins one past the end of the one before
it, and the last ends at `SLOT_MAX`. -/
theorem load_slot_ranges_partition (SLOT_MAX n : Nat) (h1 : 1 ≤ n) (hn : n ≤ SLOT_MAX)
    (hmax : SLOT_MAX < 2 ^ 31) :
    (load_slot_ranges SLOT_MAX n).length = n
      ∧ (∀ i, i < n → (load_slot_ranges SLOT_MAX n)[i]?
          = some ((i : Int) * ((SLOT_MAX / n : Nat) : Int),
              if i = n - 1 then (SLOT_MAX : Int)
              else ((i : Int) + 1) * ((SLOT_MAX / n : Nat) : Int) - 1))
      ∧ tiles 0 ((SLOT_MAX : Int) + 1) (load_slot_ranges SLOT_MAX n) := by
  refine ⟨by simp [load_slot_ranges], ?_, ?_⟩
  · intro i hi
    unfold load_slot_ranges
    rw [List.getElem?_map, List.getElem?_range hi, Option.map_some',
      load_slot_range_plain SLOT_MAX n i hn hmax hi]
    push_cast
    rfl
  · have h := load_slot_ranges_tiles_from SLOT_MAX n hn hmax n 0 h1 (by omega)
    unfold load_slot_ranges
    rw [List.range_eq_range']
    simpa using h

theorem load_slot_ranges_partition_witness :
    load_slot_ranges 7 3 = [(0, 1), (2, 3), (4, 7)]
      ∧ tiles 0 ((7 : Int) + 1) (load_slot_ranges 7 3) :=
  ⟨by decide, (load_slot_ranges_partition 7 3 (by decide) (by decide) (by decide)).2.2⟩

/-! ## Load -/

theorem modify_chain_getElem?_at (g : replica_chain → replica_chain) (i k : Nat)
    (l : List replica_chain) :
    (modify_chain g i l)[k]? = (l[k]?).map (fun c => if k = i then g c else c) := by
  unfold modify_chain
  cases h : l[i]? with
  | none =>
    simp only
    cases hk : l[k]? with
    | none => rfl
    | some c =>
      have hne : k ≠ i := by
        intro hc
        rw [hc, h] at hk
        cases hk
      simp [hne]
  | some c =>
    simp only
    by_cases hki : k = i
    · subst hki
      have hi : k < l.length := by
        rcases List.getElem?_eq_some_iff.mp h with ⟨hlt, _⟩
        exact hlt
      simp [h, hi]
    · rw [List.getElem?_set_ne (fun hc => hki hc.symm)]
      cases hk : l[k]? with
      | none => rfl
      | some c2 => simp [hki]

theorem modify_chain_length (g : replica_chain → replica_chain) (i : Nat)
    (l : List replica_chain) : (modify_chain g i l).length = l.length := by
  unfold modify_chain
  cases l[i]? with
  | none => rfl
  | some c => simp

/-- One pass of the loop of `load` whose allocation returns `chain_length`
blocks. -/
theorem load_chain_ok (SLOT_MAX : Nat) (allocate : Nat → Nat → Except ds_error (List String))
    (path backing_path : String) (auto_scale : Bool) (num_blocks chain_length i : Nat)
    (f : ds_file_node) (names : List String) (ha : allocate i chain_length = .ok names)
    (hlen : names.length = chain_length) :
    load_chain SLOT_MAX allocate path backing_path auto_scale num_blocks chain_length i f =
      ⟨{ f with dstatus := f.dstatus.mark_loaded i names },
        .allocate chain_length
          :: load_calls path backing_path
            ⟨names, load_slot_range SLOT_MAX num_blocks (SLOT_MAX / num_blocks) i, .stable,
              .in_memory⟩ auto_scale chain_length,
        .ok ()⟩ := by
  unfold load_chain
  simp only [ha]
  rw [if_neg (by simpa using hlen)]

/-- A loop all of whose passes return normally returns normally, with the node
the passes left one after the other and the calls of the passes in order. -/
theorem run_passes_ok (pass : Nat → ds_file_node → outcome Unit)
    (step : Nat → ds_file_node → ds_file_node) (calls : Nat → List call) (is : List Nat)
    (h : ∀ i ∈ is, ∀ f, pass i f = ⟨step i f, calls i, .ok ()⟩) (f : ds_file_node) :
    run_passes pass is f
      = ⟨is.foldl (fun f i => step i f) f, is.flatMap calls, .ok ()⟩ := by
  induction is generalizing f with
  | nil => rfl
  | cons i is ih =>
    have hi := h i (List.mem_cons_self _ _) f
    have ih2 := ih (fun j hj => h j (List.mem_cons_of_mem _ hj)) (step i f)
    rw [run_passes]
    simp only [hi, ih2, List.foldl_cons, List.flatMap_cons]

/-- The data status after `mark_loaded(i, names i)` for the indices of a list. -/
theorem mark_loaded_fold (names : Nat → List String) (is : List Nat) (f : ds_file_node) :
    (is.foldl (fun f i => { f with dstatus := f.dstatus.mark_loaded i (names i) }) f).adding
        = f.adding
      ∧ (is.foldl (fun f i => { f with dstatus := f.dstatus.mark_loaded i (names i) })
          f).dstatus.chain_length = f.dstatus.chain_length
      ∧ (is.foldl (fun f i => { f with dstatus := f.dstatus.mark_loaded i (names i) })
          f).dstatus.data_blocks.length = f.dstatus.data_blocks.length
      ∧ ∀ k, (is.foldl (fun f i => { f with dstatus := f.dstatus.mark_loaded i (names i) })
          f).dstatus.data_blocks[k]?
        = (f.dstatus.data_blocks[k]?).map (fun c =>
            if k ∈ is then ⟨names k, c.slot_range, .stable, .in_memory⟩ else c) := by
  induction is generalizing f with
  | nil => simp
  | cons i is ih =>
    obtain ⟨h1, h2, h3, h4⟩ := ih { f with dstatus := f.dstatus.mark_loaded i (names i) }
    rw [List.foldl_cons]
    refine ⟨h1, h2, ?_, ?_⟩
    · rw [h3]
      exact modify_chain_length _ _ _
    · intro k
      rw [h4 k]
      simp only [data_status.mark_loaded]
      rw [modify_chain_getElem?_at]
      cases f.dstatus.data_blocks[k]? with
      | none => rfl
      | some c =>
        simp only [Option.map_some', List.mem_cons]
        by_cases hki : k = i
        · subst hki
          by_cases hk : k ∈ is
          · simp [hk]
          · simp [hk]
        · by_cases hk : k ∈ is
          · simp [hk, hki]
          · simp [hk, hki]

/-- The method `load` on a file with at least one chain, when every allocation
returns `chain_length` blocks: `names i` are the blocks of the allocation with
number `i`. -/
theorem load_spec (SLOT_MAX : Nat) (t : flag_tests)
    (allocate : Nat → Nat → Except ds_error (List String)) (path backing_path : String)
    (f : ds_file_node) (names : Nat → List String)
    (hn : 1 ≤ f.dstatus.data_blocks.length)
    (ha : ∀ i, i < f.dstatus.data_blocks.length →
      allocate i f.dstatus.chain_length = .ok (names i)
        ∧ (names i).length = f.dstatus.chain_length) :
    f.load SLOT_MAX t allocate path backing_path =
      ⟨(List.range f.dstatus.data_blocks.length).foldl
          (fun f i => { f with dstatus := f.dstatus.mark_loaded i (names i) }) f,
        (List.range f.dstatus.data_blocks.length).flatMap (fun i =>
          .allocate f.dstatus.chain_length
            :: load_calls path backing_path
              ⟨names i,
                load_slot_range SLOT_MAX f.dstatus.data_blocks.length
                  (SLOT_MAX / f.dstatus.data_blocks.length) i, .stable, .in_memory⟩
              (!f.dstatus.is_static_provisioned t) f.dstatus.chain_length),
        .ok ()⟩ := by
  unfold ds_file_node.load
  simp only
  rw [if_neg (by omega)]
  apply run_passes_ok
  intro i hi g
  have hi2 := List.mem_range.mp hi
  exact load_chain_ok SLOT_MAX allocate path backing_path _ _ _ i g (names i) (ha i hi2).1
    (ha i hi2).2

/-- What `load` leaves in the data status: the number of chains and the chain
length are the ones before; the chain at index `i` has the blocks of allocation
`i`, the slot range it had, the status stable and the mode in_memory. -/
theorem load_dstatus (SLOT_MAX : Nat) (t : flag_tests)
    (allocate : Nat → Nat → Except ds_error (List String)) (path backing_path : String)
    (f : ds_file_node) (names : Nat → List String)
    (hn : 1 ≤ f.dstatus.data_blocks.length)
    (ha : ∀ i, i < f.dstatus.data_blocks.length →
      allocate i f.dstatus.chain_length = .ok (names i)
        ∧ (names i).length = f.dstatus.chain_length) :
    (f.load SLOT_MAX t allocate path backing_path).ret = .ok ()
      ∧ (f.load SLOT_MAX t allocate path backing_path).node.dstatus.chain_length
        = f.dstatus.chain_length
      ∧ (f.load SLOT_MAX t allocate path backing_path).node.dstatus.data_blocks.length
        = f.dstatus.data_blocks.length
      ∧ ∀ i, (f.load SLOT_MAX t allocate path backing_path).node.dstatus.data_blocks[i]?
        = (f.dstatus.data_blocks[i]?).map (fun c =>
            (⟨names i, c.slot_range, .stable, .in_memory⟩ : replica_chain)) := by
  rw [load_spec SLOT_MAX t allocate path backing_path f names hn ha]
  obtain ⟨_, h2, h3, h4⟩ := mark_loaded_fold names (List.range f.dstatus.data_blocks.length) f
  refine ⟨rfl, h2, h3, ?_⟩
  intro i
  simp only
  rw [h4 i]
  cases hi : f.dstatus.data_blocks[i]? with
  | none => rfl
  | some c =>
    have hlt : i < f.dstatus.data_blocks.length := by
      rcases List.getElem?_eq_some_iff.mp hi with ⟨hlt, _⟩
      exact hlt
    simp [hlt]

theorem dump_node_shape (cleared_blocks : List String) (backing_path : String)
    (f : ds_file_node) :
    (f.dump cleared_blocks backing_path).node.dstatus.chain_length = f.dstatus.chain_length
      ∧ (f.dump cleared_blocks backing_path).node.dstatus.data_blocks.length
        = f.dstatus.data_blocks.length := by
  rw [dump_spec]
  simp only
  by_cases h : f.dstatus.data_blocks = [] ∨ f.dstatus.chain_length = 0
  · rw [if_pos h]
    exact ⟨rfl, rfl⟩
  · rw [if_neg h]
    exact ⟨rfl, modify_chain_length _ _ _⟩

theorem modes_of_all_in_memory (l : List replica_chain)
    (h : ∀ c ∈ l, c.mode = .in_memory) :
    l.map (fun c => c.mode) = List.replicate l.length .in_memory := by
  induction l with
  | nil => rfl
  | cons c l ih =>
    rw [List.map_cons, h c (List.mem_cons_self _ _),
      ih (fun x hx => h x (List.mem_cons_of_mem _ hx))]
    rfl

/-- C17: let the file have `n >= 1` chains and let every allocation of `load`
return `chain_length` blocks (`names i` for the allocation with number `i`).
`load` returns normally; the file still has `n` chains; the chain at index `i`
has the mode in_memory, the status stable and the blocks `names i`, which are
`chain_length` blocks. So `dump` followed by `load` leaves every chain
in_memory, and a second `dump` followed by `load` (with allocations `names2`)
leaves the same modes, chain by chain, as the first. -/
theorem load_effect (SLOT_MAX : Nat) (t : flag_tests)
    (allocate allocate2 : Nat → Nat → Except ds_error (List String))
    (path backing_path : String) (f : ds_file_node) (names names2 : Nat → List String)
    (hn : 1 ≤ f.dstatus.data_blocks.length)
    (ha : ∀ i, i < f.dstatus.data_blocks.length →
      allocate i f.dstatus.chain_length = .ok (names i)
        ∧ (names i).length = f.dstatus.chain_length)
    (ha2 : ∀ i, i < f.dstatus.data_blocks.length →
      allocate2 i f.dstatus.chain_length = .ok (names2 i)
        ∧ (names2 i).length = f.dstatus.chain_length) :
    (f.load SLOT_MAX t allocate path backing_path).ret = .ok ()
      ∧ (f.load SLOT_MAX t allocate path backing_path).node.dstatus.data_blocks.length
        = f.dstatus.data_blocks.length
      ∧ (∀ i c,
          (f.load SLOT_MAX t allocate path backing_path).node.dstatus.data_blocks[i]? = some c →
          c.mode = .in_memory ∧ c.status = .stable ∧ c.block_names = names i
            ∧ c.block_names.length = f.dstatus.chain_length)
      ∧ (dump_then_load SLOT_MAX t allocate path backing_path f).dstatus.data_blocks.length
        = f.dstatus.data_blocks.length
      ∧ (∀ c ∈ (dump_then_load SLOT_MAX t allocate path backing_path f).dstatus.data_blocks,
          c.mode = .in_memory)
      ∧ (dump_then_load SLOT_MAX t allocate2 path backing_path
            (dump_then_load SLOT_MAX t allocate path backing_path f)).dstatus.data_blocks.map
          (fun c => c.mode)
        = (dump_then_load SLOT_MAX t allocate path backing_path f).dstatus.data_blocks.map
          (fun c => c.mode) := by
  have hall : ∀ (g : ds_file_node) (alloc : Nat → Nat → Except ds_error (List String))
      (nm : Nat → List String),
      g.dstatus.data_blocks.length = f.dstatus.data_blocks.length →
      g.dstatus.chain_length = f.dstatus.chain_length →
      (∀ i, i < f.dstatus.data_blocks.length →
        alloc i f.dstatus.chain_length = .ok (nm i)
          ∧ (nm i).length = f.dstatus.chain_length) →
      (g.load SLOT_MAX t alloc path backing_path).node.dstatus.chain_length
          = f.dstatus.chain_length
        ∧ (g.load SLOT_MAX t alloc path backing_path).node.dstatus.data_blocks.length
          = f.dstatus.data_blocks.length
        ∧ ∀ i c,
          (g.load SLOT_MAX t alloc path backing_path).node.dstatus.data_blocks[i]? = some c →
          c.mode = .in_memory ∧ c.status = .stable ∧ c.block_names = nm i
            ∧ c.block_names.length = f.dstatus.chain_length := by
    intro g alloc nm hlen hcl hnm
    have hg := load_dstatus SLOT_MAX t alloc path backing_path g nm (by omega)
      (by rw [hlen, hcl]; exact hnm)
    refine ⟨by rw [hg.2.1, hcl], by rw [hg.2.2.1, hlen], ?_⟩
    intro i c hc
    rw [hg.2.2.2 i] at hc
    cases hgi : g.dstatus.data_blocks[i]? with
    | none =>
      rw [hgi] at hc
      cases hc
    | some c0 =>
      rw [hgi] at hc
      simp only [Option.map_some', Option.some.injEq] at hc
      subst hc
      have hlt : i < g.dstatus.data_blocks.length := by
        rcases List.getElem?_eq_some_iff.mp hgi with ⟨hlt, _⟩
        exact hlt
      exact ⟨rfl, rfl, rfl, (hnm i (by omega)).2⟩
  have hmem : ∀ (l : List replica_chain),
      (∀ (i : Nat) (c : replica_chain), l[i]? = some c → c.mode = .in_memory) →
      ∀ c ∈ l, c.mode = .in_memory := by
    intro l hl c hc
    obtain ⟨i, hi⟩ := List.mem_iff_getElem?.mp hc
    exact hl i c hi
  have hf := hall f allocate names rfl rfl ha
  have hd := dump_node_shape [] backing_path f
  have h1 := hall (f.dump [] backing_path).node allocate names hd.2 hd.1 ha
  have hd2 := dump_node_shape [] backing_path
    ((f.dump [] backing_path).node.load SLOT_MAX t allocate path backing_path).node
  have h2 := hall
    ((((f.dump [] backing_path).node.load SLOT_MAX t allocate path backing_path).node).dump []
      backing_path).node allocate2 names2
    (hd2.2.trans h1.2.1) (hd2.1.trans h1.1) ha2
  have hm1 := hmem _ (fun i c hc => (h1.2.2 i c hc).1)
  have hm2 := hmem _ (fun i c hc => (h2.2.2 i c hc).1)
  have hmodes := (modes_of_all_in_memory _ hm2).trans
    ((congrArg (fun k => List.replicate k storage_mode.in_memory)
      (h2.2.1.trans h1.2.1.symm)).trans (modes_of_all_in_memory _ hm1).symm)
  exact ⟨(load_dstatus SLOT_MAX t allocate path backing_path f names hn ha).1, hf.2.1,
    hf.2.2, h1.2.1, hm1, hmodes⟩

theorem load_effect_witness :
    (((file_of 2 [chain_in_mode ["a", "a2"] 0 1 .on_disk,
          chain_in_mode ["b", "b2"] 2 7 .on_disk]).load 7 sample_flags
        (allocate_seq [["p", "q"], ["r", "s"]]) "/f" "/b").node.dstatus.data_blocks
      = [stable_chain ["p", "q"] 0 1, stable_chain ["r", "s"] 2 7])
      ∧ ((file_of 2 [chain_in_mode ["a", "a2"] 0 1 .on_disk,
          chain_in_mode ["b", "b2"] 2 7 .on_disk]).load 7 sample_flags
        (allocate_seq [["p", "q"], ["r", "s"]]) "/f" "/b").ret = .ok () :=
  ⟨by decide,
    (load_effect 7 sample_flags (allocate_seq [["p", "q"], ["r", "s"]])
      (allocate_seq [["u", "v"], ["w", "x"]]) "/f" "/b"
      (file_of 2 [chain_in_mode ["a", "a2"] 0 1 .on_disk,
        chain_in_mode ["b", "b2"] 2 7 .on_disk])
      (fun i => [["p", "q"], ["r", "s"]].getD i [])
      (fun i => [["u", "v"], ["w", "x"]].getD i [])
      (by decide)
      (by
        intro i hi
        have hi2 : i < 2 := hi
        interval_cases i <;> exact ⟨rfl, rfl⟩)
      (by
        intro i hi
        have hi2 : i < 2 := hi
        interval_cases i <;> exact ⟨rfl, rfl⟩)).1⟩

/-! ## Lease expiry of a mapped file and of an unmapped file -/

/-- The mapped branch of `ds_file_node::handle_lease_expiry`, with its loops
resolved: the calls and the cleared blocks are those of `dump` with the file's
own backing path; `mode(i, on_disk)` receives the last position of a chain, so
it reaches the chain at index `chain_length - 1` and no other chain. -/
theorem handle_lease_expiry_mapped_spec (t : flag_tests) (cleared_blocks : List String)
    (f : ds_file_node) (hpinned : f.dstatus.is_pinned t = false)
    (hmapped : f.dstatus.is_mapped t = true) :
    f.handle_lease_expiry t cleared_blocks =
      ⟨{ f with dstatus :=
            if f.dstatus.data_blocks = [] ∨ f.dstatus.chain_length = 0 then f.dstatus
            else f.dstatus.mark_dumped (f.dstatus.chain_length - 1) },
        f.dstatus.data_blocks.flatMap
          (dump_calls_of f.dstatus.backing_path f.dstatus.chain_length),
        cleared_blocks ++ f.dstatus.data_blocks.flatMap (cleared_of f.dstatus.chain_length),
        false⟩ := by
  have hmark : (fun (d : data_status) (i : Nat) => d.mode i .on_disk)
      = data_status.mark_dumped := rfl
  unfold ds_file_node.handle_lease_expiry
  simp only [hpinned, hmapped, hmark, dump_chains_mark_dumped, List.nil_append]
  simp

/-- C21: the file with the flag mapped (and not pinned), chain length 1 and the
two in-memory chains `[0, 3]` and `[4, 7]`: `handle_lease_expiry` dumps both
tails to the file's backing path, reports both blocks as cleared and returns
false, and after it the first chain is on_disk and the second chain is still
in_memory, because `mode(i, on_disk)` receives the position `i = 0` of the
block in its chain both times. With chain length 2 it is the first chain that
stays in_memory. -/
theorem handle_lease_expiry_mapped_leaves_in_memory :
    (file_with_flags 4 1 [stable_chain ["a"] 0 3, stable_chain ["b"] 4 7]).dstatus.is_pinned
        sample_flags = false
      ∧ (file_with_flags 4 1 [stable_chain ["a"] 0 3, stable_chain ["b"] 4 7]).dstatus.is_mapped
        sample_flags = true
      ∧ ((file_with_flags 4 1 [stable_chain ["a"] 0 3,
          stable_chain ["b"] 4 7]).handle_lease_expiry sample_flags []).calls
        = [.dump "a" "/tmp/0_3", .dump "b" "/tmp/4_7"]
      ∧ ((file_with_flags 4 1 [stable_chain ["a"] 0 3,
          stable_chain ["b"] 4 7]).handle_lease_expiry sample_flags []).cleared_blocks
        = ["a", "b"]
      ∧ ((file_with_flags 4 1 [stable_chain ["a"] 0 3,
          stable_chain ["b"] 4 7]).handle_lease_expiry sample_flags []).ret = false
      ∧ ((file_with_flags 4 1 [stable_chain ["a"] 0 3,
          stable_chain ["b"] 4 7]).handle_lease_expiry sample_flags []).node.dstatus.data_blocks
        = [chain_in_mode ["a"] 0 3 .on_disk, chain_in_mode ["b"] 4 7 .in_memory]
      ∧ ((file_with_flags 4 2 [stable_chain ["a", "b"] 0 3,
          stable_chain ["c", "d"] 4 7]).handle_lease_expiry sample_flags
          []).node.dstatus.data_blocks
        = [chain_in_mode ["a", "b"] 0 3 .in_memory, chain_in_mode ["c", "d"] 4 7 .on_disk] := by
  refine ⟨rfl, rfl, by decide, by decide, rfl, by decide, by decide⟩

/-- C22: on a file that is neither pinned nor mapped,
`ds_file_node::handle_lease_expiry` issues one `reset` for every block of every
chain, chain after chain in index order and the blocks of a chain in chain
order, and no other call; it appends those blocks, in that order, to
`cleared_blocks`, leaves the file node as it was and returns true. Called with
the key of that file, `ds_dir_node::handle_lease_expiry` of the parent issues
the same calls, returns true and erases the entry of the file: the map of the
children afterwards holds the other entries, unchanged and in their order. -/
theorem handle_lease_expiry_unmapped (t : flag_tests) (cleared_blocks : List String)
    (f : ds_file_node) (hpinned : f.dstatus.is_pinned t = false)
    (hmapped : f.dstatus.is_mapped t = false) :
    (f.handle_lease_expiry t cleared_blocks).calls
        = (f.dstatus.data_blocks.flatMap (fun block => block.block_names)).map call.reset
      ∧ (f.handle_lease_expiry t cleared_blocks).cleared_blocks
        = cleared_blocks ++ f.dstatus.data_blocks.flatMap (fun block => block.block_names)
      ∧ (f.handle_lease_expiry t cleared_blocks).node = f
      ∧ (f.handle_lease_expiry t cleared_blocks).ret = true
      ∧ ∀ (pre post : List (String × ds_node)) (key name : String)
          (permissions last_write_time : Nat),
          (∀ entry ∈ pre, entry.1 ≠ key) →
          (ds_dir_node.handle_lease_expiry t cleared_blocks key
              (pre ++ (key, .file name permissions last_write_time f) :: post)).node
            = pre ++ post
          ∧ (ds_dir_node.handle_lease_expiry t cleared_blocks key
              (pre ++ (key, .file name permissions last_write_time f) :: post)).calls
            = (f.dstatus.data_blocks.flatMap (fun block => block.block_names)).map call.reset
          ∧ (ds_dir_node.handle_lease_expiry t cleared_blocks key
              (pre ++ (key, .file name permissions last_write_time f) :: post)).cleared_blocks
            = cleared_blocks ++ f.dstatus.data_blocks.flatMap (fun block => block.block_names)
          ∧ (ds_dir_node.handle_lease_expiry t cleared_blocks key
              (pre ++ (key, .file name permissions last_write_time f) :: post)).ret
            = .ok true := by
  have hfile : f.handle_lease_expiry t cleared_blocks =
      ⟨f, (f.dstatus.data_blocks.flatMap (fun block => block.block_names)).map call.reset,
        cleared_blocks ++ f.dstatus.data_blocks.flatMap (fun block => block.block_names),
        true⟩ := by
    unfold ds_file_node.handle_lease_expiry
    simp only [hpinned, hmapped]
    simp [List.map_flatMap]
  refine ⟨by rw [hfile], by rw [hfile], by rw [hfile], by rw [hfile], ?_⟩
  intro pre post key name permissions last_write_time hpre
  have hnode : (ds_node.file name permissions last_write_time f).handle_lease_expiry t
      cleared_blocks = ⟨.file name permissions last_write_time f,
        (f.dstatus.data_blocks.flatMap (fun block => block.block_names)).map call.reset,
        cleared_blocks ++ f.dstatus.data_blocks.flatMap (fun block => block.block_names),
        .ok true⟩ := by
    rw [ds_node.handle_lease_expiry, hfile]
  unfold ds_dir_node.handle_lease_expiry
  rw [findIdx_key_append_cons pre key _ post hpre, getElem?_append_cons_length]
  simp only [hnode]
  refine ⟨?_, trivial, trivial, trivial⟩
  exact eraseIdx_append_cons pre _ post

theorem handle_lease_expiry_unmapped_witness :
    ((file_with_flags 0 2 [stable_chain ["a", "b"] 0 3,
        stable_chain ["c", "d"] 4 7]).handle_lease_expiry sample_flags ["z"]).calls
      = [.reset "a", .reset "b", .reset "c", .reset "d"]
      ∧ (ds_dir_node.handle_lease_expiry sample_flags ["z"] "f"
          [("e", .file "e" 0 0 (file_of 1 [stable_chain ["x"] 0 7])),
            ("f", .file "f" 0 0 (file_with_flags 0 2 [stable_chain ["a", "b"] 0 3,
              stable_chain ["c", "d"] 4 7])),
            ("g", .dir "g" 0 0 [])]).ret = .ok true := by
  have h := handle_lease_expiry_unmapped sample_flags ["z"]
    (file_with_flags 0 2 [stable_chain ["a", "b"] 0 3, stable_chain ["c", "d"] 4 7]) rfl rfl
  refine ⟨?_, ?_⟩
  · rw [h.1]
    decide
  · exact (h.2.2.2.2 [("e", .file "e" 0 0 (file_of 1 [stable_chain ["x"] 0 7]))]
      [("g", .dir "g" 0 0 [])] "f" "f" 0 0 (by decide)).2.2.2

/-! ## Lease expiry of a directory -/

/-- The value `ds_file_node::handle_lease_expiry` returns: true exactly on a file
that is neither pinned nor mapped. -/
theorem handle_lease_expiry_ret (t : flag_tests) (cleared_blocks : List String)
    (f : ds_file_node) :
    (f.handle_lease_expiry t cleared_blocks).ret
      = !(f.dstatus.is_pinned t || f.dstatus.is_mapped t) := by
  unfold ds_file_node.handle_lease_expiry
  cases hp : f.dstatus.is_pinned t <;> cases hm : f.dstatus.is_mapped t <;> simp

mutual
/-- Lease expiry of a node that is kept returns false; on a node that is not
kept it returns true (and the entry is erased) or ends on the invalid iterator
of a loop further down. -/
theorem ds_node_handle_lease_expiry_ret (t : flag_tests) :
    ∀ (n : ds_node) (cleared_blocks : List String),
      (n.kept t = true → (n.handle_lease_expiry t cleared_blocks).ret = .ok false)
        ∧ (n.kept t = false →
          (n.handle_lease_expiry t cleared_blocks).ret = .ok true
            ∨ (n.handle_lease_expiry t cleared_blocks).ret = .error .invalid_iterator)
  | .file name permissions last_write_time f, cleared_blocks => by
    rw [ds_node.handle_lease_expiry, ds_node.kept]
    simp only [handle_lease_expiry_ret]
    cases f.dstatus.is_pinned t || f.dstatus.is_mapped t <;> simp
  | .dir name permissions last_write_time children, cleared_blocks => by
    have h := handle_lease_expiry_entries_ret t children cleared_blocks
    rw [ds_node.handle_lease_expiry, ds_node.kept]
    simp only [h]
    cases children with
    | nil => simp
    | cons entry rest =>
      cases entries_kept t (entry :: rest) <;> simp
/-- The loop over the entries of a directory: it ends with the flag true on an
empty directory, with the flag false when every entry is kept, and on an invalid
iterator as soon as a call has erased the entry the loop stands on. -/
theorem handle_lease_expiry_entries_ret (t : flag_tests) :
    ∀ (entries : List (String × ds_node)) (cleared_blocks : List String),
      (handle_lease_expiry_entries t cleared_blocks entries).ret
        = if entries.isEmpty = true then Except.ok true
          else if entries_kept t entries = true then Except.ok false
          else Except.error ds_error.invalid_iterator
  | [], cleared_blocks => by
    simp [handle_lease_expiry_entries]
  | (key, child) :: rest, cleared_blocks => by
    have hc := ds_node_handle_lease_expiry_ret t child cleared_blocks
    have hr := handle_lease_expiry_entries_ret t rest
      (child.handle_lease_expiry t cleared_blocks).cleared_blocks
    rw [handle_lease_expiry_entries]
    simp only [entries_kept, List.isEmpty_cons]
    by_cases hk : child.kept t = true
    · rw [hc.1 hk]
      simp only [hr, hk, Bool.true_and]
      cases rest with
      | nil => simp [entries_kept]
      | cons entry rest2 =>
        cases entries_kept t (entry :: rest2) <;> simp
    · have hk2 : child.kept t = false := by simpa using hk
      rcases hc.2 hk2 with h | h
      · rw [h]
        simp [hk2]
      · rw [h]
        simp [hk2]
end

/-- C23: the parent map holds the directory `d`, whose only entry is the file `f`
with one chain, neither pinned nor mapped. `handle_lease_expiry(d)` of the parent
runs the loop over the entries of `d`; the call for `f` resets its block and
returns true, having erased the entry of `f` from the map of `d` while the loop
stands on it. The loop cannot go on from the erased entry (`invalid_iterator`):
the method does not get to erase `d` and return true. The same happens after an
entry that is kept (the pinned file `p` before `f`). An empty directory is
erased with true, and a directory whose entries are all kept (a pinned and a
mapped file) is kept with false, after lease expiry was applied to both. -/
theorem handle_lease_expiry_directory_invalid_iterator :
    (ds_dir_node.handle_lease_expiry sample_flags [] "d"
        [("d", .dir "d" 0 0 [("f", .file "f" 0 0 (file_of 1 [stable_chain ["a"] 0 7]))])]).ret
        = .error .invalid_iterator
      ∧ (ds_dir_node.handle_lease_expiry sample_flags [] "d"
        [("d", .dir "d" 0 0 [("f", .file "f" 0 0 (file_of 1 [stable_chain ["a"] 0 7]))])]).calls
        = [.reset "a"]
      ∧ (ds_dir_node.handle_lease_expiry sample_flags [] "d"
        [("d", .dir "d" 0 0 [("f", .file "f" 0 0 (file_of 1 [stable_chain ["a"] 0 7]))])]).node
        = [("d", .dir "d" 0 0 [])]
      ∧ (ds_node.dir "d" 0 0
          [("f", .file "f" 0 0 (file_of 1 [stable_chain ["a"] 0 7]))]).kept sample_flags = false
      ∧ (ds_dir_node.handle_lease_expiry sample_flags [] "d"
        [("d", .dir "d" 0 0
          [("e", .file "e" 0 0 (file_with_flags 1 1 [stable_chain ["p"] 0 7])),
            ("f", .file "f" 0 0 (file_of 1 [stable_chain ["a"] 0 7]))])]).ret
        = .error .invalid_iterator
      ∧ (ds_dir_node.handle_lease_expiry sample_flags [] "d" [("d", .dir "d" 0 0 [])]).ret
        = .ok true
      ∧ (ds_dir_node.handle_lease_expiry sample_flags [] "d" [("d", .dir "d" 0 0 [])]).node
        = []
      ∧ (ds_dir_node.handle_lease_expiry sample_flags [] "d"
        [("d", .dir "d" 0 0
          [("e", .file "e" 0 0 (file_with_flags 1 1 [stable_chain ["p"] 0 7])),
            ("m", .file "m" 0 0 (file_with_flags 4 1 [stable_chain ["q"] 0 7]))])]).ret
        = .ok false
      ∧ (ds_dir_node.handle_lease_expiry sample_flags [] "d"
        [("d", .dir "d" 0 0
          [("e", .file "e" 0 0 (file_with_flags 1 1 [stable_chain ["p"] 0 7])),
            ("m", .file "m" 0 0 (file_with_flags 4 1 [stable_chain ["q"] 0 7]))])]).calls
        = [.dump "q" "/tmp/0_7"] := by
  refine ⟨rfl, by decide, rfl, rfl, rfl, rfl, rfl, rfl, by decide⟩

/-- The value `ds_dir_node::handle_lease_expiry` returns for a child that is a
directory: true for an empty directory, false for a directory all of whose
entries are kept, and no value (the loop ends on an invalid iterator) for a
directory with an entry that is not kept. -/
theorem handle_lease_expiry_directory_ret (t : flag_tests) (cleared_blocks : List String)
    (pre post : List (String × ds_node)) (key name : String)
    (permissions last_write_time : Nat) (entries : List (String × ds_node))
    (hpre : ∀ entry ∈ pre, entry.1 ≠ key) :
    (ds_dir_node.handle_lease_expiry t cleared_blocks key
        (pre ++ (key, .dir name permissions last_write_time entries) :: post)).ret
      = if entries.isEmpty = true then Except.ok true
        else if entries_kept t entries = true then Except.ok false
        else Except.error ds_error.invalid_iterator := by
  unfold ds_dir_node.handle_lease_expiry
  rw [findIdx_key_append_cons pre key _ post hpre, getElem?_append_cons_length]
  simp only [ds_node.handle_lease_expiry]
  exact handle_lease_expiry_entries_ret t entries cleared_blocks

/-! ## The order of the keys -/

theorem chars_lt_irrefl (a : List Char) : chars_lt a a = false := by
  induction a with
  | nil => rfl
  | cons c cs ih => simp [chars_lt, ih]

theorem chars_lt_trans (a b c : List Char) (hab : chars_lt a b = true)
    (hbc : chars_lt b c = true) : chars_lt a c = true := by
  induction a generalizing b c with
  | nil =>
    cases b with
    | nil => simp [chars_lt] at hab
    | cons y ys =>
      cases c with
      | nil => simp [chars_lt] at hbc
      | cons z zs => simp [chars_lt]
  | cons x xs ih =>
    cases b with
    | nil => simp [chars_lt] at hab
    | cons y ys =>
      cases c with
      | nil => simp [chars_lt] at hbc
      | cons z zs =>
        simp only [chars_lt, Bool.or_eq_true, Bool.and_eq_true, decide_eq_true_eq] at hab hbc ⊢
        rcases hab with h1 | ⟨h1, h2⟩
        · rcases hbc with h3 | ⟨h3, _⟩
          · exact Or.inl (by omega)
          · exact Or.inl (by omega)
        · rcases hbc with h3 | ⟨h3, h4⟩
          · exact Or.inl (by omega)
          · exact Or.inr ⟨by omega, ih ys zs h2 h4⟩

theorem char_toNat_inj (a b : Char) (h : a.toNat = b.toNat) : a = b := by
  apply Char.ext
  apply UInt32.ext
  exact h

theorem chars_lt_total (a b : List Char) (hab : chars_lt a b = false) (hne : a ≠ b) :
    chars_lt b a = true := by
  induction a generalizing b with
  | nil =>
    cases b with
    | nil => exact absurd rfl hne
    | cons y ys => simp [chars_lt] at hab
  | cons x xs ih =>
    cases b with
    | nil => simp [chars_lt]
    | cons y ys =>
      simp only [chars_lt, Bool.or_eq_false_iff, Bool.and_eq_false_iff, decide_eq_false_iff_not,
        Bool.or_eq_true, Bool.and_eq_true, decide_eq_true_eq] at hab ⊢
      obtain ⟨h1, h2⟩ := hab
      by_cases hxy : x.toNat = y.toNat
      · have hx : x = y := char_toNat_inj x y hxy
        subst hx
        have hne2 : xs ≠ ys := fun hc => hne (by rw [hc])
        rcases h2 with h2 | h2
        · exact absurd rfl h2
        · exact Or.inr ⟨rfl, ih ys h2 hne2⟩
      · exact Or.inl (by omega)

theorem key_lt_irrefl (a : String) : key_lt a a = false := chars_lt_irrefl a.data

theorem key_lt_trans (a b c : String) (hab : key_lt a b = true) (hbc : key_lt b c = true) :
    key_lt a c = true := chars_lt_trans _ _ _ hab hbc

theorem key_lt_total (a b : String) (hab : key_lt a b = false) (hne : a ≠ b) :
    key_lt b a = true := by
  apply chars_lt_total _ _ hab
  intro hc
  exact hne (String.ext hc)

theorem key_lt_ne (a b : String) (hab : key_lt a b = true) : a ≠ b := by
  intro hc
  rw [hc, key_lt_irrefl] at hab
  cases hab

theorem char_lt_iff_toNat (a b : Char) : a < b ↔ a.toNat < b.toNat := by
  rw [Char.lt_def]
  exact Iff.rfl

theorem chars_lt_iff (a b : List Char) : chars_lt a b = true ↔ a < b := by
  induction a generalizing b with
  | nil =>
    cases b with
    | nil =>
      simp only [chars_lt, Bool.false_eq_true, false_iff]
      intro h
      cases h
    | cons y ys =>
      simp only [chars_lt, true_iff]
      exact List.Lex.nil
  | cons x xs ih =>
    cases b with
    | nil =>
      simp only [chars_lt, Bool.false_eq_true, false_iff]
      intro h
      cases h
    | cons y ys =>
      simp only [chars_lt, Bool.or_eq_true, Bool.and_eq_true, decide_eq_true_eq]
      constructor
      · rintro (h | ⟨h1, h2⟩)
        · exact List.Lex.rel ((char_lt_iff_toNat x y).mpr h)
        · have hxy : x = y := char_toNat_inj x y h1
          subst hxy
          exact List.Lex.cons ((ih ys).mp h2)
      · intro h
        cases h with
        | rel h => exact Or.inl ((char_lt_iff_toNat x y).mp h)
        | cons h => exact Or.inr ⟨rfl, (ih ys).mpr h⟩

/-- The order of the keys is the order of `String`. -/
theorem key_lt_iff (a b : String) : key_lt a b = true ↔ a < b := by
  rw [String.lt_iff_toList_lt]
  exact chars_lt_iff a.data b.data

/-! ## The map of the children -/

theorem find_child_absent (name : String) (children_ : List (String × ds_node))
    (h : ∀ entry ∈ children_, entry.1 ≠ name) :
    find_child name children_ = children_.length := by
  unfold find_child
  induction children_ with
  | nil => rfl
  | cons e l ih =>
    have he : (e.1 == name) = false := by
      simpa using h e (List.mem_cons_self _ _)
    rw [List.findIdx_cons, he]
    simp only [cond_false, List.length_cons]
    rw [ih (fun x hx => h x (List.mem_cons_of_mem _ hx))]

theorem find_child_present (name : String) (children_ : List (String × ds_node))
    (h : find_child name children_ = children_.length) :
    ∀ entry ∈ children_, entry.1 ≠ name := by
  unfold find_child at h
  induction children_ with
  | nil => intro entry hentry; cases hentry
  | cons e l ih =>
    rw [List.findIdx_cons] at h
    by_cases he : (e.1 == name) = true
    · rw [he] at h
      simp at h
    · have he2 : (e.1 == name) = false := by simpa using he
      rw [he2] at h
      simp only [cond_false, List.length_cons, add_left_inj] at h
      intro entry hentry
      rcases List.mem_cons.mp hentry with rfl | hentry
      · simpa using he2
      · exact ih h entry hentry

theorem map_insert_perm (key : String) (node : ds_node) (l : List (String × ds_node))
    (h : ∀ entry ∈ l, entry.1 ≠ key) : (map_insert key node l).Perm ((key, node) :: l) := by
  induction l with
  | nil => exact List.Perm.refl _
  | cons e l ih =>
    obtain ⟨k, n⟩ := e
    rw [map_insert]
    by_cases h1 : key_lt key k = true
    · rw [if_pos h1]
    · have hk : key ≠ k := fun hc => h (k, n) (List.mem_cons_self _ _) hc.symm
      rw [if_neg h1, if_neg hk]
      exact ((ih (fun x hx => h x (List.mem_cons_of_mem _ hx))).cons (k, n)).trans
        (List.Perm.swap _ _ _)

theorem map_insert_sorted (key : String) (node : ds_node) (l : List (String × ds_node))
    (h : ∀ entry ∈ l, entry.1 ≠ key)
    (hs : l.Pairwise (fun a b => key_lt a.1 b.1 = true)) :
    (map_insert key node l).Pairwise (fun a b => key_lt a.1 b.1 = true) := by
  induction l with
  | nil => simp [map_insert]
  | cons e l ih =>
    obtain ⟨k, n⟩ := e
    rw [map_insert]
    rw [List.pairwise_cons] at hs
    by_cases h1 : key_lt key k = true
    · rw [if_pos h1]
      refine List.Pairwise.cons ?_ (List.Pairwise.cons hs.1 hs.2)
      intro x hx
      rcases List.mem_cons.mp hx with rfl | hx
      · exact h1
      · exact key_lt_trans _ _ _ h1 (hs.1 x hx)
    · have hk : key ≠ k := fun hc => h (k, n) (List.mem_cons_self _ _) hc.symm
      rw [if_neg h1, if_neg hk]
      have h2 : key_lt k key = true :=
        key_lt_total key k (by simpa using h1) hk
      refine List.Pairwise.cons ?_ (ih (fun x hx => h x (List.mem_cons_of_mem _ hx)) hs.2)
      intro x hx
      have hx2 := (map_insert_perm key node l
        (fun y hy => h y (List.mem_cons_of_mem _ hy))).mem_iff.mp hx
      rcases List.mem_cons.mp hx2 with rfl | hx2
      · exact h2
      · exact hs.1 x hx2

/-- A successful `add_child` on a map that is in order: the node is in the map
under its name, next to the entries there were, and the map is in order. -/
theorem add_child_ok (node : ds_node) (children_ : List (String × ds_node))
    (hok : child_map_ok children_)
    (h : ∀ entry ∈ children_, entry.1 ≠ node.name) :
    ∃ added, ds_dir_node.add_child node children_ = .ok added
      ∧ added.Perm ((node.name, node) :: children_) ∧ child_map_ok added := by
  refine ⟨map_insert node.name node children_, ?_, map_insert_perm _ _ _ h, ?_⟩
  · unfold ds_dir_node.add_child
    rw [if_pos (find_child_absent _ _ h)]
  · refine ⟨map_insert_sorted _ _ _ h hok.1, ?_⟩
    intro entry hentry
    rcases List.mem_cons.mp ((map_insert_perm _ _ _ h).mem_iff.mp hentry) with rfl | hentry
    · rfl
    · exact hok.2 entry hentry

/-- Two maps in order with the same entries are the same map. -/
theorem child_map_unique (m1 m2 : List (String × ds_node))
    (h1 : m1.Pairwise (fun a b => key_lt a.1 b.1 = true))
    (h2 : m2.Pairwise (fun a b => key_lt a.1 b.1 = true)) (hp : m1.Perm m2) : m1 = m2 := by
  haveI : IsAntisymm (String × ds_node) (fun a b => key_lt a.1 b.1 = true) :=
    ⟨fun a b hab hba => by
      have := key_lt_trans _ _ _ hab hba
      rw [key_lt_irrefl] at this
      cases this⟩
  exact List.eq_of_perm_of_sorted hp h1 h2

/-- Adding nodes with pairwise different names, none of them in the map: every
`add_child` succeeds, and the map afterwards holds the nodes under their names
next to the entries there were, in order. -/
theorem add_children_ok (nodes : List ds_node) (children_ : List (String × ds_node))
    (hok : child_map_ok children_) (hnodup : (nodes.map ds_node.name).Nodup)
    (h : ∀ node ∈ nodes, ∀ entry ∈ children_, entry.1 ≠ node.name) :
    ∃ added, add_children nodes children_ = .ok added
      ∧ added.Perm (nodes.map (fun node => (node.name, node)) ++ children_)
      ∧ child_map_ok added := by
  induction nodes generalizing children_ with
  | nil => exact ⟨children_, rfl, List.Perm.refl _, hok⟩
  | cons node nodes ih =>
    obtain ⟨m, hm, hperm, hmok⟩ := add_child_ok node children_ hok
      (h node (List.mem_cons_self _ _))
    rw [List.map_cons, List.nodup_cons] at hnodup
    have hfresh : ∀ x ∈ nodes, ∀ entry ∈ m, entry.1 ≠ x.name := by
      intro x hx entry hentry
      rcases List.mem_cons.mp (hperm.mem_iff.mp hentry) with rfl | hentry
      · intro hc
        exact hnodup.1 (List.mem_map.mpr ⟨x, hx, hc.symm⟩)
      · exact h x (List.mem_cons_of_mem _ hx) entry hentry
    obtain ⟨added, hadded, hperm2, haddedok⟩ := ih m hmok hnodup.2 hfresh
    refine ⟨added, ?_, ?_, haddedok⟩
    · rw [add_children, hm]
      exact hadded
    · refine hperm2.trans ?_
      simp only [List.map_cons, List.cons_append]
      exact ((List.Perm.append_left _ hperm).trans List.perm_middle)

/-! ## Directory listings -/

theorem populate_entries_eq (entries : List directory_entry)
    (children_ : List (String × ds_node)) :
    ds_dir_node.populate_entries entries children_
      = entries ++ children_.map (fun entry => entry.2.entry) := by
  unfold ds_dir_node.populate_entries
  induction children_ generalizing entries with
  | nil => simp
  | cons e l ih =>
    rw [List.foldl_cons, ih]
    simp

/-- C24: `entries()` returns one entry for each child, in the order of the map:
the name, the type, the permissions and the last write time of that child. In a
map that `add_child` built (keys in the order of `std::string`, every child
under its name) the names of the entries are strictly increasing. The order in
which children are added does not matter: adding nodes with pairwise different
new names in one order or in another (`nodes2` a permutation of `nodes1`)
succeeds both times and gives the same map, which is in order again. -/
theorem entries_sorted_by_name (children_ : List (String × ds_node))
    (hok : child_map_ok children_) :
    ds_dir_node.entries children_
        = children_.map (fun child =>
          (⟨child.2.name,
            ⟨if child.2.is_directory then .directory else .regular, child.2.permissions,
              child.2.last_write_time⟩⟩ : directory_entry))
      ∧ (ds_dir_node.entries children_).length = ds_dir_node.size children_
      ∧ (ds_dir_node.entries children_).Pairwise (fun a b => a.name < b.name)
      ∧ ∀ nodes1 nodes2 : List ds_node, nodes1.Perm nodes2 →
          (nodes1.map ds_node.name).Nodup →
          (∀ node ∈ nodes1, ds_dir_node.get_child node.name children_ = none) →
          ∃ added, add_children nodes1 children_ = .ok added
            ∧ add_children nodes2 children_ = .ok added
            ∧ child_map_ok added
            ∧ ∀ entry, entry ∈ added ↔
                entry ∈ children_ ∨ ∃ node ∈ nodes1, entry = (node.name, node) := by
  have hentries : ds_dir_node.entries children_
      = children_.map (fun child => child.2.entry) := by
    unfold ds_dir_node.entries
    rw [populate_entries_eq, List.nil_append]
  refine ⟨hentries, by rw [hentries]; simp [ds_dir_node.size], ?_, ?_⟩
  · rw [hentries, List.pairwise_map]
    refine List.Pairwise.imp_of_mem ?_ hok.1
    intro a b ha hb hab
    have h1 : (a.2.entry).name = a.1 := (hok.2 a ha).symm
    have h2 : (b.2.entry).name = b.1 := (hok.2 b hb).symm
    rw [h1, h2]
    exact (key_lt_iff a.1 b.1).mp hab
  · intro nodes1 nodes2 hperm hnodup hnew
    have habsent : ∀ nodes : List ds_node, nodes1.Perm nodes →
        ∀ node ∈ nodes, ∀ entry ∈ children_, entry.1 ≠ node.name := by
      intro nodes hp node hnode entry hentry hc
      have hnone := hnew node (hp.mem_iff.mpr hnode)
      unfold ds_dir_node.get_child at hnone
      rw [Option.map_eq_none'] at hnone
      have hlen : find_child node.name children_ = children_.length := by
        by_contra hne
        have hlt : find_child node.name children_ < children_.length := by
          have := @List.findIdx_le_length _ (fun entry : String × ds_node => entry.1 == node.name) children_
          unfold find_child at hne ⊢
          omega
        rw [List.getElem?_eq_getElem hlt] at hnone
        cases hnone
      exact find_child_present _ _ hlen entry hentry hc
    obtain ⟨m1, hm1, hp1, hok1⟩ := add_children_ok nodes1 children_ hok hnodup
      (habsent nodes1 (List.Perm.refl _))
    obtain ⟨m2, hm2, hp2, hok2⟩ := add_children_ok nodes2 children_ hok
      ((hperm.map ds_node.name).nodup_iff.mp hnodup) (habsent nodes2 hperm)
    have hsame : m1 = m2 := by
      apply child_map_unique m1 m2 hok1.1 hok2.1
      refine hp1.trans (List.Perm.trans ?_ hp2.symm)
      exact List.Perm.append_right _ (hperm.map _)
    subst hsame
    refine ⟨m1, hm1, hm2, hok1, ?_⟩
    intro entry
    rw [hp1.mem_iff, List.mem_append, List.mem_map]
    constructor
    · rintro (⟨node, hnode, rfl⟩ | h)
      · exact Or.inr ⟨node, hnode, rfl⟩
      · exact Or.inl h
    · rintro (h | ⟨node, hnode, rfl⟩)
      · exact Or.inr h
      · exact Or.inl ⟨node, hnode, rfl⟩

theorem entries_sorted_by_name_witness :
    ds_dir_node.entries
        [("a", .dir "a" 511 10 [("b", .dir "b" 511 10 [])]),
          ("file1.txt", .file "file1.txt" 511 20 (file_of 1 [stable_chain ["x"] 0 7])),
          ("file2.txt", .file "file2.txt" 511 30 (file_of 1 [stable_chain ["y"] 0 7]))]
      = [⟨"a", ⟨.directory, 511, 10⟩⟩, ⟨"file1.txt", ⟨.regular, 511, 20⟩⟩,
          ⟨"file2.txt", ⟨.regular, 511, 30⟩⟩]
      ∧ add_children
          [.file "file2.txt" 511 30 (file_of 1 [stable_chain ["y"] 0 7]),
            .dir "a" 511 10 [("b", .dir "b" 511 10 [])],
            .file "file1.txt" 511 20 (file_of 1 [stable_chain ["x"] 0 7])] []
        = .ok [("a", .dir "a" 511 10 [("b", .dir "b" 511 10 [])]),
          ("file1.txt", .file "file1.txt" 511 20 (file_of 1 [stable_chain ["x"] 0 7])),
          ("file2.txt", .file "file2.txt" 511 30 (file_of 1 [stable_chain ["y"] 0 7]))] := by
  have h := entries_sorted_by_name
    [("a", .dir "a" 511 10 [("b", .dir "b" 511 10 [])]),
      ("file1.txt", .file "file1.txt" 511 20 (file_of 1 [stable_chain ["x"] 0 7])),
      ("file2.txt", .file "file2.txt" 511 30 (file_of 1 [stable_chain ["y"] 0 7]))]
    (by
      unfold child_map_ok
      refine ⟨by decide, ?_⟩
      intro entry hentry
      simp only [List.mem_cons, List.mem_singleton, List.not_mem_nil, or_false] at hentry
      rcases hentry with rfl | rfl | rfl <;> rfl)
  exact ⟨h.1.trans (by decide), rfl⟩

mutual
theorem ds_node_populate_recursive_eq :
    ∀ (n : ds_node) (entries : List directory_entry),
      n.populate_recursive entries = entries ++ n.populate_recursive []
  | .file name permissions last_write_time f, entries => by
    simp [ds_node.populate_recursive]
  | .dir name permissions last_write_time children, entries => by
    rw [ds_node.populate_recursive, ds_node.populate_recursive,
      populate_recursive_entries_eq children (entries ++ _),
      populate_recursive_entries_eq children ([] ++ _)]
    simp
theorem populate_recursive_entries_eq :
    ∀ (children : List (String × ds_node)) (entries : List directory_entry),
      populate_recursive_entries entries children
        = entries ++ populate_recursive_entries [] children
  | [], entries => by
    simp [populate_recursive_entries]
  | (key, child) :: rest, entries => by
    rw [populate_recursive_entries, populate_recursive_entries,
      populate_recursive_entries_eq rest (child.populate_recursive entries),
      populate_recursive_entries_eq rest (child.populate_recursive []),
      ds_node_populate_recursive_eq child entries]
    simp
end

/-- The listing of a directory unfolds entry by entry: the entry of the first
child, the listing of that child when it is a directory, then the listing of the
rest. -/
theorem recursive_entries_cons (key : String) (child : ds_node)
    (rest : List (String × ds_node)) :
    ds_dir_node.recursive_entries ((key, child) :: rest)
      = child.entry
        :: ((match child with
            | .dir _ _ _ sub => ds_dir_node.recursive_entries sub
            | .file _ _ _ _ => [])
          ++ ds_dir_node.recursive_entries rest) := by
  unfold ds_dir_node.recursive_entries
  rw [populate_recursive_entries, populate_recursive_entries_eq]
  cases child with
  | file name permissions last_write_time f =>
    simp [ds_node.populate_recursive]
  | dir name permissions last_write_time sub =>
    rw [ds_node.populate_recursive, populate_recursive_entries_eq]
    simp

mutual
theorem ds_node_listing_length :
    ∀ n : ds_node,
      (match n with
        | .dir _ _ _ sub => ds_dir_node.recursive_entries sub
        | .file _ _ _ _ => []).length + 1 = n.count
  | .file name permissions last_write_time f => by
    simp [ds_node.count]
  | .dir name permissions last_write_time sub => by
    simp only [ds_node.count]
    rw [recursive_entries_length sub]
    omega
theorem recursive_entries_length :
    ∀ children : List (String × ds_node),
      (ds_dir_node.recursive_entries children).length = children_count children
  | [] => by
    simp [ds_dir_node.recursive_entries, populate_recursive_entries, children_count]
  | (key, child) :: rest => by
    rw [recursive_entries_cons, children_count]
    have h1 := ds_node_listing_length child
    have h2 := recursive_entries_length rest
    simp only [List.length_cons, List.length_append]
    omega
end

theorem recursive_entries_flatMap (children_ : List (String × ds_node)) :
    ds_dir_node.recursive_entries children_
      = children_.flatMap (fun child =>
        child.2.entry
          :: (match child.2 with
            | .dir _ _ _ sub => ds_dir_node.recursive_entries sub
            | .file _ _ _ _ => [])) := by
  induction children_ with
  | nil => rfl
  | cons e l ih =>
    obtain ⟨key, child⟩ := e
    rw [recursive_entries_cons, List.flatMap_cons, ih]
    simp

theorem map_sublist_flatMap_cons {α β : Type} (f : α → β) (g : α → List β) (l : List α) :
    (l.map f).Sublist (l.flatMap (fun x => f x :: g x)) := by
  induction l with
  | nil => exact List.Sublist.refl _
  | cons a l ih =>
    rw [List.map_cons, List.flatMap_cons, List.cons_append]
    exact List.Sublist.cons₂ _ (List.Sublist.trans ih (List.sublist_append_right _ _))

/-- C25: `recursive_entries()` of a directory is the pre-order depth-first
listing of its subtree without the directory itself: for each child, in the
order of the map (the order of `entries()`), the entry of the child, followed at
once by the `recursive_entries()` of that child when it is a directory and by
nothing when it is a file. The entries of the children themselves, taken out of
the listing in order, are `entries()`; the length of the listing is the number
of proper descendants of the directory. -/
theorem recursive_entries_preorder (children_ : List (String × ds_node)) :
    ds_dir_node.recursive_entries children_
        = children_.flatMap (fun child =>
          child.2.entry
            :: (match child.2 with
              | .dir _ _ _ sub => ds_dir_node.recursive_entries sub
              | .file _ _ _ _ => []))
      ∧ (ds_dir_node.entries children_).Sublist (ds_dir_node.recursive_entries children_)
      ∧ (ds_dir_node.recursive_entries children_).length = children_count children_ := by
  refine ⟨recursive_entries_flatMap children_, ?_, recursive_entries_length children_⟩
  rw [recursive_entries_flatMap]
  unfold ds_dir_node.entries
  rw [populate_entries_eq, List.nil_append]
  exact map_sublist_flatMap_cons _ _ children_

/-! ## Last write time -/

/-- C26 (amended): the setter `ds_node::last_write_time(time)` stores the time it
is given and changes nothing else of the node (name, type, permissions); the
last write time after it is greater than or equal to the one before exactly
when the time given is. -/
theorem set_last_write_time_effect (n : ds_node) (time : Nat) :
    (n.set_last_write_time time).last_write_time = time
      ∧ (n.set_last_write_time time).name = n.name
      ∧ (n.set_last_write_time time).permissions = n.permissions
      ∧ (n.set_last_write_time time).is_directory = n.is_directory
      ∧ (n.last_write_time ≤ (n.set_last_write_time time).last_write_time
        ↔ n.last_write_time ≤ time) := by
  cases n <;> simp [ds_node.set_last_write_time, ds_node.last_write_time, ds_node.name,
    ds_node.permissions, ds_node.is_directory]

/-- C26 (counterexample): on a directory node with the last write time 10 the
setter called with the time 5 leaves the last write time 5, which is less than
10. -/
theorem set_last_write_time_decreases :
    (ds_node.dir "sandbox" 511 10 []).last_write_time = 10
      ∧ ((ds_node.dir "sandbox" 511 10 []).set_last_write_time 5).last_write_time = 5
      ∧ ¬ ((ds_node.dir "sandbox" 511 10 []).last_write_time
        ≤ ((ds_node.dir "sandbox" 511 10 []).set_last_write_time 5).last_write_time) := by
  refine ⟨rfl, rfl, by decide⟩

/-! ## The sync worker -/

mutual
theorem sync_nodes_child_eq (t : flag_tests) :
    ∀ (child : ds_node) (parent_path child_name : String),
      sync_nodes_child t parent_path child_name child
        = ((child.file_paths (push_path_element parent_path child_name)).filter
            (fun file => file.2.dstatus.is_mapped t)).map
          (fun file => (file.1, file.2.dstatus.backing_path))
  | .file name permissions last_write_time f, parent_path, child_name => by
    rw [sync_nodes_child, ds_node.file_paths]
    cases hm : f.dstatus.is_mapped t <;> simp [hm]
  | .dir name permissions last_write_time children, parent_path, child_name => by
    rw [sync_nodes_child, ds_node.file_paths]
    exact sync_nodes_children_eq t children _
theorem sync_nodes_children_eq (t : flag_tests) :
    ∀ (children : List (String × ds_node)) (parent_path : String),
      sync_nodes_children t parent_path children
        = ((children_file_paths parent_path children).filter
            (fun file => file.2.dstatus.is_mapped t)).map
          (fun file => (file.1, file.2.dstatus.backing_path))
  | [], parent_path => by
    simp [sync_nodes_children, children_file_paths]
  | (key, child) :: rest, parent_path => by
    rw [sync_nodes_children, children_file_paths, sync_nodes_child_eq t child,
      sync_nodes_children_eq t rest]
    simp
end

/-- C28: one pass of `sync_worker::sync_nodes` calls `tree_->sync(path,
backing_path)` once for each regular file of the tree whose data status has the
flag mapped, with the absolute path of the file and the backing path of its own
data status, in the order of a depth-first walk; it makes no call for a file
without the flag, and none for a directory. -/
theorem sync_nodes_calls (t : flag_tests) (root_children : List (String × ds_node)) :
    sync_worker.sync_nodes t root_children
      = ((children_file_paths "" root_children).filter
          (fun file => file.2.dstatus.is_mapped t)).map
        (fun file => (file.1, file.2.dstatus.backing_path)) :=
  sync_nodes_children_eq t root_children ""

/-! ## Looking up and replacing a child -/

theorem find_child_append_cons (name : String) (pre : List (String × ds_node))
    (child : ds_node) (post : List (String × ds_node))
    (hpre : ∀ entry ∈ pre, entry.1 ≠ name) :
    find_child name (pre ++ (name, child) :: post) = pre.length :=
  findIdx_key_append_cons pre name child post hpre

theorem get_child_append_cons (name : String) (pre : List (String × ds_node))
    (child : ds_node) (post : List (String × ds_node))
    (hpre : ∀ entry ∈ pre, entry.1 ≠ name) :
    ds_dir_node.get_child name (pre ++ (name, child) :: post) = some child := by
  unfold ds_dir_node.get_child
  rw [find_child_append_cons name pre child post hpre, getElem?_append_cons_length]
  rfl

theorem get_child_decompose (name : String) (children_ : List (String × ds_node))
    (child : ds_node) (h : ds_dir_node.get_child name children_ = some child) :
    ∃ pre post, children_ = pre ++ (name, child) :: post
      ∧ ∀ entry ∈ pre, entry.1 ≠ name := by
  unfold ds_dir_node.get_child at h
  have hne : find_child name children_ ≠ children_.length := by
    intro hc
    rw [hc, List.getElem?_eq_none (le_refl _)] at h
    cases h
  obtain ⟨pre, d, post, hl, hlen, hpre, hd⟩ := findIdx_decompose _ children_ hne
  have hidx : find_child name children_ = pre.length := hlen.symm
  rw [hidx, hl, getElem?_append_cons_length] at h
  simp only [Option.map_some', Option.some.injEq] at h
  have hkey : d.1 = name := by simpa using hd
  refine ⟨pre, post, ?_, ?_⟩
  · rw [hl]
    congr 2
    exact Prod.ext hkey h
  · intro entry hentry
    simpa using hpre entry hentry

theorem get_child_none (name : String) (children_ : List (String × ds_node))
    (h : ds_dir_node.get_child name children_ = none) :
    ∀ entry ∈ children_, entry.1 ≠ name := by
  unfold ds_dir_node.get_child at h
  rw [Option.map_eq_none'] at h
  apply find_child_present
  by_contra hne
  have hlt : find_child name children_ < children_.length := by
    have := @List.findIdx_le_length _ (fun entry : String × ds_node => entry.1 == name) children_
    unfold find_child at hne ⊢
    omega
  rw [List.getElem?_eq_getElem hlt] at h
  cases h

theorem map_set_append_cons (name : String) (node : ds_node) (pre : List (String × ds_node))
    (child : ds_node) (post : List (String × ds_node))
    (hpre : ∀ entry ∈ pre, entry.1 ≠ name) :
    map_set name node (pre ++ (name, child) :: post) = pre ++ (name, node) :: post := by
  unfold map_set
  rw [find_child_append_cons name pre child post hpre, getElem?_append_cons_length]
  simp

/-- After the node of an entry was replaced, `get_child` with its key returns the
new node. -/
theorem get_child_map_set (name : String) (node child : ds_node)
    (children_ : List (String × ds_node))
    (h : ds_dir_node.get_child name children_ = some child) :
    ds_dir_node.get_child name (map_set name node children_) = some node := by
  obtain ⟨pre, post, hl, hpre⟩ := get_child_decompose name children_ child h
  rw [hl, map_set_append_cons name node pre child post hpre]
  exact get_child_append_cons name pre node post hpre

/-- After `add_child` of a node with a new name, `get_child` with that name
returns the node. -/
theorem get_child_map_insert (node : ds_node) (children_ : List (String × ds_node))
    (h : ∀ entry ∈ children_, entry.1 ≠ node.name) :
    ds_dir_node.get_child node.name (map_insert node.name node children_) = some node := by
  induction children_ with
  | nil =>
    exact get_child_append_cons node.name [] node [] (by simp)
  | cons e l ih =>
    obtain ⟨k, n⟩ := e
    have hk : k ≠ node.name := h (k, n) (List.mem_cons_self _ _)
    rw [map_insert]
    by_cases h1 : key_lt node.name k = true
    · rw [if_pos h1]
      exact get_child_append_cons node.name [] node ((k, n) :: l) (by simp)
    · rw [if_neg h1, if_neg (fun hc => hk hc.symm)]
      have ih2 := ih (fun x hx => h x (List.mem_cons_of_mem _ hx))
      obtain ⟨pre, post, hl, hpre⟩ := get_child_decompose _ _ _ ih2
      rw [hl]
      have := get_child_append_cons node.name ((k, n) :: pre) node post (by
        intro entry hentry
        rcases List.mem_cons.mp hentry with rfl | hentry
        · exact hk
        · exact hpre entry hentry)
      simpa using this

/-! ## Permissions -/

/-- Bit by bit, `and_not q p` has the bits of `q` that `p` does not have. -/
theorem and_not_testBit (q p i : Nat) :
    (and_not q p).testBit i = (q.testBit i && !p.testBit i) := by
  unfold and_not
  rw [Nat.testBit_xor, Nat.testBit_and]
  cases q.testBit i <;> cases p.testBit i <;> rfl

/-- A namespace operation that changes the node at a path: it succeeds when the
path resolves, and afterwards the path resolves to the changed node. -/
theorem update_node_in_ok (g : ds_node → ds_node) (path : List String) (n m : ds_node)
    (h : get_node_in path n = .ok m) :
    ∃ updated, update_node_in g path n = .ok updated
      ∧ get_node_in path updated = .ok (g m) := by
  induction path generalizing n with
  | nil =>
    simp only [get_node_in, Except.ok.injEq] at h
    subst h
    exact ⟨g n, rfl, rfl⟩
  | cons name rest ih =>
    cases n with
    | file nm p l f => simp [get_node_in] at h
    | dir dir_name permissions last_write_time children =>
      rw [get_node_in] at h
      cases hc : ds_dir_node.get_child name children with
      | none =>
        rw [hc] at h
        cases h
      | some child =>
        rw [hc] at h
        obtain ⟨updated, hu, hg⟩ := ih child h
        refine ⟨.dir dir_name permissions last_write_time (map_set name updated children),
          ?_, ?_⟩
        · rw [update_node_in]
          simp only [hc, hu]
        · rw [get_node_in]
          simp only [get_child_map_set name updated child children hc]
          exact hg

/-- C27: let the path resolve to a node with the permissions `q` (a file or a
directory). Each of `permissions(path, p, replace)`, `permissions(path, p, add)`
and `permissions(path, p, remove)` succeeds, and afterwards the path resolves to
a node whose permissions are `p`, the bitwise OR of `q` and `p`, and `q` AND NOT
`p` (bit by bit: the bits of `q` that `p` does not have); its name, its type and
its last write time are the ones before. -/
theorem permissions_effect (t : directory_tree) (path : List String) (p : Nat) (n : ds_node)
    (hn : get_node_in path t.root_ = .ok n) :
    (∀ opts : perm_options, ∃ t2 n2, t.permissions path p opts = .ok t2
        ∧ get_node_in path t2.root_ = .ok n2
        ∧ n2.permissions
          = (match opts with
            | .replace => p
            | .add => n.permissions ||| p
            | .remove => and_not n.permissions p)
        ∧ n2.name = n.name ∧ n2.is_directory = n.is_directory
        ∧ n2.last_write_time = n.last_write_time)
      ∧ (∀ i, (n.permissions ||| p).testBit i = (n.permissions.testBit i || p.testBit i))
      ∧ ∀ i, (and_not n.permissions p).testBit i
          = (n.permissions.testBit i && !p.testBit i) := by
  refine ⟨?_, fun i => Nat.testBit_or _ _ _, fun i => and_not_testBit _ _ i⟩
  intro opts
  obtain ⟨updated, hu, hg⟩ := update_node_in_ok
    (fun n => n.set_permissions (apply_perm_options n.permissions p opts)) path t.root_ n hn
  refine ⟨⟨updated⟩, n.set_permissions (apply_perm_options n.permissions p opts), ?_, hg, ?_⟩
  · unfold directory_tree.permissions
    rw [hu]
  · cases n <;> cases opts <;>
      simp [ds_node.set_permissions, ds_node.permissions, ds_node.name, ds_node.is_directory,
        ds_node.last_write_time, apply_perm_options]

theorem permissions_effect_witness :
    get_node_in ["sandbox", "file"]
        (directory_tree.mk (.dir "/" perms.all 1
          [("sandbox", .dir "sandbox" perms.all 2
            [("file", .file "file" perms.all 3 (file_of 1 [stable_chain ["a"] 0 7]))])])).root_
      = .ok (.file "file" perms.all 3 (file_of 1 [stable_chain ["a"] 0 7]))
      ∧ ∃ t2 n2,
        (directory_tree.mk (.dir "/" perms.all 1
          [("sandbox", .dir "sandbox" perms.all 2
            [("file", .file "file" perms.all 3
              (file_of 1 [stable_chain ["a"] 0 7]))])])).permissions
          ["sandbox", "file"] (perms.group_all ||| perms.others_all) .remove = .ok t2
        ∧ get_node_in ["sandbox", "file"] t2.root_ = .ok n2
        ∧ n2.permissions = perms.owner_all := by
  refine ⟨rfl, ?_⟩
  obtain ⟨t2, n2, h1, h2, h3, _⟩ := (permissions_effect
    (directory_tree.mk (.dir "/" perms.all 1
      [("sandbox", .dir "sandbox" perms.all 2
        [("file", .file "file" perms.all 3 (file_of 1 [stable_chain ["a"] 0 7]))])]))
    ["sandbox", "file"] (perms.group_all ||| perms.others_all)
    (.file "file" perms.all 3 (file_of 1 [stable_chain ["a"] 0 7])) rfl).1 .remove
  exact ⟨t2, n2, h1, h2, h3.trans (by decide)⟩

/-! ## Creating directories -/

theorem add_child_new (node : ds_node) (children_ : List (String × ds_node))
    (h : ds_dir_node.get_child node.name children_ = none) :
    ds_dir_node.add_child node children_ = .ok (map_insert node.name node children_) := by
  unfold ds_dir_node.add_child
  rw [if_pos (find_child_absent _ _ (get_child_none _ _ h))]

/-- `create_directories` from a node none of whose nodes along the path is a
file: it succeeds, the node keeps its name, and afterwards every prefix of the
path resolves to a directory. -/
theorem create_directories_in_ok (now : Nat) (p : List String) (n : ds_node)
    (h : ∀ q m, q <+: p → get_node_in q n = .ok m → m.is_directory = true) :
    ∃ created, create_directories_in now p n = .ok created ∧ created.name = n.name
      ∧ ∀ q, q <+: p → ∃ m, get_node_in q created = .ok m ∧ m.is_directory = true := by
  induction p generalizing n with
  | nil =>
    refine ⟨n, rfl, rfl, ?_⟩
    intro q hq
    have hq2 : q = [] := List.prefix_nil.mp hq
    subst hq2
    exact ⟨n, rfl, h [] n (List.prefix_refl _) rfl⟩
  | cons name rest ih =>
    have hdir : n.is_directory = true := h [] n (List.nil_prefix) rfl
    cases n with
    | file nm pm l f => simp [ds_node.is_directory] at hdir
    | dir dir_name permissions last_write_time children =>
      cases hc : ds_dir_node.get_child name children with
      | none =>
        have hnew : ∀ q m, q <+: rest →
            get_node_in q (ds_node.dir name perms.all now []) = .ok m →
            m.is_directory = true := by
          intro q m _ hm
          cases q with
          | nil =>
            simp only [get_node_in, Except.ok.injEq] at hm
            subst hm
            rfl
          | cons a q2 =>
            simp [get_node_in, ds_dir_node.get_child, find_child] at hm
        obtain ⟨created, hcreated, hname, hres⟩ := ih _ hnew
        have hname2 : created.name = name := hname
        have hadd := add_child_new created children (by rw [hname2]; exact hc)
        refine ⟨.dir dir_name permissions last_write_time
          (map_insert created.name created children), ?_, rfl, ?_⟩
        · rw [create_directories_in]
          simp only [hc, hcreated, hadd]
        · intro q hq
          cases q with
          | nil => exact ⟨_, rfl, rfl⟩
          | cons a q2 =>
            obtain ⟨ha, hq2⟩ := List.cons_prefix_cons.mp hq
            subst ha
            obtain ⟨m, hm, hmd⟩ := hres q2 hq2
            refine ⟨m, ?_, hmd⟩
            rw [get_node_in]
            have hget : ds_dir_node.get_child a (map_insert created.name created children)
                = some created := by
              have := get_child_map_insert created children
                (get_child_none _ _ (by rw [hname2]; exact hc))
              rw [hname2] at this ⊢
              exact this
            simp only [hget]
            exact hm
      | some child =>
        have hchild : child.is_directory = true := by
          apply h [name] child
          · exact List.cons_prefix_cons.mpr ⟨rfl, List.nil_prefix⟩
          · rw [get_node_in]
            simp only [hc]
            rfl
        have hsub : ∀ q m, q <+: rest → get_node_in q child = .ok m →
            m.is_directory = true := by
          intro q m hq hm
          apply h (name :: q) m (List.cons_prefix_cons.mpr ⟨rfl, hq⟩)
          rw [get_node_in]
          simp only [hc]
          exact hm
        obtain ⟨created, hcreated, _, hres⟩ := ih child hsub
        refine ⟨.dir dir_name permissions last_write_time (map_set name created children),
          ?_, rfl, ?_⟩
        · rw [create_directories_in]
          simp only [hc, hchild, if_true, hcreated]
        · intro q hq
          cases q with
          | nil => exact ⟨_, rfl, rfl⟩
          | cons a q2 =>
            obtain ⟨ha, hq2⟩ := List.cons_prefix_cons.mp hq
            subst ha
            obtain ⟨m, hm, hmd⟩ := hres q2 hq2
            refine ⟨m, ?_, hmd⟩
            rw [get_node_in]
            simp only [get_child_map_set a created child children hc]
            exact hm

/-- `create_directory` of a path whose parent does not resolve fails with the
error of the resolution: *not_found* when a directory on the way has no such
child, *not_directory* when a node on the way is a file. -/
theorem create_directory_in_parent_missing (now : Nat) (parent : List String)
    (name : String) (n : ds_node) (err : ds_error)
    (h : get_node_in parent n = .error err) :
    create_directory_in now (parent ++ [name]) n = .error err := by
  induction parent generalizing n with
  | nil => simp [get_node_in] at h
  | cons a rest ih =>
    cases n with
    | file nm pm l f =>
      simp only [get_node_in, Except.error.injEq] at h
      subst h
      rw [List.cons_append, create_directory_in]
    | dir dir_name permissions last_write_time children =>
      rw [get_node_in] at h
      obtain ⟨b, rest2, hrest⟩ : ∃ b rest2, rest ++ [name] = b :: rest2 := by
        cases rest with
        | nil => exact ⟨name, [], rfl⟩
        | cons b r => exact ⟨b, r ++ [name], rfl⟩
      rw [List.cons_append, hrest, create_directory_in]
      cases hc : ds_dir_node.get_child a children with
      | none =>
        rw [hc] at h
        simp only [Except.error.injEq] at h
        subst h
        rfl
      | some child =>
        rw [hc] at h
        have := ih child h
        rw [hrest] at this
        simp only [this]

/-- C29: let no node along the path `p`, from the root down to `p` itself, be a
regular file (as far as the path exists). `create_directories(p)` succeeds, and
afterwards `is_directory` returns true for `p` and for every ancestor of `p`
(every prefix of the path). `create_directory(q)` fails when the parent of `q`
does not exist, with the error of the resolution of the parent (*not_found*
when a directory on the way has no such child). -/
theorem create_directories_effect (now : Nat) (t : directory_tree) (p : List String)
    (hfiles : ∀ q n, q <+: p → get_node_in q t.root_ = .ok n → n.is_directory = true) :
    (∃ t2, t.create_directories now p = .ok t2
        ∧ ∀ q, q <+: p → t2.is_directory q = .ok true)
      ∧ ∀ (parent : List String) (name : String), t.exists parent = false →
          ∃ err, get_node_in parent t.root_ = .error err
            ∧ t.create_directory now (parent ++ [name]) = .error err := by
  constructor
  · obtain ⟨created, hcreated, _, hres⟩ := create_directories_in_ok now p t.root_ hfiles
    refine ⟨⟨created⟩, ?_, ?_⟩
    · unfold directory_tree.create_directories
      rw [hcreated]
    · intro q hq
      obtain ⟨m, hm, hmd⟩ := hres q hq
      unfold directory_tree.is_directory
      simp only [hm, hmd]
  · intro parent name hex
    unfold directory_tree.exists at hex
    cases hg : get_node_in parent t.root_ with
    | ok n =>
      rw [hg] at hex
      cases hex
    | error err =>
      refine ⟨err, rfl, ?_⟩
      unfold directory_tree.create_directory
      rw [create_directory_in_parent_missing now parent name t.root_ err hg]

theorem create_directories_effect_witness :
    ∃ t2, (directory_tree.empty 5).create_directories 7 ["sandbox", "1", "2", "a"] = .ok t2
      ∧ t2.is_directory ["sandbox", "1", "2", "a"] = .ok true
      ∧ t2.is_directory ["sandbox", "1", "2"] = .ok true
      ∧ t2.is_directory ["sandbox", "1"] = .ok true
      ∧ t2.is_directory ["sandbox"] = .ok true
      ∧ t2.create_directory 8 ["sandbox", "1", "1", "b"] = .error .not_found := by
  obtain ⟨t2, h1, h2⟩ := (create_directories_effect 7 (directory_tree.empty 5)
    ["sandbox", "1", "2", "a"] (by
      intro q n _ hn
      cases q with
      | nil =>
        simp only [get_node_in, Except.ok.injEq] at hn
        subst hn
        rfl
      | cons a q2 =>
        simp [directory_tree.empty, get_node_in, ds_dir_node.get_child, find_child] at hn)).1
  have h3 : (directory_tree.empty 5).create_directories 7 ["sandbox", "1", "2", "a"]
      = .ok ⟨.dir "/" perms.all 5
        [("sandbox", .dir "sandbox" perms.all 7
          [("1", .dir "1" perms.all 7
            [("2", .dir "2" perms.all 7 [("a", .dir "a" perms.all 7 [])])])])]⟩ := rfl
  rw [h3] at h1
  simp only [Except.ok.injEq] at h1
  refine ⟨t2, by rw [h3, h1], h2 _ (List.prefix_refl _), h2 _ ⟨["a"], rfl⟩,
    h2 _ ⟨["2", "a"], rfl⟩, h2 _ ⟨["1", "2", "a"], rfl⟩, ?_⟩
  rw [← h1]
  rfl

/-! ## Removing a path -/

theorem children_maps_ok_mem (children : List (String × ds_node))
    (h : children_maps_ok children) : ∀ entry ∈ children, entry.2.maps_ok := by
  induction children with
  | nil => intro entry hentry; cases hentry
  | cons e l ih =>
    obtain ⟨k, c⟩ := e
    rw [children_maps_ok] at h
    intro entry hentry
    rcases List.mem_cons.mp hentry with rfl | hentry
    · exact h.1
    · exact ih h.2 entry hentry

/-- In a map that is in order a key occurs once: after `remove_child`, which
succeeds for a key that is in the map, `get_child` with that key finds
nothing. -/
theorem remove_child_ok (name : String) (child : ds_node)
    (children_ : List (String × ds_node)) (hok : child_map_ok children_)
    (h : ds_dir_node.get_child name children_ = some child) :
    ∃ removed, ds_dir_node.remove_child name children_ = .ok removed
      ∧ ds_dir_node.get_child name removed = none
      ∧ ∀ entry, entry ∈ removed ↔ entry ∈ children_ ∧ entry.1 ≠ name := by
  obtain ⟨pre, post, hl, hpre⟩ := get_child_decompose name children_ child h
  have hidx : find_child name children_ = pre.length := by
    rw [hl]
    exact find_child_append_cons name pre child post hpre
  have hpost : ∀ entry ∈ post, entry.1 ≠ name := by
    intro entry hentry
    have hs := hok.1
    rw [hl, List.pairwise_append] at hs
    have := (List.pairwise_cons.mp hs.2.1).1 entry hentry
    exact fun hc => key_lt_ne _ _ this hc.symm
  have hall : ∀ entry ∈ pre ++ post, entry.1 ≠ name := by
    intro entry hentry
    rcases List.mem_append.mp hentry with hentry | hentry
    · exact hpre entry hentry
    · exact hpost entry hentry
  refine ⟨pre ++ post, ?_, ?_, ?_⟩
  · unfold ds_dir_node.remove_child
    rw [hidx, if_pos (by rw [hl]; simp)]
    rw [hl, eraseIdx_append_cons]
  · unfold ds_dir_node.get_child
    rw [find_child_absent name _ hall, List.getElem?_eq_none (le_refl _)]
    rfl
  · intro entry
    rw [hl]
    simp only [List.mem_append, List.mem_cons]
    constructor
    · rintro (h1 | h1)
      · exact ⟨Or.inl h1, hpre entry h1⟩
      · exact ⟨Or.inr (Or.inr h1), hpost entry h1⟩
    · rintro ⟨h1 | h1 | h1, h2⟩
      · exact Or.inl h1
      · exact absurd (by rw [h1]) h2
      · exact Or.inr h1

/-- `remove` from a node whose maps are in order: a directory that is not empty
is refused and nothing changes, also when it is the root; a file or an empty
directory other than the root is taken out of its parent, and the path does not
resolve afterwards. -/
theorem remove_in_spec (root_ret : Except ds_error Unit) (path : List String)
    (n target : ds_node) (hok : n.maps_ok) (h : get_node_in path n = .ok target) :
    (∀ nm pm l sub, target = .dir nm pm l sub → sub ≠ [] →
        remove_in root_ret path n = ⟨n, [], [], .error .directory_not_empty⟩)
      ∧ (path ≠ [] →
        target.is_regular_file = true ∨ (∃ nm pm l, target = .dir nm pm l []) →
        (remove_in root_ret path n).ret = .ok ()
          ∧ get_node_in path (remove_in root_ret path n).node = .error .not_found) := by
  induction path generalizing n with
  | nil =>
    have hn : n = target := by
      simpa [get_node_in] using h
    subst hn
    constructor
    · intro nm pm l sub htarget hsub
      subst htarget
      rw [remove_in]
      have hempty : ds_dir_node.empty sub = false := by
        cases sub with
        | nil => exact absurd rfl hsub
        | cons e s => rfl
      simp only [hempty]
      rfl
    · intro hne
      exact absurd rfl hne
  | cons name rest ih =>
    cases n with
    | file nm pm l f => simp [get_node_in] at h
    | dir dir_name permissions last_write_time children =>
      rw [get_node_in] at h
      rw [ds_node.maps_ok] at hok
      cases hc : ds_dir_node.get_child name children with
      | none =>
        rw [hc] at h
        cases h
      | some child =>
        rw [hc] at h
        cases rest with
        | nil =>
          simp only [get_node_in, Except.ok.injEq] at h
          subst h
          obtain ⟨removed, hremoved, hgone, _⟩ := remove_child_ok name child children hok.1 hc
          constructor
          · intro nm pm l sub htarget hsub
            subst htarget
            rw [remove_in]
            have hempty : ds_dir_node.empty sub = false := by
              cases sub with
              | nil => exact absurd rfl hsub
              | cons e s => rfl
            simp only [hc, hempty]
            rfl
          · rintro - (hfile | ⟨nm, pm, l, hdir⟩)
            · cases child with
              | dir nm pm l sub => simp [ds_node.is_regular_file] at hfile
              | file nm pm l f =>
                rw [remove_in]
                simp only [hc, hremoved]
                refine ⟨trivial, ?_⟩
                rw [get_node_in]
                simp only [hgone]
            · subst hdir
              rw [remove_in]
              simp only [hc, hremoved, ds_dir_node.empty, List.isEmpty_nil, if_true]
              refine ⟨trivial, ?_⟩
              rw [get_node_in]
              simp only [hgone]
        | cons next rest2 =>
          have hchild_ok : child.maps_ok := by
            obtain ⟨pre, post, hl, _⟩ := get_child_decompose name children child hc
            exact children_maps_ok_mem children hok.2 (name, child) (by rw [hl]; simp)
          obtain ⟨ih1, ih2⟩ := ih child hchild_ok h
          constructor
          · intro nm pm l sub htarget hsub
            rw [remove_in]
            simp only [hc, ih1 nm pm l sub htarget hsub]
          · intro _ htarget
            obtain ⟨hret, hgone⟩ := ih2 (by simp) htarget
            rw [remove_in]
            simp only [hc, hret]
            refine ⟨trivial, ?_⟩
            rw [get_node_in]
            simp only [get_child_map_set name _ child children hc]
            exact hgone

/-- C30 (amended): let `path` resolve to the node `target`, in a tree whose maps
are in order. If `target` is a directory with at least one child (the root
included), `remove(path)` fails with *directory_not_empty*, issues no call and
leaves the tree as it was, so `exists(path)` is still true. If `path` is not the
root and `target` is a regular file or an empty directory, `remove(path)`
succeeds and `exists(path)` is false afterwards. This holds whatever `remove`
returns for a root with no entry (`root_ret`). -/
theorem remove_effect (root_ret : Except ds_error Unit) (t : directory_tree)
    (path : List String) (target : ds_node) (hok : t.root_.maps_ok)
    (h : get_node_in path t.root_ = .ok target) :
    (∀ nm pm l sub, target = .dir nm pm l sub → sub ≠ [] →
        (t.remove root_ret path).ret = .error .directory_not_empty
          ∧ (t.remove root_ret path).node = t ∧ (t.remove root_ret path).calls = []
          ∧ (t.remove root_ret path).node.exists path = true)
      ∧ (path ≠ [] →
        target.is_regular_file = true ∨ (∃ nm pm l, target = .dir nm pm l []) →
        (t.remove root_ret path).ret = .ok ()
          ∧ (t.remove root_ret path).node.exists path = false) := by
  obtain ⟨h1, h2⟩ := remove_in_spec root_ret path t.root_ target hok h
  constructor
  · intro nm pm l sub htarget hsub
    have hr := h1 nm pm l sub htarget hsub
    unfold directory_tree.remove directory_tree.exists
    simp only [hr, h]
    exact ⟨trivial, trivial, trivial, trivial⟩
  · intro hne htarget
    obtain ⟨hret, hgone⟩ := h2 hne htarget
    unfold directory_tree.remove directory_tree.exists
    simp only [hret, hgone]
    exact ⟨trivial, trivial⟩

theorem remove_effect_witness :
    ((directory_tree.mk (.dir "/" perms.all 1
        [("sandbox", .dir "sandbox" perms.all 2
          [("file", .file "file" perms.all 3
            (file_of 1 [stable_chain ["a"] 0 7]))])])).remove (.ok ()) ["sandbox"]).ret
        = .error .directory_not_empty
      ∧ ((directory_tree.mk (.dir "/" perms.all 1
        [("sandbox", .dir "sandbox" perms.all 2
          [("file", .file "file" perms.all 3
            (file_of 1 [stable_chain ["a"] 0 7]))])])).remove (.ok ()) ["sandbox"]).node.exists
          ["sandbox"] = true
      ∧ ((directory_tree.mk (.dir "/" perms.all 1
        [("sandbox", .dir "sandbox" perms.all 2
          [("file", .file "file" perms.all 3
            (file_of 1 [stable_chain ["a"] 0 7]))])])).remove (.ok ()) []).ret
        = .error .directory_not_empty
      ∧ ((directory_tree.mk (.dir "/" perms.all 1
        [("sandbox", .dir "sandbox" perms.all 2
          [("file", .file "file" perms.all 3
            (file_of 1 [stable_chain ["a"] 0 7]))])])).remove (.ok ())
          ["sandbox", "file"]).ret = .ok ()
      ∧ ((directory_tree.mk (.dir "/" perms.all 1
        [("sandbox", .dir "sandbox" perms.all 2
          [("file", .file "file" perms.all 3
            (file_of 1 [stable_chain ["a"] 0 7]))])])).remove (.ok ())
          ["sandbox", "file"]).node.exists ["sandbox", "file"] = false := by
  have hok : (directory_tree.mk (.dir "/" perms.all 1
      [("sandbox", .dir "sandbox" perms.all 2
        [("file", .file "file" perms.all 3
          (file_of 1 [stable_chain ["a"] 0 7]))])])).root_.maps_ok := by
    simp [ds_node.maps_ok, children_maps_ok, child_map_ok, ds_node.name]
  have h1 := (remove_effect (.ok ())
    (directory_tree.mk (.dir "/" perms.all 1
      [("sandbox", .dir "sandbox" perms.all 2
        [("file", .file "file" perms.all 3 (file_of 1 [stable_chain ["a"] 0 7]))])]))
    ["sandbox"]
    (.dir "sandbox" perms.all 2
      [("file", .file "file" perms.all 3 (file_of 1 [stable_chain ["a"] 0 7]))])
    hok rfl).1 _ _ _ _ rfl (by simp)
  have h2 := (remove_effect (.ok ())
    (directory_tree.mk (.dir "/" perms.all 1
      [("sandbox", .dir "sandbox" perms.all 2
        [("file", .file "file" perms.all 3 (file_of 1 [stable_chain ["a"] 0 7]))])]))
    []
    (.dir "/" perms.all 1
      [("sandbox", .dir "sandbox" perms.all 2
        [("file", .file "file" perms.all 3 (file_of 1 [stable_chain ["a"] 0 7]))])])
    hok rfl).1 _ _ _ _ rfl (by simp)
  have h3 := (remove_effect (.ok ())
    (directory_tree.mk (.dir "/" perms.all 1
      [("sandbox", .dir "sandbox" perms.all 2
        [("file", .file "file" perms.all 3 (file_of 1 [stable_chain ["a"] 0 7]))])]))
    ["sandbox", "file"]
    (.file "file" perms.all 3 (file_of 1 [stable_chain ["a"] 0 7]))
    hok rfl).2 (by simp) (Or.inl rfl)
  exact ⟨h1.1, h1.2.2.2, h2.1, h3.1, h3.2⟩

/-- C30 (counterexample): the root of the tree with no entry is an empty
directory. Whatever `remove` of the root path returns, `exists` of the root path
is true afterwards, as it is in every tree: the root exists always. So `remove`
of this empty directory does not succeed with `exists` false afterwards. -/
theorem remove_root_still_exists :
    get_node_in [] (directory_tree.empty 5).root_ = .ok (.dir "/" perms.all 5 [])
      ∧ (∀ root_ret : Except ds_error Unit,
        ((directory_tree.empty 5).remove root_ret []).node.exists [] = true)
      ∧ (∀ t : directory_tree, t.exists [] = true)
      ∧ ∀ root_ret : Except ds_error Unit,
        ¬ (((directory_tree.empty 5).remove root_ret []).ret = .ok ()
          ∧ ((directory_tree.empty 5).remove root_ret []).node.exists [] = false) := by
  have hall : ∀ t : directory_tree, t.exists [] = true := by
    intro t
    unfold directory_tree.exists
    cases t.root_ <;> rfl
  refine ⟨rfl, fun _ => hall _, hall, ?_⟩
  rintro root_ret ⟨-, hfalse⟩
  rw [hall] at hfalse
  cases hfalse

/-- A pass of the sync worker over a tree with the mapped file `/sandbox/a/file`
(backing path `/tmp`), the file `/sandbox/other` without the flag and the empty
directory `/sandbox/z`: one call, for the mapped file. -/
theorem sync_nodes_sample :
    sync_worker.sync_nodes sample_flags
        [("sandbox", .dir "sandbox" 511 1
          [("a", .dir "a" 511 1
              [("file", .file "file" 511 1 (file_with_flags 4 1 [stable_chain ["x"] 0 7]))]),
            ("other", .file "other" 511 1 (file_of 1 [stable_chain ["y"] 0 7])),
            ("z", .dir "z" 511 1 [])])]
      = [("/sandbox/a/file", "/tmp")] := by
  decide

/-! ## The calls of a setup, block by block -/

theorem range_map_getD_enum {β : Type} (g : Nat → String → β) (xs : List String) (n : Nat)
    (hx : xs.length = n) :
    (List.range n).map (fun j => g j (xs.getD j "")) = xs.enum.map (fun p => g p.1 p.2) := by
  subst hx
  apply List.ext_getElem
  · simp
  · intro i h1 h2
    simp at h1
    simp [List.getD_eq_getElem?_getD, List.getElem?_eq_getElem h1]

theorem range_map_getD_self {β : Type} (g : String → β) (xs : List String) (n : Nat)
    (hx : xs.length = n) :
    (List.range n).map (fun j => g (xs.getD j "")) = xs.map g := by
  subst hx
  apply List.ext_getElem
  · simp
  · intro i h1 h2
    simp at h1
    simp [List.getD_eq_getElem?_getD, List.getElem?_eq_getElem h1]

theorem spec_role_eq (j n : Nat) (hj : j < n) :
    spec_role j n = if n = 1 then chain_role.singleton else role_at j n := by
  unfold spec_role role_at
  by_cases h1 : n = 1
  · simp [h1]
  · simp only [if_neg h1]
    by_cases h0 : j = 0
    · simp [h0]
    · simp only [if_neg h0]
      have : (j + 1 = n) ↔ (j = n - 1) := by omega
      simp only [this]

theorem next_block_eq (xs : List String) (j : Nat) (hj : j < xs.length) :
    xs.getD (j + 1) "nil" = if j = xs.length - 1 then "nil" else xs.getD (j + 1) "" := by
  by_cases h : j = xs.length - 1
  · rw [if_pos h]
    have : xs.length ≤ j + 1 := by omega
    simp [List.getD_eq_getElem?_getD, List.getElem?_eq_none this]
  · rw [if_neg h]
    have : j + 1 < xs.length := by omega
    simp [List.getD_eq_getElem?_getD, List.getElem?_eq_getElem this]

/-- The calls of the two branches of a split setup, for a donor and a recipient
that hold `chain_length` blocks each. -/
theorem split_calls_eq (path : String) (from_chain to_chain : replica_chain)
    (mid slot_end : Int) (chain_length : Nat)
    (hfrom : from_chain.block_names.length = chain_length)
    (hto : to_chain.block_names.length = chain_length) :
    split_calls path from_chain to_chain mid slot_end chain_length
      = spec_split_calls path from_chain.block_names to_chain.block_names (mid + 1)
          slot_end := by
  unfold split_calls spec_split_calls
  by_cases h1 : chain_length = 1
  · rw [if_pos h1]
    subst h1
    obtain ⟨x, hx⟩ := List.length_eq_one.mp hfrom
    obtain ⟨y, hy⟩ := List.length_eq_one.mp hto
    rw [hx, hy]
    simp [spec_role, List.enum, List.enumFrom]
  · rw [if_neg h1]
    congr 1
    · rw [← range_map_getD_enum
        (fun j block => call.setup_and_set_importing block path (mid + 1) slot_end
          to_chain.block_names (spec_role j to_chain.block_names.length)
          (to_chain.block_names.getD (j + 1) "nil")) to_chain.block_names chain_length hto]
      apply List.map_congr_left
      intro j hj
      have hj2 : j < chain_length := List.mem_range.mp hj
      rw [spec_role_eq j _ (by omega), next_block_eq _ j (by omega), hto, if_neg h1]
    · exact range_map_getD_self
        (fun block => call.set_exporting block to_chain.block_names (mid + 1) slot_end)
        from_chain.block_names chain_length hfrom

/-- C31: let every chain of the data status of the file hold `chain_length`
blocks and let the allocator return `chain_length` blocks (any chain length, so
every chain length of at least 1). A `setup_slot_range_split(b, e)` that returns a context
has the donor with the range `[b, e]` and issues, after the allocation, exactly
the calls of `spec_split_calls`: one `setup_and_set_importing` for each block of
the recipient, head to tail, with the range `[mid + 1, e]`, the block list of the
recipient, the role of the position (singleton when `chain_length = 1`, otherwise
head, mid, tail) and the next block (`"nil"` for the last); then one
`set_exporting` for each block of the donor, in order, with the recipient's block
list as target and the range `[mid + 1, e]`, where `mid = (b + e) / 2`. A
`setup_add_block` that returns a context issues, after its `storage_size` queries
and the allocation, the same calls for its donor and the donor's range. Both
lists hold `chain_length` calls of each kind. -/
theorem split_setup_calls (SLOT_MAX : Nat) (storage_size : String → Nat)
    (allocate : Nat → Except ds_error (List String)) (path : String) (b e : Int)
    (f : ds_file_node)
    (hlen : ∀ c ∈ f.dstatus.data_blocks, c.block_names.length = f.dstatus.chain_length)
    (ha : ∀ names, allocate f.dstatus.chain_length = .ok names →
      names.length = f.dstatus.chain_length) :
    (∀ ctx, (f.setup_slot_range_split SLOT_MAX allocate path b e).ret = .ok ctx →
        ctx.from_block.slot_range = (b, e)
          ∧ ctx.from_block.block_names.length = f.dstatus.chain_length
          ∧ ctx.to_block.block_names.length = f.dstatus.chain_length
          ∧ (f.setup_slot_range_split SLOT_MAX allocate path b e).calls
            = .allocate f.dstatus.chain_length
              :: spec_split_calls path ctx.from_block.block_names ctx.to_block.block_names
                  (slot_mid b e + 1) e)
      ∧ (∀ ctx, (f.setup_add_block SLOT_MAX storage_size allocate path).ret = .ok ctx →
        ctx.from_block.block_names.length = f.dstatus.chain_length
          ∧ ctx.to_block.block_names.length = f.dstatus.chain_length
          ∧ (f.setup_add_block SLOT_MAX storage_size allocate path).calls
            = f.dstatus.data_blocks.map (fun block => call.storage_size block.tail)
              ++ .allocate f.dstatus.chain_length
              :: spec_split_calls path ctx.from_block.block_names ctx.to_block.block_names
                  (slot_mid ctx.from_block.slot_begin ctx.from_block.slot_end + 1)
                  ctx.from_block.slot_end) := by
  constructor
  · intro ctx h
    obtain ⟨pre, d, post, names, hl, hpre, hd, hcap, hst, hal⟩ :=
      setup_slot_range_split_ok SLOT_MAX allocate path b e f ctx h
    have hdlen : d.block_names.length = f.dstatus.chain_length :=
      hlen d (by rw [hl]; simp)
    have hnlen := ha names hal
    rw [setup_slot_range_split_spec SLOT_MAX allocate path b e f pre d post names hl hpre hd
      hcap hst hal] at h ⊢
    have hctx := Except.ok.inj h
    subst hctx
    refine ⟨hd, hdlen, hnlen, ?_⟩
    exact congrArg (List.cons _)
      (split_calls_eq path { d with status := .exporting }
        ⟨names, (slot_mid b e + 1, e), .stable, .in_memory⟩ (slot_mid b e) e _ hdlen hnlen)
  · intro ctx h
    obtain ⟨pre, d, post, names, hl, hpos, hcap, hal⟩ :=
      setup_add_block_ok SLOT_MAX storage_size allocate path f ctx h
    have hdlen : d.block_names.length = f.dstatus.chain_length :=
      hlen d (by rw [hl]; simp)
    have hnlen := ha names hal
    rw [setup_add_block_spec SLOT_MAX storage_size allocate path f pre d post names hl hpos
      hcap hal] at h ⊢
    have hctx := Except.ok.inj h
    subst hctx
    refine ⟨hdlen, hnlen, ?_⟩
    exact congrArg (fun l => _ ++ call.allocate f.dstatus.chain_length :: l)
      (split_calls_eq path { d with status := .exporting }
        ⟨names, (slot_mid d.slot_range.1 d.slot_range.2 + 1, d.slot_range.2), .stable,
          .in_memory⟩ (slot_mid d.slot_range.1 d.slot_range.2) d.slot_range.2 _ hdlen hnlen)

theorem split_setup_calls_witness :
    ((file_of 3 [stable_chain ["a", "b", "c"] 0 7]).setup_slot_range_split 7
          (allocate_from ["x", "y", "z"]) "/f" 0 7).calls
        = [.allocate 3,
            .setup_and_set_importing "x" "/f" 4 7 ["x", "y", "z"] .head "y",
            .setup_and_set_importing "y" "/f" 4 7 ["x", "y", "z"] .mid "z",
            .setup_and_set_importing "z" "/f" 4 7 ["x", "y", "z"] .tail "nil",
            .set_exporting "a" ["x", "y", "z"] 4 7,
            .set_exporting "b" ["x", "y", "z"] 4 7,
            .set_exporting "c" ["x", "y", "z"] 4 7]
      ∧ ((file_of 1 [stable_chain ["a"] 0 7]).setup_add_block 7 (fun _ => 5)
          (allocate_from ["x"]) "/f").calls
        = [.storage_size "a", .allocate 1,
            .setup_and_set_importing "x" "/f" 4 7 ["x"] .singleton "nil",
            .set_exporting "a" ["x"] 4 7] :=
  ⟨((split_setup_calls 7 (fun _ => 5) (allocate_from ["x", "y", "z"]) "/f" 0 7
      (file_of 3 [stable_chain ["a", "b", "c"] 0 7]) (by decide)
      (by intro names h; cases h; rfl)).1
      ⟨⟨["a", "b", "c"], (0, 7), .exporting, .in_memory⟩,
        ⟨["x", "y", "z"], (4, 7), .stable, .in_memory⟩⟩ rfl).2.2.2,
    ((split_setup_calls 7 (fun _ => 5) (allocate_from ["x"]) "/f" 0 7
      (file_of 1 [stable_chain ["a"] 0 7]) (by decide)
      (by intro names h; cases h; rfl)).2
      ⟨⟨["a"], (0, 7), .exporting, .in_memory⟩, ⟨["x"], (4, 7), .stable, .in_memory⟩⟩
      rfl).2.2⟩

/-! ## What a setup changes -/

/-- C32: a `setup_slot_range_split(b, e)` that returns a context worked on the
first chain `d` with the range `[b, e]`, which was stable, at the index
`pre.length`. Afterwards the data status is the one before except that this
chain is exporting: its range is still `[b, e]`, its blocks and mode are the
ones before, every other chain is unchanged and the number of chains is the
same. The adding list is the one before with one chain appended: the recipient,
with the blocks the allocator returned for `chain_length`, the range
`[mid + 1, e]` where `mid = (b + e) / 2`, the status stable and the mode
in_memory; so `num_blocks` grew by one. The context holds that donor (as it is
now in the data status) and that recipient. -/
theorem setup_slot_range_split_frame (SLOT_MAX : Nat)
    (allocate : Nat → Except ds_error (List String)) (path : String) (b e : Int)
    (f : ds_file_node) (ctx : export_ctx)
    (h : (f.setup_slot_range_split SLOT_MAX allocate path b e).ret = .ok ctx) :
    ∃ pre d post names,
      f.dstatus.data_blocks = pre ++ d :: post
        ∧ (∀ c ∈ pre, c.slot_range ≠ (b, e)) ∧ d.slot_range = (b, e) ∧ d.status = .stable
        ∧ allocate f.dstatus.chain_length = .ok names
        ∧ (f.setup_slot_range_split SLOT_MAX allocate path b e).node.dstatus
          = { f.dstatus with
              data_blocks := pre ++ ⟨d.block_names, (b, e), .exporting, d.mode⟩ :: post }
        ∧ (f.setup_slot_range_split SLOT_MAX allocate path b e).node.dstatus.data_blocks.length
          = f.dstatus.data_blocks.length
        ∧ (f.setup_slot_range_split SLOT_MAX allocate path b e).node.adding
          = f.adding ++ [⟨names, (slot_mid b e + 1, e), .stable, .in_memory⟩]
        ∧ (f.setup_slot_range_split SLOT_MAX allocate path b e).node.num_blocks
          = f.num_blocks + 1
        ∧ ctx = ⟨⟨d.block_names, (b, e), .exporting, d.mode⟩,
            ⟨names, (slot_mid b e + 1, e), .stable, .in_memory⟩⟩ := by
  obtain ⟨pre, d, post, names, hl, hpre, hd, hcap, hst, hal⟩ :=
    setup_slot_range_split_ok SLOT_MAX allocate path b e f ctx h
  refine ⟨pre, d, post, names, hl, hpre, hd, hst, hal, ?_⟩
  rw [setup_slot_range_split_spec SLOT_MAX allocate path b e f pre d post names hl hpre hd
    hcap hst hal] at h ⊢
  have hctx := Except.ok.inj h
  subst hctx
  refine ⟨?_, ?_, rfl, ?_, ?_⟩
  · simp only [hd]
  · simp only [hl, List.length_append, List.length_cons]
  · simp only [ds_file_node.num_blocks, hl, List.length_append, List.length_cons,
      List.length_nil]
    omega
  · simp only [hd]

theorem setup_slot_range_split_frame_witness :
    ∃ pre d post names,
      (file_of 1 [stable_chain ["a"] 0 3, stable_chain ["b"] 4 7]).dstatus.data_blocks
          = pre ++ d :: post
        ∧ (∀ c ∈ pre, c.slot_range ≠ (4, 7)) ∧ d.slot_range = (4, 7) ∧ d.status = .stable
        ∧ allocate_from ["x"]
            (file_of 1 [stable_chain ["a"] 0 3, stable_chain ["b"] 4 7]).dstatus.chain_length
          = .ok names
        ∧ ((file_of 1 [stable_chain ["a"] 0 3, stable_chain ["b"] 4 7]).setup_slot_range_split 7
            (allocate_from ["x"]) "/f" 4 7).node.dstatus
          = { (file_of 1 [stable_chain ["a"] 0 3, stable_chain ["b"] 4 7]).dstatus with
              data_blocks := pre ++ ⟨d.block_names, (4, 7), .exporting, d.mode⟩ :: post }
        ∧ ((file_of 1 [stable_chain ["a"] 0 3, stable_chain ["b"] 4 7]).setup_slot_range_split 7
            (allocate_from ["x"]) "/f" 4 7).node.dstatus.data_blocks.length
          = (file_of 1 [stable_chain ["a"] 0 3, stable_chain ["b"] 4 7]).dstatus.data_blocks.length
        ∧ ((file_of 1 [stable_chain ["a"] 0 3, stable_chain ["b"] 4 7]).setup_slot_range_split 7
            (allocate_from ["x"]) "/f" 4 7).node.adding
          = (file_of 1 [stable_chain ["a"] 0 3, stable_chain ["b"] 4 7]).adding
            ++ [⟨names, (slot_mid 4 7 + 1, 7), .stable, .in_memory⟩]
        ∧ ((file_of 1 [stable_chain ["a"] 0 3, stable_chain ["b"] 4 7]).setup_slot_range_split 7
            (allocate_from ["x"]) "/f" 4 7).node.num_blocks
          = (file_of 1 [stable_chain ["a"] 0 3, stable_chain ["b"] 4 7]).num_blocks + 1
        ∧ (⟨⟨["b"], (4, 7), .exporting, .in_memory⟩, ⟨["x"], (6, 7), .stable, .in_memory⟩⟩
            : export_ctx)
          = ⟨⟨d.block_names, (4, 7), .exporting, d.mode⟩,
            ⟨names, (slot_mid 4 7 + 1, 7), .stable, .in_memory⟩⟩ :=
  setup_slot_range_split_frame 7 (allocate_from ["x"]) "/f" 4 7
    (file_of 1 [stable_chain ["a"] 0 3, stable_chain ["b"] 4 7])
    ⟨⟨["b"], (4, 7), .exporting, .in_memory⟩, ⟨["x"], (6, 7), .stable, .in_memory⟩⟩ rfl

/-- The calls of the two branches of a merge setup, for a donor and a partner
that hold `chain_length` blocks each. -/
theorem merge_calls_eq (from_chain to_chain : replica_chain) (slot_begin slot_end : Int)
    (chain_length : Nat) (hfrom : from_chain.block_names.length = chain_length)
    (hto : to_chain.block_names.length = chain_length) :
    merge_calls from_chain to_chain slot_begin slot_end chain_length
      = spec_merge_calls from_chain.block_names to_chain.block_names slot_begin slot_end := by
  unfold merge_calls spec_merge_calls
  by_cases h1 : chain_length = 1
  · rw [if_pos h1]
    subst h1
    obtain ⟨x, hx⟩ := List.length_eq_one.mp hfrom
    obtain ⟨y, hy⟩ := List.length_eq_one.mp hto
    rw [hx, hy]
    simp
  · rw [if_neg h1]
    congr 1
    · exact range_map_getD_self (fun block => call.set_importing block slot_begin slot_end)
        to_chain.block_names chain_length hto
    · exact range_map_getD_self
        (fun block => call.set_exporting block to_chain.block_names slot_begin slot_end)
        from_chain.block_names chain_length hfrom

/-- C33: let every chain of the data status hold `chain_length` blocks. A
`setup_slot_range_merge(b, e)` that returns a context worked on the first chain
`d` with the range `[b, e]`, at the index `i = pre.length`, and on the chain `p`
at the index `i + 1`. Afterwards the data status is the one before except that
`d` is exporting and `p` is importing: the ranges, modes and blocks of all
chains, the number of chains and the status of every other chain are the ones
before, and so is the adding list. The calls are exactly `set_importing(block, b,
e)` for each block of `p` in chain order, followed by `set_exporting(block, blocks
of p, b, e)` for each block of `d` in chain order; this holds for `chain_length =
1`, where the source has a branch of its own, as for the loops of the other
branch. -/
theorem setup_slot_range_merge_frame (SLOT_MAX : Nat) (b e : Int) (f : ds_file_node)
    (ctx : export_ctx)
    (hlen : ∀ c ∈ f.dstatus.data_blocks, c.block_names.length = f.dstatus.chain_length)
    (h : (f.setup_slot_range_merge SLOT_MAX b e).ret = .ok ctx) :
    ∃ pre d p post,
      f.dstatus.data_blocks = pre ++ d :: p :: post
        ∧ (∀ c ∈ pre, c.slot_range ≠ (b, e)) ∧ d.slot_range = (b, e)
        ∧ (f.setup_slot_range_merge SLOT_MAX b e).node.dstatus
          = { f.dstatus with
              data_blocks := pre ++ ⟨d.block_names, d.slot_range, .exporting, d.mode⟩
                :: ⟨p.block_names, p.slot_range, .importing, p.mode⟩ :: post }
        ∧ (f.setup_slot_range_merge SLOT_MAX b e).node.dstatus.data_blocks.length
          = f.dstatus.data_blocks.length
        ∧ (f.setup_slot_range_merge SLOT_MAX b e).node.adding = f.adding
        ∧ (f.setup_slot_range_merge SLOT_MAX b e).calls
          = spec_merge_calls d.block_names p.block_names b e
        ∧ merge_calls d p b e 1
          = [.set_importing (p.block_names.getD 0 "") b e,
              .set_exporting (d.block_names.getD 0 "") p.block_names b e]
        ∧ ctx = ⟨d, p⟩ := by
  obtain ⟨pre, d, p, post, hl, hpre, hd, hend, hst, hp⟩ :=
    setup_slot_range_merge_ok SLOT_MAX b e f ctx h
  refine ⟨pre, d, p, post, hl, hpre, hd, ?_⟩
  have hdlen : d.block_names.length = f.dstatus.chain_length := hlen d (by rw [hl]; simp)
  have hplen : p.block_names.length = f.dstatus.chain_length := hlen p (by rw [hl]; simp)
  rw [setup_slot_range_merge_spec SLOT_MAX b e f pre d p post hl hpre hd hend hst hp] at h ⊢
  have hctx := Except.ok.inj h
  subst hctx
  refine ⟨rfl, ?_, rfl, merge_calls_eq d p b e _ hdlen hplen, rfl, rfl⟩
  simp only [hl, List.length_append, List.length_cons]

theorem setup_slot_range_merge_frame_witness :
    ∃ pre d p post,
      (file_of 2 [stable_chain ["a", "b"] 0 3, stable_chain ["c", "d"] 4 7]).dstatus.data_blocks
          = pre ++ d :: p :: post
        ∧ (∀ c ∈ pre, c.slot_range ≠ (0, 3)) ∧ d.slot_range = (0, 3)
        ∧ ((file_of 2 [stable_chain ["a", "b"] 0 3,
            stable_chain ["c", "d"] 4 7]).setup_slot_range_merge 7 0 3).node.dstatus
          = { (file_of 2 [stable_chain ["a", "b"] 0 3, stable_chain ["c", "d"] 4 7]).dstatus with
              data_blocks := pre ++ ⟨d.block_names, d.slot_range, .exporting, d.mode⟩
                :: ⟨p.block_names, p.slot_range, .importing, p.mode⟩ :: post }
        ∧ ((file_of 2 [stable_chain ["a", "b"] 0 3,
            stable_chain ["c", "d"] 4 7]).setup_slot_range_merge 7 0
            3).node.dstatus.data_blocks.length
          = (file_of 2 [stable_chain ["a", "b"] 0 3,
            stable_chain ["c", "d"] 4 7]).dstatus.data_blocks.length
        ∧ ((file_of 2 [stable_chain ["a", "b"] 0 3,
            stable_chain ["c", "d"] 4 7]).setup_slot_range_merge 7 0 3).node.adding
          = (file_of 2 [stable_chain ["a", "b"] 0 3, stable_chain ["c", "d"] 4 7]).adding
        ∧ ((file_of 2 [stable_chain ["a", "b"] 0 3,
            stable_chain ["c", "d"] 4 7]).setup_slot_range_merge 7 0 3).calls
          = spec_merge_calls d.block_names p.block_names 0 3
        ∧ merge_calls d p 0 3 1
          = [.set_importing (p.block_names.getD 0 "") 0 3,
              .set_exporting (d.block_names.getD 0 "") p.block_names 0 3]
        ∧ (⟨stable_chain ["a", "b"] 0 3, stable_chain ["c", "d"] 4 7⟩ : export_ctx) = ⟨d, p⟩ :=
  setup_slot_range_merge_frame 7 0 3
    (file_of 2 [stable_chain ["a", "b"] 0 3, stable_chain ["c", "d"] 4 7])
    ⟨stable_chain ["a", "b"] 0 3, stable_chain ["c", "d"] 4 7⟩ (by decide) rfl

/-- The calls of the merge setup of the witness, written out. -/
theorem setup_slot_range_merge_sample :
    ((file_of 2 [stable_chain ["a", "b"] 0 3,
        stable_chain ["c", "d"] 4 7]).setup_slot_range_merge 7 0 3).calls
      = [.set_importing "c" 0 3, .set_importing "d" 0 3,
          .set_exporting "a" ["c", "d"] 0 3, .set_exporting "b" ["c", "d"] 0 3]
      ∧ ((file_of 1 [stable_chain ["a"] 0 3,
        stable_chain ["c"] 4 7]).setup_slot_range_merge 7 0 3).calls
      = [.set_importing "c" 0 3, .set_exporting "a" ["c"] 0 3] := by
  decide

/-! ## The calls of load, block by block -/

theorem range_flatMap_getD_enum {β : Type} (g : Nat → String → List β) (xs : List String)
    (n : Nat) (hx : xs.length = n) :
    (List.range n).flatMap (fun j => g j (xs.getD j ""))
      = xs.enum.flatMap (fun p => g p.1 p.2) := by
  have h := congrArg List.flatten (range_map_getD_enum g xs n hx)
  simpa [List.flatMap_def] using h

/-- The calls of the two branches of `load` for one chain that holds
`chain_length` blocks. -/
theorem load_calls_eq (path backing_path : String) (chain : replica_chain)
    (auto_scale : Bool) (chain_length : Nat)
    (hlen : chain.block_names.length = chain_length) :
    load_calls path backing_path chain auto_scale chain_length
      = spec_load_calls path backing_path chain.block_names chain.slot_range auto_scale := by
  unfold load_calls spec_load_calls
  by_cases h1 : chain_length = 1
  · rw [if_pos h1]
    subst h1
    obtain ⟨x, hx⟩ := List.length_eq_one.mp hlen
    rw [hx]
    simp [spec_role, List.enum, List.enumFrom, replica_chain.slot_begin,
      replica_chain.slot_end, replica_chain.slot_range_string]
  · rw [if_neg h1]
    rw [← range_flatMap_getD_enum
      (fun j block =>
        [ call.setup_block block path chain.slot_range.1 chain.slot_range.2 chain.block_names
            auto_scale (spec_role j chain.block_names.length)
            (chain.block_names.getD (j + 1) "nil"),
          call.load block
            (push_path_element backing_path
              (toString chain.slot_range.1 ++ "_" ++ toString chain.slot_range.2)) ])
      chain.block_names chain_length hlen]
    apply List.flatMap_congr
    intro j hj
    have hj2 : j < chain_length := List.mem_range.mp hj
    rw [spec_role_eq j _ (by omega), next_block_eq _ j (by omega), hlen, if_neg h1]
    rfl

theorem spec_load_calls_storage (path backing_path : String) (blocks : List String)
    (slot_range : Int × Int) (auto_scale : Bool) :
    ∀ c ∈ spec_load_calls path backing_path blocks slot_range auto_scale,
      c.is_allocator = false := by
  intro c hc
  unfold spec_load_calls at hc
  obtain ⟨p, -, hp⟩ := List.mem_flatMap.mp hc
  simp only [List.mem_cons, List.mem_singleton, List.not_mem_nil, or_false] at hp
  rcases hp with rfl | rfl <;> rfl

theorem allocation_balance_passes (n count : Nat) (g : Nat → List call)
    (hg : ∀ i, ∀ c ∈ g i, c.is_allocator = false) :
    allocation_balance ((List.range n).flatMap (fun i => call.allocate count :: g i))
      = (n : Int) * (count : Int) := by
  induction n with
  | zero => simp [allocation_balance]
  | succ n ih =>
    rw [List.range_succ, List.flatMap_append, allocation_balance_append, ih]
    simp only [List.flatMap_cons, List.flatMap_nil, List.append_nil]
    rw [allocation_balance_allocate, allocation_balance_storage _ (hg n)]
    push_cast
    ring

/-- The calls of `load`, with the calls of each pass in the words of the
specification. -/
theorem load_calls_by_block (SLOT_MAX : Nat) (t : flag_tests)
    (allocate : Nat → Nat → Except ds_error (List String)) (path backing_path : String)
    (f : ds_file_node) (names : Nat → List String)
    (hn : 1 ≤ f.dstatus.data_blocks.length)
    (ha : ∀ i, i < f.dstatus.data_blocks.length →
      allocate i f.dstatus.chain_length = .ok (names i)
        ∧ (names i).length = f.dstatus.chain_length) :
    (f.load SLOT_MAX t allocate path backing_path).calls
      = (List.range f.dstatus.data_blocks.length).flatMap (fun i =>
          .allocate f.dstatus.chain_length
            :: spec_load_calls path backing_path (names i)
                (load_slot_range SLOT_MAX f.dstatus.data_blocks.length
                  (SLOT_MAX / f.dstatus.data_blocks.length) i)
                (!f.dstatus.is_static_provisioned t)) := by
  rw [load_spec SLOT_MAX t allocate path backing_path f names hn ha]
  simp only
  apply List.flatMap_congr
  intro i hi
  have hi2 := List.mem_range.mp hi
  rw [load_calls_eq path backing_path _ _ _ (ha i hi2).2]

/-- C34: let the file have `n >= 1` chains and let every allocation of `load`
return `chain_length` blocks (`names i` for the allocation with number `i`; any
chain length, so every chain length of at least 1). `load` returns normally and
its calls are, chain by chain in index order: the allocation of `chain_length`
blocks, then for each block of the new chain, head to tail, a `setup_block` with
the file path, the slot range computed for the chain, the block list of the
chain, `auto_scale = !is_static_provisioned`, the role of the position and the
next block (`"nil"` for the last), with right after it the `load` of that block
from `backing_path / "{slot_begin}_{slot_end}"` of the computed range. The
allocations take `n * chain_length` blocks. -/
theorem load_calls_in_order (SLOT_MAX : Nat) (t : flag_tests)
    (allocate : Nat → Nat → Except ds_error (List String)) (path backing_path : String)
    (f : ds_file_node) (names : Nat → List String)
    (hn : 1 ≤ f.dstatus.data_blocks.length)
    (ha : ∀ i, i < f.dstatus.data_blocks.length →
      allocate i f.dstatus.chain_length = .ok (names i)
        ∧ (names i).length = f.dstatus.chain_length) :
    (f.load SLOT_MAX t allocate path backing_path).ret = .ok ()
      ∧ (f.load SLOT_MAX t allocate path backing_path).calls
        = (List.range f.dstatus.data_blocks.length).flatMap (fun i =>
            .allocate f.dstatus.chain_length
              :: spec_load_calls path backing_path (names i)
                  (load_slot_range SLOT_MAX f.dstatus.data_blocks.length
                    (SLOT_MAX / f.dstatus.data_blocks.length) i)
                  (!f.dstatus.is_static_provisioned t))
      ∧ allocation_balance (f.load SLOT_MAX t allocate path backing_path).calls
        = (f.dstatus.data_blocks.length : Int) * (f.dstatus.chain_length : Int) := by
  have hcalls := load_calls_by_block SLOT_MAX t allocate path backing_path f names hn ha
  refine ⟨?_, hcalls, ?_⟩
  · rw [load_spec SLOT_MAX t allocate path backing_path f names hn ha]
  · rw [hcalls]
    exact allocation_balance_passes _ _ _
      (fun i => spec_load_calls_storage path backing_path (names i) _ _)

theorem load_calls_in_order_witness :
    ((file_with_flags 2 2 [chain_in_mode ["a", "a2"] 0 3 .on_disk,
          chain_in_mode ["b", "b2"] 4 7 .on_disk]).load 7 sample_flags
        (allocate_seq [["p", "q"], ["r", "s"]]) "/f" "/b").calls
      = [.allocate 2,
          .setup_block "p" "/f" 0 2 ["p", "q"] false .head "q", .load "p" "/b/0_2",
          .setup_block "q" "/f" 0 2 ["p", "q"] false .tail "nil", .load "q" "/b/0_2",
          .allocate 2,
          .setup_block "r" "/f" 3 7 ["r", "s"] false .head "s", .load "r" "/b/3_7",
          .setup_block "s" "/f" 3 7 ["r", "s"] false .tail "nil", .load "s" "/b/3_7"]
      ∧ allocation_balance ((file_with_flags 2 2 [chain_in_mode ["a", "a2"] 0 3 .on_disk,
          chain_in_mode ["b", "b2"] 4 7 .on_disk]).load 7 sample_flags
        (allocate_seq [["p", "q"], ["r", "s"]]) "/f" "/b").calls = 4 :=
  have h := load_calls_in_order 7 sample_flags (allocate_seq [["p", "q"], ["r", "s"]]) "/f" "/b"
    (file_with_flags 2 2 [chain_in_mode ["a", "a2"] 0 3 .on_disk,
      chain_in_mode ["b", "b2"] 4 7 .on_disk])
    (fun i => [["p", "q"], ["r", "s"]].getD i [])
    (by decide)
    (by
      intro i hi
      have hi2 : i < 2 := hi
      interval_cases i <;> exact ⟨rfl, rfl⟩)
  ⟨h.2.1.trans (by decide), h.2.2⟩

/-! ## Add-block as a split of the chain it selects -/

/-- C35: let the chain the size loop of `setup_add_block` selects (the one at
the index `largest_pos`) be the stable chain `d` with the range `[b, e]`, and let
it be the first chain with exactly that range. Then, with the same allocator,
`setup_add_block` and `setup_slot_range_split(b, e)` leave the same file node
(data status and adding list) and return the same value (the same context, or
the same exception), and the calls of `setup_add_block` are the calls of
`setup_slot_range_split(b, e)` preceded by `storage_size` queries only. -/
theorem setup_add_block_as_split (SLOT_MAX : Nat) (storage_size : String → Nat)
    (allocate : Nat → Except ds_error (List String)) (path : String) (b e : Int)
    (f : ds_file_node) (pre : List replica_chain) (d : replica_chain)
    (post : List replica_chain)
    (hl : f.dstatus.data_blocks = pre ++ d :: post)
    (hpos : largest_pos f.dstatus
      (f.dstatus.data_blocks.map (fun block => storage_size block.tail)) = pre.length)
    (hst : d.status = .stable) (hd : d.slot_range = (b, e))
    (hpre : ∀ c ∈ pre, c.slot_range ≠ (b, e)) :
    (f.setup_add_block SLOT_MAX storage_size allocate path).node
        = (f.setup_slot_range_split SLOT_MAX allocate path b e).node
      ∧ (f.setup_add_block SLOT_MAX storage_size allocate path).ret
        = (f.setup_slot_range_split SLOT_MAX allocate path b e).ret
      ∧ ∃ queries : List String,
          (f.setup_add_block SLOT_MAX storage_size allocate path).calls
            = queries.map call.storage_size
              ++ (f.setup_slot_range_split SLOT_MAX allocate path b e).calls := by
  by_cases hcap : f.dstatus.data_blocks.length = SLOT_MAX
  · unfold ds_file_node.setup_add_block ds_file_node.setup_slot_range_split
    rw [if_pos hcap, if_pos hcap]
    exact ⟨rfl, rfl, [], rfl⟩
  · cases hal : allocate f.dstatus.chain_length with
    | error err =>
      rw [setup_slot_range_split_alloc_error SLOT_MAX allocate path b e f pre d post err hl
        hpre hd hcap hst hal]
      have hadd : f.setup_add_block SLOT_MAX storage_size allocate path
          = ⟨⟨{ f.dstatus with data_blocks := pre ++ { d with status := .exporting } :: post },
              f.adding⟩,
            f.dstatus.data_blocks.map (fun block => call.storage_size block.tail)
              ++ [.allocate f.dstatus.chain_length], .error err⟩ := by
        unfold ds_file_node.setup_add_block
        rw [if_neg hcap]
        simp only [hpos]
        simp only [data_status.set_data_block_status, hl, modify_chain_append,
          getElem?_append_cons_length, hal]
      rw [hadd]
      refine ⟨rfl, rfl, f.dstatus.data_blocks.map (fun block => block.tail), ?_⟩
      simp [List.map_map, Function.comp_def]
    | ok names =>
      rw [setup_slot_range_split_spec SLOT_MAX allocate path b e f pre d post names hl hpre hd
        hcap hst hal,
        setup_add_block_spec SLOT_MAX storage_size allocate path f pre d post names hl hpos
          hcap hal]
      simp only [hd]
      refine ⟨trivial, trivial, f.dstatus.data_blocks.map (fun block => block.tail), ?_⟩
      simp [List.map_map, Function.comp_def]

theorem setup_add_block_as_split_witness :
    largest_pos (file_of 1 [stable_chain ["a"] 0 3, stable_chain ["b"] 4 7]).dstatus
        ((file_of 1 [stable_chain ["a"] 0 3, stable_chain ["b"] 4 7]).dstatus.data_blocks.map
          (fun block => (fun name => if name = "b" then 5 else 1) block.tail)) = 1
      ∧ ((file_of 1 [stable_chain ["a"] 0 3, stable_chain ["b"] 4 7]).setup_add_block 7
            (fun name => if name = "b" then 5 else 1) (allocate_from ["x"]) "/f").node
          = ((file_of 1 [stable_chain ["a"] 0 3, stable_chain ["b"] 4 7]).setup_slot_range_split 7
            (allocate_from ["x"]) "/f" 4 7).node
      ∧ ((file_of 1 [stable_chain ["a"] 0 3, stable_chain ["b"] 4 7]).setup_add_block 7
            (fun name => if name = "b" then 5 else 1) (allocate_from ["x"]) "/f").ret
          = ((file_of 1 [stable_chain ["a"] 0 3, stable_chain ["b"] 4 7]).setup_slot_range_split 7
            (allocate_from ["x"]) "/f" 4 7).ret
      ∧ ∃ queries : List String,
          ((file_of 1 [stable_chain ["a"] 0 3, stable_chain ["b"] 4 7]).setup_add_block 7
              (fun name => if name = "b" then 5 else 1) (allocate_from ["x"]) "/f").calls
            = queries.map call.storage_size
              ++ ((file_of 1 [stable_chain ["a"] 0 3,
                  stable_chain ["b"] 4 7]).setup_slot_range_split 7
                (allocate_from ["x"]) "/f" 4 7).calls :=
  ⟨by decide,
    setup_add_block_as_split 7 (fun name => if name = "b" then 5 else 1) (allocate_from ["x"])
      "/f" 4 7 (file_of 1 [stable_chain ["a"] 0 3, stable_chain ["b"] 4 7])
      [stable_chain ["a"] 0 3] (stable_chain ["b"] 4 7) [] rfl (by decide) rfl rfl
      (by decide)⟩

/-- The two setups of the witness, written out: the same context, the same
calls after the two `storage_size` queries. -/
theorem add_block_and_split_sample :
    ((file_of 1 [stable_chain ["a"] 0 3, stable_chain ["b"] 4 7]).setup_add_block 7
          (fun name => if name = "b" then 5 else 1) (allocate_from ["x"]) "/f").calls
        = [.storage_size "a", .storage_size "b", .allocate 1,
            .setup_and_set_importing "x" "/f" 6 7 ["x"] .singleton "nil",
            .set_exporting "b" ["x"] 6 7]
      ∧ ((file_of 1 [stable_chain ["a"] 0 3, stable_chain ["b"] 4 7]).setup_slot_range_split 7
          (allocate_from ["x"]) "/f" 4 7).calls
        = [.allocate 1,
            .setup_and_set_importing "x" "/f" 6 7 ["x"] .singleton "nil",
            .set_exporting "b" ["x"] 6 7] := by
  decide

/-! ## Adding and removing children -/

/-- Every map built by `add_child` and `remove_child` from the empty map is in
order, with every child under its name. -/
theorem children_reachable_ok (children_ : List (String × ds_node))
    (h : children_reachable children_) : child_map_ok children_ := by
  induction h with
  | empty => exact ⟨List.Pairwise.nil, fun entry hentry => by cases hentry⟩
  | add node m added _ hadd ih =>
    unfold ds_dir_node.add_child at hadd
    by_cases hf : find_child node.name m = m.length
    · rw [if_pos hf] at hadd
      obtain ⟨added2, h2, -, hok⟩ := add_child_ok node m ih (find_child_present _ _ hf)
      unfold ds_dir_node.add_child at h2
      rw [if_pos hf] at h2
      rw [← Except.ok.inj hadd, Except.ok.inj h2]
      exact hok
    · rw [if_neg hf] at hadd
      cases hadd
  | remove name m removed _ hrem ih =>
    unfold ds_dir_node.remove_child at hrem
    by_cases hf : find_child name m ≠ m.length
    · rw [if_pos hf] at hrem
      have hrem2 := Except.ok.inj hrem
      subst hrem2
      refine ⟨List.Pairwise.sublist (List.eraseIdx_sublist _ _) ih.1, ?_⟩
      intro entry hentry
      exact ih.2 entry ((List.eraseIdx_sublist _ _).subset hentry)
    · rw [if_neg hf] at hrem
      cases hrem

/-- In a map that is in order the keys are pairwise different. -/
theorem child_map_keys_nodup (children_ : List (String × ds_node))
    (h : children_.Pairwise (fun a b => key_lt a.1 b.1 = true)) :
    (children_.map (fun entry => entry.1)).Nodup := by
  rw [List.Nodup, List.pairwise_map]
  exact h.imp (fun hab => key_lt_ne _ _ hab)

/-- The split of a map in order around one of its entries: no other entry has
the key. -/
theorem child_map_split (pre : List (String × ds_node)) (name : String) (child : ds_node)
    (post : List (String × ds_node))
    (h : (pre ++ (name, child) :: post).Pairwise (fun a b => key_lt a.1 b.1 = true)) :
    (∀ entry ∈ pre, entry.1 ≠ name) ∧ ∀ entry ∈ post, entry.1 ≠ name := by
  rw [List.pairwise_append] at h
  constructor
  · intro entry hentry
    exact key_lt_ne _ _ (h.2.2 entry hentry (name, child) (List.mem_cons_self _ _))
  · intro entry hentry hc
    exact key_lt_ne _ _ ((List.pairwise_cons.mp h.2.1).1 entry hentry) hc.symm

/-- Where `insert` puts a new key: between two parts of the map, which it leaves
as they are. -/
theorem map_insert_split (key : String) (node : ds_node) (l : List (String × ds_node))
    (h : ∀ entry ∈ l, entry.1 ≠ key) :
    ∃ pre post, l = pre ++ post ∧ map_insert key node l = pre ++ (key, node) :: post := by
  induction l with
  | nil => exact ⟨[], [], rfl, rfl⟩
  | cons e l ih =>
    obtain ⟨k, n⟩ := e
    rw [map_insert]
    by_cases h1 : key_lt key k = true
    · rw [if_pos h1]
      exact ⟨[], (k, n) :: l, rfl, rfl⟩
    · have hk : key ≠ k := fun hc => h (k, n) (List.mem_cons_self _ _) hc.symm
      rw [if_neg h1, if_neg hk]
      obtain ⟨pre, post, hl, hins⟩ := ih (fun x hx => h x (List.mem_cons_of_mem _ hx))
      exact ⟨(k, n) :: pre, post, by rw [hl]; rfl, by rw [hins]; rfl⟩

/-- C36: let `children_` be the map of a directory, built from the empty map by
calls of `add_child` and `remove_child` that returned. (An operation that throws
returns no map: the map stays the one it was called on.)
`add_child(x)` throws "Child node already exists" when a child named `x.name` is
in the map; otherwise it returns the map with `x` inserted under `x.name`
between the entries there were, which are unchanged and in their order.
`remove_child(name)` throws when no child has that name; for the name of an
entry it returns the map without that entry, the others unchanged and in their
order. The names of the children are pairwise different, and `get_child(name)`
returns the child of that name, which is the only one, or null (`none`) when
there is none. -/
theorem add_remove_child_effect (children_ : List (String × ds_node))
    (hr : children_reachable children_) :
    (∀ x : ds_node, (∃ entry ∈ children_, entry.2.name = x.name) →
        ds_dir_node.add_child x children_ = .error (.child_exists x.name))
      ∧ (∀ x : ds_node, (∀ entry ∈ children_, entry.2.name ≠ x.name) →
        ∃ pre post, children_ = pre ++ post
          ∧ ds_dir_node.add_child x children_ = .ok (pre ++ (x.name, x) :: post))
      ∧ (∀ name : String, (∀ entry ∈ children_, entry.2.name ≠ name) →
        ds_dir_node.remove_child name children_ = .error (.child_not_found name))
      ∧ (∀ pre entry post, children_ = pre ++ entry :: post →
        ds_dir_node.remove_child entry.2.name children_ = .ok (pre ++ post))
      ∧ (children_.map (fun entry => entry.2.name)).Nodup
      ∧ (∀ name : String, (∀ entry ∈ children_, entry.2.name ≠ name) →
        ds_dir_node.get_child name children_ = none)
      ∧ (∀ entry ∈ children_, ds_dir_node.get_child entry.2.name children_ = some entry.2) := by
  have hok := children_reachable_ok children_ hr
  have hkeys : ∀ name : String, (∀ entry ∈ children_, entry.2.name ≠ name) →
      ∀ entry ∈ children_, entry.1 ≠ name := by
    intro name h entry hentry
    rw [hok.2 entry hentry]
    exact h entry hentry
  refine ⟨?_, ?_, ?_, ?_, ?_, ?_, ?_⟩
  · rintro x ⟨entry, hentry, hname⟩
    have hf : find_child x.name children_ ≠ children_.length := by
      intro hc
      exact find_child_present _ _ hc entry hentry ((hok.2 entry hentry).trans hname)
    unfold ds_dir_node.add_child
    rw [if_neg hf]
  · intro x h
    obtain ⟨pre, post, hl, hins⟩ := map_insert_split x.name x children_ (hkeys _ h)
    refine ⟨pre, post, hl, ?_⟩
    unfold ds_dir_node.add_child
    rw [if_pos (find_child_absent _ _ (hkeys _ h)), hins]
  · intro name h
    unfold ds_dir_node.remove_child
    rw [if_neg (by rw [find_child_absent _ _ (hkeys _ h)]; simp)]
  · intro pre entry post hl
    obtain ⟨k, child⟩ := entry
    have hk : k = child.name := hok.2 (k, child) (by rw [hl]; simp)
    subst hk
    have hs := hok.1
    rw [hl] at hs
    have hidx : find_child child.name children_ = pre.length := by
      rw [hl]
      exact find_child_append_cons child.name pre child post (child_map_split _ _ _ _ hs).1
    unfold ds_dir_node.remove_child
    rw [hidx, if_pos (by rw [hl]; simp), hl, eraseIdx_append_cons]
  · have hmap : children_.map (fun entry => entry.2.name)
        = children_.map (fun entry => entry.1) :=
      List.map_congr_left (fun entry hentry => (hok.2 entry hentry).symm)
    rw [hmap]
    exact child_map_keys_nodup children_ hok.1
  · intro name h
    unfold ds_dir_node.get_child
    rw [find_child_absent _ _ (hkeys _ h), List.getElem?_eq_none (le_refl _)]
    rfl
  · intro entry hentry
    obtain ⟨pre, post, hl⟩ := List.append_of_mem hentry
    obtain ⟨k, child⟩ := entry
    have hk : k = child.name := hok.2 (k, child) hentry
    subst hk
    have hs := hok.1
    rw [hl] at hs
    rw [hl]
    exact get_child_append_cons child.name pre child post (child_map_split _ _ _ _ hs).1

theorem add_remove_child_effect_witness :
    ds_dir_node.add_child (.dir "b" 511 2 [])
        [("a", .dir "a" 511 1 []), ("b", .dir "b" 448 1 [])]
        = .error (.child_exists "b")
      ∧ ds_dir_node.remove_child "a" [("a", .dir "a" 511 1 []), ("b", .dir "b" 448 1 [])]
        = .ok [("b", .dir "b" 448 1 [])]
      ∧ ds_dir_node.get_child "b" [("a", .dir "a" 511 1 []), ("b", .dir "b" 448 1 [])]
        = some (.dir "b" 448 1 []) :=
  have hr : children_reachable [("a", .dir "a" 511 1 []), ("b", .dir "b" 448 1 [])] :=
    .add (.dir "a" 511 1 []) [("b", .dir "b" 448 1 [])] _
      (.add (.dir "b" 448 1 []) [] _ .empty rfl) rfl
  have h := add_remove_child_effect [("a", .dir "a" 511 1 []), ("b", .dir "b" 448 1 [])] hr
  ⟨h.1 (.dir "b" 511 2 []) ⟨("b", .dir "b" 448 1 []), by simp, rfl⟩,
    h.2.2.2.1 [] ("a", .dir "a" 511 1 []) [("b", .dir "b" 448 1 [])] rfl,
    h.2.2.2.2.2.2 ("b", .dir "b" 448 1 []) (by simp)⟩

/-! ## Dump followed by load -/

/-- C37: with `SLOT_MAX = 7` and chain length 1, the file created with the one
chain `a = [0, 7]` and split once (`setup_slot_range_split(0, 7)` and its
finalize, recipient `r`) holds the chains `a = [0, 3]` and `r = [4, 7]`. `dump`
to `/b` writes chain 0 to `/b/0_3` and chain 1 to `/b/4_7`. `load` from `/b` then
reads chain 0 from `/b/0_2` and chain 1 from `/b/3_7`, paths `dump` did not
write, and passes the ranges `[0, 2]` and `[3, 7]` to `setup_block`, while the
data status after `load` records `[0, 3]` and `[4, 7]`. On the file as created
(one chain `[0, 7]`) the paths and the ranges agree. -/
theorem dump_load_paths_differ_after_split :
    (split_slot_range 7 (allocate_from ["r"]) "/f" 0 7 (file_of 1 [stable_chain ["a"] 0 7])).node
        = file_of 1 [stable_chain ["a"] 0 3, stable_chain ["r"] 4 7]
      ∧ dump_paths ((file_of 1 [stable_chain ["a"] 0 3, stable_chain ["r"] 4 7]).dump []
          "/b").calls = ["/b/0_3", "/b/4_7"]
      ∧ load_paths (((file_of 1 [stable_chain ["a"] 0 3, stable_chain ["r"] 4 7]).dump []
          "/b").node.load 7 sample_flags (allocate_seq [["p"], ["q"]]) "/f" "/b").calls
        = ["/b/0_2", "/b/3_7"]
      ∧ setup_block_ranges (((file_of 1 [stable_chain ["a"] 0 3,
          stable_chain ["r"] 4 7]).dump [] "/b").node.load 7 sample_flags
          (allocate_seq [["p"], ["q"]]) "/f" "/b").calls
        = [(0, 2), (3, 7)]
      ∧ ((((file_of 1 [stable_chain ["a"] 0 3, stable_chain ["r"] 4 7]).dump []
          "/b").node.load 7 sample_flags (allocate_seq [["p"], ["q"]]) "/f"
          "/b").node.dstatus.data_blocks.map (fun c => c.slot_range))
        = [(0, 3), (4, 7)]
      ∧ (((file_of 1 [stable_chain ["a"] 0 3, stable_chain ["r"] 4 7]).dump []
          "/b").node.load 7 sample_flags (allocate_seq [["p"], ["q"]]) "/f" "/b").ret = .ok ()
      ∧ dump_paths ((file_of 1 [stable_chain ["a"] 0 7]).dump [] "/b").calls = ["/b/0_7"]
      ∧ load_paths (((file_of 1 [stable_chain ["a"] 0 7]).dump [] "/b").node.load 7
          sample_flags (allocate_seq [["p"]]) "/f" "/b").calls = ["/b/0_7"]
      ∧ setup_block_ranges (((file_of 1 [stable_chain ["a"] 0 7]).dump [] "/b").node.load 7
          sample_flags (allocate_seq [["p"]]) "/f" "/b").calls = [(0, 7)]
      ∧ ((((file_of 1 [stable_chain ["a"] 0 7]).dump [] "/b").node.load 7
          sample_flags (allocate_seq [["p"]]) "/f" "/b").node.dstatus.data_blocks.map
            (fun c => c.slot_range)) = [(0, 7)] := by
  refine ⟨by decide, by decide, by decide, by decide, by decide, rfl, by decide, by decide,
    by decide, by decide⟩

theorem dump_paths_append (l1 l2 : List call) :
    dump_paths (l1 ++ l2) = dump_paths l1 ++ dump_paths l2 := by
  induction l1 with
  | nil => rfl
  | cons c l1 ih => cases c <;> simp [dump_paths, ih]

theorem load_paths_append (l1 l2 : List call) :
    load_paths (l1 ++ l2) = load_paths l1 ++ load_paths l2 := by
  induction l1 with
  | nil => rfl
  | cons c l1 ih => cases c <;> simp [load_paths, ih]

theorem setup_block_ranges_append (l1 l2 : List call) :
    setup_block_ranges (l1 ++ l2) = setup_block_ranges l1 ++ setup_block_ranges l2 := by
  induction l1 with
  | nil => rfl
  | cons c l1 ih => cases c <;> simp [setup_block_ranges, ih]

theorem dump_paths_flatMap {α : Type} (l : List α) (g : α → List call) :
    dump_paths (l.flatMap g) = l.flatMap (fun x => dump_paths (g x)) := by
  induction l with
  | nil => rfl
  | cons x l ih => simp [List.flatMap_cons, dump_paths_append, ih]

theorem load_paths_flatMap {α : Type} (l : List α) (g : α → List call) :
    load_paths (l.flatMap g) = l.flatMap (fun x => load_paths (g x)) := by
  induction l with
  | nil => rfl
  | cons x l ih => simp [List.flatMap_cons, load_paths_append, ih]

theorem setup_block_ranges_flatMap {α : Type} (l : List α) (g : α → List call) :
    setup_block_ranges (l.flatMap g) = l.flatMap (fun x => setup_block_ranges (g x)) := by
  induction l with
  | nil => rfl
  | cons x l ih => simp [List.flatMap_cons, setup_block_ranges_append, ih]

/-- The one path the inner loop of `dump` writes to for a chain. -/
theorem dump_paths_of_chain (backing_path : String) (chain_length : Nat)
    (block : replica_chain) (hcl : 1 ≤ chain_length) :
    dump_paths (dump_calls_of backing_path chain_length block)
      = [push_path_element backing_path block.slot_range_string] := by
  obtain ⟨k, rfl⟩ : ∃ k, chain_length = k + 1 := ⟨chain_length - 1, by omega⟩
  unfold dump_calls_of
  rw [List.range_succ, List.map_append, dump_paths_append]
  have hresets : ∀ (l : List Nat), (∀ i ∈ l, i ≠ k) →
      dump_paths (l.map (fun i =>
        if i = k + 1 - 1 then
          call.dump block.tail (push_path_element backing_path block.slot_range_string)
        else call.reset (block.block_names.getD i ""))) = [] := by
    intro l hl
    induction l with
    | nil => rfl
    | cons i l ih =>
      have hi : ¬ i = k + 1 - 1 := by
        have := hl i (List.mem_cons_self _ _)
        omega
      rw [List.map_cons, if_neg hi]
      exact ih (fun j hj => hl j (List.mem_cons_of_mem _ hj))
  rw [hresets (List.range k) (fun i hi => by have := List.mem_range.mp hi; omega)]
  simp [dump_paths]

/-- The paths `load` reads the blocks of one chain from, and the ranges it passes
to `setup_block` for them. -/
theorem spec_load_calls_paths (path backing_path : String) (blocks : List String)
    (slot_range : Int × Int) (auto_scale : Bool) :
    load_paths (spec_load_calls path backing_path blocks slot_range auto_scale)
        = List.replicate blocks.length
          (push_path_element backing_path
            (toString slot_range.1 ++ "_" ++ toString slot_range.2))
      ∧ setup_block_ranges (spec_load_calls path backing_path blocks slot_range auto_scale)
        = List.replicate blocks.length slot_range := by
  unfold spec_load_calls
  rw [load_paths_flatMap, setup_block_ranges_flatMap]
  simp only [load_paths, setup_block_ranges]
  constructor
  · have : ∀ (l : List (Nat × String)) (x : String),
        l.flatMap (fun _ => [x]) = List.replicate l.length x := by
      intro l x
      induction l with
      | nil => rfl
      | cons a l ih => simp [List.flatMap_cons, ih, List.replicate_succ]
    rw [show blocks.length = blocks.enum.length by simp]
    exact this _ _
  · have : ∀ (l : List (Nat × String)) (x : Int × Int),
        l.flatMap (fun _ => [x]) = List.replicate l.length x := by
      intro l x
      induction l with
      | nil => rfl
      | cons a l ih => simp [List.flatMap_cons, ih, List.replicate_succ]
    rw [show blocks.length = blocks.enum.length by simp]
    exact this _ _

/-- The slot ranges of the chains are the same after `dump`. -/
theorem dump_keeps_ranges (cleared_blocks : List String) (backing_path : String)
    (f : ds_file_node) :
    (f.dump cleared_blocks backing_path).node.dstatus.data_blocks.map (fun c => c.slot_range)
      = f.dstatus.data_blocks.map (fun c => c.slot_range) := by
  rw [dump_spec]
  simp only
  by_cases h : f.dstatus.data_blocks = [] ∨ f.dstatus.chain_length = 0
  · rw [if_pos h]
  · rw [if_neg h]
    apply List.ext_getElem?
    intro k
    simp only [List.getElem?_map, data_status.mark_dumped, modify_chain_getElem?_at]
    cases f.dstatus.data_blocks[k]? with
    | none => rfl
    | some c =>
      simp only [Option.map_some']
      split <;> rfl

/-- The slot ranges of the chains are the same after `load`. -/
theorem load_keeps_ranges (SLOT_MAX : Nat) (t : flag_tests)
    (allocate : Nat → Nat → Except ds_error (List String)) (path backing_path : String)
    (f : ds_file_node) (names : Nat → List String)
    (hn : 1 ≤ f.dstatus.data_blocks.length)
    (ha : ∀ i, i < f.dstatus.data_blocks.length →
      allocate i f.dstatus.chain_length = .ok (names i)
        ∧ (names i).length = f.dstatus.chain_length) :
    (f.load SLOT_MAX t allocate path backing_path).node.dstatus.data_blocks.map
        (fun c => c.slot_range)
      = f.dstatus.data_blocks.map (fun c => c.slot_range) := by
  obtain ⟨-, -, -, h4⟩ := load_dstatus SLOT_MAX t allocate path backing_path f names hn ha
  apply List.ext_getElem?
  intro k
  simp only [List.getElem?_map, h4 k]
  cases f.dstatus.data_blocks[k]? with
  | none => rfl
  | some c => rfl

/-- The paths and the ranges of `dump` followed by `load`, for a file with
`n >= 1` chains and a chain length of at least 1, when every allocation of `load`
returns `chain_length` blocks. `dump` writes chain `i` to the path made of the
range the data status holds for it; `load` reads every block of chain `i` from
the path made of the range it computes for `i`, which is also the range it
passes to `setup_block`; the data status after `load` holds the ranges it held
before `dump`. -/
theorem dump_then_load_paths (SLOT_MAX : Nat) (t : flag_tests)
    (allocate : Nat → Nat → Except ds_error (List String)) (path backing_path : String)
    (f : ds_file_node) (names : Nat → List String)
    (hn : 1 ≤ f.dstatus.data_blocks.length) (hcl : 1 ≤ f.dstatus.chain_length)
    (ha : ∀ i, i < f.dstatus.data_blocks.length →
      allocate i f.dstatus.chain_length = .ok (names i)
        ∧ (names i).length = f.dstatus.chain_length) :
    dump_paths (f.dump [] backing_path).calls
        = f.dstatus.data_blocks.map (fun c =>
            push_path_element backing_path
              (toString c.slot_range.1 ++ "_" ++ toString c.slot_range.2))
      ∧ load_paths ((f.dump [] backing_path).node.load SLOT_MAX t allocate path
          backing_path).calls
        = (load_slot_ranges SLOT_MAX f.dstatus.data_blocks.length).flatMap (fun r =>
            List.replicate f.dstatus.chain_length
              (push_path_element backing_path (toString r.1 ++ "_" ++ toString r.2)))
      ∧ setup_block_ranges ((f.dump [] backing_path).node.load SLOT_MAX t allocate path
          backing_path).calls
        = (load_slot_ranges SLOT_MAX f.dstatus.data_blocks.length).flatMap (fun r =>
            List.replicate f.dstatus.chain_length r)
      ∧ ((f.dump [] backing_path).node.load SLOT_MAX t allocate path
          backing_path).node.dstatus.data_blocks.map (fun c => c.slot_range)
        = f.dstatus.data_blocks.map (fun c => c.slot_range) := by
  obtain ⟨hcl2, hn2⟩ := dump_node_shape [] backing_path f
  have ha2 : ∀ i, i < (f.dump [] backing_path).node.dstatus.data_blocks.length →
      allocate i (f.dump [] backing_path).node.dstatus.chain_length = .ok (names i)
        ∧ (names i).length = (f.dump [] backing_path).node.dstatus.chain_length := by
    intro i hi
    rw [hcl2]
    rw [hn2] at hi
    exact ha i hi
  have hn3 : 1 ≤ (f.dump [] backing_path).node.dstatus.data_blocks.length := by
    rw [hn2]; exact hn
  have hcalls := load_calls_by_block SLOT_MAX t allocate path backing_path
    (f.dump [] backing_path).node names hn3 ha2
  refine ⟨?_, ?_, ?_, ?_⟩
  · rw [dump_spec]
    simp only
    rw [dump_paths_flatMap]
    simp only [dump_paths_of_chain backing_path _ _ hcl]
    simp only [replica_chain.slot_range_string, replica_chain.slot_begin,
      replica_chain.slot_end]
    generalize f.dstatus.data_blocks = l
    induction l with
    | nil => rfl
    | cons c l ih => rw [List.flatMap_cons, List.map_cons, ih]; rfl
  · rw [hcalls, load_paths_flatMap, hn2, hcl2]
    simp only [load_paths, (spec_load_calls_paths _ _ _ _ _).1]
    unfold load_slot_ranges
    rw [List.flatMap_map]
    apply List.flatMap_congr
    intro i hi
    rw [(ha i (List.mem_range.mp hi)).2]
  · rw [hcalls, setup_block_ranges_flatMap, hn2, hcl2]
    simp only [setup_block_ranges, (spec_load_calls_paths _ _ _ _ _).2]
    unfold load_slot_ranges
    rw [List.flatMap_map]
    apply List.flatMap_congr
    intro i hi
    rw [(ha i (List.mem_range.mp hi)).2]
  · rw [load_keeps_ranges SLOT_MAX t allocate path backing_path _ names hn3 ha2,
      dump_keeps_ranges]

/-- The paths of `dump` and of `load` after one split, with 65536 for
`SLOT_MAX`: `dump` writes `/b/0_32768` and `/b/32769_65536`, `load` reads
`/b/0_32767` and `/b/32768_65536`. -/
theorem dump_load_paths_differ_65536 :
    (split_slot_range 65536 (allocate_from ["r"]) "/f" 0 65536
        (file_of 1 [stable_chain ["a"] 0 65536])).node
        = file_of 1 [stable_chain ["a"] 0 32768, stable_chain ["r"] 32769 65536]
      ∧ dump_paths ((file_of 1 [stable_chain ["a"] 0 32768,
          stable_chain ["r"] 32769 65536]).dump [] "/b").calls
        = ["/b/0_32768", "/b/32769_65536"]
      ∧ load_paths (((file_of 1 [stable_chain ["a"] 0 32768,
          stable_chain ["r"] 32769 65536]).dump [] "/b").node.load 65536 sample_flags
          (allocate_seq [["p"], ["q"]]) "/f" "/b").calls
        = ["/b/0_32767", "/b/32768_65536"] := by
  refine ⟨by decide, by decide, by decide⟩

/-! ## The split point -/

theorem slot_mid_halves (b e : Int) (h0 : 0 ≤ b) (hlt : b < e) :
    slot_count b (slot_mid b e) = slot_count (slot_mid b e + 1) e
      ∨ slot_count b (slot_mid b e) = slot_count (slot_mid b e + 1) e + 1 := by
  unfold slot_mid slot_count
  rw [Int.tdiv_eq_ediv (by omega) (by decide)]
  omega

/-- C38: let `0 <= b < e <= SLOT_MAX`, with `SLOT_MAX` at most `2^30` (it is an
`int32_t` constant). The sum `e + b` the split point is computed from is an
`int32_t` value, and `mid = (e + b) / 2` satisfies `b <= mid < e`: the kept
range `[b, mid]` and the exported range `[mid + 1, e]` both hold at least one
slot, and the kept range holds as many slots as the exported one or exactly one
more. For the context of a split setup (`setup_slot_range_split(b, e)`, or a
`setup_add_block` whose donor has the range `[b, e]`) the split point
`finalize_slot_range_split` computes from the donor of the context is the `mid`
of the setup: the recipient of the context begins at that value plus one. -/
theorem split_midpoint (SLOT_MAX : Nat) (b e : Int) (hmax : (SLOT_MAX : Int) ≤ 2 ^ 30)
    (h0 : 0 ≤ b) (hlt : b < e) (he : e ≤ (SLOT_MAX : Int)) :
    in_int32 (e + b)
      ∧ b ≤ slot_mid b e ∧ slot_mid b e < e
      ∧ 1 ≤ slot_count b (slot_mid b e) ∧ 1 ≤ slot_count (slot_mid b e + 1) e
      ∧ (slot_count b (slot_mid b e) = slot_count (slot_mid b e + 1) e
        ∨ slot_count b (slot_mid b e) = slot_count (slot_mid b e + 1) e + 1)
      ∧ (∀ (allocate : Nat → Except ds_error (List String)) (path : String)
          (f : ds_file_node) (ctx : export_ctx),
          (f.setup_slot_range_split SLOT_MAX allocate path b e).ret = .ok ctx →
          slot_mid ctx.from_block.slot_begin ctx.from_block.slot_end = slot_mid b e
            ∧ ctx.to_block.slot_range = (slot_mid b e + 1, e))
      ∧ (∀ (storage_size : String → Nat) (allocate : Nat → Except ds_error (List String))
          (path : String) (f : ds_file_node) (ctx : export_ctx),
          (f.setup_add_block SLOT_MAX storage_size allocate path).ret = .ok ctx →
          ctx.from_block.slot_range = (b, e) →
          slot_mid ctx.from_block.slot_begin ctx.from_block.slot_end = slot_mid b e
            ∧ ctx.to_block.slot_range = (slot_mid b e + 1, e)) := by
  obtain ⟨h1, h2⟩ := slot_mid_bounds b e h0 hlt
  have h3 := slot_mid_halves b e h0 hlt
  refine ⟨?_, h1, h2, ?_, ?_, h3, ?_, ?_⟩
  · unfold in_int32
    constructor <;> omega
  · unfold slot_count; omega
  · unfold slot_count; omega
  · intro allocate path f ctx h
    obtain ⟨pre, d, post, names, hl, hpre, hd, hcap, hst, hal⟩ :=
      setup_slot_range_split_ok SLOT_MAX allocate path b e f ctx h
    rw [setup_slot_range_split_spec SLOT_MAX allocate path b e f pre d post names hl hpre hd
      hcap hst hal] at h
    have hctx := Except.ok.inj h
    subst hctx
    simp [replica_chain.slot_begin, replica_chain.slot_end, hd]
  · intro storage_size allocate path f ctx h hr
    obtain ⟨-, -, -, hto⟩ := split_ctx_shape SLOT_MAX storage_size allocate path b e f ctx
      (Or.inr h)
    have hb : ctx.from_block.slot_begin = b := by
      unfold replica_chain.slot_begin; rw [hr]
    have he2 : ctx.from_block.slot_end = e := by
      unfold replica_chain.slot_end; rw [hr]
    rw [hb, he2] at hto
    exact ⟨by rw [hb, he2], hto⟩

theorem split_midpoint_witness :
    in_int32 (7 + 4) ∧ slot_mid 4 7 = 5 ∧ slot_count 4 5 = 2 ∧ slot_count 6 7 = 2
      ∧ slot_mid 0 6 = 3 ∧ slot_count 0 3 = 4 ∧ slot_count 4 6 = 3
      ∧ (slot_count 4 (slot_mid 4 7) = slot_count (slot_mid 4 7 + 1) 7
        ∨ slot_count 4 (slot_mid 4 7) = slot_count (slot_mid 4 7 + 1) 7 + 1)
      ∧ slot_mid (⟨["b"], (4, 7), .exporting, .in_memory⟩ : replica_chain).slot_begin
          (⟨["b"], (4, 7), .exporting, .in_memory⟩ : replica_chain).slot_end = slot_mid 4 7
      ∧ (⟨["x"], (6, 7), .stable, .in_memory⟩ : replica_chain).slot_range
        = (slot_mid 4 7 + 1, 7) :=
  have h := split_midpoint 7 4 7 (by decide) (by decide) (by decide) (by decide)
  have hctx := h.2.2.2.2.2.2.1 (allocate_from ["x"]) "/f"
    (file_of 1 [stable_chain ["a"] 0 3, stable_chain ["b"] 4 7])
    ⟨⟨["b"], (4, 7), .exporting, .in_memory⟩, ⟨["x"], (6, 7), .stable, .in_memory⟩⟩ rfl
  ⟨h.1, by decide, by decide, by decide, by decide, by decide, by decide, h.2.2.2.2.2.1,
    hctx.1, hctx.2⟩

/-! ## The RPC type conversions -/

theorem to_uint16_to_int32 (x : Nat) (h : x < 2 ^ 16) : to_uint16 (to_int32 x) = x := by
  unfold to_uint16 to_int32
  norm_num at h ⊢
  have h1 : x % 4294967296 = x := Nat.mod_eq_of_lt (by omega)
  rw [h1, if_pos (by omega)]
  omega

theorem to_uint64_to_int64 (x : Nat) (h : x < 2 ^ 64) : to_uint64 (to_int64 x) = x := by
  unfold to_uint64 to_int64
  norm_num at h ⊢
  have h1 : x % 18446744073709551616 = x := Nat.mod_eq_of_lt h
  rw [h1]
  split <;> omega

theorem to_uint64_to_int32 (x : Nat) (h : x < 2 ^ 31) : to_uint64 (to_int32 x) = x := by
  unfold to_uint64 to_int32
  norm_num at h ⊢
  have h1 : x % 4294967296 = x := Nat.mod_eq_of_lt (by omega)
  rw [h1, if_pos h]
  omega

theorem file_type_of_value (value : file_type → Int)
    (h : (file_type.all.map value).Nodup) (t : file_type) :
    file_type.of_value value (value t) = some t := by
  unfold file_type.of_value
  simp only [file_type.all, List.map_cons, List.map_nil, List.nodup_cons, List.mem_cons,
    List.mem_singleton, List.not_mem_nil, not_or] at h
  cases t <;> simp_all [file_type.all, List.find?]

theorem storage_mode_of_value (value : storage_mode → Int)
    (h : (storage_mode.all.map value).Nodup) (t : storage_mode) :
    storage_mode.of_value value (value t) = some t := by
  unfold storage_mode.of_value
  simp only [storage_mode.all, List.map_cons, List.map_nil, List.nodup_cons, List.mem_cons,
    List.mem_singleton, List.not_mem_nil, not_or] at h
  cases t <;> simp_all [storage_mode.all, List.find?]

/-- C39: let the enumerators of `file_type` have pairwise different values, and
those of `storage_mode` as well. For every file status `s` (permissions a
`uint16_t`, last write time a `uint64_t`), `from_rpc(to_rpc(s))` is `s`; for
every directory entry `d`, `from_rpc(to_rpc(d))` is `d`; and for every data
status `ds` whose chain length is below `2^31`, `from_rpc(to_rpc(ds))` is `ds`:
the storage mode, the persistent store prefix, the chain length and the block
names of every chain, in order, are the ones of `ds`. -/
theorem rpc_round_trip (type_value : file_type → Int) (mode_value : storage_mode → Int)
    (htype : (file_type.all.map type_value).Nodup)
    (hmode : (storage_mode.all.map mode_value).Nodup) :
    (∀ s : file_status, s.permissions < 2 ^ 16 → s.last_write_time < 2 ^ 64 →
        directory_type_conversions.from_rpc_file_status type_value
          (directory_type_conversions.to_rpc_file_status type_value s) = some s)
      ∧ (∀ d : directory_entry, d.status.permissions < 2 ^ 16 →
        d.status.last_write_time < 2 ^ 64 →
        directory_type_conversions.from_rpc_dir_entry type_value
          (directory_type_conversions.to_rpc_dir_entry type_value d) = some d)
      ∧ (∀ ds : elasticmem.data_status, ds.chain_length < 2 ^ 31 →
        directory_type_conversions.from_rpc_data_status mode_value
          (directory_type_conversions.to_rpc_data_status mode_value ds) = some ds) := by
  refine ⟨?_, ?_, ?_⟩
  · intro s hp hl
    unfold directory_type_conversions.from_rpc_file_status
      directory_type_conversions.to_rpc_file_status
    simp only [file_type_of_value type_value htype, Option.map_some', to_uint16_to_int32 _ hp,
      to_uint64_to_int64 _ hl]
  · intro d hp hl
    unfold directory_type_conversions.from_rpc_dir_entry
      directory_type_conversions.from_rpc_file_status
      directory_type_conversions.to_rpc_dir_entry
    simp only [file_type_of_value type_value htype, Option.map_some', to_uint16_to_int32 _ hp,
      to_uint64_to_int64 _ hl]
  · intro ds hc
    unfold directory_type_conversions.from_rpc_data_status
      directory_type_conversions.to_rpc_data_status
    simp only [storage_mode_of_value mode_value hmode, Option.map_some',
      to_uint64_to_int32 _ hc, List.map_map]
    have hblocks : ds.data_blocks.map
        ((fun blk : rpc_block_chain => (⟨blk.block_names⟩ : block_chain))
          ∘ fun blk : block_chain => (⟨blk.block_names⟩ : rpc_block_chain))
        = ds.data_blocks := by
      have : ((fun blk : rpc_block_chain => (⟨blk.block_names⟩ : block_chain))
          ∘ fun blk : block_chain => (⟨blk.block_names⟩ : rpc_block_chain)) = id := by
        funext blk
        rfl
      rw [this, List.map_id]
    rw [hblocks]

theorem rpc_round_trip_witness :
    directory_type_conversions.to_rpc_file_status sample_type_value
        ⟨.directory, 511, 1700000000000⟩ = ⟨2, 511, 1700000000000⟩
      ∧ directory_type_conversions.from_rpc_file_status sample_type_value
        (directory_type_conversions.to_rpc_file_status sample_type_value
          ⟨.directory, 511, 1700000000000⟩) = some ⟨.directory, 511, 1700000000000⟩
      ∧ directory_type_conversions.from_rpc_dir_entry sample_type_value
        (directory_type_conversions.to_rpc_dir_entry sample_type_value
          ⟨"file", ⟨.regular, 65535, 2 ^ 64 - 1⟩⟩) = some ⟨"file", ⟨.regular, 65535, 2 ^ 64 - 1⟩⟩
      ∧ directory_type_conversions.from_rpc_data_status sample_mode_value
        (directory_type_conversions.to_rpc_data_status sample_mode_value
          ⟨.on_disk, "/tmp", 3, [⟨["a", "b", "c"]⟩, ⟨["d", "e", "f"]⟩]⟩)
        = some ⟨.on_disk, "/tmp", 3, [⟨["a", "b", "c"]⟩, ⟨["d", "e", "f"]⟩]⟩ :=
  have h := rpc_round_trip sample_type_value sample_mode_value (by decide) (by decide)
  ⟨by decide, h.1 ⟨.directory, 511, 1700000000000⟩ (by decide) (by decide),
    h.2.1 ⟨"file", ⟨.regular, 65535, 2 ^ 64 - 1⟩⟩ (by decide) (by decide),
    h.2.2 ⟨.on_disk, "/tmp", 3, [⟨["a", "b", "c"]⟩, ⟨["d", "e", "f"]⟩]⟩ (by decide)⟩

/-- A last write time of `2^64 - 1` travels as the `i64` value `-1`, and a chain
length of `2^31` does not come back: it travels as `-2^31` and arrives as
`2^64 - 2^31`. -/
theorem rpc_wide_values :
    (directory_type_conversions.to_rpc_file_status sample_type_value
        ⟨.regular, 65535, 2 ^ 64 - 1⟩).last_write_time = -1
      ∧ (directory_type_conversions.to_rpc_data_status sample_mode_value
        ⟨.in_memory, "/tmp", 2 ^ 31, []⟩).chain_length = -(2 ^ 31)
      ∧ directory_type_conversions.from_rpc_data_status sample_mode_value
        (directory_type_conversions.to_rpc_data_status sample_mode_value
          ⟨.in_memory, "/tmp", 2 ^ 31, []⟩)
        = some ⟨.in_memory, "/tmp", 2 ^ 64 - 2 ^ 31, []⟩ := by
  refine ⟨by decide, by decide, by decide⟩

/-! ## Partitions among the chains -/

theorem covers_le (s t : Int) (l : List (Int × Int)) (h : covers s t l) : s ≤ t := by
  induction l generalizing s with
  | nil =>
    simp only [covers] at h
    omega
  | cons r l ih =>
    obtain ⟨h1, h2, h3⟩ := h
    have := ih _ h3
    omega

theorem covers_append (s t : Int) (l1 l2 : List (Int × Int)) :
    covers s t (l1 ++ l2) ↔ ∃ m, covers s m l1 ∧ covers m t l2 := by
  induction l1 generalizing s with
  | nil => simp [covers]
  | cons r l1 ih =>
    have e1 : covers s t (r :: l1 ++ l2)
        ↔ r.1 = s ∧ r.1 ≤ r.2 + 1 ∧ covers (r.2 + 1) t (l1 ++ l2) := Iff.rfl
    have e2 : ∀ m, covers s m (r :: l1) ↔ r.1 = s ∧ r.1 ≤ r.2 + 1 ∧ covers (r.2 + 1) m l1 :=
      fun _ => Iff.rfl
    rw [e1, ih]
    constructor
    · rintro ⟨h1, h2, m, h3, h4⟩
      exact ⟨m, (e2 m).mpr ⟨h1, h2, h3⟩, h4⟩
    · rintro ⟨m, h0, h4⟩
      obtain ⟨h1, h2, h3⟩ := (e2 m).mp h0
      exact ⟨h1, h2, m, h3, h4⟩

theorem covers_owners (s t : Int) (l : List replica_chain)
    (h : covers s t (l.map (fun c => c.slot_range))) (x : Int) :
    (x < s → owners x l = 0) ∧ (s ≤ x → x < t → owners x l = 1)
      ∧ (t ≤ x → owners x l = 0) := by
  induction l generalizing s with
  | nil =>
    simp only [List.map_nil, covers] at h
    subst h
    refine ⟨fun _ => rfl, ?_, fun _ => rfl⟩
    intro h1 h2; omega
  | cons c l ih =>
    have h' : c.slot_range.1 = s ∧ c.slot_range.1 ≤ c.slot_range.2 + 1
        ∧ covers (c.slot_range.2 + 1) t (l.map (fun c => c.slot_range)) := h
    obtain ⟨h1, h2, h3⟩ := h'
    obtain ⟨ih1, ih2, ih3⟩ := ih _ h3
    have hle := covers_le _ _ _ h3
    simp only [owners, List.countP_cons, replica_chain.slot_begin, replica_chain.slot_end]
      at ih1 ih2 ih3 ⊢
    refine ⟨?_, ?_, ?_⟩
    · intro hx
      have hc : ¬ (c.slot_range.1 ≤ x) := by omega
      rw [ih1 (by omega)]
      simp [hc]
    · intro hx1 hx2
      by_cases hin : x ≤ c.slot_range.2
      · have hc : c.slot_range.1 ≤ x := by omega
        rw [ih1 (by omega)]
        simp [hc, hin]
      · rw [ih2 (by omega) hx2]
        simp [hin]
    · intro hx
      have hin : ¬ x ≤ c.slot_range.2 := by omega
      rw [ih3 hx]
      simp [hin]

/-- In a partition of `[0, SLOT_MAX]` among the chains every slot lies in
exactly one chain, and no chain holds anything else. -/
theorem slot_partition_owners (SLOT_MAX : Nat) (l : List replica_chain)
    (h : slot_partition SLOT_MAX l) (x : Int) :
    (0 ≤ x → x ≤ (SLOT_MAX : Int) → owners x l = 1)
      ∧ (x < 0 ∨ (SLOT_MAX : Int) < x → owners x l = 0) := by
  obtain ⟨h1, h2, h3⟩ := covers_owners 0 _ l h.1 x
  refine ⟨fun h0 hx => h2 h0 (by omega), ?_⟩
  rintro (hx | hx)
  · exact h1 hx
  · exact h3 (by omega)

theorem tiles_covers (s t : Int) (l : List (Int × Int)) (h : tiles s t l) : covers s t l := by
  induction l generalizing s with
  | nil => exact h
  | cons r l ih =>
    obtain ⟨h1, h2, h3⟩ := h
    exact ⟨h1, by omega, ih _ h3⟩

/-- An exact partition into ranges that each hold a slot is a partition of
`[0, SLOT_MAX]` among the chains. -/
theorem exact_partition_slot_partition (SLOT_MAX : Nat) (l : List replica_chain)
    (h : exact_partition SLOT_MAX l) : slot_partition SLOT_MAX l := by
  refine ⟨tiles_covers _ _ _ h, ?_⟩
  intro c hc
  obtain ⟨-, h2⟩ := tiles_bounds _ _ _ h
  have := h2 c.slot_range (List.mem_map_of_mem _ hc)
  omega

/-- A chain of a partition among the chains, and what is before and after it. -/
theorem slot_partition_at (SLOT_MAX : Nat) (pre : List replica_chain) (d : replica_chain)
    (post : List replica_chain) (h : slot_partition SLOT_MAX (pre ++ d :: post)) :
    0 ≤ d.slot_range.1 ∧ d.slot_range.1 ≤ d.slot_range.2 + 1 ∧ 0 ≤ d.slot_range.2
      ∧ covers 0 d.slot_range.1 (pre.map (fun c => c.slot_range))
      ∧ covers (d.slot_range.2 + 1) ((SLOT_MAX : Int) + 1) (post.map (fun c => c.slot_range))
      ∧ (∀ c ∈ pre, 0 ≤ c.slot_range.2) ∧ (∀ c ∈ post, 0 ≤ c.slot_range.2) := by
  obtain ⟨hc, hend⟩ := h
  rw [List.map_append, covers_append] at hc
  obtain ⟨m, h1, h2⟩ := hc
  simp only [List.map_cons, covers] at h2
  obtain ⟨h3, h4, h5⟩ := h2
  subst h3
  refine ⟨covers_le _ _ _ h1, h4, hend d (by simp), h1, h5, ?_, ?_⟩
  · intro c hc
    exact hend c (by simp [hc])
  · intro c hc
    exact hend c (by simp [hc])

/-- Replacing a chain of a partition among the chains by chains that partition
its range. -/
theorem slot_partition_replace (SLOT_MAX : Nat) (pre : List replica_chain)
    (d : replica_chain) (post : List replica_chain) (mid : List replica_chain)
    (h : slot_partition SLOT_MAX (pre ++ d :: post))
    (hmid : covers d.slot_range.1 (d.slot_range.2 + 1) (mid.map (fun c => c.slot_range)))
    (hend : ∀ c ∈ mid, 0 ≤ c.slot_range.2) :
    slot_partition SLOT_MAX (pre ++ mid ++ post) := by
  obtain ⟨-, -, -, h1, h2, h3, h4⟩ := slot_partition_at SLOT_MAX pre d post h
  refine ⟨?_, ?_⟩
  · rw [List.map_append, List.map_append, covers_append]
    refine ⟨d.slot_range.2 + 1, ?_, h2⟩
    rw [covers_append]
    exact ⟨_, h1, hmid⟩
  · intro c hc
    rcases List.mem_append.mp hc with hc | hc
    · rcases List.mem_append.mp hc with hc | hc
      · exact h3 c hc
      · exact hend c hc
    · exact h4 c hc

theorem slot_mid_cover (b e : Int) (h0 : 0 ≤ b) (hbe : b ≤ e + 1) (he : 0 ≤ e) :
    b ≤ slot_mid b e + 1 ∧ slot_mid b e ≤ e ∧ 0 ≤ slot_mid b e := by
  unfold slot_mid
  rw [Int.tdiv_eq_ediv (by omega) (by decide)]
  omega

/-! ## Completed operations keep the partition among the chains -/

/-- The finalize of a split on the node its setup left, for a donor that is the
first chain with its blocks and a recipient whose blocks no chain being added
holds: the donor keeps `[b, mid]`, the recipient holds `[mid + 1, e]` right
after it, both stable. -/
theorem finalize_after_split_setup (f : ds_file_node) (pre : List replica_chain)
    (d : replica_chain) (post : List replica_chain) (names : List String) (b e : Int)
    (hd : d.slot_range = (b, e))
    (hnames : ∀ c ∈ pre, c.block_names ≠ d.block_names)
    (hfresh : ∀ c ∈ f.adding, c.block_names ≠ names) :
    ds_file_node.finalize_slot_range_split
        ⟨{ d with status := .exporting }, ⟨names, (slot_mid b e + 1, e), .stable, .in_memory⟩⟩
        ⟨{ f.dstatus with data_blocks := pre ++ { d with status := .exporting } :: post },
          f.adding ++ [⟨names, (slot_mid b e + 1, e), .stable, .in_memory⟩]⟩
      = ⟨⟨{ f.dstatus with data_blocks :=
            pre ++ { d with slot_range := (b, slot_mid b e), status := .stable }
              :: ⟨names, (slot_mid b e + 1, e), .stable, .in_memory⟩ :: post },
          f.adding⟩,
        (List.range f.dstatus.chain_length).flatMap (fun j =>
          [ call.set_regular (d.block_names.getD j "") b (slot_mid b e),
            call.set_regular (names.getD j "") (slot_mid b e + 1) e ]),
        .ok ()⟩ := by
  rw [finalize_slot_range_split_spec _ _ pre { d with status := .exporting } post f.adding
    ⟨names, (slot_mid b e + 1, e), .stable, .in_memory⟩ [] rfl hnames rfl rfl hfresh rfl]
  simp [replica_chain.slot_begin, replica_chain.slot_end, hd]

/-- The chains after a completed split of the chain `d` with the range `[b, e]`
into `[b, mid]` and the new chain `[mid + 1, e]`: stable, a partition among the
chains, with pairwise different block lists, when the chains before were. -/
theorem split_keeps_partition (SLOT_MAX : Nat) (pre : List replica_chain)
    (d : replica_chain) (post : List replica_chain) (names : List String) (b e : Int)
    (hd : d.slot_range = (b, e))
    (hstable : all_stable (pre ++ d :: post))
    (hpart : slot_partition SLOT_MAX (pre ++ d :: post))
    (hnodup : ((pre ++ d :: post).map (fun c => c.block_names)).Nodup)
    (hfresh : ∀ c ∈ pre ++ d :: post, c.block_names ≠ names) :
    all_stable (pre ++ { d with slot_range := (b, slot_mid b e), status := .stable }
        :: ⟨names, (slot_mid b e + 1, e), .stable, .in_memory⟩ :: post)
      ∧ slot_partition SLOT_MAX
        (pre ++ { d with slot_range := (b, slot_mid b e), status := .stable }
          :: ⟨names, (slot_mid b e + 1, e), .stable, .in_memory⟩ :: post)
      ∧ ((pre ++ { d with slot_range := (b, slot_mid b e), status := .stable }
          :: (⟨names, (slot_mid b e + 1, e), .stable, .in_memory⟩ : replica_chain)
          :: post).map (fun c => c.block_names)).Nodup := by
  obtain ⟨h0, hbe, he, -, -, -, -⟩ := slot_partition_at SLOT_MAX pre d post hpart
  rw [hd] at h0 hbe he
  simp only at h0 hbe he
  obtain ⟨hm1, hm2, hm3⟩ := slot_mid_cover b e h0 hbe he
  refine ⟨?_, ?_, ?_⟩
  · intro c hc
    simp only [List.mem_append, List.mem_cons] at hc
    rcases hc with hc | rfl | rfl | hc
    · exact hstable c (by simp [hc])
    · rfl
    · rfl
    · exact hstable c (by simp [hc])
  · have := slot_partition_replace SLOT_MAX pre d post
      [{ d with slot_range := (b, slot_mid b e), status := .stable },
        ⟨names, (slot_mid b e + 1, e), .stable, .in_memory⟩] hpart
      (by
        rw [hd]
        simp only [List.map_cons, List.map_nil, covers]
        refine ⟨trivial, hm1, trivial, ?_, trivial⟩
        omega)
      (by
        intro c hc
        simp only [List.mem_cons, List.mem_singleton, List.not_mem_nil, or_false] at hc
        rcases hc with rfl | rfl
        · exact hm3
        · exact he)
    simpa using this
  · have hnot : names ∉ (pre ++ d :: post).map (fun c => c.block_names) := by
      intro hmem
      obtain ⟨c, hc, hcn⟩ := List.mem_map.mp hmem
      exact hfresh c hc hcn
    have h2 : (names :: (pre ++ d :: post).map (fun c => c.block_names)).Nodup :=
      List.nodup_cons.mpr ⟨hnot, hnodup⟩
    have h3 : (((pre ++ [d]).map (fun c => c.block_names)) ++ names
        :: post.map (fun c => c.block_names)).Nodup := by
      rw [List.nodup_middle]
      simpa using h2
    simpa using h3

/-- The chains after a completed merge of the chain `d` into its right neighbour
`p`: stable, a partition among the chains, with pairwise different block lists,
when the chains before were. -/
theorem merge_keeps_partition (SLOT_MAX : Nat) (pre : List replica_chain)
    (d p : replica_chain) (post : List replica_chain)
    (hstable : all_stable (pre ++ d :: p :: post))
    (hpart : slot_partition SLOT_MAX (pre ++ d :: p :: post))
    (hnodup : ((pre ++ d :: p :: post).map (fun c => c.block_names)).Nodup) :
    all_stable (pre ++ ⟨p.block_names, (d.slot_range.1, p.slot_range.2), .stable, p.mode⟩
        :: post)
      ∧ slot_partition SLOT_MAX
        (pre ++ ⟨p.block_names, (d.slot_range.1, p.slot_range.2), .stable, p.mode⟩ :: post)
      ∧ ((pre ++ (⟨p.block_names, (d.slot_range.1, p.slot_range.2), .stable, p.mode⟩
          : replica_chain) :: post).map (fun c => c.block_names)).Nodup := by
  obtain ⟨h0, hbe, he, hcpre, hcpost, hepre, hepost⟩ :=
    slot_partition_at SLOT_MAX pre d (p :: post) hpart
  simp only [List.map_cons, covers] at hcpost
  obtain ⟨hp1, hp2, hp3⟩ := hcpost
  refine ⟨?_, ⟨?_, ?_⟩, ?_⟩
  · intro c hc
    simp only [List.mem_append, List.mem_cons] at hc
    rcases hc with hc | rfl | hc
    · exact hstable c (by simp [hc])
    · rfl
    · exact hstable c (by simp [hc])
  · rw [List.map_append, covers_append]
    refine ⟨d.slot_range.1, hcpre, ?_⟩
    simp only [List.map_cons, covers]
    exact ⟨trivial, by omega, hp3⟩
  · intro c hc
    simp only [List.mem_append, List.mem_cons] at hc
    rcases hc with hc | rfl | hc
    · exact hepre c hc
    · exact hepost p (by simp)
    · exact hepost c (by simp [hc])
  · have hsub : (pre ++ p :: post).Sublist (pre ++ d :: p :: post) :=
      (List.sublist_cons_self d (p :: post)).append_left pre
    have := hnodup.sublist (hsub.map (fun c => c.block_names))
    simpa using this

/-- The node a completed `split_slot_range(b, e)` leaves. -/
theorem split_slot_range_node (SLOT_MAX : Nat)
    (allocate : Nat → Except ds_error (List String)) (path : String) (b e : Int)
    (f : ds_file_node)
    (hnodup : (f.dstatus.data_blocks.map (fun c => c.block_names)).Nodup)
    (hfresh : fresh_allocation allocate f)
    (hok : (split_slot_range SLOT_MAX allocate path b e f).ret = .ok ()) :
    ∃ pre d post names, f.dstatus.data_blocks = pre ++ d :: post ∧ d.slot_range = (b, e)
      ∧ (∀ c ∈ pre ++ d :: post, c.block_names ≠ names)
      ∧ (split_slot_range SLOT_MAX allocate path b e f).node
        = ⟨{ f.dstatus with data_blocks :=
              pre ++ { d with slot_range := (b, slot_mid b e), status := .stable }
                :: ⟨names, (slot_mid b e + 1, e), .stable, .in_memory⟩ :: post },
            f.adding⟩ := by
  obtain ⟨ctx, h1, -, h3⟩ := and_then_ret_ok _ _ hok
  obtain ⟨pre, d, post, names, hl, hpre, hd, hcap, hst, ha⟩ :=
    setup_slot_range_split_ok SLOT_MAX allocate path b e f ctx h1
  have hsetup := setup_slot_range_split_spec SLOT_MAX allocate path b e f pre d post names hl
    hpre hd hcap hst ha
  rw [hsetup] at h1
  have hctx := (Except.ok.inj h1).symm
  subst hctx
  have hall := hfresh names ha
  rw [hl] at hnodup
  refine ⟨pre, d, post, names, hl, hd, ?_, ?_⟩
  · intro c hc
    exact hall c (by rw [hl]; exact List.mem_append_left _ hc)
  · unfold split_slot_range
    rw [h3, hsetup]
    simp only
    rw [finalize_after_split_setup f pre d post names b e hd
      (nodup_names_cons pre d post hnodup).1
      (fun c hc => hall c (List.mem_append_right _ hc))]

/-- The node a completed `add_block_to_file` leaves. -/
theorem add_block_to_file_node (SLOT_MAX : Nat) (storage_size : String → Nat)
    (allocate : Nat → Except ds_error (List String)) (path : String) (f : ds_file_node)
    (hnodup : (f.dstatus.data_blocks.map (fun c => c.block_names)).Nodup)
    (hfresh : fresh_allocation allocate f)
    (hok : (add_block_to_file SLOT_MAX storage_size allocate path f).ret = .ok ()) :
    ∃ pre d post names, f.dstatus.data_blocks = pre ++ d :: post
      ∧ (∀ c ∈ pre ++ d :: post, c.block_names ≠ names)
      ∧ (add_block_to_file SLOT_MAX storage_size allocate path f).node
        = ⟨{ f.dstatus with data_blocks :=
              pre ++ { d with
                  slot_range := (d.slot_range.1, slot_mid d.slot_range.1 d.slot_range.2),
                  status := .stable }
                :: ⟨names, (slot_mid d.slot_range.1 d.slot_range.2 + 1, d.slot_range.2),
                  .stable, .in_memory⟩ :: post },
            f.adding⟩ := by
  obtain ⟨ctx, h1, -, h3⟩ := and_then_ret_ok _ _ hok
  obtain ⟨pre, d, post, names, hl, hpos, hcap, ha⟩ :=
    setup_add_block_ok SLOT_MAX storage_size allocate path f ctx h1
  have hsetup := setup_add_block_spec SLOT_MAX storage_size allocate path f pre d post names hl
    hpos hcap ha
  rw [hsetup] at h1
  have hctx := (Except.ok.inj h1).symm
  subst hctx
  have hall := hfresh names ha
  rw [hl] at hnodup
  refine ⟨pre, d, post, names, hl, ?_, ?_⟩
  · intro c hc
    exact hall c (by rw [hl]; exact List.mem_append_left _ hc)
  · unfold add_block_to_file
    rw [h3, hsetup]
    simp only
    rw [finalize_after_split_setup f pre d post names d.slot_range.1 d.slot_range.2 rfl
      (nodup_names_cons pre d post hnodup).1
      (fun c hc => hall c (List.mem_append_right _ hc))]

/-- The node a completed `merge_slot_range(b, e)` leaves. -/
theorem merge_slot_range_node (SLOT_MAX : Nat) (b e : Int) (f : ds_file_node)
    (hnodup : (f.dstatus.data_blocks.map (fun c => c.block_names)).Nodup)
    (hok : (merge_slot_range SLOT_MAX b e f).ret = .ok ()) :
    ∃ pre d p post, f.dstatus.data_blocks = pre ++ d :: p :: post ∧ d.slot_range = (b, e)
      ∧ (merge_slot_range SLOT_MAX b e f).node
        = ⟨{ f.dstatus with data_blocks :=
              pre ++ ⟨p.block_names, (d.slot_range.1, p.slot_range.2), .stable, p.mode⟩
                :: post },
            f.adding⟩ := by
  obtain ⟨ctx, h1, -, h3⟩ := and_then_ret_ok _ _ hok
  obtain ⟨pre, d, p, post, hl, hpre, hd, hend, hst, hp⟩ :=
    setup_slot_range_merge_ok SLOT_MAX b e f ctx h1
  have hsetup := setup_slot_range_merge_spec SLOT_MAX b e f pre d p post hl hpre hd hend hst hp
  rw [hsetup] at h1
  have hctx := (Except.ok.inj h1).symm
  subst hctx
  rw [hl] at hnodup
  have hnd := nodup_names_cons pre d (p :: post) hnodup
  have hnp : ∀ c ∈ pre, c.block_names ≠ p.block_names := by
    have h2 : (((pre ++ [d]) ++ p :: post).map (fun c => c.block_names)).Nodup := by
      simpa using hnodup
    intro c hc
    exact (nodup_names_cons (pre ++ [d]) p post h2).1 c (by simp [hc])
  have hdp : d.block_names ≠ p.block_names := fun hc =>
    hnd.2 p (List.mem_cons_self _ _) hc.symm
  refine ⟨pre, d, p, post, hl, hd, ?_⟩
  unfold merge_slot_range
  rw [h3, hsetup]
  simp only
  rw [finalize_slot_range_merge_spec ⟨d, p⟩ _ pre { d with status := .exporting }
    { p with status := .importing } post rfl (fun c hc => ⟨hnd.1 c hc, hnp c hc⟩) rfl hdp rfl]
  simp [replica_chain.slot_begin, replica_chain.slot_end]

/-- C1: let the replica chains of the file be all stable, with slot ranges that
partition `[0, SLOT_MAX]` among the chains (every slot in exactly one chain, no
gap and no overlap in the order of the data status; `slot_partition`) and with
pairwise different block lists. After a completed split (`setup_slot_range_split`
or `setup_add_block`, then `finalize_slot_range_split`, with an allocation of
blocks no chain of the file holds) and after a completed merge
(`setup_slot_range_merge`, then `finalize_slot_range_merge`) the replica chains
are again all stable, their slot ranges again partition `[0, SLOT_MAX]` among
the chains, every slot of `[0, SLOT_MAX]` lies in exactly one chain, and the
block lists are again pairwise different. The split of a chain with a single
slot leaves a chain with no slot (C3); the slots still have one owner each. -/
theorem completed_step_partition (SLOT_MAX : Nat) (f : ds_file_node)
    (hstable : all_stable f.dstatus.data_blocks)
    (hpart : slot_partition SLOT_MAX f.dstatus.data_blocks)
    (hnodup : (f.dstatus.data_blocks.map (fun c => c.block_names)).Nodup) :
    (∀ allocate path b e, fresh_allocation allocate f →
        (split_slot_range SLOT_MAX allocate path b e f).ret = .ok () →
        all_stable (split_slot_range SLOT_MAX allocate path b e f).node.dstatus.data_blocks
          ∧ slot_partition SLOT_MAX
            (split_slot_range SLOT_MAX allocate path b e f).node.dstatus.data_blocks
          ∧ (∀ x : Int, 0 ≤ x → x ≤ (SLOT_MAX : Int) →
            owners x (split_slot_range SLOT_MAX allocate path b e f).node.dstatus.data_blocks
              = 1)
          ∧ ((split_slot_range SLOT_MAX allocate path b e f).node.dstatus.data_blocks.map
            (fun c => c.block_names)).Nodup)
      ∧ (∀ storage_size allocate path, fresh_allocation allocate f →
        (add_block_to_file SLOT_MAX storage_size allocate path f).ret = .ok () →
        all_stable
            (add_block_to_file SLOT_MAX storage_size allocate path f).node.dstatus.data_blocks
          ∧ slot_partition SLOT_MAX
            (add_block_to_file SLOT_MAX storage_size allocate path f).node.dstatus.data_blocks
          ∧ (∀ x : Int, 0 ≤ x → x ≤ (SLOT_MAX : Int) →
            owners x
              (add_block_to_file SLOT_MAX storage_size allocate path f).node.dstatus.data_blocks
              = 1)
          ∧ ((add_block_to_file SLOT_MAX storage_size allocate path
            f).node.dstatus.data_blocks.map (fun c => c.block_names)).Nodup)
      ∧ ∀ b e, (merge_slot_range SLOT_MAX b e f).ret = .ok () →
        all_stable (merge_slot_range SLOT_MAX b e f).node.dstatus.data_blocks
          ∧ slot_partition SLOT_MAX (merge_slot_range SLOT_MAX b e f).node.dstatus.data_blocks
          ∧ (∀ x : Int, 0 ≤ x → x ≤ (SLOT_MAX : Int) →
            owners x (merge_slot_range SLOT_MAX b e f).node.dstatus.data_blocks = 1)
          ∧ ((merge_slot_range SLOT_MAX b e f).node.dstatus.data_blocks.map
            (fun c => c.block_names)).Nodup := by
  refine ⟨?_, ?_, ?_⟩
  · intro allocate path b e hfresh hok
    obtain ⟨pre, d, post, names, hl, hd, hnew, hnode⟩ :=
      split_slot_range_node SLOT_MAX allocate path b e f hnodup hfresh hok
    rw [hl] at hstable hpart hnodup
    obtain ⟨k1, k2, k3⟩ := split_keeps_partition SLOT_MAX pre d post names b e hd hstable hpart
      hnodup hnew
    rw [hnode]
    exact ⟨k1, k2, fun x h0 hx => (slot_partition_owners SLOT_MAX _ k2 x).1 h0 hx, k3⟩
  · intro storage_size allocate path hfresh hok
    obtain ⟨pre, d, post, names, hl, hnew, hnode⟩ :=
      add_block_to_file_node SLOT_MAX storage_size allocate path f hnodup hfresh hok
    rw [hl] at hstable hpart hnodup
    obtain ⟨k1, k2, k3⟩ := split_keeps_partition SLOT_MAX pre d post names d.slot_range.1
      d.slot_range.2 rfl hstable hpart hnodup hnew
    rw [hnode]
    exact ⟨k1, k2, fun x h0 hx => (slot_partition_owners SLOT_MAX _ k2 x).1 h0 hx, k3⟩
  · intro b e hok
    obtain ⟨pre, d, p, post, hl, -, hnode⟩ := merge_slot_range_node SLOT_MAX b e f hnodup hok
    rw [hl] at hstable hpart hnodup
    obtain ⟨k1, k2, k3⟩ := merge_keeps_partition SLOT_MAX pre d p post hstable hpart hnodup
    rw [hnode]
    exact ⟨k1, k2, fun x h0 hx => (slot_partition_owners SLOT_MAX _ k2 x).1 h0 hx, k3⟩

theorem completed_step_partition_witness :
    exact_partition 7 [stable_chain ["a"] 0 0, stable_chain ["b"] 1 1, stable_chain ["c"] 2 3,
        stable_chain ["d"] 4 7]
      ∧ (split_slot_range 7 (allocate_from ["r"]) "/f" 0 0
          (file_of 1 [stable_chain ["a"] 0 0, stable_chain ["b"] 1 1, stable_chain ["c"] 2 3,
            stable_chain ["d"] 4 7])).node
        = file_of 1 [stable_chain ["a"] 0 0, stable_chain ["r"] 1 0, stable_chain ["b"] 1 1,
            stable_chain ["c"] 2 3, stable_chain ["d"] 4 7]
      ∧ all_stable (split_slot_range 7 (allocate_from ["r"]) "/f" 0 0
          (file_of 1 [stable_chain ["a"] 0 0, stable_chain ["b"] 1 1, stable_chain ["c"] 2 3,
            stable_chain ["d"] 4 7])).node.dstatus.data_blocks
      ∧ slot_partition 7 (split_slot_range 7 (allocate_from ["r"]) "/f" 0 0
          (file_of 1 [stable_chain ["a"] 0 0, stable_chain ["b"] 1 1, stable_chain ["c"] 2 3,
            stable_chain ["d"] 4 7])).node.dstatus.data_blocks
      ∧ (∀ x : Int, 0 ≤ x → x ≤ ((7 : Nat) : Int) →
        owners x (split_slot_range 7 (allocate_from ["r"]) "/f" 0 0
          (file_of 1 [stable_chain ["a"] 0 0, stable_chain ["b"] 1 1, stable_chain ["c"] 2 3,
            stable_chain ["d"] 4 7])).node.dstatus.data_blocks = 1)
      ∧ all_stable (merge_slot_range 7 2 3
          (file_of 1 [stable_chain ["a"] 0 0, stable_chain ["b"] 1 1, stable_chain ["c"] 2 3,
            stable_chain ["d"] 4 7])).node.dstatus.data_blocks
      ∧ slot_partition 7 (merge_slot_range 7 2 3
          (file_of 1 [stable_chain ["a"] 0 0, stable_chain ["b"] 1 1, stable_chain ["c"] 2 3,
            stable_chain ["d"] 4 7])).node.dstatus.data_blocks :=
  have h := completed_step_partition 7
    (file_of 1 [stable_chain ["a"] 0 0, stable_chain ["b"] 1 1, stable_chain ["c"] 2 3,
      stable_chain ["d"] 4 7])
    (by decide) (by decide) (by decide)
  have hs := h.1 (allocate_from ["r"]) "/f" 0 0
    (by
      intro names hn c hc
      have hnames : names = ["r"] := by
        have := Except.ok.inj hn
        exact this.symm
      subst hnames
      revert c
      decide)
    rfl
  have hm := h.2.2 2 3 rfl
  ⟨by decide, rfl, hs.1, hs.2.1, hs.2.2.1, hm.1, hm.2.1⟩

end mmux.directory
